import Mathlib

/-!
bowlingScorer: the scoring engine of `main.go`

A shallow embedding of the scoring engine (`strike`, `spare`, `score`,
`maxScore`, `addScore`, `nextGame`, `pinsCheck`, `scoresCheck`, `dataCheck`)
and theorems about it.

Conventions of the embedding

* Go's `[21]string` and `[11]int` are lists carrying their length.
* Go's `int` is `Int`; sums that the source computes on values read from pin
  strings are reduced with `wrap64` (two's complement, 64 bit).
* A function returns `none` where the Go code panics on an index out of range.
* A Go string is a Lean `String`; tokens are compared and parsed exactly as the
  source does (`strconv.Atoi`, anchored one-character regular expressions).
-/

namespace BowlingScorer

/-! ## Arrays -/

/-- Go's `[21]string`. -/
abbrev PinArr := {l : List String // l.length = 21}

/-- Go's `[11]int`. -/
abbrev ScoreArr := {l : List Int // l.length = 11}

/-- Read `pins[i]` at an index that is in range. -/
def PinArr.get (p : PinArr) (i : Nat) : String := p.1.getD i ""

/-- Assignment `pins[i] = v` at an index that is in range. -/
def PinArr.set (p : PinArr) (i : Nat) (v : String) : PinArr :=
  ⟨p.1.set i v, by rw [List.length_set]; exact p.2⟩

/-- Read `scores[i]` at an index that is in range. -/
def ScoreArr.get (s : ScoreArr) (i : Nat) : Int := s.1.getD i 0

/-- Assignment `scores[i] = v` at an index that is in range. -/
def ScoreArr.set (s : ScoreArr) (i : Nat) (v : Int) : ScoreArr :=
  ⟨s.1.set i v, by rw [List.length_set]; exact s.2⟩

/-! ## Data model (`type Bowl`, `type Archive`) -/

structure Archive where
  Time : String
  Pins : PinArr
  Scores : ScoreArr
deriving DecidableEq

structure Bowl where
  Name : String
  Pins : PinArr
  Scores : ScoreArr
  MaxScore : Int
  Times : Int
  Archives : List Archive
deriving DecidableEq

/-! ## Machine integers and `strconv.Atoi` -/

/-- Two's complement reduction of an integer to Go's 64-bit `int`. -/
def wrap64 (x : Int) : Int :=
  (x + 9223372036854775808) % 18446744073709551616 - 9223372036854775808

/-- Go's `a + b` on `int`. -/
def add64 (a b : Int) : Int := wrap64 (a + b)

/-- Go's `a - b` on `int`. -/
def sub64 (a b : Int) : Int := wrap64 (a - b)

/-- Value of an ASCII decimal digit. -/
def digitVal (c : Char) : Option Nat :=
  if 48 ≤ c.toNat ∧ c.toNat ≤ 57 then some (c.toNat - 48) else none

/-- Value of a run of decimal digits, most significant first. -/
def parseDigits : List Char → Nat → Option Nat
  | [], acc => some acc
  | c :: cs, acc =>
    match digitVal c with
    | some d => parseDigits cs (acc * 10 + d)
    | none => none

/-- Go's `strconv.Atoi` (standard library): an optional sign followed by one or
more decimal digits, with a value that fits a 64-bit `int`; anything else is an
error (`none`). -/
def atoi (s : String) : Option Int :=
  match s.data with
  | [] => none
  | c :: cs =>
    if c = '-' then
      match cs with
      | [] => none
      | _ :: _ =>
        match parseDigits cs 0 with
        | some n => if n ≤ 9223372036854775808 then some (-(n : Int)) else none
        | none => none
    else if c = '+' then
      match cs with
      | [] => none
      | _ :: _ =>
        match parseDigits cs 0 with
        | some n => if n < 9223372036854775808 then some (n : Int) else none
        | none => none
    else
      match parseDigits (c :: cs) 0 with
      | some n => if n < 9223372036854775808 then some (n : Int) else none
      | none => none

/-! ## Fresh values (`initPins`, `initScores`, `initBowl`) -/

def initPins : PinArr := ⟨List.replicate 21 "yet", by simp⟩

def initScores : ScoreArr := ⟨0 :: List.replicate 10 (-1), by simp⟩

/-- The function `initBowl`; `now` is `time.Now().Format("20060102-150405MST")`. -/
def initBowl (now : String) : Bowl :=
  { Name := now, Pins := initPins, Scores := initScores, MaxScore := 300, Times := 0,
    Archives := [] }

/-! ## The recorder (`strike`, `spare`) -/

/-- The statement pair `m.Bowl.Pins[m.Bowl.Times] = v; m.Bowl.Times += d`.
The write panics when `Times` is outside `0..20`. -/
def writeThrow (b : Bowl) (v : String) (d : Int) : Option (PinArr × Int) :=
  if 0 ≤ b.Times ∧ b.Times < 21 then some (b.Pins.set b.Times.toNat v, b.Times + d) else none

/-- The method `Model.strike`: a token on a first-ball position. -/
def strike (b : Bowl) (pin : String) : Option (PinArr × Int) :=
  match atoi pin with
  | some n =>
    if n < 10 then
      if n = 0 then writeThrow b "G" 1 else writeThrow b pin 1
    else if n = 10 then writeThrow b "X" 2
    else some (b.Pins, b.Times)
  | none =>
    if pin = "x" ∨ pin = "X" then writeThrow b "X" 2
    else if pin = "g" ∨ pin = "G" then writeThrow b "G" 1
    else if pin = "-" then writeThrow b "G" 1
    else if pin = "f" ∨ pin = "F" then writeThrow b "F" 1
    else some (b.Pins, b.Times)

/-- The read `m.Bowl.Pins[m.Bowl.Times-1]`, which panics outside `0..20`. -/
def prevPin (b : Bowl) : Option String :=
  if 1 ≤ b.Times ∧ b.Times < 22 then some (b.Pins.get (b.Times - 1).toNat) else none

/-- The method `Model.spare`: a token on a second-ball position. -/
def spare (b : Bowl) (pin : String) : Option (PinArr × Int) :=
  match atoi pin with
  | some n =>
    match prevPin b with
    | none => none
    | some prev =>
      match atoi prev with
      | some l =>
        if n < sub64 10 l then
          if n = 0 then writeThrow b "-" 1 else writeThrow b pin 1
        else if n = sub64 10 l then writeThrow b "/" 1
        else some (b.Pins, b.Times)
      | none =>
        if n < 10 then
          if n = 0 then writeThrow b "-" 1 else writeThrow b pin 1
        else if n = 10 then writeThrow b "/" 1
        else some (b.Pins, b.Times)
  | none =>
    if pin = "/" then writeThrow b "/" 1
    else if pin = "g" ∨ pin = "G" then writeThrow b "-" 1
    else if pin = "-" then writeThrow b "-" 1
    else if pin = "f" ∨ pin = "F" then writeThrow b "F" 1
    else some (b.Pins, b.Times)

/-! ## The frame scorer (`score`) -/

/-- The condition `m.Bowl.Pins[i+3] != "yet" || m.Bowl.Pins[i+4] != "yet"` of the
strike case. It is evaluated left to right; the second read panics when
`i + 4` is past the last slot (only at `i = 17`). -/
def strikeLookahead (pins : PinArr) (i : Nat) : Option Bool :=
  if pins.get (i + 3) ≠ "yet" then some true
  else if i + 4 < 21 then some (decide (pins.get (i + 4) ≠ "yet"))
  else none

/-- The value written to `Scores[frameNumber]` by the `case "X"` branch (source
lines 241-284), `base` being `Scores[frameNumber-1]`. The read of `Pins[i+4]`
happens only with `frameNumber != 9`, hence with `i <= 15`. -/
def strikeValue (pins : PinArr) (i frameNumber : Nat) (base : Int) : Int :=
  let s0 := add64 base 10
  match atoi (pins.get (i + 2)) with
  | some p =>
    let s1 := add64 s0 p
    if pins.get (i + 3) = "/" then add64 s1 (sub64 10 p)
    else
      match atoi (pins.get (i + 3)) with
      | some p2 => add64 s1 p2
      | none => s1
  | none =>
    if pins.get (i + 2) = "X" then
      let s1 := add64 s0 10
      if frameNumber = 9 then
        match atoi (pins.get (i + 3)) with
        | some p => add64 s1 p
        | none => if pins.get (i + 3) = "X" then add64 s1 10 else s1
      else
        match atoi (pins.get (i + 4)) with
        | some p => add64 s1 p
        | none => if pins.get (i + 4) = "X" then add64 s1 10 else s1
    else
      if pins.get (i + 3) = "/" then add64 s0 10
      else
        match atoi (pins.get (i + 3)) with
        | some p => add64 s0 p
        | none => s0

/-- The value written to `Scores[frameNumber]` by the `case "/"` branch (source
lines 288-296). -/
def spareValue (pins : PinArr) (i : Nat) (base : Int) : Int :=
  let s0 := add64 base 10
  match atoi (pins.get (i + 1)) with
  | some p => add64 s0 p
  | none => if pins.get (i + 1) = "X" then add64 s0 10 else s0

/-- First block of the tenth frame (source lines 317-328): the ball in slot 18
added to `base`, which is `Scores[frameNumber-1]`. -/
def tenthFirst (pins : PinArr) (base : Int) : Int :=
  match atoi (pins.get 18) with
  | some p => if pins.get 19 ≠ "/" then add64 base p else base
  | none => if pins.get 18 = "X" then add64 base 10 else base

/-- Second block of the tenth frame (source lines 329-342): the ball in slot 19. -/
def tenthSecond (pins : PinArr) (s1 : Int) : Int :=
  match atoi (pins.get 19) with
  | some p => if pins.get 20 ≠ "/" then add64 s1 p else s1
  | none =>
    if pins.get 19 = "X" then add64 s1 10
    else if pins.get 19 = "/" then add64 s1 10
    else s1

/-- Third block of the tenth frame (source lines 343-354): the ball in slot 20. -/
def tenthThird (pins : PinArr) (s2 : Int) : Int :=
  match atoi (pins.get 20) with
  | some p => add64 s2 p
  | none =>
    if pins.get 20 = "X" then add64 s2 10
    else if pins.get 20 = "/" then add64 s2 10
    else s2

/-- The value written to `Scores[frameNumber]` when `Times == 21` (source lines
316-354): the tenth frame, its three blocks in turn. -/
def tenthValue (pins : PinArr) (base : Int) : Int :=
  tenthThird pins (tenthSecond pins (tenthFirst pins base))

/-- One iteration of the loop `for i, pin := range m.Bowl.Pins` of `Model.score`;
the loop state is `(frameNumber, m.Bowl.Scores)`. -/
def scoreBody (pins : PinArr) (times : Int) (i : Nat) (st : Nat × ScoreArr) :
    Option (Nat × ScoreArr) :=
  let pin := pins.get i
  if i < 18 then
    let frameNumber := if i % 2 = 0 then st.1 + 1 else st.1
    let scores := st.2
    let base := scores.get (frameNumber - 1)
    match atoi pin with
    | some p =>
      if i % 2 ≠ 0 then
        match atoi (pins.get (i - 1)) with
        | some q => some (frameNumber, scores.set frameNumber (add64 base (add64 p q)))
        | none => some (frameNumber, scores.set frameNumber (add64 base p))
      else some (frameNumber, scores)
    | none =>
      if pin = "X" then
        match strikeLookahead pins i with
        | none => none
        | some true =>
          some (frameNumber, scores.set frameNumber (strikeValue pins i frameNumber base))
        | some false => some (frameNumber, scores)
      else if pin = "/" then
        if pins.get (i + 1) ≠ "yet" then
          some (frameNumber, scores.set frameNumber (spareValue pins i base))
        else some (frameNumber, scores)
      else if pin = "-" ∨ pin = "G" ∨ pin = "F" then
        if i % 2 ≠ 0 then
          match atoi (pins.get (i - 1)) with
          | some p => some (frameNumber, scores.set frameNumber (add64 base p))
          | none => some (frameNumber, scores.set frameNumber base)
        else some (frameNumber, scores)
      else some (frameNumber, scores)
  else
    let frameNumber := if i = 18 then st.1 + 1 else st.1
    let scores := st.2
    if times = 21 then
      some (frameNumber, scores.set frameNumber (tenthValue pins (scores.get (frameNumber - 1))))
    else some (frameNumber, scores)

/-- The loop of `Model.score` over the slots listed in `is`. -/
def scoreLoop (pins : PinArr) (times : Int) :
    List Nat → Nat × ScoreArr → Option (Nat × ScoreArr)
  | [], st => some st
  | i :: is, st =>
    match scoreBody pins times i st with
    | some st1 => scoreLoop pins times is st1
    | none => none

/-- The method `Model.score`: the frame scores recomputed in place from the pins,
the cursor and the stored scores. -/
def score (b : Bowl) : Option ScoreArr :=
  match scoreLoop b.Pins b.Times (List.range 21) (0, b.Scores) with
  | some st => some st.2
  | none => none

/-! ## The projector (`maxScore`) -/

/-- One iteration of the first fill loop of `Model.maxScore` (`Times < 19`). -/
def fillLow (pins : PinArr) (i : Nat) : PinArr :=
  if i > 17 then pins.set i "X"
  else if i % 2 = 0 then pins.set i "X"
  else pins

/-- One iteration of the second fill loop of `Model.maxScore` (`Times` 19 or 20). -/
def fillHigh (pins : PinArr) (i : Nat) : PinArr :=
  if pins.get (i - 1) = "X" then pins.set i "X"
  else if pins.get (i - 1) = "/" then pins.set i "X"
  else pins.set i "/"

/-- Slots `from, from+1, ..., 20`: the range of `for i := Times; i <= 20; i++`. -/
def slotsFrom (start : Nat) : List Nat := List.range' start (21 - start)

/-- The scratch pins that `Model.maxScore` scores. A negative cursor indexes
`Pins` below zero at its first write (`Pins[Times]` when odd, `Pins[i]` with
`i = Times` when even), which panics. -/
def maxFill (b : Bowl) : Option PinArr :=
  if b.Times < 19 then
    if b.Times < 0 then none
    else
      let t := b.Times.toNat
      let pins1 := if b.Times % 2 ≠ 0 then b.Pins.set t "/" else b.Pins
      let t1 := if b.Times % 2 ≠ 0 then t + 1 else t
      some ((slotsFrom t1).foldl fillLow pins1)
  else if b.Times < 21 then
    some ((slotsFrom b.Times.toNat).foldl fillHigh b.Pins)
  else some b.Pins

/-- The method `Model.maxScore`. -/
def maxScore (b : Bowl) : Option Int :=
  match maxFill b with
  | none => none
  | some pins =>
    match score { b with Pins := pins, Times := 21 } with
    | some ms => some (ms.get 10)
    | none => none

/-! ## Recording a throw (`addScore`) -/

/-- The `switch m.Bowl.Times` of `Model.addScore` together with the frames 1-9
branches: the pins and the cursor after the token. -/
def addThrow (b : Bowl) (str : String) : Option (PinArr × Int) :=
  if b.Times > 17 then
    let times := b.Times
    if times = 18 then
      match strike b str with
      | none => none
      | some (pins, t) => if pins.get 18 = "X" then some (pins, t - 1) else some (pins, t)
    else if times = 19 then
      if b.Pins.get 18 = "X" then
        match strike b str with
        | none => none
        | some (pins, t) => if pins.get 19 = "X" then some (pins, t - 1) else some (pins, t)
      else
        match spare b str with
        | none => none
        | some (pins, t) => if pins.get 19 ≠ "/" then some (pins, 21) else some (pins, t)
    else if times = 20 then
      match
        (if b.Pins.get 19 = "X" ∨ b.Pins.get 19 = "/" then strike b str else spare b str) with
      | none => none
      | some (pins, t) => if pins.get 20 ≠ "yet" then some (pins, 21) else some (pins, t)
    else some (b.Pins, b.Times)
  else if b.Times % 2 = 0 then strike b str
  else spare b str

/-- The method `Model.addScore`. -/
def addScore (b : Bowl) (str : String) : Option Bowl :=
  match addThrow b str with
  | none => none
  | some (pins, t) =>
    let b1 : Bowl := { b with Pins := pins, Times := t }
    match score b1 with
    | none => none
    | some sc =>
      let b2 : Bowl := { b1 with Scores := sc }
      match maxScore b2 with
      | none => none
      | some ms => some { b2 with MaxScore := ms }

/-- Recording a list of tokens one after the other. -/
def addScores : Bowl → List String → Option Bowl
  | b, [] => some b
  | b, t :: ts =>
    match addScore b t with
    | some b1 => addScores b1 ts
    | none => none

/-! ## Archiving (`nextGame`) -/

/-- The method `Model.nextGame`, without the paginator it also returns; `now` is
`time.Now().Format("2006/01/02 15:04:05 -0700 MST")`. -/
def nextGame (b : Bowl) (now : String) : Bowl :=
  { b with
    Archives := b.Archives ++ [{ Time := now, Pins := b.Pins, Scores := b.Scores }]
    Pins := initPins
    Scores := initScores
    MaxScore := 300
    Times := 0 }

/-! ## The validator (`pinsCheck`, `scoresCheck`, `dataCheck`) -/

/-- The body of the loop of `pinsCheck` for slot `i`: `true` is `continue` (or
falling through to the next slot), `false` is `return initPins(), false`. -/
def pinOk (pins : PinArr) (i : Nat) : Bool :=
  let pin := pins.get i
  match atoi pin with
  | some p => if p > 9 then false else true
  | none =>
    if i > 18 then
      if i = 19 then
        if pins.get (i - 1) = "X" then
          decide (pin = "X" ∨ pin = "G" ∨ pin = "F" ∨ pin = "yet")
        else
          decide (pin = "/" ∨ pin = "-" ∨ pin = "F" ∨ pin = "yet")
      else if i = 20 then
        if pins.get (i - 1) = "X" ∨ pins.get (i - 1) = "/" then
          decide (pin = "X" ∨ pin = "G" ∨ pin = "F" ∨ pin = "yet")
        else
          decide (pin = "/" ∨ pin = "-" ∨ pin = "F" ∨ pin = "yet")
      else true
    else if i % 2 = 0 then
      decide (pin = "X" ∨ pin = "G" ∨ pin = "F" ∨ pin = "yet")
    else
      decide (pin = "/" ∨ pin = "-" ∨ pin = "F" ∨ pin = "yet")

/-- The loop of `pinsCheck` over the slots in `is`, stopping at the first bad one. -/
def pinsLoop (pins : PinArr) : List Nat → Bool
  | [] => true
  | i :: is => if pinOk pins i then pinsLoop pins is else false

/-- The function `pinsCheck`. -/
def pinsCheck (pins : PinArr) : PinArr × Bool :=
  if pinsLoop pins (List.range 21) then (pins, true) else (initPins, false)

/-- The loop of `scoresCheck` with its bound `lim`, stopping at the first score
above the bound. -/
def scoresLoop : List Int → Int → Bool
  | [], _ => true
  | score :: rest, lim => if score > lim then false else scoresLoop rest (lim + 30)

/-- The function `scoresCheck`. -/
def scoresCheck (scores : ScoreArr) : ScoreArr × Bool :=
  if scoresLoop scores.1 0 then (scores, true) else (initScores, false)

/-- The two checks of `dataCheck` on one pair of pins and scores (source lines
585-594, and 596-605 for an archive). -/
def checkPair (pins : PinArr) (scores : ScoreArr) : PinArr × ScoreArr :=
  let r1 := pinsCheck pins
  let pins1 := r1.1
  let scores1 := if r1.2 then scores else initScores
  let r2 := scoresCheck scores1
  let scores2 := r2.1
  let pins2 := if r2.2 then pins1 else initPins
  (pins2, scores2)

/-- The body of the loop of `dataCheck` over the archives. -/
def checkArchive (a : Archive) : Archive :=
  { a with Pins := (checkPair a.Pins a.Scores).1, Scores := (checkPair a.Pins a.Scores).2 }

/-- The method `Model.dataCheck`; `now` is the time stamp `initBowl` formats into
the name of a fresh record. -/
def dataCheck (b : Bowl) (now : String) : Bowl :=
  if b.Name = "" then initBowl now
  else if b.MaxScore > 300 then initBowl now
  else if b.Times > 21 then initBowl now
  else
    { b with
      Pins := (checkPair b.Pins b.Scores).1
      Scores := (checkPair b.Pins b.Scores).2
      Archives := b.Archives.map checkArchive }

/-! ## Legal play

Predicates used to state the properties of the recorder: the tokens of legal
play and the records reached with them. -/

/-- An unsigned decimal numeral: one or more ASCII digits. -/
def IsNumeral (t : String) : Prop := t.data ≠ [] ∧ ∀ c ∈ t.data, (digitVal c).isSome = true

/-- A marker letter of the throw grammar. -/
def IsMarker (t : String) : Prop :=
  t = "x" ∨ t = "X" ∨ t = "g" ∨ t = "G" ∨ t = "-" ∨ t = "/" ∨ t = "f" ∨ t = "F"

/-- A token of legal play: an unsigned decimal numeral or a marker letter. -/
def LegalTok (t : String) : Prop := IsNumeral t ∨ IsMarker t

/-- The call `addScore(t)` on `b` returns `b1` and the token was accepted: the
recorder wrote a slot of the pin sequence. -/
def Accepted (b : Bowl) (t : String) (b1 : Bowl) : Prop :=
  addScore b t = some b1 ∧ b1.Pins ≠ b.Pins

/-- Records reached from a fresh record by any sequence of `addScore` calls. -/
inductive Reachable (now : String) : Bowl → Prop
  | fresh : Reachable now (initBowl now)
  | step {b b1 : Bowl} (t : String) : Reachable now b → addScore b t = some b1 →
      Reachable now b1

/-- Records reached from a fresh record by legal play: every token is an
unsigned decimal numeral or a marker letter, and every call is accepted. -/
inductive LegalPlay (now : String) : Bowl → Prop
  | fresh : LegalPlay now (initBowl now)
  | step {b b1 : Bowl} (t : String) : LegalPlay now b → LegalTok t → Accepted b t b1 →
      LegalPlay now b1

/-- A record that passes every check of `dataCheck`, with one archive. -/
def validDemo : Bowl :=
  { Name := "ann", Pins := initPins, Scores := initScores, MaxScore := 300, Times := 0,
    Archives := [{ Time := "t", Pins := initPins, Scores := initScores }] }

/-- A first-ball position: the cursor is on a slot where `addScore` hands the
token to `strike` (an even slot of frames 1-9, slot 18, slot 19 after a strike,
slot 20 after a strike or a spare). -/
def FirstBallPos (b : Bowl) : Prop :=
  (0 ≤ b.Times ∧ b.Times ≤ 17 ∧ b.Times % 2 = 0) ∨ b.Times = 18 ∨
    (b.Times = 19 ∧ b.Pins.get 18 = "X") ∨
    (b.Times = 20 ∧ (b.Pins.get 19 = "X" ∨ b.Pins.get 19 = "/"))

/-- The number of pins of the ball in the slot before the cursor, as `spare`
reads it: the value of a numeric slot, and zero for any other symbol. -/
def firstBallPins (b : Bowl) : Int :=
  match atoi (b.Pins.get (b.Times - 1).toNat) with
  | some l => l
  | none => 0

/-- A second-ball position: the cursor is on a slot where `addScore` hands the
token to `spare` (an odd slot of frames 1-9, slot 19 after a ball that is not a
strike, slot 20 after a ball that is neither a strike nor a spare), after a
first ball of 0 to 9 pins. -/
def SecondBallPos (b : Bowl) : Prop :=
  ((0 ≤ b.Times ∧ b.Times ≤ 17 ∧ b.Times % 2 = 1) ∨
    (b.Times = 19 ∧ b.Pins.get 18 ≠ "X") ∨
    (b.Times = 20 ∧ ¬ (b.Pins.get 19 = "X" ∨ b.Pins.get 19 = "/"))) ∧
  0 ≤ firstBallPins b ∧ firstBallPins b ≤ 9

/-- A strike token: any of "X", "x", "10". -/
def StrikeTok (t : String) : Prop := t = "X" ∨ t = "x" ∨ t = "10"

/-- Check of the record reached from the fresh record named "" after `k`
strikes "X": it exists, its `MaxScore` is 300, its cursor is on a first-ball
position while `k < 12`, and after twelve strikes the cursor is 21 and
`Scores[10]` is 300. -/
def strikeRunOk (k : Nat) : Bool :=
  match addScores (initBowl "") (List.replicate k "X") with
  | some r =>
    decide (r.MaxScore = 300) &&
      (decide (12 ≤ k) ||
        decide ((0 ≤ r.Times ∧ r.Times ≤ 17 ∧ r.Times % 2 = 0) ∨ r.Times = 18 ∨
          (r.Times = 19 ∧ r.Pins.get 18 = "X") ∨
          (r.Times = 20 ∧ (r.Pins.get 19 = "X" ∨ r.Pins.get 19 = "/")))) &&
      (decide (k ≠ 12) || decide (r.Times = 21 ∧ r.Scores.get 10 = 300))
  | none => false

/-- The record `b` under another player name. -/
def rename (b : Bowl) (n : String) : Bowl := { b with Name := n }

/-- A record on a second-ball position: a fresh record after the token "3". -/
def secondDemo : Bowl :=
  { Name := "ann", Pins := initPins.set 0 "3", Scores := initScores, MaxScore := 290,
    Times := 1, Archives := [] }

/-- A numeric slot of legal play: its value is 1 to 9. -/
def NumPin (s : String) (v : Int) : Prop := atoi s = some v ∧ 1 ≤ v ∧ v ≤ 9

/-- A first ball that is not a strike: "G", "F" or a numeric slot. -/
def FirstNX (s : String) : Prop := s = "G" ∨ s = "F" ∨ ∃ v, NumPin s v

/-- The pins a slot stands for when it is read as a plain ball: the value of a
numeric slot, 10 for "X", zero for any other symbol. -/
def pinVal (s : String) : Int :=
  match atoi s with
  | some v => v
  | none => if s = "X" then 10 else 0

/-- The pins of a first ball as `spare` reads them: the value of a numeric slot,
zero for any other symbol. -/
def numVal (s : String) : Int :=
  match atoi s with
  | some v => v
  | none => 0

/-- A second ball `s` after the first ball `a` that leaves pins standing: "-",
"F" or a numeric slot with fewer pins than remained. -/
def SecondOpen (a s : String) : Prop :=
  s = "-" ∨ s = "F" ∨ ∃ w, NumPin s w ∧ numVal a + w ≤ 9

/-- Frame with first slot `i` (frames 1-9) is complete: a strike, a spare, or
two balls that leave pins standing. -/
def FrameDone (p : PinArr) (i : Nat) : Prop :=
  (p.get i = "X" ∧ p.get (i + 1) = "yet") ∨
  (FirstNX (p.get i) ∧ (p.get (i + 1) = "/" ∨ SecondOpen (p.get i) (p.get (i + 1))))

/-- Frame ten is complete: two balls that leave pins standing, or three balls
after a strike or a spare. -/
def TenthDone (p : PinArr) : Prop :=
  (FirstNX (p.get 18) ∧ SecondOpen (p.get 18) (p.get 19) ∧ p.get 20 = "yet") ∨
  (p.get 18 = "X" ∧ p.get 19 = "X" ∧ (p.get 20 = "X" ∨ FirstNX (p.get 20))) ∨
  (p.get 18 = "X" ∧ FirstNX (p.get 19) ∧
    (p.get 20 = "/" ∨ SecondOpen (p.get 19) (p.get 20))) ∨
  (FirstNX (p.get 18) ∧ p.get 19 = "/" ∧ (p.get 20 = "X" ∨ FirstNX (p.get 20)))

/-- The shape of a record of legal play: the slots from the cursor on are
pending, the frames before the cursor are complete, and a frame in progress
holds the balls the throw grammar allows. -/
structure Shape (b : Bowl) : Prop where
  lo : 0 ≤ b.Times
  hi : b.Times ≤ 21
  yet : ∀ i : Nat, b.Times ≤ (i : Int) → i < 21 → b.Pins.get i = "yet"
  done : ∀ j : Nat, j < 9 → 2 * (j : Int) + 2 ≤ b.Times → FrameDone b.Pins (2 * j)
  half : ∀ j : Nat, j < 9 → b.Times = 2 * (j : Int) + 1 → FirstNX (b.Pins.get (2 * j))
  t19 : b.Times = 19 → b.Pins.get 18 = "X" ∨ FirstNX (b.Pins.get 18)
  t20 : b.Times = 20 →
    (b.Pins.get 18 = "X" ∧ (b.Pins.get 19 = "X" ∨ FirstNX (b.Pins.get 19))) ∨
    (FirstNX (b.Pins.get 18) ∧ b.Pins.get 19 = "/")
  t21 : b.Times = 21 → TenthDone b.Pins
  s0 : b.Scores.get 0 = 0

/-- The value of `frameNumber` after the iteration for slot `i`, `f` being its
value before. -/
def frameAt (i f : Nat) : Nat :=
  if i < 18 then (if i % 2 = 0 then f + 1 else f) else if i = 18 then f + 1 else f

/-- The value of `frameNumber` before the iteration for slot `i`. -/
def frameBefore (i : Nat) : Nat := min ((i + 1) / 2) 10

/-- What an accepted token of legal play writes at the cursor `n`, and the
cursor `c` that follows, for each kind of position. -/
def ThrowOutcome (b : Bowl) (n : Nat) (v : String) (c : Int) : Prop :=
  (n ≤ 17 ∧ n % 2 = 0 ∧ ((v = "X" ∧ c = n + 2) ∨ (FirstNX v ∧ c = n + 1))) ∨
  (n ≤ 17 ∧ n % 2 = 1 ∧ (v = "/" ∨ SecondOpen (b.Pins.get (n - 1)) v) ∧ c = n + 1) ∨
  (n = 18 ∧ (v = "X" ∨ FirstNX v) ∧ c = 19) ∨
  (n = 19 ∧ b.Pins.get 18 = "X" ∧ (v = "X" ∨ FirstNX v) ∧ c = 20) ∨
  (n = 19 ∧ b.Pins.get 18 ≠ "X" ∧
    ((v = "/" ∧ c = 20) ∨ (SecondOpen (b.Pins.get 18) v ∧ c = 21))) ∨
  (n = 20 ∧ (b.Pins.get 19 = "X" ∨ b.Pins.get 19 = "/") ∧ (v = "X" ∨ FirstNX v) ∧ c = 21) ∨
  (n = 20 ∧ ¬ (b.Pins.get 19 = "X" ∨ b.Pins.get 19 = "/") ∧
    (v = "/" ∨ SecondOpen (b.Pins.get 19) v) ∧ c = 21)

/-- A run of legal play from `b` to `b1` over the tokens `ts`: every token is
legal and every call is accepted. -/
inductive LegalRun : Bowl → List String → Bowl → Prop
  | nil (b : Bowl) : LegalRun b [] b
  | cons {b b1 b2 : Bowl} (t : String) (ts : List String) : LegalTok t → Accepted b t b1 →
      LegalRun b1 ts b2 → LegalRun b (t :: ts) b2

instance (t : String) : Decidable (LegalTok t) := by
  unfold LegalTok IsNumeral IsMarker
  infer_instance

/-- Executable form of `LegalRun`: the record after the tokens `ts`, or `none`
when a token is not legal, a call panics or a token is rejected. -/
def play (b : Bowl) : List String → Option Bowl
  | [] => some b
  | t :: ts =>
    match addScore b t with
    | some b1 => if LegalTok t ∧ b1.Pins ≠ b.Pins then play b1 ts else none
    | none => none

/-- The record after ten strikes: the cursor is 19 and slot 18 holds "X". -/
def demoTenStrikes : Bowl := (play (initBowl "ann") (List.replicate 10 "X")).getD (initBowl "ann")

/-- The pins a strike frame at slot `i` scores, as `strikeValue` adds them up
(without the reduction to 64 bits). -/
def strikeDelta (pins : PinArr) (i frameNumber : Nat) : Int :=
  if (atoi (pins.get (i + 2))).isSome then
    if pins.get (i + 3) = "/" then 20 else 10 + numVal (pins.get (i + 2)) + numVal (pins.get (i + 3))
  else if pins.get (i + 2) = "X" then
    20 + pinVal (pins.get (if frameNumber = 9 then i + 3 else i + 4))
  else if pins.get (i + 3) = "/" then 20
  else 10 + numVal (pins.get (i + 3))

/-- The pins a spare at slot `i` scores, as `spareValue` adds them up. -/
def spareDelta (pins : PinArr) (i : Nat) : Int := 10 + pinVal (pins.get (i + 1))

/-- The pins one ball of frame ten scores, as `tenthValue` adds them up: `s` is
the slot and `next` the slot after it. -/
def tenthBall (s next : String) : Int :=
  if (atoi s).isSome then (if next ≠ "/" then numVal s else 0)
  else if s = "X" ∨ s = "/" then 10 else 0

/-- The pins frame ten scores, as `tenthValue` adds them up. -/
def tenthDelta (pins : PinArr) : Int :=
  (if pins.get 18 = "/" then 0 else tenthBall (pins.get 18) (pins.get 19)) +
    tenthBall (pins.get 19) (pins.get 20) + tenthBall (pins.get 20) ""

/-- The pins the frame with first slot `i` scores (frames 1-9) once it is
complete and its bonus balls are thrown. -/
def frameDelta (pins : PinArr) (i : Nat) : Int :=
  if pins.get i = "X" then strikeDelta pins i (i / 2 + 1)
  else if pins.get (i + 1) = "/" then spareDelta pins (i + 1)
  else numVal (pins.get i) + numVal (pins.get (i + 1))

/-- The sum of the pins scored by the first `k` frames. -/
def frameSum (pins : PinArr) : Nat → Int
  | 0 => 0
  | k + 1 => frameSum pins k + frameDelta pins (2 * k)

/-- The final score the scorer computes on complete pins. -/
def totalScore (pins : PinArr) : Int := frameSum pins 9 + tenthDelta pins

/-- Every numeric slot holds a value of at most two digits. -/
def ValOK (pins : PinArr) : Prop :=
  ∀ k v, atoi (pins.get k) = some v → -100 ≤ v ∧ v ≤ 100

/-- All ten frames are complete. -/
def Complete (pins : PinArr) : Prop :=
  (∀ j : Nat, j < 9 → FrameDone pins (2 * j)) ∧ TenthDone pins

/-- The bonus balls the frame with first slot `i` needs are thrown. -/
def LookOK (pins : PinArr) (i : Nat) : Prop :=
  (pins.get i = "X" → pins.get (i + 3) ≠ "yet" ∨ pins.get (i + 4) ≠ "yet") ∧
  (pins.get (i + 1) = "/" → pins.get (i + 2) ≠ "yet")

/-- The face value of the ball in slot `i`: 10 for a strike, 10 minus the ball
before it for a spare, the value of a digit, and zero for "G", "-", "F" and a
pending slot. -/
def face (pins : PinArr) (i : Nat) : Int :=
  if pins.get i = "X" then 10
  else if pins.get i = "/" then 10 - numVal (pins.get (i - 1))
  else numVal (pins.get i)

/-- Nine open frames of zero pins, then the tenth frame strike, strike, strike. -/
def demoTenthXXX : Bowl :=
  (play (initBowl "ann") (List.replicate 18 "0" ++ ["X", "X", "X"])).getD (initBowl "ann")

/-- Nine open frames of zero pins, then the tenth frame strike, 5, 3. -/
def demoTenthX53 : Bowl :=
  (play (initBowl "ann") (List.replicate 18 "0" ++ ["X", "5", "3"])).getD (initBowl "ann")

/-- Nine open frames of zero pins, then the tenth frame 4, 3. -/
def demoTenth43 : Bowl :=
  (play (initBowl "ann") (List.replicate 18 "0" ++ ["4", "3"])).getD (initBowl "ann")

/-- A run of accepted throws from `b` to `b1` over the tokens `ts`, whatever the
tokens are: every call returns and writes a slot of the pin sequence. -/
inductive AcceptedRun : Bowl → List String → Bowl → Prop
  | nil (b : Bowl) : AcceptedRun b [] b
  | cons {b b1 b2 : Bowl} (t : String) (ts : List String) : Accepted b t b1 →
      AcceptedRun b1 ts b2 → AcceptedRun b (t :: ts) b2

/-- Executable form of `AcceptedRun`: the record after the tokens `ts`, or
`none` when a call panics or a token is rejected. -/
def playAccepted (b : Bowl) : List String → Option Bowl
  | [] => some b
  | t :: ts =>
    match addScore b t with
    | some b1 => if b1.Pins ≠ b.Pins then playAccepted b1 ts else none
    | none => none

/-- A game of accepted throws whose frame values leave the 64-bit range: two
balls of -2^62 pins, a ball of -1, then seventeen zeros. -/
def demoWrapGame : List String :=
  ["-4611686018427387904", "-4611686018427387904", "-1"] ++ List.replicate 17 "0"

/-- The record after a strike and a first ball of 5: the cursor is 3. -/
def demoMidGame : Bowl := (play (initBowl "ann") ["X", "5"]).getD (initBowl "ann")

/-- The symbol `strike` writes for the unsigned numeral of `a` pins (0 to 10):
"G" for zero, "X" for ten, the numeral itself otherwise. -/
def sym1 (a : Nat) : String := if a = 0 then "G" else if a = 10 then "X" else toString a

/-- The symbol `spare` writes for the unsigned numeral of `v` pins after a first
ball of `l` pins: "/" when the two make ten, "-" for zero, the numeral itself
otherwise. -/
def sym2 (l v : Nat) : String :=
  if l + v = 10 then "/" else if v = 0 then "-" else toString v

/-- Frame ten of a legal game, as a list of pinfalls: two balls that leave pins
standing, or three balls after a strike or a spare (after a strike and a ball
that left pins, the third ball takes at most the pins that remain). -/
def legalTenth : List Nat → Bool
  | [a, b] => decide (a < 10 ∧ a + b < 10)
  | [a, b, c] =>
    if a = 10 then (if b = 10 then decide (c ≤ 10) else decide (b + c ≤ 10))
    else decide (a + b = 10 ∧ c ≤ 10)
  | _ => false

/-- A complete legal ten-pin game as a list of per-ball pinfalls, `k` being the
number of frames before frame ten: a frame is one ball of 10 pins or two balls
that sum to at most 10. -/
def legalGame : Nat → List Nat → Bool
  | 0, balls => legalTenth balls
  | _ + 1, [] => false
  | k + 1, a :: rest =>
    if a = 10 then legalGame k rest
    else
      match rest with
      | [] => false
      | b :: rest2 => decide (a + b ≤ 10) && legalGame k rest2

/-- The standard ten-pin score of a game with `k` frames before frame ten: a
strike is 10 plus the next two balls, a spare 10 plus the next ball, an open
frame the sum of its two balls, and frame ten the sum of its balls. -/
def stdScore : Nat → List Nat → Nat
  | 0, balls => balls.sum
  | _ + 1, [] => 0
  | k + 1, a :: rest =>
    if a = 10 then 10 + rest.getD 0 0 + rest.getD 1 0 + stdScore k rest
    else
      match rest with
      | [] => a
      | b :: rest2 => (if a + b = 10 then 10 + rest2.getD 0 0 else a + b) + stdScore k rest2
/-- A legal game: nine strikes, then X, 5, 3 in frame ten. -/
def demoGame : List Nat := List.replicate 9 10 ++ [10, 5, 3]

/-- Slot `i` has a first-ball role for the validator: an even slot of frames
1-9, slot 18, slot 19 after "X", slot 20 after "X" or "/". -/
def FirstRole (pins : PinArr) (i : Nat) : Prop :=
  (i < 18 ∧ i % 2 = 0) ∨ i = 18 ∨ (i = 19 ∧ pins.get 18 = "X") ∨
    (i = 20 ∧ (pins.get 19 = "X" ∨ pins.get 19 = "/"))

/-- The test one slot has to pass: a slot that parses as an integer has a value
of at most 9; any other slot is "yet", "F", or "X" or "G" in a first-ball role,
or "/" or "-" in a second-ball role. -/
def SlotPasses (pins : PinArr) (i : Nat) : Prop :=
  (∃ v, atoi (pins.get i) = some v ∧ v ≤ 9) ∨
    (atoi (pins.get i) = none ∧
      (pins.get i = "yet" ∨ pins.get i = "F" ∨
        (FirstRole pins i ∧ (pins.get i = "X" ∨ pins.get i = "G")) ∨
        (¬ FirstRole pins i ∧ (pins.get i = "/" ∨ pins.get i = "-"))))

/-- Pins with "9", "9" in frame one. -/
def demoNineNine : PinArr := (initPins.set 0 "9").set 1 "9"

/-- Pins with "X", "5" in frame one. -/
def demoStrikeFive : PinArr := (initPins.set 0 "X").set 1 "5"
/-- Scores that go down from frame one to frame two: 0, 30, 10, then undetermined. -/
def demoDecreasing : ScoreArr := ⟨[0, 30, 10, -1, -1, -1, -1, -1, -1, -1, -1], rfl⟩

/-- Scores that start at -5. -/
def demoNegStart : ScoreArr := ⟨[-5, -1, -1, -1, -1, -1, -1, -1, -1, -1, -1], rfl⟩
/-- A loaded record with a negative cursor. -/
def demoNegCursor : Bowl := { initBowl "ann" with Times := -1 }

/-- A loaded record whose scores are above the cap (pins kept by `pinsCheck`),
with one archive whose pins hold an unknown symbol. -/
def demoLoaded : Bowl :=
  { Name := "ann", Pins := demoStrikeFive,
    Scores := ⟨[0, 31, -1, -1, -1, -1, -1, -1, -1, -1, -1], rfl⟩, MaxScore := 300, Times := 2,
    Archives := [{ Time := "t1", Pins := initPins.set 0 "Q", Scores := demoDecreasing }] }

/-- The tokens of frames that are each a first ball "5" and then the second
token listed in `cs`. -/
def spareFrames : List String → List String
  | [] => []
  | c :: cs => "5" :: c :: spareFrames cs

/-- Check of the record reached from the fresh record named "" after `k` frames
"5", "/" and the first ball "5" of the next frame: it exists and its cursor is
on a second-ball position after a first ball of 5 pins. -/
def spareRunOk (k : Nat) : Bool :=
  match addScores (initBowl "") (spareFrames (List.replicate k "/") ++ ["5"]) with
  | some r =>
    decide (((0 ≤ r.Times ∧ r.Times ≤ 17 ∧ r.Times % 2 = 1) ∨
        (r.Times = 19 ∧ r.Pins.get 18 ≠ "X") ∨
        (r.Times = 20 ∧ ¬ (r.Pins.get 19 = "X" ∨ r.Pins.get 19 = "/"))) ∧
      firstBallPins r = 5)
  | none => false

/-- Second tokens of ten spare frames, "5" and "/" in turn. -/
def demoSpareTokens : List String := ["5", "/", "5", "/", "5", "/", "5", "/", "5", "/"]

/-- One strike, then nine open frames of 3 and 4 pins. -/
def demoStrikeThenOpen : List String :=
  "X" :: (List.replicate 9 ["3", "4"]).flatten

/-- Sixteen balls of zero pins, a strike in frame nine, a first ball of 9 in
frame ten, and a token that `spare` rejects. -/
def demoRejectedEnd : List String := List.replicate 16 "0" ++ ["X", "9", "q"]

/-- Frame with first slot `i` (frames 1-9) gets no score yet: a strike or a
spare that waits for its bonus balls, a frame with one ball, or a frame not
started. -/
def Idle (p : PinArr) (i : Nat) : Prop :=
  (p.get i = "X" ∧ p.get (i + 1) = "yet" ∧ p.get (i + 3) = "yet" ∧ p.get (i + 4) = "yet") ∨
  (FirstNX (p.get i) ∧ p.get (i + 1) = "/" ∧ p.get (i + 2) = "yet") ∨
  (FirstNX (p.get i) ∧ p.get (i + 1) = "yet") ∨
  (p.get i = "yet" ∧ p.get (i + 1) = "yet")

/-- Frame with first slot `i` (frames 1-9) is scored: it is complete and its
bonus balls are thrown. -/
def Scored (p : PinArr) (i : Nat) : Prop := FrameDone p i ∧ LookOK p i

/-- The stored scores of a game in progress: a scored frame holds the score
before it plus its value, an idle frame holds -1, and frame ten is scored when
the cursor is 21. -/
structure ScoresOK (r : Bowl) : Prop where
  frames : ∀ k, k < 9 →
    (Scored r.Pins (2 * k) ∧ r.Scores.get (k + 1) = r.Scores.get k + frameDelta r.Pins (2 * k)) ∨
    (Idle r.Pins (2 * k) ∧ r.Scores.get (k + 1) = -1)
  tenth : (r.Times = 21 ∧ r.Scores.get 10 = r.Scores.get 9 + tenthDelta r.Pins) ∨
    (r.Times ≠ 21 ∧ r.Scores.get 10 = -1)

/-- The slot of the second of the two balls thrown after a strike in frame `k`
(1 to 9), the first of them being in slot `2 * k`: after another strike it is
the first slot of the frame after (slot 19 in frame ten), otherwise the slot
next to it. -/
def bonusSlot2 (p : PinArr) (k : Nat) : Nat :=
  if p.get (2 * k) = "X" then (if k = 9 then 19 else 2 * k + 2) else 2 * k + 1

/-- Two strikes and a first ball of 5: frame one is scored, frame two waits. -/
def demoTwoStrikes : Bowl := (play (initBowl "ann") ["X", "X", "5"]).getD (initBowl "ann")

/-- What holds of the pins and the cursor of every record reached with any
tokens: the cursor is in 0..21, the slots from the cursor on are pending, a
frame of frames 1-9 before the cursor is a strike with its second slot pending
or two thrown balls, a frame in progress has a first ball that is not a strike,
and slot 18 is thrown once the cursor is past it. -/
structure Sound (b : Bowl) : Prop where
  lo : 0 ≤ b.Times
  hi : b.Times ≤ 21
  yet : ∀ i : Nat, b.Times ≤ (i : Int) → i < 21 → b.Pins.get i = "yet"
  done : ∀ j : Nat, j < 9 → 2 * (j : Int) + 2 ≤ b.Times →
    (b.Pins.get (2 * j) = "X" ∧ b.Pins.get (2 * j + 1) = "yet") ∨
    (b.Pins.get (2 * j) ≠ "X" ∧ b.Pins.get (2 * j) ≠ "yet" ∧
      b.Pins.get (2 * j + 1) ≠ "X" ∧ b.Pins.get (2 * j + 1) ≠ "yet")
  half : ∀ j : Nat, j < 9 → b.Times = 2 * (j : Int) + 1 →
    b.Pins.get (2 * j) ≠ "X" ∧ b.Pins.get (2 * j) ≠ "yet"
  t18 : 18 < b.Times → b.Pins.get 18 ≠ "yet"

/-- The number of accepted calls (calls that write a slot) when the tokens `ts`
are recorded one after the other from `b`. -/
def acceptedCount : Bowl → List String → Nat
  | _, [] => 0
  | b, t :: ts =>
    match addScore b t with
    | some b1 => (if b1.Pins ≠ b.Pins then 1 else 0) + acceptedCount b1 ts
    | none => 0
/-- The record after one strike: the cursor is 2 and slot 1 is pending. -/
def demoOneStrike : Bowl := (addScores (initBowl "ann") ["X"]).getD (initBowl "ann")

/-- A run with tokens of every kind: accepted, rejected, signed and unknown. -/
def demoAnyTokens : List String := ["X", "q", "-5", "14", "7", "/", "yet", "10"]

/-- The record after the tokens of `demoAnyTokens`. -/
def demoAnyRecord : Bowl := (addScores (initBowl "ann") demoAnyTokens).getD (initBowl "ann")

/-- A loaded record that the validator keeps: pins "X", "5", "9", "9", cursor 4. -/
def demoKept : Bowl :=
  { Name := "ann", Pins := ((demoStrikeFive.set 2 "9").set 3 "9"), Scores := initScores,
    MaxScore := 300, Times := 4, Archives := [] }

/-- Two results `sc1` and `sc2` of the scorer on the pins `p` and the cursor `t`,
from the stored scores `s1` and `s2`: they are equal at index 0 and at every
scored frame, and at every frame not yet scored each holds its own stored
score. -/
def SameScored (p : PinArr) (t : Int) (s1 s2 sc1 sc2 : ScoreArr) : Prop :=
  sc1.get 0 = sc2.get 0 ∧
  (∀ k : Nat, k < 9 →
    (Scored p (2 * k) → sc1.get (k + 1) = sc2.get (k + 1)) ∧
    (¬ Scored p (2 * k) →
      sc1.get (k + 1) = s1.get (k + 1) ∧ sc2.get (k + 1) = s2.get (k + 1))) ∧
  (t = 21 → sc1.get 10 = sc2.get 10) ∧
  (t ≠ 21 → sc1.get 10 = s1.get 10 ∧ sc2.get 10 = s2.get 10)

/-- A fresh record whose stored score of frame one is 7, as a loaded record may
hold it. -/
def demoStale : Bowl :=
  { initBowl "ann" with Scores := ⟨[0, 7, -1, -1, -1, -1, -1, -1, -1, -1, -1], rfl⟩ }

/-- The record of `demoTwoStrikes` with other stored scores. -/
def demoStaleTwo : Bowl :=
  { demoTwoStrikes with Scores := ⟨[0, 25, 40, 3, 3, 3, 3, 3, 3, 3, 3], rfl⟩ }

/-- The cursor is on a slot where `addScore` hands the token to `spare` (an odd
slot of frames 1-9, slot 19 after a ball that is not a strike, slot 20 after a
ball that is neither a strike nor a spare), whatever the first ball is. -/
def SecondSlot (b : Bowl) : Prop :=
  (0 ≤ b.Times ∧ b.Times ≤ 17 ∧ b.Times % 2 = 1) ∨
    (b.Times = 19 ∧ b.Pins.get 18 ≠ "X") ∨
    (b.Times = 20 ∧ ¬ (b.Pins.get 19 = "X" ∨ b.Pins.get 19 = "/"))

/-- A record on a second-ball position after the signed numeral "-5": the fresh
record after the token "-5". -/
def secondNegDemo : Bowl :=
  { Name := "ann", Pins := initPins.set 0 "-5", Scores := initScores, MaxScore := 290,
    Times := 1, Archives := [] }

/-! ## Play with the tokens of the score input

The score input of the program holds at most two characters
(`scoreInput.CharLimit = 2`, main.go 1035), so a token handed to `addScore` is
a string of at most two characters. Such a token may be a signed numeral; the
recorder then writes it as it is. The predicates below describe the records
reached with these tokens and with the tokens of legal play. -/

/-- A token of the score input or of legal play: a string of at most two
characters, or an unsigned decimal numeral or a marker letter. -/
def InputTok (t : String) : Prop := t.length ≤ 2 ∨ LegalTok t

/-- A numeric slot written on a first-ball position from an input token: its
value is -9 to 9. -/
def NumL (s : String) (v : Int) : Prop := atoi s = some v ∧ -9 ≤ v ∧ v ≤ 9

/-- A numeric slot written from an input token on any position: its value is
-9 to 18. -/
def NumW (s : String) (v : Int) : Prop := atoi s = some v ∧ -9 ≤ v ∧ v ≤ 18

/-- A first ball that is not a strike, written from an input token: "G", "F" or
a numeric slot of -9 to 9. -/
def FirstL (s : String) : Prop := s = "G" ∨ s = "F" ∨ ∃ v, NumL s v

/-- A second ball `s` after the first ball `a` that is not a spare, written from
an input token: "-", "F" or a numeric slot whose value, added to the first
ball, is at most 9. -/
def SecondL (a s : String) : Prop :=
  s = "-" ∨ s = "F" ∨ ∃ w, NumW s w ∧ numVal a + w ≤ 9

/-- Frame with first slot `i` (frames 1-9) is complete, with balls written from
input tokens. -/
def FrameL (p : PinArr) (i : Nat) : Prop :=
  (p.get i = "X" ∧ p.get (i + 1) = "yet") ∨
  (FirstL (p.get i) ∧ (p.get (i + 1) = "/" ∨ SecondL (p.get i) (p.get (i + 1))))

/-- Frame ten is complete, with balls written from input tokens. -/
def TenthL (p : PinArr) : Prop :=
  (FirstL (p.get 18) ∧ SecondL (p.get 18) (p.get 19) ∧ p.get 20 = "yet") ∨
  (p.get 18 = "X" ∧ p.get 19 = "X" ∧ (p.get 20 = "X" ∨ FirstL (p.get 20))) ∨
  (p.get 18 = "X" ∧ FirstL (p.get 19) ∧
    (p.get 20 = "/" ∨ SecondL (p.get 19) (p.get 20))) ∨
  (FirstL (p.get 18) ∧ p.get 19 = "/" ∧ (p.get 20 = "X" ∨ FirstL (p.get 20)))

/-- The shape of a record reached with accepted input tokens: as `Shape`, with
the balls written from input tokens. -/
structure ShapeL (b : Bowl) : Prop where
  lo : 0 ≤ b.Times
  hi : b.Times ≤ 21
  yet : ∀ i : Nat, b.Times ≤ (i : Int) → i < 21 → b.Pins.get i = "yet"
  done : ∀ j : Nat, j < 9 → 2 * (j : Int) + 2 ≤ b.Times → FrameL b.Pins (2 * j)
  half : ∀ j : Nat, j < 9 → b.Times = 2 * (j : Int) + 1 → FirstL (b.Pins.get (2 * j))
  t19 : b.Times = 19 → b.Pins.get 18 = "X" ∨ FirstL (b.Pins.get 18)
  t20 : b.Times = 20 →
    (b.Pins.get 18 = "X" ∧ (b.Pins.get 19 = "X" ∨ FirstL (b.Pins.get 19))) ∨
    (FirstL (b.Pins.get 18) ∧ b.Pins.get 19 = "/")
  t21 : b.Times = 21 → TenthL b.Pins
  s0 : b.Scores.get 0 = 0

/-- All ten frames are complete, with balls written from input tokens. -/
def CompleteL (pins : PinArr) : Prop :=
  (∀ j : Nat, j < 9 → FrameL pins (2 * j)) ∧ TenthL pins

/-- What an accepted input token writes at the cursor `n`, and the cursor `c`
that follows, for each kind of position. -/
def OutcomeL (b : Bowl) (n : Nat) (v : String) (c : Int) : Prop :=
  (n ≤ 17 ∧ n % 2 = 0 ∧ ((v = "X" ∧ c = n + 2) ∨ (FirstL v ∧ c = n + 1))) ∨
  (n ≤ 17 ∧ n % 2 = 1 ∧ (v = "/" ∨ SecondL (b.Pins.get (n - 1)) v) ∧ c = n + 1) ∨
  (n = 18 ∧ (v = "X" ∨ FirstL v) ∧ c = 19) ∨
  (n = 19 ∧ b.Pins.get 18 = "X" ∧ (v = "X" ∨ FirstL v) ∧ c = 20) ∨
  (n = 19 ∧ b.Pins.get 18 ≠ "X" ∧
    ((v = "/" ∧ c = 20) ∨ (SecondL (b.Pins.get 18) v ∧ c = 21))) ∨
  (n = 20 ∧ (b.Pins.get 19 = "X" ∨ b.Pins.get 19 = "/") ∧ (v = "X" ∨ FirstL v) ∧ c = 21) ∨
  (n = 20 ∧ ¬ (b.Pins.get 19 = "X" ∨ b.Pins.get 19 = "/") ∧
    (v = "/" ∨ SecondL (b.Pins.get 19) v) ∧ c = 21)

/-- A run of accepted throws from `b` to `b1` over the input tokens `ts`: every
token is an input token and every call is accepted. -/
inductive InputRun : Bowl → List String → Bowl → Prop
  | nil (b : Bowl) : InputRun b [] b
  | cons {b b1 b2 : Bowl} (t : String) (ts : List String) : InputTok t → Accepted b t b1 →
      InputRun b1 ts b2 → InputRun b (t :: ts) b2

instance (t : String) : Decidable (InputTok t) := by
  unfold InputTok
  infer_instance

/-- Executable form of `InputRun`: the record after the tokens `ts`, or `none`
when a token is not an input token, a call panics or a token is rejected. -/
def playInput (b : Bowl) : List String → Option Bowl
  | [] => some b
  | t :: ts =>
    match addScore b t with
    | some b1 => if InputTok t ∧ b1.Pins ≠ b.Pins then playInput b1 ts else none
    | none => none

/-- Tokens of the score input that complete the game from `demoMidGame`: a
second ball "-3", then eight frames of the balls "-9" and "18". -/
def demoSignedTokens : List String :=
  "-3" :: (List.replicate 8 ["-9", "18"]).flatten

/-! ## Basic facts -/

theorem PinArr.get_set_eq (p : PinArr) (i : Nat) (v : String) (h : i < 21) :
    (p.set i v).get i = v := by
  have hl : i < p.1.length := by rw [p.2]; exact h
  simp [PinArr.get, PinArr.set, List.getD_eq_getElem?_getD, List.getElem?_set, hl, h]

theorem PinArr.get_set_ne (p : PinArr) (i j : Nat) (v : String) (h : i ≠ j) :
    (p.set i v).get j = p.get j := by
  simp [PinArr.get, PinArr.set, List.getD_eq_getElem?_getD, List.getElem?_set, h]

theorem ScoreArr.sget_set_eq (s : ScoreArr) (i : Nat) (v : Int) (h : i < 11) :
    (s.set i v).get i = v := by
  have hl : i < s.1.length := by rw [s.2]; exact h
  simp [ScoreArr.get, ScoreArr.set, List.getD_eq_getElem?_getD, List.getElem?_set, hl, h]

theorem ScoreArr.sget_set_ne (s : ScoreArr) (i j : Nat) (v : Int) (h : i ≠ j) :
    (s.set i v).get j = s.get j := by
  simp [ScoreArr.get, ScoreArr.set, List.getD_eq_getElem?_getD, List.getElem?_set, h]

/-! ## The validator -/

theorem pinsCheck_cases (p : PinArr) :
    pinsCheck p = (p, true) ∨ pinsCheck p = (initPins, false) := by
  unfold pinsCheck
  split
  · exact Or.inl rfl
  · exact Or.inr rfl

theorem scoresCheck_cases (s : ScoreArr) :
    scoresCheck s = (s, true) ∨ scoresCheck s = (initScores, false) := by
  unfold scoresCheck
  split
  · exact Or.inl rfl
  · exact Or.inr rfl

theorem pinsCheck_initPins : pinsCheck initPins = (initPins, true) := by decide

theorem scoresCheck_initScores : scoresCheck initScores = (initScores, true) := by decide

theorem checkPair_init : checkPair initPins initScores = (initPins, initScores) := by
  simp [checkPair, pinsCheck_initPins, scoresCheck_initScores]

theorem checkPair_of_ok (p : PinArr) (s : ScoreArr) (hp : (pinsCheck p).2 = true)
    (hs : (scoresCheck s).2 = true) : checkPair p s = (p, s) := by
  have h1 : pinsCheck p = (p, true) := by
    rcases pinsCheck_cases p with h | h
    · exact h
    · rw [h] at hp; simp at hp
  have h2 : scoresCheck s = (s, true) := by
    rcases scoresCheck_cases s with h | h
    · exact h
    · rw [h] at hs; simp at hs
  simp [checkPair, h1, h2]

theorem checkPair_cases (p : PinArr) (s : ScoreArr) :
    (checkPair p s = (p, s) ∧ (pinsCheck p).2 = true ∧ (scoresCheck s).2 = true) ∨
      checkPair p s = (initPins, initScores) := by
  rcases pinsCheck_cases p with h1 | h1
  · rcases scoresCheck_cases s with h2 | h2
    · left
      simp [checkPair, h1, h2]
    · right
      simp [checkPair, h1, h2]
  · right
    simp [checkPair, h1, scoresCheck_initScores]

theorem checkPair_idem (p : PinArr) (s : ScoreArr) :
    checkPair (checkPair p s).1 (checkPair p s).2 = checkPair p s := by
  rcases checkPair_cases p s with ⟨h, hp, hs⟩ | h
  · rw [h]
    exact (checkPair_of_ok p s hp hs).trans rfl
  · rw [h]
    exact checkPair_init

theorem checkArchive_idem (a : Archive) : checkArchive (checkArchive a) = checkArchive a := by
  simp [checkArchive, checkPair_idem]

theorem dataCheck_initBowl (now : String) : dataCheck (initBowl now) now = initBowl now := by
  by_cases h : now = ""
  · simp [dataCheck, initBowl, h]
  · simp [dataCheck, initBowl, h, checkPair_init]

theorem dataCheck_of_valid (b : Bowl) (now : String) (hn : b.Name ≠ "")
    (hm : b.MaxScore ≤ 300) (ht : b.Times ≤ 21)
    (hp : (pinsCheck b.Pins).2 = true) (hs : (scoresCheck b.Scores).2 = true)
    (ha : ∀ a ∈ b.Archives, (pinsCheck a.Pins).2 = true ∧ (scoresCheck a.Scores).2 = true) :
    dataCheck b now = b := by
  have hmap : b.Archives.map checkArchive = b.Archives := by
    have : ∀ a ∈ b.Archives, checkArchive a = a := by
      intro a hmem
      obtain ⟨h1, h2⟩ := ha a hmem
      simp [checkArchive, checkPair_of_ok a.Pins a.Scores h1 h2]
    calc b.Archives.map checkArchive = b.Archives.map id := List.map_congr_left this
      _ = b.Archives := List.map_id _
  have hm1 : ¬ b.MaxScore > 300 := not_lt.mpr hm
  have ht1 : ¬ b.Times > 21 := not_lt.mpr ht
  simp [dataCheck, hn, hm1, ht1, checkPair_of_ok b.Pins b.Scores hp hs, hmap]

theorem dataCheck_idem (b : Bowl) (now : String) :
    dataCheck (dataCheck b now) now = dataCheck b now := by
  by_cases hn : b.Name = ""
  · have : dataCheck b now = initBowl now := by simp [dataCheck, hn]
    rw [this, dataCheck_initBowl]
  by_cases hm : b.MaxScore > 300
  · have : dataCheck b now = initBowl now := by simp [dataCheck, hn, hm]
    rw [this, dataCheck_initBowl]
  by_cases ht : b.Times > 21
  · have : dataCheck b now = initBowl now := by simp [dataCheck, hn, hm, ht]
    rw [this, dataCheck_initBowl]
  have hd : dataCheck b now =
      { b with
        Pins := (checkPair b.Pins b.Scores).1
        Scores := (checkPair b.Pins b.Scores).2
        Archives := b.Archives.map checkArchive } := by
    simp [dataCheck, hn, hm, ht]
  rw [hd]
  simp [dataCheck, hn, hm, ht, checkPair_idem, checkArchive_idem]

/-- C10: validation is idempotent, `dataCheck (dataCheck r) = dataCheck r` with
the time stamp of a fresh record's name held fixed, and `dataCheck r = r` for
every record with a non-empty name, `MaxScore <= 300`, cursor `<= 21` whose pins
and scores, and those of each archive, are accepted by `pinsCheck` and
`scoresCheck`. -/
theorem dataCheck_idempotent_and_identity_on_valid (b : Bowl) (now : String) :
    dataCheck (dataCheck b now) now = dataCheck b now ∧
    (b.Name ≠ "" → b.MaxScore ≤ 300 → b.Times ≤ 21 →
      (pinsCheck b.Pins).2 = true → (scoresCheck b.Scores).2 = true →
      (∀ a ∈ b.Archives, (pinsCheck a.Pins).2 = true ∧ (scoresCheck a.Scores).2 = true) →
      dataCheck b now = b) :=
  ⟨dataCheck_idem b now, dataCheck_of_valid b now⟩

/-- Witness of C10 on a concrete valid record with one archive. -/
theorem dataCheck_idempotent_and_identity_on_valid_witness :
    dataCheck (dataCheck validDemo "n") "n" = dataCheck validDemo "n" ∧
    dataCheck validDemo "n" = validDemo :=
  ⟨(dataCheck_idempotent_and_identity_on_valid validDemo "n").1,
   (dataCheck_idempotent_and_identity_on_valid validDemo "n").2 (by decide) (by decide)
     (by decide) (by decide) (by decide) (by decide)⟩

/-! ## The player name plays no part in recording -/

theorem addThrow_rename (b : Bowl) (n t : String) : addThrow (rename b n) t = addThrow b t :=
  rfl

theorem maxScore_rename (b : Bowl) (n : String) : maxScore (rename b n) = maxScore b := rfl

set_option maxRecDepth 100000 in
theorem maxScore_fresh : maxScore (initBowl "") = some 300 := by decide

theorem addScore_rename (b : Bowl) (n t : String) :
    addScore (rename b n) t = (addScore b t).map (fun r => rename r n) := by
  unfold addScore
  rw [addThrow_rename]
  cases addThrow b t with
  | none => rfl
  | some pc =>
    obtain ⟨p, c⟩ := pc
    simp only []
    have h1 : score { rename b n with Pins := p, Times := c } =
        score { b with Pins := p, Times := c } := rfl
    rw [h1]
    cases score { b with Pins := p, Times := c } with
    | none => rfl
    | some sc =>
      simp only []
      have h3 : maxScore { rename b n with Pins := p, Times := c, Scores := sc } =
          maxScore { b with Pins := p, Times := c, Scores := sc } := rfl
      rw [h3]
      cases maxScore { b with Pins := p, Times := c, Scores := sc } with
      | none => rfl
      | some ms => rfl

theorem addScores_rename (n : String) (ts : List String) :
    ∀ b : Bowl, addScores (rename b n) ts = (addScores b ts).map (fun r => rename r n) := by
  induction ts with
  | nil => intro b; rfl
  | cons t ts ih =>
    intro b
    simp only [addScores]
    rw [addScore_rename]
    cases addScore b t with
    | none => rfl
    | some b1 => exact ih b1

theorem addScores_append (l1 l2 : List String) :
    ∀ b : Bowl, addScores b (l1 ++ l2) = (addScores b l1).bind (fun b1 => addScores b1 l2) := by
  induction l1 with
  | nil => intro b; rfl
  | cons t ts ih =>
    intro b
    simp only [List.cons_append, addScores]
    cases addScore b t with
    | none => rfl
    | some b1 => exact ih b1

theorem addScores_single (b : Bowl) (t : String) : addScores b [t] = addScore b t := by
  simp only [addScores]
  cases addScore b t <;> rfl

/-! ## Token aliases -/

theorem wrap64_of_range (x : Int) (h1 : -9223372036854775808 ≤ x)
    (h2 : x < 9223372036854775808) : wrap64 x = x := by
  unfold wrap64
  omega

theorem addScore_congr (b : Bowl) (t u : String) (h : addThrow b t = addThrow b u) :
    addScore b t = addScore b u := by
  unfold addScore
  rw [h]

theorem addThrow_strike_congr (b : Bowl) (t u : String) (hp : FirstBallPos b)
    (h : strike b t = strike b u) : addThrow b t = addThrow b u := by
  rcases hp with ⟨_, h17, hev⟩ | h18 | ⟨h19, hx⟩ | ⟨h20, hx⟩
  · have : ¬ b.Times > 17 := not_lt.mpr h17
    simp [addThrow, this, hev, h]
  · simp [addThrow, h18, h]
  · simp [addThrow, h19, hx, h]
  · simp [addThrow, h20, hx, h]

theorem strike_X (b : Bowl) : strike b "X" = writeThrow b "X" 2 := by
  have h : atoi "X" = none := rfl
  simp [strike, h]

theorem strike_x (b : Bowl) : strike b "x" = writeThrow b "X" 2 := by
  have h : atoi "x" = none := rfl
  simp [strike, h]

theorem strike_10 (b : Bowl) : strike b "10" = writeThrow b "X" 2 := by
  have h : atoi "10" = some 10 := rfl
  simp [strike, h]

theorem strike_G (b : Bowl) : strike b "G" = writeThrow b "G" 1 := by
  have h : atoi "G" = none := rfl
  simp [strike, h]

theorem strike_g (b : Bowl) : strike b "g" = writeThrow b "G" 1 := by
  have h : atoi "g" = none := rfl
  simp [strike, h]

theorem strike_dash (b : Bowl) : strike b "-" = writeThrow b "G" 1 := by
  have h : atoi "-" = none := rfl
  simp [strike, h]

theorem strike_0 (b : Bowl) : strike b "0" = writeThrow b "G" 1 := by
  have h : atoi "0" = some 0 := rfl
  simp [strike, h]

theorem strike_F (b : Bowl) : strike b "F" = writeThrow b "F" 1 := by
  have h : atoi "F" = none := rfl
  simp [strike, h]

theorem strike_f (b : Bowl) : strike b "f" = writeThrow b "F" 1 := by
  have h : atoi "f" = none := rfl
  simp [strike, h]

theorem strike_alias (b : Bowl) (t : String) (h : StrikeTok t) : strike b t = strike b "X" := by
  rcases h with h | h | h
  · rw [h]
  · rw [h, strike_x, strike_X]
  · rw [h, strike_10, strike_X]

theorem addScore_strike_alias (b : Bowl) (t : String) (hp : FirstBallPos b)
    (h : StrikeTok t) : addScore b t = addScore b "X" :=
  addScore_congr b t "X" (addThrow_strike_congr b t "X" hp (strike_alias b t h))

/-- The pins and the cursor of the record `addScore` returns are those computed
by the recorder. -/
theorem addScore_some (b b1 : Bowl) (t : String) (h : addScore b t = some b1) :
    addThrow b t = some (b1.Pins, b1.Times) ∧ b1.Name = b.Name ∧ b1.Archives = b.Archives ∧
      score { b with Pins := b1.Pins, Times := b1.Times } = some b1.Scores ∧
      maxScore { b with Pins := b1.Pins, Times := b1.Times, Scores := b1.Scores } =
        some b1.MaxScore := by
  unfold addScore at h
  cases h1 : addThrow b t with
  | none => rw [h1] at h; simp at h
  | some pc =>
    obtain ⟨p, c⟩ := pc
    rw [h1] at h
    simp only [] at h
    cases h2 : score { b with Pins := p, Times := c } with
    | none => rw [h2] at h; simp at h
    | some sc =>
      rw [h2] at h
      simp only [] at h
      cases h3 : maxScore { b with Pins := p, Times := c, Scores := sc } with
      | none => rw [h3] at h; simp at h
      | some ms =>
        rw [h3] at h
        simp only [Option.some.injEq] at h
        subst h
        exact ⟨rfl, rfl, rfl, h2, h3⟩

/-! ## Twelve strikes -/

set_option maxRecDepth 100000 in
theorem strikeRunOk_all : ∀ k, k ≤ 12 → strikeRunOk k = true := by
  intro k hk
  interval_cases k <;> decide

theorem strikeRun_state (k : Nat) (hk : k ≤ 12) :
    ∃ r, addScores (initBowl "") (List.replicate k "X") = some r ∧ r.MaxScore = 300 ∧
      (k < 12 → FirstBallPos r) ∧ (k = 12 → r.Times = 21 ∧ r.Scores.get 10 = 300) := by
  have h := strikeRunOk_all k hk
  unfold strikeRunOk at h
  cases hr : addScores (initBowl "") (List.replicate k "X") with
  | none => rw [hr] at h; simp at h
  | some r =>
    rw [hr] at h
    simp only [Bool.and_eq_true, Bool.or_eq_true, decide_eq_true_eq] at h
    obtain ⟨⟨hm, hp⟩, hf⟩ := h
    refine ⟨r, rfl, hm, ?_, ?_⟩
    · intro hlt
      rcases hp with hp | hp
      · omega
      · exact hp
    · intro he
      rcases hf with hf | hf
      · exact absurd he hf
      · exact hf

theorem strike_run (ts : List String) :
    (∀ t ∈ ts, StrikeTok t) → ts.length ≤ 12 →
      addScores (initBowl "") ts = addScores (initBowl "") (List.replicate ts.length "X") := by
  induction ts using List.reverseRecOn with
  | nil => intro _ _; rfl
  | append_singleton l a ih =>
    intro hts hlen
    have hl : l.length < 12 := by
      rw [List.length_append] at hlen
      simp at hlen
      omega
    have ih1 := ih (fun t ht => hts t (List.mem_append_left _ ht)) (le_of_lt hl)
    obtain ⟨r, hr, _, hpos, _⟩ := strikeRun_state l.length (le_of_lt hl)
    have hrep : List.replicate (l ++ [a]).length "X" = List.replicate l.length "X" ++ ["X"] := by
      rw [List.length_append, List.length_singleton, List.replicate_succ']
    rw [hrep, addScores_append, addScores_append, ih1, hr]
    simp only [Option.some_bind]
    rw [addScores_single, addScores_single]
    exact addScore_strike_alias r a (hpos hl) (hts a (List.mem_append_right _ (List.mem_singleton.mpr rfl)))

theorem strike_run_fresh (now : String) (ts : List String) (hts : ∀ t ∈ ts, StrikeTok t)
    (hlen : ts.length ≤ 12) :
    ∃ r, addScores (initBowl now) ts = some (rename r now) ∧ r.MaxScore = 300 ∧
      (ts.length = 12 → r.Times = 21 ∧ r.Scores.get 10 = 300) := by
  obtain ⟨r, hr, hm, _, hf⟩ := strikeRun_state ts.length hlen
  refine ⟨r, ?_, hm, hf⟩
  have h0 : initBowl now = rename (initBowl "") now := rfl
  rw [h0, addScores_rename, strike_run ts hts hlen, hr]
  rfl

/-- C3: the projected maximum of a fresh record is 300, and recording twelve
strike tokens, each any of "X", "x", "10", ends with cursor 21 and
`Scores[10] = 300`, the `MaxScore` being 300 after every one of the twelve
throws. -/
theorem twelve_strikes_score_300 (now : String) (ts : List String) (hlen : ts.length = 12)
    (hts : ∀ t ∈ ts, StrikeTok t) :
    maxScore (initBowl now) = some 300 ∧
    (∃ r, addScores (initBowl now) ts = some r ∧ r.Times = 21 ∧ r.Scores.get 10 = 300) ∧
    ∀ k, 1 ≤ k → k ≤ 12 →
      ∃ r, addScores (initBowl now) (ts.take k) = some r ∧ r.MaxScore = 300 := by
  refine ⟨?_, ?_, ?_⟩
  · have h0 : initBowl now = rename (initBowl "") now := rfl
    rw [h0, maxScore_rename]
    exact maxScore_fresh
  · obtain ⟨r, hr, _, hf⟩ := strike_run_fresh now ts hts (le_of_eq hlen)
    exact ⟨rename r now, hr, (hf hlen).1, (hf hlen).2⟩
  · intro k _ hk
    have hlk : (ts.take k).length ≤ 12 := by
      rw [List.length_take]
      omega
    obtain ⟨r, hr, hm, _⟩ :=
      strike_run_fresh now (ts.take k) (fun t ht => hts t (List.mem_of_mem_take ht)) hlk
    exact ⟨rename r now, hr, hm⟩

/-- Witness of C3 on a run mixing the three strike tokens. -/
theorem twelve_strikes_score_300_witness :
    maxScore (initBowl "ann") = some 300 ∧
    (∃ r, addScores (initBowl "ann")
        ["X", "x", "10", "X", "x", "10", "X", "x", "10", "X", "x", "10"] = some r ∧
      r.Times = 21 ∧ r.Scores.get 10 = 300) ∧
    ∀ k, 1 ≤ k → k ≤ 12 →
      ∃ r, addScores (initBowl "ann")
        (["X", "x", "10", "X", "x", "10", "X", "x", "10", "X", "x", "10"].take k) = some r ∧
      r.MaxScore = 300 :=
  twelve_strikes_score_300 "ann" ["X", "x", "10", "X", "x", "10", "X", "x", "10", "X", "x", "10"]
    rfl (by simp [StrikeTok])

/-! ## Rejected tokens, negative numerals -/

/-- C1: a rejected token does not always leave the cursor unchanged. After
nine open frames of zero pins and a first ball of 5 in frame ten the cursor is
19; the token "X" is not accepted there (`spare` writes no slot), yet `addScore`
returns a record with the same pins and the cursor at 21. -/
theorem rejected_token_at_slot_19_moves_cursor :
    ∃ r r1 : Bowl,
      addScores (initBowl "ann") (List.replicate 18 "0" ++ ["5"]) = some r ∧
      r.Times = 19 ∧ spare r "X" = some (r.Pins, r.Times) ∧
      addScore r "X" = some r1 ∧ r1.Pins = r.Pins ∧ r1.Times = 21 := by
  refine ⟨_, _, rfl, ?_, ?_, rfl, ?_, ?_⟩ <;> rfl

/-- C4: the projected maximum can increase. After two frames of "-9", "-9",
six frames of zero pins, a strike in frame nine and a first ball of 9 in frame
ten, `MaxScore` is 4; the rejected token "q" then ends the game with frame nine
still undetermined, and `MaxScore` becomes 8. -/
theorem maxScore_increases_after_rejected_token :
    ∃ r r1 : Bowl,
      addScores (initBowl "ann")
        (["-9", "-9", "-9", "-9"] ++ List.replicate 12 "0" ++ ["X", "9"]) = some r ∧
      addScore r "q" = some r1 ∧ r.MaxScore = 4 ∧ r1.MaxScore = 8 := by
  refine ⟨_, _, rfl, rfl, ?_, ?_⟩ <;> rfl

/-- C8: a negative numeral is accepted and written as it stands. On a fresh
record the token "-5" is written to slot 0 and the cursor moves to 1; on the
second-ball position that follows, the token "14" is written to slot 1. -/
theorem negative_numeral_is_recorded :
    ∃ r r1 : Bowl,
      addScore (initBowl "ann") "-5" = some r ∧ r.Pins.get 0 = "-5" ∧ r.Times = 1 ∧
      addScore r "14" = some r1 ∧ r1.Pins.get 1 = "14" ∧ r1.Times = 2 := by
  refine ⟨_, _, rfl, ?_, ?_, rfl, ?_, ?_⟩ <;> rfl

/-! ## Aliases on both kinds of position -/

theorem addThrow_spare_congr (b : Bowl) (t u : String) (hp : SecondBallPos b)
    (h : spare b t = spare b u) : addThrow b t = addThrow b u := by
  rcases hp.1 with ⟨_, h17, hodd⟩ | ⟨h19, hx⟩ | ⟨h20, hx⟩
  · have h1 : ¬ b.Times > 17 := not_lt.mpr h17
    have h2 : ¬ b.Times % 2 = 0 := by omega
    simp [addThrow, h1, h2, h]
  · simp [addThrow, h19, hx, h]
  · simp [addThrow, h20, hx, h]

theorem addThrow_even (b : Bowl) (t : String) (h17 : b.Times ≤ 17) (hev : b.Times % 2 = 0) :
    addThrow b t = strike b t := by
  have h1 : ¬ b.Times > 17 := not_lt.mpr h17
  simp [addThrow, h1, hev]

theorem addThrow_odd (b : Bowl) (t : String) (h17 : b.Times ≤ 17) (hodd : b.Times % 2 = 1) :
    addThrow b t = spare b t := by
  have h1 : ¬ b.Times > 17 := not_lt.mpr h17
  have h2 : ¬ b.Times % 2 = 0 := by omega
  simp [addThrow, h1, h2]

theorem addThrow_18 (b : Bowl) (t : String) (h : b.Times = 18) :
    addThrow b t =
      (strike b t).map (fun pc => (pc.1, if pc.1.get 18 = "X" then pc.2 - 1 else pc.2)) := by
  simp only [addThrow, h]
  cases strike b t with
  | none => rfl
  | some pc =>
    obtain ⟨p1, c1⟩ := pc
    by_cases hx : p1.get 18 = "X" <;> simp [hx]

theorem addThrow_19_strike (b : Bowl) (t : String) (h : b.Times = 19)
    (hx : b.Pins.get 18 = "X") :
    addThrow b t =
      (strike b t).map (fun pc => (pc.1, if pc.1.get 19 = "X" then pc.2 - 1 else pc.2)) := by
  simp only [addThrow, h, hx]
  cases strike b t with
  | none => rfl
  | some pc =>
    obtain ⟨p1, c1⟩ := pc
    by_cases hx : p1.get 19 = "X" <;> simp [hx]

theorem addThrow_19_spare (b : Bowl) (t : String) (h : b.Times = 19)
    (hx : b.Pins.get 18 ≠ "X") :
    addThrow b t =
      (spare b t).map (fun pc => (pc.1, if pc.1.get 19 ≠ "/" then 21 else pc.2)) := by
  simp only [addThrow, h, hx]
  cases spare b t with
  | none => rfl
  | some pc =>
    obtain ⟨p1, c1⟩ := pc
    by_cases hx : p1.get 19 = "/" <;> simp [hx]

theorem addThrow_20_strike (b : Bowl) (t : String) (h : b.Times = 20)
    (hx : b.Pins.get 19 = "X" ∨ b.Pins.get 19 = "/") :
    addThrow b t =
      (strike b t).map (fun pc => (pc.1, if pc.1.get 20 ≠ "yet" then 21 else pc.2)) := by
  simp only [addThrow, h, hx]
  cases strike b t with
  | none => rfl
  | some pc =>
    obtain ⟨p1, c1⟩ := pc
    by_cases hx : p1.get 20 = "yet" <;> simp [hx]

theorem addThrow_20_spare (b : Bowl) (t : String) (h : b.Times = 20)
    (hx : ¬ (b.Pins.get 19 = "X" ∨ b.Pins.get 19 = "/")) :
    addThrow b t =
      (spare b t).map (fun pc => (pc.1, if pc.1.get 20 ≠ "yet" then 21 else pc.2)) := by
  simp only [addThrow, h, hx]
  cases spare b t with
  | none => rfl
  | some pc =>
    obtain ⟨p1, c1⟩ := pc
    by_cases hx : p1.get 20 = "yet" <;> simp [hx]

theorem map_snd_some {α β : Type} (o : Option (α × β)) (f : α × β → β) (p : α) (c : β)
    (h : o.map (fun pc => (pc.1, f pc)) = some (p, c)) : ∃ c1, o = some (p, c1) := by
  cases o with
  | none => simp at h
  | some pc =>
    obtain ⟨p1, c1⟩ := pc
    simp at h
    exact ⟨c1, by rw [h.1]⟩

theorem addThrow_strike_pins (b : Bowl) (t : String) (p : PinArr) (c : Int)
    (hp : FirstBallPos b) (h : addThrow b t = some (p, c)) :
    ∃ c1, strike b t = some (p, c1) := by
  rcases hp with ⟨_, h17, hev⟩ | h18 | ⟨h19, hx⟩ | ⟨h20, hx⟩
  · rw [addThrow_even b t h17 hev] at h
    exact ⟨c, h⟩
  · rw [addThrow_18 b t h18] at h
    exact map_snd_some _ _ p c h
  · rw [addThrow_19_strike b t h19 hx] at h
    exact map_snd_some _ _ p c h
  · rw [addThrow_20_strike b t h20 hx] at h
    exact map_snd_some _ _ p c h

theorem addThrow_spare_pins (b : Bowl) (t : String) (p : PinArr) (c : Int)
    (hp : SecondBallPos b) (h : addThrow b t = some (p, c)) :
    ∃ c1, spare b t = some (p, c1) := by
  rcases hp.1 with ⟨_, h17, hodd⟩ | ⟨h19, hx⟩ | ⟨h20, hx⟩
  · rw [addThrow_odd b t h17 hodd] at h
    exact ⟨c, h⟩
  · rw [addThrow_19_spare b t h19 hx] at h
    exact map_snd_some _ _ p c h
  · rw [addThrow_20_spare b t h20 hx] at h
    exact map_snd_some _ _ p c h

theorem writeThrow_pins (b : Bowl) (v : String) (d : Int) (p : PinArr) (c : Int)
    (h : writeThrow b v d = some (p, c)) : p = b.Pins.set b.Times.toNat v := by
  unfold writeThrow at h
  split at h
  · simp at h
    exact h.1.symm
  · simp at h

theorem SecondBallPos.prevPin_eq (b : Bowl) (hp : SecondBallPos b) :
    prevPin b = some (b.Pins.get (b.Times - 1).toNat) := by
  have h : 1 ≤ b.Times ∧ b.Times < 22 := by
    rcases hp.1 with ⟨_, h17, hodd⟩ | ⟨h19, _⟩ | ⟨h20, _⟩ <;> omega
  simp [prevPin, h]

theorem spare_dash (b : Bowl) : spare b "-" = writeThrow b "-" 1 := by
  have h : atoi "-" = none := rfl
  simp [spare, h]

theorem spare_g (b : Bowl) : spare b "g" = writeThrow b "-" 1 := by
  have h : atoi "g" = none := rfl
  simp [spare, h]

theorem spare_G (b : Bowl) : spare b "G" = writeThrow b "-" 1 := by
  have h : atoi "G" = none := rfl
  simp [spare, h]

theorem spare_slash (b : Bowl) : spare b "/" = writeThrow b "/" 1 := by
  have h : atoi "/" = none := rfl
  simp [spare, h]

theorem spare_0 (b : Bowl) (hp : SecondBallPos b) : spare b "0" = writeThrow b "-" 1 := by
  have h : atoi "0" = some 0 := rfl
  have hl := hp.2
  unfold firstBallPins at hl
  unfold spare
  rw [h, SecondBallPos.prevPin_eq b hp]
  simp only []
  cases hq : atoi (b.Pins.get (b.Times - 1).toNat) with
  | none => simp
  | some l =>
    rw [hq] at hl
    simp only [] at hl
    have hs : sub64 10 l = 10 - l := wrap64_of_range _ (by omega) (by omega)
    have : (0 : Int) < 10 - l := by omega
    simp [hs, this]

theorem spare_complement (b : Bowl) (tok : String) (hp : SecondBallPos b)
    (ht : atoi tok = some (10 - firstBallPins b)) : spare b tok = writeThrow b "/" 1 := by
  have hl := hp.2
  unfold firstBallPins at hl ht
  unfold spare
  rw [ht, SecondBallPos.prevPin_eq b hp]
  simp only []
  cases hq : atoi (b.Pins.get (b.Times - 1).toNat) with
  | none => simp [hq]
  | some l =>
    rw [hq] at hl
    simp only [] at hl
    have hs : sub64 10 l = 10 - l := wrap64_of_range _ (by omega) (by omega)
    simp [hq, hs]

/-! ## Tokens of legal play -/

theorem digit_not_sign (c : Char) (h : (digitVal c).isSome = true) : c ≠ '-' ∧ c ≠ '+' := by
  constructor
  · intro hc
    rw [hc] at h
    exact absurd h (by decide)
  · intro hc
    rw [hc] at h
    exact absurd h (by decide)

theorem atoi_numeral (t : String) (h : IsNumeral t) :
    atoi t = none ∨ ∃ n : Nat, atoi t = some (n : Int) := by
  obtain ⟨hne, hd⟩ := h
  unfold atoi
  cases hdat : t.data with
  | nil => exact absurd hdat hne
  | cons c cs =>
    have hc := digit_not_sign c (hd c (by rw [hdat]; exact List.mem_cons_self _ _))
    simp only [hc.1, hc.2, if_false]
    cases parseDigits (c :: cs) 0 with
    | none => exact Or.inl rfl
    | some n =>
      by_cases hn : n < 9223372036854775808
      · right
        exact ⟨n, by simp [hn]⟩
      · left
        simp [hn]

theorem numeral_not_marker (t : String) (h : IsNumeral t) : ¬ IsMarker t := by
  intro hm
  obtain ⟨_, hd⟩ := h
  rcases hm with h | h | h | h | h | h | h | h <;>
  · rw [h] at hd
    have := hd _ (List.mem_cons_self _ _)
    exact absurd this (by decide)

theorem strike_slash (b : Bowl) : strike b "/" = some (b.Pins, b.Times) := by
  have h : atoi "/" = none := rfl
  simp [strike, h]

theorem spare_X (b : Bowl) : spare b "X" = some (b.Pins, b.Times) := by
  have h : atoi "X" = none := rfl
  simp [spare, h]

theorem spare_x (b : Bowl) : spare b "x" = some (b.Pins, b.Times) := by
  have h : atoi "x" = none := rfl
  simp [spare, h]

theorem spare_F (b : Bowl) : spare b "F" = writeThrow b "F" 1 := by
  have h : atoi "F" = none := rfl
  simp [spare, h]

theorem spare_f (b : Bowl) : spare b "f" = writeThrow b "F" 1 := by
  have h : atoi "f" = none := rfl
  simp [spare, h]

/-- What `strike` does with a token of legal play: nothing, a strike, or a first
ball that is not a strike. -/
theorem strike_legal (b : Bowl) (t : String) (h : LegalTok t) :
    strike b t = some (b.Pins, b.Times) ∨ strike b t = writeThrow b "X" 2 ∨
      ∃ v, FirstNX v ∧ strike b t = writeThrow b v 1 := by
  rcases h with hn | hm
  · have hnm := numeral_not_marker t hn
    unfold IsMarker at hnm
    push_neg at hnm
    obtain ⟨h1, h2, h3, h4, h5, _, h7, h8⟩ := hnm
    rcases atoi_numeral t hn with ha | ⟨n, ha⟩
    · left
      simp [strike, ha, h1, h2, h3, h4, h5, h7, h8]
    · unfold strike
      rw [ha]
      simp only []
      by_cases h10 : (n : Int) < 10
      · by_cases h0 : (n : Int) = 0
        · right; right
          exact ⟨"G", Or.inl rfl, by simp [h10, h0]⟩
        · right; right
          refine ⟨t, Or.inr (Or.inr ⟨n, ha, by omega, by omega⟩), by simp [h10, h0]⟩
      · by_cases h11 : (n : Int) = 10
        · right; left
          simp [h11]
        · left
          simp [h10, h11]
  · rcases hm with h | h | h | h | h | h | h | h <;> subst h
    · right; left; exact strike_x b
    · right; left; exact strike_X b
    · right; right; exact ⟨"G", Or.inl rfl, strike_g b⟩
    · right; right; exact ⟨"G", Or.inl rfl, strike_G b⟩
    · right; right; exact ⟨"G", Or.inl rfl, strike_dash b⟩
    · left; exact strike_slash b
    · right; right; exact ⟨"F", Or.inr (Or.inl rfl), strike_f b⟩
    · right; right; exact ⟨"F", Or.inr (Or.inl rfl), strike_F b⟩

/-- What `spare` does with a token of legal play after a first ball `a` of 0 to
9 pins: nothing, a spare, or a second ball that leaves pins standing. -/
theorem spare_legal (b : Bowl) (t a : String) (h : LegalTok t) (hprev : prevPin b = some a)
    (hl : 0 ≤ numVal a ∧ numVal a ≤ 9) :
    spare b t = some (b.Pins, b.Times) ∨ spare b t = writeThrow b "/" 1 ∨
      ∃ v, SecondOpen a v ∧ spare b t = writeThrow b v 1 := by
  rcases h with hn | hm
  · have hnm := numeral_not_marker t hn
    unfold IsMarker at hnm
    push_neg at hnm
    obtain ⟨_, _, h3, h4, h5, h6, h7, h8⟩ := hnm
    rcases atoi_numeral t hn with ha | ⟨n, ha⟩
    · left
      simp [spare, ha, h3, h4, h5, h6, h7, h8]
    · unfold spare
      rw [ha, hprev]
      simp only []
      unfold numVal at hl
      cases hq : atoi a with
      | none =>
        simp only []
        have hv : numVal a = 0 := by simp [numVal, hq]
        by_cases h10 : (n : Int) < 10
        · by_cases h0 : (n : Int) = 0
          · right; right
            exact ⟨"-", Or.inl rfl, by rw [if_pos h10, if_pos h0]⟩
          · right; right
            refine ⟨t, Or.inr (Or.inr ⟨n, ⟨ha, by omega, by omega⟩, by omega⟩), by rw [if_pos h10, if_neg h0]⟩
        · by_cases h11 : (n : Int) = 10
          · right; left
            rw [if_neg h10, if_pos h11]
          · left
            rw [if_neg h10, if_neg h11]
      | some l =>
        rw [hq] at hl
        simp only [] at hl ⊢
        have hv : numVal a = l := by simp [numVal, hq]
        have hs : sub64 10 l = 10 - l := wrap64_of_range _ (by omega) (by omega)
        rw [hs]
        by_cases h10 : (n : Int) < 10 - l
        · by_cases h0 : (n : Int) = 0
          · right; right
            exact ⟨"-", Or.inl rfl, by rw [if_pos h10, if_pos h0]⟩
          · right; right
            refine ⟨t, Or.inr (Or.inr ⟨n, ⟨ha, by omega, by omega⟩, by omega⟩), by rw [if_pos h10, if_neg h0]⟩
        · by_cases h11 : (n : Int) = 10 - l
          · right; left
            rw [if_neg h10, if_pos h11]
          · left
            rw [if_neg h10, if_neg h11]
  · rcases hm with h | h | h | h | h | h | h | h <;> subst h
    · left; exact spare_x b
    · left; exact spare_X b
    · right; right; exact ⟨"-", Or.inl rfl, spare_g b⟩
    · right; right; exact ⟨"-", Or.inl rfl, spare_G b⟩
    · right; right; exact ⟨"-", Or.inl rfl, spare_dash b⟩
    · right; left; exact spare_slash b
    · right; right; exact ⟨"F", Or.inr (Or.inl rfl), spare_f b⟩
    · right; right; exact ⟨"F", Or.inr (Or.inl rfl), spare_F b⟩

/-! ## The recorder on arbitrary tokens -/

theorem PinArr.get_set (p : PinArr) (i j : Nat) (v : String) (h : i < 21) :
    (p.set i v).get j = if j = i then v else p.get j := by
  by_cases hji : j = i
  · rw [if_pos hji, hji]
    exact PinArr.get_set_eq p i v h
  · rw [if_neg hji]
    exact PinArr.get_set_ne p i j v (fun e => hji e.symm)

theorem PinArr.ext_get (p q : PinArr) (h : ∀ i, i < 21 → p.get i = q.get i) : p = q := by
  apply Subtype.ext
  apply List.ext_getElem?
  intro i
  by_cases hi : i < 21
  · have h1 := h i hi
    have hp : i < p.1.length := by rw [p.2]; exact hi
    have hq : i < q.1.length := by rw [q.2]; exact hi
    simp only [PinArr.get, List.getD_eq_getElem?_getD] at h1
    rw [List.getElem?_eq_getElem hp, List.getElem?_eq_getElem hq] at h1 ⊢
    simp only [Option.getD_some] at h1
    rw [h1]
  · have hp : p.1.length ≤ i := by rw [p.2]; omega
    have hq : q.1.length ≤ i := by rw [q.2]; omega
    rw [List.getElem?_eq_none hp, List.getElem?_eq_none hq]

theorem writeThrow_eq (b : Bowl) (v : String) (d : Int) (h0 : 0 ≤ b.Times) (h1 : b.Times < 21) :
    writeThrow b v d = some (b.Pins.set b.Times.toNat v, b.Times + d) := by
  simp [writeThrow, h0, h1]

/-- What `strike` does with any token: nothing, a strike, or another symbol
written with the cursor advanced by one. -/
theorem strike_cases (b : Bowl) (t : String) :
    strike b t = some (b.Pins, b.Times) ∨ strike b t = writeThrow b "X" 2 ∨
      ∃ v, v ≠ "X" ∧ v ≠ "/" ∧ v ≠ "yet" ∧ strike b t = writeThrow b v 1 := by
  unfold strike
  cases ha : atoi t with
  | none =>
    simp only []
    by_cases h1 : t = "x" ∨ t = "X"
    · right; left; rw [if_pos h1]
    by_cases h2 : t = "g" ∨ t = "G"
    · right; right
      exact ⟨"G", by decide, by decide, by decide, by rw [if_neg h1, if_pos h2]⟩
    by_cases h3 : t = "-"
    · right; right
      exact ⟨"G", by decide, by decide, by decide, by rw [if_neg h1, if_neg h2, if_pos h3]⟩
    by_cases h4 : t = "f" ∨ t = "F"
    · right; right
      exact ⟨"F", by decide, by decide, by decide,
        by rw [if_neg h1, if_neg h2, if_neg h3, if_pos h4]⟩
    · left
      rw [if_neg h1, if_neg h2, if_neg h3, if_neg h4]
  | some n =>
    simp only []
    have hne : ∀ u, atoi u = none → t ≠ u := by
      intro u hu e
      rw [e, hu] at ha
      exact absurd ha (by simp)
    by_cases h10 : n < 10
    · by_cases h0 : n = 0
      · right; right
        exact ⟨"G", by decide, by decide, by decide, by rw [if_pos h10, if_pos h0]⟩
      · right; right
        exact ⟨t, hne "X" rfl, hne "/" rfl, hne "yet" rfl, by rw [if_pos h10, if_neg h0]⟩
    · by_cases h11 : n = 10
      · right; left
        rw [if_neg h10, if_pos h11]
      · left
        rw [if_neg h10, if_neg h11]

/-- What `spare` does with any token when the slot before the cursor exists:
nothing, or a symbol other than "X" written with the cursor advanced by one. -/
theorem spare_cases (b : Bowl) (t : String) (h1 : 1 ≤ b.Times) (h2 : b.Times < 22) :
    spare b t = some (b.Pins, b.Times) ∨
      ∃ v, v ≠ "X" ∧ v ≠ "yet" ∧ spare b t = writeThrow b v 1 := by
  have hp : prevPin b = some (b.Pins.get (b.Times - 1).toNat) := by simp [prevPin, h1, h2]
  unfold spare
  rw [hp]
  cases ha : atoi t with
  | none =>
    simp only []
    by_cases h1 : t = "/"
    · right
      exact ⟨"/", by decide, by decide, by rw [if_pos h1]⟩
    by_cases h2 : t = "g" ∨ t = "G"
    · right
      exact ⟨"-", by decide, by decide, by rw [if_neg h1, if_pos h2]⟩
    by_cases h3 : t = "-"
    · right
      exact ⟨"-", by decide, by decide, by rw [if_neg h1, if_neg h2, if_pos h3]⟩
    by_cases h4 : t = "f" ∨ t = "F"
    · right
      exact ⟨"F", by decide, by decide, by rw [if_neg h1, if_neg h2, if_neg h3, if_pos h4]⟩
    · left
      rw [if_neg h1, if_neg h2, if_neg h3, if_neg h4]
  | some n =>
    simp only []
    have hne : ∀ u, atoi u = none → t ≠ u := by
      intro u hu e
      rw [e, hu] at ha
      exact absurd ha (by simp)
    cases atoi (b.Pins.get (b.Times - 1).toNat) with
    | none =>
      simp only []
      by_cases h10 : n < 10
      · by_cases h0 : n = 0
        · right
          exact ⟨"-", by decide, by decide, by rw [if_pos h10, if_pos h0]⟩
        · right
          exact ⟨t, hne "X" rfl, hne "yet" rfl, by rw [if_pos h10, if_neg h0]⟩
      · by_cases h11 : n = 10
        · right
          exact ⟨"/", by decide, by decide, by rw [if_neg h10, if_pos h11]⟩
        · left
          rw [if_neg h10, if_neg h11]
    | some l =>
      simp only []
      by_cases h10 : n < sub64 10 l
      · by_cases h0 : n = 0
        · right
          exact ⟨"-", by decide, by decide, by rw [if_pos h10, if_pos h0]⟩
        · right
          exact ⟨t, hne "X" rfl, hne "yet" rfl, by rw [if_pos h10, if_neg h0]⟩
      · by_cases h11 : n = sub64 10 l
        · right
          exact ⟨"/", by decide, by decide, by rw [if_neg h10, if_pos h11]⟩
        · left
          rw [if_neg h10, if_neg h11]

/-! ## Symbols of legal play -/

theorem NumPin.ne_of_atoi_none {s : String} {v : Int} (h : NumPin s v) (u : String)
    (hu : atoi u = none) : s ≠ u := by
  intro e
  have h1 := h.1
  rw [e, hu] at h1
  exact absurd h1 (by simp)

theorem FirstNX.fnx_ne_X {s : String} (h : FirstNX s) : s ≠ "X" := by
  rcases h with h | h | ⟨v, h⟩
  · rw [h]; decide
  · rw [h]; decide
  · exact h.ne_of_atoi_none "X" rfl

theorem FirstNX.fnx_ne_slash {s : String} (h : FirstNX s) : s ≠ "/" := by
  rcases h with h | h | ⟨v, h⟩
  · rw [h]; decide
  · rw [h]; decide
  · exact h.ne_of_atoi_none "/" rfl

theorem FirstNX.fnx_ne_yet {s : String} (h : FirstNX s) : s ≠ "yet" := by
  rcases h with h | h | ⟨v, h⟩
  · rw [h]; decide
  · rw [h]; decide
  · exact h.ne_of_atoi_none "yet" rfl

theorem FirstNX.fnx_numVal_range {s : String} (h : FirstNX s) : 0 ≤ numVal s ∧ numVal s ≤ 9 := by
  rcases h with h | h | ⟨v, h, h1, h2⟩
  · rw [h]; decide
  · rw [h]; decide
  · simp only [numVal, h]
    exact ⟨by omega, h2⟩

theorem SecondOpen.so_ne_X {a s : String} (h : SecondOpen a s) : s ≠ "X" := by
  rcases h with h | h | ⟨v, h, _⟩
  · rw [h]; decide
  · rw [h]; decide
  · exact h.ne_of_atoi_none "X" rfl

theorem SecondOpen.so_ne_slash {a s : String} (h : SecondOpen a s) : s ≠ "/" := by
  rcases h with h | h | ⟨v, h, _⟩
  · rw [h]; decide
  · rw [h]; decide
  · exact h.ne_of_atoi_none "/" rfl

theorem SecondOpen.so_ne_yet {a s : String} (h : SecondOpen a s) : s ≠ "yet" := by
  rcases h with h | h | ⟨v, h, _⟩
  · rw [h]; decide
  · rw [h]; decide
  · exact h.ne_of_atoi_none "yet" rfl

/-! ## The loop of the scorer -/

theorem scoreBody_some (pins : PinArr) (times : Int) (i : Nat) (st st1 : Nat × ScoreArr)
    (h : scoreBody pins times i st = some st1) :
    st1.1 = frameAt i st.1 ∧ (st1.2 = st.2 ∨ ∃ v, st1.2 = st.2.set (frameAt i st.1) v) := by
  unfold scoreBody at h
  unfold frameAt
  by_cases h18 : i < 18
  · by_cases hev : i % 2 = 0
    · simp only [h18, hev, if_true] at h ⊢
      repeat' split at h
      all_goals first
        | (simp only [Option.some.injEq] at h; subst h; exact ⟨rfl, Or.inl rfl⟩)
        | (simp only [Option.some.injEq] at h; subst h; exact ⟨rfl, Or.inr ⟨_, rfl⟩⟩)
        | (exfalso; simp at h)
    · simp only [h18, hev, if_true, if_false] at h ⊢
      repeat' split at h
      all_goals first
        | (simp only [Option.some.injEq] at h; subst h; exact ⟨rfl, Or.inl rfl⟩)
        | (simp only [Option.some.injEq] at h; subst h; exact ⟨rfl, Or.inr ⟨_, rfl⟩⟩)
        | (exfalso; simp at h)
  · by_cases he : i = 18
    · simp only [h18, he, if_true, if_false] at h ⊢
      repeat' split at h
      all_goals first
        | (simp only [Option.some.injEq] at h; subst h; exact ⟨rfl, Or.inl rfl⟩)
        | (simp only [Option.some.injEq] at h; subst h; exact ⟨rfl, Or.inr ⟨_, rfl⟩⟩)
        | (exfalso; simp at h)
    · simp only [h18, he, if_true, if_false] at h ⊢
      repeat' split at h
      all_goals first
        | (simp only [Option.some.injEq] at h; subst h; exact ⟨rfl, Or.inl rfl⟩)
        | (simp only [Option.some.injEq] at h; subst h; exact ⟨rfl, Or.inr ⟨_, rfl⟩⟩)


theorem scoreBody_isSome (pins : PinArr) (times : Int) (i : Nat) (st : Nat × ScoreArr)
    (h : i ≠ 17 ∨ pins.get 17 ≠ "X") (hi : i < 21) :
    ∃ st1, scoreBody pins times i st = some st1 := by
  by_cases hX : i < 18 ∧ atoi (pins.get i) = none ∧ pins.get i = "X"
  · obtain ⟨h18, hat, hx⟩ := hX
    have hla : ∃ bb, strikeLookahead pins i = some bb := by
      unfold strikeLookahead
      split
      · exact ⟨_, rfl⟩
      · split
        · exact ⟨_, rfl⟩
        · exfalso
          have : i = 17 := by omega
          subst this
          rcases h with h | h
          · exact h rfl
          · exact h hx
    obtain ⟨bb, hbb⟩ := hla
    unfold scoreBody
    simp only [h18, hat, hx, hbb, if_true]
    cases bb <;> exact ⟨_, rfl⟩
  · unfold scoreBody
    simp only []
    repeat' split
    all_goals first
      | exact ⟨_, rfl⟩
      | (exfalso; apply hX; refine ⟨by assumption, by assumption, by assumption⟩)

theorem frameAt_frameBefore (i : Nat) (h : i < 21) :
    frameAt i (frameBefore i) = frameBefore (i + 1) := by
  unfold frameAt frameBefore
  interval_cases i <;> rfl

theorem frameBefore_mono (i : Nat) : frameBefore i ≤ frameBefore (i + 1) := by
  unfold frameBefore
  omega

theorem frameBefore_succ_pos (i : Nat) : 1 ≤ frameBefore (i + 1) := by
  unfold frameBefore
  omega

theorem scoreLoop_cons (pins : PinArr) (times : Int) (i : Nat) (is : List Nat)
    (st st1 : Nat × ScoreArr) (h : scoreBody pins times i st = some st1) :
    scoreLoop pins times (i :: is) st = scoreLoop pins times is st1 := by
  simp only [scoreLoop, h]

/-- The loop keeps `frameNumber` in step with the slot index and never writes a
score below the current frame, nor `Scores[0]`. -/
theorem scoreLoop_track (pins : PinArr) (times : Int) :
    ∀ (n i : Nat) (st st1 : Nat × ScoreArr), i + n ≤ 21 → st.1 = frameBefore i →
      scoreLoop pins times (List.range' i n) st = some st1 →
      st1.1 = frameBefore (i + n) ∧
        ∀ k, (k = 0 ∨ k < frameBefore i) → st1.2.get k = st.2.get k := by
  intro n
  induction n with
  | zero =>
    intro i st st1 _ hf h
    simp only [List.range'_zero, scoreLoop, Option.some.injEq] at h
    subst h
    exact ⟨hf, fun _ _ => rfl⟩
  | succ n ih =>
    intro i st st1 hin hf h
    rw [List.range'_succ] at h
    cases hb : scoreBody pins times i st with
    | none => simp [scoreLoop, hb] at h
    | some st2 =>
      rw [scoreLoop_cons pins times i _ st st2 hb] at h
      obtain ⟨hfst, hsnd⟩ := scoreBody_some pins times i st st2 hb
      rw [hf, frameAt_frameBefore i (by omega)] at hfst hsnd
      obtain ⟨h1, h2⟩ := ih (i + 1) st2 st1 (by omega) hfst h
      refine ⟨by rw [h1]; congr 1; omega, ?_⟩
      intro k hk
      have hk2 : k = 0 ∨ k < frameBefore (i + 1) := by
        rcases hk with hk | hk
        · exact Or.inl hk
        · exact Or.inr (lt_of_lt_of_le hk (frameBefore_mono i))
      rw [h2 k hk2]
      rcases hsnd with hs | ⟨v, hs⟩
      · rw [hs]
      · rw [hs]
        apply ScoreArr.sget_set_ne
        have := frameBefore_succ_pos i
        have := frameBefore_mono i
        omega

theorem scoreLoop_isSome (pins : PinArr) (times : Int) (h17 : pins.get 17 ≠ "X") :
    ∀ (n i : Nat) (st : Nat × ScoreArr), i + n ≤ 21 →
      ∃ st1, scoreLoop pins times (List.range' i n) st = some st1 := by
  intro n
  induction n with
  | zero =>
    intro i st _
    exact ⟨st, by simp [scoreLoop]⟩
  | succ n ih =>
    intro i st hin
    obtain ⟨st2, hb⟩ := scoreBody_isSome pins times i st (Or.inr h17) (by omega)
    rw [List.range'_succ, scoreLoop_cons pins times i _ st st2 hb]
    exact ih (i + 1) st2 (by omega)

theorem score_eq_loop (b : Bowl) :
    score b = (scoreLoop b.Pins b.Times (List.range' 0 21) (0, b.Scores)).map Prod.snd := by
  unfold score
  rw [List.range_eq_range']
  cases scoreLoop b.Pins b.Times (List.range' 0 21) (0, b.Scores) <;> rfl

theorem score_isSome (b : Bowl) (h17 : b.Pins.get 17 ≠ "X") : ∃ sc, score b = some sc := by
  obtain ⟨st1, h⟩ := scoreLoop_isSome b.Pins b.Times h17 21 0 (0, b.Scores) (by omega)
  exact ⟨st1.2, by rw [score_eq_loop, h]; rfl⟩

theorem score_get_zero (b : Bowl) (sc : ScoreArr) (h : score b = some sc) :
    sc.get 0 = b.Scores.get 0 := by
  rw [score_eq_loop] at h
  cases hl : scoreLoop b.Pins b.Times (List.range' 0 21) (0, b.Scores) with
  | none => rw [hl] at h; simp at h
  | some st1 =>
    rw [hl] at h
    simp only [Option.map_some', Option.some.injEq] at h
    subst h
    exact (scoreLoop_track b.Pins b.Times 21 0 (0, b.Scores) st1 (by omega) rfl hl).2 0 (Or.inl rfl)

/-! ## The scratch pins of the projector -/

theorem fillLow_get (p : PinArr) (t i : Nat) (ht : t < 21) :
    (fillLow p t).get i = if i = t ∧ (17 < t ∨ t % 2 = 0) then "X" else p.get i := by
  unfold fillLow
  by_cases h1 : t > 17
  · rw [if_pos h1, PinArr.get_set p t i "X" ht]
    by_cases hi : i = t <;> simp [hi, h1]
  · rw [if_neg h1]
    by_cases h2 : t % 2 = 0
    · rw [if_pos h2, PinArr.get_set p t i "X" ht]
      by_cases hi : i = t <;> simp [hi, h2]
    · rw [if_neg h2]
      have : ¬ (i = t ∧ (17 < t ∨ t % 2 = 0)) := by
        rintro ⟨_, h | h⟩
        · exact h1 h
        · exact h2 h
      rw [if_neg this]

theorem foldl_fillLow_get :
    ∀ (n t : Nat) (p : PinArr) (i : Nat), t + n = 21 →
      ((List.range' t n).foldl fillLow p).get i =
        if t ≤ i ∧ i < 21 ∧ (17 < i ∨ i % 2 = 0) then "X" else p.get i := by
  intro n
  induction n with
  | zero =>
    intro t p i h
    have : ¬ (t ≤ i ∧ i < 21 ∧ (17 < i ∨ i % 2 = 0)) := by omega
    simp only [List.range'_zero, List.foldl_nil, if_neg this]
  | succ n ih =>
    intro t p i h
    rw [List.range'_succ, List.foldl_cons, ih (t + 1) (fillLow p t) i (by omega),
      fillLow_get p t i (by omega)]
    by_cases c1 : t + 1 ≤ i ∧ i < 21 ∧ (17 < i ∨ i % 2 = 0)
    · have c2 : t ≤ i ∧ i < 21 ∧ (17 < i ∨ i % 2 = 0) := ⟨by omega, c1.2.1, c1.2.2⟩
      rw [if_pos c1, if_pos c2]
    · rw [if_neg c1]
      by_cases c3 : i = t ∧ (17 < t ∨ t % 2 = 0)
      · have c2 : t ≤ i ∧ i < 21 ∧ (17 < i ∨ i % 2 = 0) := by
          obtain ⟨e, h2⟩ := c3
          subst e
          exact ⟨le_refl _, by omega, h2⟩
        rw [if_pos c3, if_pos c2]
      · have c2 : ¬ (t ≤ i ∧ i < 21 ∧ (17 < i ∨ i % 2 = 0)) := by
          rintro ⟨h1, h2, h3⟩
          by_cases e : i = t
          · exact c3 ⟨e, by rw [← e]; exact h3⟩
          · exact c1 ⟨by omega, h2, h3⟩
        rw [if_neg c3, if_neg c2]

theorem maxFill_even (b : Bowl) (t : Nat) (ht : b.Times = (t : Int)) (h19 : t < 19)
    (hev : t % 2 = 0) :
    ∃ q, maxFill b = some q ∧ ∀ i, q.get i =
      if t ≤ i ∧ i < 21 ∧ (17 < i ∨ i % 2 = 0) then "X" else b.Pins.get i := by
  have h1 : b.Times < 19 := by omega
  have h2 : ¬ b.Times < 0 := by omega
  have h3 : ¬ b.Times % 2 ≠ 0 := by omega
  refine ⟨_, by simp only [maxFill, if_pos h1, if_neg h2, if_neg h3]; rfl, ?_⟩
  intro i
  have : b.Times.toNat = t := by omega
  rw [this]
  exact foldl_fillLow_get (21 - t) t b.Pins i (by omega)

theorem maxFill_odd (b : Bowl) (t : Nat) (ht : b.Times = (t : Int)) (h19 : t < 19)
    (hodd : t % 2 = 1) :
    ∃ q, maxFill b = some q ∧ ∀ i, q.get i =
      if t + 1 ≤ i ∧ i < 21 ∧ (17 < i ∨ i % 2 = 0) then "X"
      else if i = t then "/" else b.Pins.get i := by
  have h1 : b.Times < 19 := by omega
  have h2 : ¬ b.Times < 0 := by omega
  have h3 : b.Times % 2 ≠ 0 := by omega
  refine ⟨_, by simp only [maxFill, if_pos h1, if_neg h2, if_pos h3]; rfl, ?_⟩
  intro i
  have : b.Times.toNat = t := by omega
  rw [this]
  have e : slotsFrom (t + 1) = List.range' (t + 1) (21 - (t + 1)) := rfl
  rw [e, foldl_fillLow_get (21 - (t + 1)) (t + 1) (b.Pins.set t "/") i (by omega),
    PinArr.get_set b.Pins t i "/" (by omega)]

theorem maxFill_19 (b : Bowl) (ht : b.Times = 19) :
    maxFill b = some (fillHigh (fillHigh b.Pins 19) 20) := by
  simp [maxFill, ht, slotsFrom, List.range']

theorem maxFill_20 (b : Bowl) (ht : b.Times = 20) :
    maxFill b = some (fillHigh b.Pins 20) := by
  simp [maxFill, ht, slotsFrom, List.range']

theorem maxFill_21 (b : Bowl) (ht : 21 ≤ b.Times) : maxFill b = some b.Pins := by
  have h1 : ¬ b.Times < 19 := by omega
  have h2 : ¬ b.Times < 21 := by omega
  simp [maxFill, h1, h2]

theorem fillHigh_get_ne (p : PinArr) (i j : Nat) (h : i ≠ j) : (fillHigh p i).get j = p.get j := by
  unfold fillHigh
  split
  · exact PinArr.get_set_ne p i j "X" h
  · split
    · exact PinArr.get_set_ne p i j "X" h
    · exact PinArr.get_set_ne p i j "/" h

/-- The projector panics only on a negative cursor; its scratch pins keep slot
17 free of "X" when the pins are. -/
theorem maxFill_isSome (b : Bowl) (h0 : 0 ≤ b.Times) :
    ∃ q, maxFill b = some q ∧ (b.Pins.get 17 ≠ "X" → q.get 17 ≠ "X") := by
  obtain ⟨t, ht⟩ := Int.eq_ofNat_of_zero_le h0
  by_cases h19 : t < 19
  · rcases Nat.mod_two_eq_zero_or_one t with hev | hodd
    · obtain ⟨q, hq, hg⟩ := maxFill_even b t ht h19 hev
      refine ⟨q, hq, fun h => ?_⟩
      rw [hg 17]
      simpa using h
    · obtain ⟨q, hq, hg⟩ := maxFill_odd b t ht h19 hodd
      refine ⟨q, hq, fun h => ?_⟩
      rw [hg 17]
      by_cases e : 17 = t
      · simp [e]
      · simpa [e] using h
  · by_cases e19 : b.Times = 19
    · refine ⟨_, maxFill_19 b e19, fun h => ?_⟩
      rw [fillHigh_get_ne _ 20 17 (by decide), fillHigh_get_ne _ 19 17 (by decide)]
      exact h
    · by_cases e20 : b.Times = 20
      · refine ⟨_, maxFill_20 b e20, fun h => ?_⟩
        rw [fillHigh_get_ne _ 20 17 (by decide)]
        exact h
      · exact ⟨_, maxFill_21 b (by omega), fun h => h⟩

theorem maxScore_isSome (b : Bowl) (h0 : 0 ≤ b.Times) (h17 : b.Pins.get 17 ≠ "X") :
    ∃ ms, maxScore b = some ms := by
  obtain ⟨q, hq, h⟩ := maxFill_isSome b h0
  obtain ⟨sc, hsc⟩ := score_isSome { b with Pins := q, Times := 21 } (h h17)
  exact ⟨sc.get 10, by simp only [maxScore, hq, hsc]⟩

/-- `addScore` returns a record as soon as the recorder does, the new cursor is
not negative and slot 17 does not hold "X". -/
theorem addScore_isSome (b : Bowl) (t : String) (p : PinArr) (c : Int)
    (h : addThrow b t = some (p, c)) (h0 : 0 ≤ c) (h17 : p.get 17 ≠ "X") :
    ∃ b1, addScore b t = some b1 ∧ b1.Pins = p ∧ b1.Times = c := by
  obtain ⟨sc, hsc⟩ := score_isSome { b with Pins := p, Times := c } h17
  obtain ⟨ms, hms⟩ := maxScore_isSome { b with Pins := p, Times := c, Scores := sc } h0 h17
  refine ⟨{ b with Pins := p, Times := c, Scores := sc, MaxScore := ms }, ?_, rfl, rfl⟩
  simp only [addScore, h, hsc, hms]

/-! ## Legal play keeps the shape of the record -/

/-- The outcomes of `strike` on a token of legal play that is accepted. -/
theorem strike_accept (b : Bowl) (t : String) (n : Nat) (hn : b.Times = (n : Int))
    (h21 : n < 21) (ht : LegalTok t) (p : PinArr) (c : Int) (h : strike b t = some (p, c))
    (hne : p ≠ b.Pins) :
    (p = b.Pins.set n "X" ∧ c = n + 2) ∨ ∃ v, FirstNX v ∧ p = b.Pins.set n v ∧ c = n + 1 := by
  have hw : ∀ v d, writeThrow b v d = some (b.Pins.set n v, (n : Int) + d) := by
    intro v d
    have := writeThrow_eq b v d (by omega) (by omega)
    rw [this, hn]
    simp
  rcases strike_legal b t ht with h1 | h1 | ⟨v, hv, h1⟩
  · rw [h1] at h
    simp only [Option.some.injEq, Prod.mk.injEq] at h
    exact absurd h.1.symm hne
  · rw [h1, hw] at h
    simp only [Option.some.injEq, Prod.mk.injEq] at h
    exact Or.inl ⟨h.1.symm, h.2.symm⟩
  · rw [h1, hw] at h
    simp only [Option.some.injEq, Prod.mk.injEq] at h
    exact Or.inr ⟨v, hv, h.1.symm, h.2.symm⟩

/-- The outcomes of `spare` on a token of legal play that is accepted. -/
theorem spare_accept (b : Bowl) (t : String) (n : Nat) (hn : b.Times = (n : Int))
    (h1 : 1 ≤ n) (h21 : n < 21) (hf : FirstNX (b.Pins.get (n - 1))) (ht : LegalTok t)
    (p : PinArr) (c : Int) (h : spare b t = some (p, c)) (hne : p ≠ b.Pins) :
    ∃ v, (v = "/" ∨ SecondOpen (b.Pins.get (n - 1)) v) ∧ p = b.Pins.set n v ∧ c = n + 1 := by
  have hw : ∀ v d, writeThrow b v d = some (b.Pins.set n v, (n : Int) + d) := by
    intro v d
    have := writeThrow_eq b v d (by omega) (by omega)
    rw [this, hn]
    simp
  have hprev : prevPin b = some (b.Pins.get (n - 1)) := by
    have e : (b.Times - 1).toNat = n - 1 := by omega
    have c1 : 1 ≤ b.Times ∧ b.Times < 22 := by omega
    simp [prevPin, c1, e]
  rcases spare_legal b t _ ht hprev hf.fnx_numVal_range with h1 | h1 | ⟨v, hv, h1⟩
  · rw [h1] at h
    simp only [Option.some.injEq, Prod.mk.injEq] at h
    exact absurd h.1.symm hne
  · rw [h1, hw] at h
    simp only [Option.some.injEq, Prod.mk.injEq] at h
    exact ⟨"/", Or.inl rfl, h.1.symm, h.2.symm⟩
  · rw [h1, hw] at h
    simp only [Option.some.injEq, Prod.mk.injEq] at h
    exact ⟨v, Or.inr hv, h.1.symm, h.2.symm⟩

theorem map_some_inv {α β : Type} (o : Option (α × β)) (f : α × β → β) (p : α) (c : β)
    (h : o.map (fun pc => (pc.1, f pc)) = some (p, c)) :
    ∃ c1, o = some (p, c1) ∧ c = f (p, c1) := by
  cases o with
  | none => simp at h
  | some pc =>
    obtain ⟨p1, c1⟩ := pc
    simp at h
    exact ⟨c1, by rw [h.1], by rw [← h.2, h.1]⟩

/-- An accepted token of legal play writes one slot, at the cursor. -/
theorem addThrow_legal_outcome (b : Bowl) (t : String) (hs : Shape b) (ht : LegalTok t)
    (p : PinArr) (c : Int) (h : addThrow b t = some (p, c)) (hne : p ≠ b.Pins)
    (n : Nat) (hn : b.Times = (n : Int)) :
    n < 21 ∧ ∃ v, p = b.Pins.set n v ∧ ThrowOutcome b n v c := by
  have hhi := hs.hi
  by_cases h17 : n ≤ 17
  · refine ⟨by omega, ?_⟩
    rcases Nat.mod_two_eq_zero_or_one n with hev | hodd
    · rw [addThrow_even b t (by omega) (by omega)] at h
      rcases strike_accept b t n hn (by omega) ht p c h hne with ⟨hp, hc⟩ | ⟨v, hv, hp, hc⟩
      · exact ⟨"X", hp, Or.inl ⟨h17, hev, Or.inl ⟨rfl, hc⟩⟩⟩
      · exact ⟨v, hp, Or.inl ⟨h17, hev, Or.inr ⟨hv, hc⟩⟩⟩
    · rw [addThrow_odd b t (by omega) (by omega)] at h
      have hf : FirstNX (b.Pins.get (n - 1)) := by
        have := hs.half ((n - 1) / 2) (by omega) (by omega)
        have e : 2 * ((n - 1) / 2) = n - 1 := by omega
        rw [e] at this
        exact this
      obtain ⟨v, hv, hp, hc⟩ := spare_accept b t n hn (by omega) (by omega) hf ht p c h hne
      exact ⟨v, hp, Or.inr (Or.inl ⟨h17, hodd, hv, hc⟩)⟩
  by_cases h18 : n = 18
  · subst h18
    refine ⟨by omega, ?_⟩
    rw [addThrow_18 b t hn] at h
    obtain ⟨c1, hst, hc⟩ := map_some_inv _ _ p c h
    rcases strike_accept b t 18 hn (by omega) ht p c1 hst hne with ⟨hp, hc1⟩ | ⟨v, hv, hp, hc1⟩
    · refine ⟨"X", hp, Or.inr (Or.inr (Or.inl ⟨rfl, Or.inl rfl, ?_⟩))⟩
      have e : p.get 18 = "X" := by rw [hp]; exact PinArr.get_set_eq _ _ _ (by omega)
      simp only [e, if_true] at hc
      omega
    · refine ⟨v, hp, Or.inr (Or.inr (Or.inl ⟨rfl, Or.inr hv, ?_⟩))⟩
      have e : p.get 18 = v := by rw [hp]; exact PinArr.get_set_eq _ _ _ (by omega)
      simp only [e, if_neg hv.fnx_ne_X] at hc
      omega
  by_cases h19 : n = 19
  · subst h19
    refine ⟨by omega, ?_⟩
    by_cases hx : b.Pins.get 18 = "X"
    · rw [addThrow_19_strike b t hn hx] at h
      obtain ⟨c1, hst, hc⟩ := map_some_inv _ _ p c h
      rcases strike_accept b t 19 hn (by omega) ht p c1 hst hne with
        ⟨hp, hc1⟩ | ⟨v, hv, hp, hc1⟩
      · refine ⟨"X", hp, Or.inr (Or.inr (Or.inr (Or.inl ⟨rfl, hx, Or.inl rfl, ?_⟩)))⟩
        have e : p.get 19 = "X" := by rw [hp]; exact PinArr.get_set_eq _ _ _ (by omega)
        simp only [e, if_true] at hc
        omega
      · refine ⟨v, hp, Or.inr (Or.inr (Or.inr (Or.inl ⟨rfl, hx, Or.inr hv, ?_⟩)))⟩
        have e : p.get 19 = v := by rw [hp]; exact PinArr.get_set_eq _ _ _ (by omega)
        simp only [e, if_neg hv.fnx_ne_X] at hc
        omega
    · rw [addThrow_19_spare b t hn hx] at h
      obtain ⟨c1, hst, hc⟩ := map_some_inv _ _ p c h
      have hf : FirstNX (b.Pins.get (19 - 1)) := by
        rcases hs.t19 hn with h1 | h1
        · exact absurd h1 hx
        · exact h1
      obtain ⟨v, hv, hp, hc1⟩ := spare_accept b t 19 hn (by omega) (by omega) hf ht p c1 hst hne
      have e : p.get 19 = v := by rw [hp]; exact PinArr.get_set_eq _ _ _ (by omega)
      refine ⟨v, hp, Or.inr (Or.inr (Or.inr (Or.inr (Or.inl ⟨rfl, hx, ?_⟩))))⟩
      rcases hv with hv | hv
      · left
        simp only [e, hv, ne_eq, not_true_eq_false, if_false] at hc
        exact ⟨hv, by omega⟩
      · right
        simp only [e, ne_eq, hv.so_ne_slash, not_false_eq_true, if_true] at hc
        exact ⟨hv, hc⟩
  by_cases h20 : n = 20
  · subst h20
    refine ⟨by omega, ?_⟩
    by_cases hx : b.Pins.get 19 = "X" ∨ b.Pins.get 19 = "/"
    · rw [addThrow_20_strike b t hn hx] at h
      obtain ⟨c1, hst, hc⟩ := map_some_inv _ _ p c h
      rcases strike_accept b t 20 hn (by omega) ht p c1 hst hne with
        ⟨hp, hc1⟩ | ⟨v, hv, hp, hc1⟩
      · refine ⟨"X", hp, Or.inr (Or.inr (Or.inr (Or.inr (Or.inr (Or.inl
          ⟨rfl, hx, Or.inl rfl, ?_⟩)))))⟩
        have e : p.get 20 = "X" := by rw [hp]; exact PinArr.get_set_eq _ _ _ (by omega)
        simp [e] at hc
        exact hc
      · refine ⟨v, hp, Or.inr (Or.inr (Or.inr (Or.inr (Or.inr (Or.inl
          ⟨rfl, hx, Or.inr hv, ?_⟩)))))⟩
        have e : p.get 20 = v := by rw [hp]; exact PinArr.get_set_eq _ _ _ (by omega)
        simp only [e, ne_eq, hv.fnx_ne_yet, not_false_eq_true, if_true] at hc
        exact hc
    · rw [addThrow_20_spare b t hn hx] at h
      obtain ⟨c1, hst, hc⟩ := map_some_inv _ _ p c h
      have hf : FirstNX (b.Pins.get (20 - 1)) := by
        rcases hs.t20 hn with ⟨_, h1 | h1⟩ | ⟨_, h1⟩
        · exact absurd (Or.inl h1) hx
        · exact h1
        · exact absurd (Or.inr h1) hx
      obtain ⟨v, hv, hp, hc1⟩ := spare_accept b t 20 hn (by omega) (by omega) hf ht p c1 hst hne
      have e : p.get 20 = v := by rw [hp]; exact PinArr.get_set_eq _ _ _ (by omega)
      have hvy : v ≠ "yet" := by
        rcases hv with hv | hv
        · rw [hv]; decide
        · exact hv.so_ne_yet
      refine ⟨v, hp, Or.inr (Or.inr (Or.inr (Or.inr (Or.inr (Or.inr ⟨rfl, hx, hv, ?_⟩)))))⟩
      simp only [e, ne_eq, hvy, not_false_eq_true, if_true] at hc
      exact hc
  · exfalso
    have e21 : b.Times = 21 := by omega
    have : addThrow b t = some (b.Pins, b.Times) := by
      simp [addThrow, e21]
    rw [this] at h
    simp only [Option.some.injEq, Prod.mk.injEq] at h
    exact hne h.1.symm

theorem initPins_get (i : Nat) (h : i < 21) : initPins.get i = "yet" := by
  interval_cases i <;> rfl

theorem Shape.fresh (now : String) : Shape (initBowl now) where
  lo := by
    have : (initBowl now).Times = 0 := rfl
    omega
  hi := by
    have : (initBowl now).Times = 0 := rfl
    omega
  yet := fun i _ h => initPins_get i h
  done := fun j _ h => by
    have : (initBowl now).Times = 0 := rfl
    omega
  half := fun j _ h => by
    have : (initBowl now).Times = 0 := rfl
    omega
  t19 := fun h => by
    have : (initBowl now).Times = 0 := rfl
    omega
  t20 := fun h => by
    have : (initBowl now).Times = 0 := rfl
    omega
  t21 := fun h => by
    have : (initBowl now).Times = 0 := rfl
    omega
  s0 := rfl

theorem FrameDone.congr (p q : PinArr) (i : Nat) (h0 : q.get i = p.get i)
    (h1 : q.get (i + 1) = p.get (i + 1)) (h : FrameDone p i) : FrameDone q i := by
  unfold FrameDone at h ⊢
  rw [h0, h1]
  exact h

/-- The shape is kept by the write of an accepted token of legal play. -/
theorem Shape.write (b b1 : Bowl) (n : Nat) (v : String) (hs : Shape b)
    (hn : b.Times = (n : Int)) (h21 : n < 21) (hp : b1.Pins = b.Pins.set n v)
    (ho : ThrowOutcome b n v b1.Times) (h0 : b1.Scores.get 0 = 0) : Shape b1 := by
  have gne : ∀ i, i ≠ n → b1.Pins.get i = b.Pins.get i := by
    intro i hi
    rw [hp]
    exact PinArr.get_set_ne _ _ _ _ (fun e => hi e.symm)
  have geq : b1.Pins.get n = v := by
    rw [hp]
    exact PinArr.get_set_eq _ _ _ h21
  have hyet : ∀ i : Nat, n ≤ i → i < 21 → b.Pins.get i = "yet" :=
    fun i h1 h2 => hs.yet i (by omega) h2
  have hc : (n : Int) + 1 ≤ b1.Times ∧ b1.Times ≤ 21 := by
    rcases ho with ⟨_, _, ⟨_, h⟩ | ⟨_, h⟩⟩ | ⟨_, _, _, h⟩ | ⟨_, _, h⟩ | ⟨_, _, _, h⟩ |
      ⟨_, _, ⟨_, h⟩ | ⟨_, h⟩⟩ | ⟨_, _, _, h⟩ | ⟨_, _, _, h⟩ <;> omega
  have hdone_old : ∀ j : Nat, j < 9 → 2 * j + 2 ≤ n → FrameDone b1.Pins (2 * j) := by
    intro j hj h
    exact FrameDone.congr b.Pins b1.Pins (2 * j) (gne _ (by omega)) (gne _ (by omega))
      (hs.done j hj (by omega))
  refine
    { lo := by omega
      hi := hc.2
      yet := fun i h1 h2 => by rw [gne i (by omega)]; exact hs.yet i (by omega) h2
      done := ?_
      half := ?_
      t19 := ?_
      t20 := ?_
      t21 := ?_
      s0 := h0 }
  · intro j hj h
    by_cases hold : 2 * j + 2 ≤ n
    · exact hdone_old j hj hold
    rcases ho with ⟨_, hev, ⟨hv, hc⟩ | ⟨hv, hc⟩⟩ | ⟨_, hodd, hv, hc⟩ | ⟨_, _, hc⟩ |
      ⟨_, _, _, hc⟩ | ⟨_, _, ⟨_, hc⟩ | ⟨_, hc⟩⟩ | ⟨_, _, _, hc⟩ | ⟨_, _, _, hc⟩
    · have e : 2 * j = n := by omega
      rw [e]
      left
      exact ⟨by rw [geq, hv], by rw [gne (n + 1) (by omega)]; exact hyet _ (by omega) (by omega)⟩
    · omega
    · have e : 2 * j = n - 1 := by omega
      have e1 : n - 1 + 1 = n := by omega
      rw [e]
      right
      have hf : FirstNX (b.Pins.get (n - 1)) := by
        have := hs.half j hj (by omega)
        rw [e] at this
        exact this
      rw [e1, geq, gne (n - 1) (by omega)]
      exact ⟨hf, hv⟩
    all_goals omega
  · intro j hj h
    rcases ho with ⟨_, hev, ⟨hv, hc⟩ | ⟨hv, hc⟩⟩ | ⟨_, hodd, hv, hc⟩ | ⟨_, _, hc⟩ |
      ⟨_, _, _, hc⟩ | ⟨_, _, ⟨_, hc⟩ | ⟨_, hc⟩⟩ | ⟨_, _, _, hc⟩ | ⟨_, _, _, hc⟩
    · omega
    · have e : 2 * j = n := by omega
      rw [e, geq]
      exact hv
    all_goals omega
  · intro h
    rcases ho with ⟨_, hev, ⟨hv, hc⟩ | ⟨hv, hc⟩⟩ | ⟨_, hodd, hv, hc⟩ | ⟨h18, hv, hc⟩ |
      ⟨_, _, _, hc⟩ | ⟨_, _, ⟨_, hc⟩ | ⟨_, hc⟩⟩ | ⟨_, _, _, hc⟩ | ⟨_, _, _, hc⟩
    · omega
    · omega
    · omega
    · subst h18
      rw [geq]
      exact hv
    all_goals omega
  · intro h
    rcases ho with ⟨_, hev, ⟨hv, hc⟩ | ⟨hv, hc⟩⟩ | ⟨_, hodd, hv, hc⟩ | ⟨h18, hv, hc⟩ |
      ⟨h19, hx, hv, hc⟩ | ⟨h19, hx, ⟨hv, hc⟩ | ⟨hv, hc⟩⟩ | ⟨_, _, _, hc⟩ | ⟨_, _, _, hc⟩
    · omega
    · omega
    · omega
    · omega
    · subst h19
      left
      rw [geq, gne 18 (by omega)]
      exact ⟨hx, hv⟩
    · subst h19
      right
      rw [geq, gne 18 (by omega)]
      rcases hs.t19 hn with h1 | h1
      · exact absurd h1 hx
      · exact ⟨h1, hv⟩
    all_goals omega
  · intro h
    rcases ho with ⟨_, hev, ⟨hv, hc⟩ | ⟨hv, hc⟩⟩ | ⟨_, hodd, hv, hc⟩ | ⟨h18, hv, hc⟩ |
      ⟨h19, hx, hv, hc⟩ | ⟨h19, hx, ⟨hv, hc⟩ | ⟨hv, hc⟩⟩ | ⟨h20, hx, hv, hc⟩ |
      ⟨h20, hx, hv, hc⟩
    · omega
    · omega
    · omega
    · omega
    · omega
    · omega
    · subst h19
      left
      rw [geq, gne 18 (by omega), gne 20 (by omega)]
      rcases hs.t19 hn with h1 | h1
      · exact absurd h1 hx
      · exact ⟨h1, hv, hyet 20 (by omega) (by omega)⟩
    · subst h20
      unfold TenthDone
      rw [geq, gne 18 (by omega), gne 19 (by omega)]
      rcases hs.t20 hn with ⟨h1, h2 | h2⟩ | ⟨h1, h2⟩
      · right; left
        exact ⟨h1, h2, hv⟩
      · rcases hx with hx | hx
        · exact absurd hx h2.fnx_ne_X
        · exact absurd hx h2.fnx_ne_slash
      · right; right; right
        exact ⟨h1, h2, hv⟩
    · subst h20
      unfold TenthDone
      rw [geq, gne 18 (by omega), gne 19 (by omega)]
      rcases hs.t20 hn with ⟨h1, h2 | h2⟩ | ⟨h1, h2⟩
      · exact absurd (Or.inl h2) hx
      · right; right; left
        exact ⟨h1, h2, hv⟩
      · exact absurd (Or.inr h2) hx

/-- One accepted token of legal play keeps the shape of the record, and writes
one slot as the throw grammar allows. -/
theorem Shape.step (b b1 : Bowl) (t : String) (hs : Shape b) (ht : LegalTok t)
    (ha : Accepted b t b1) :
    Shape b1 ∧ ∃ n : Nat, b.Times = (n : Int) ∧ n < 21 ∧
      ∃ v, b1.Pins = b.Pins.set n v ∧ ThrowOutcome b n v b1.Times := by
  obtain ⟨hadd, hne⟩ := ha
  obtain ⟨hthrow, _, _, hscore, _⟩ := addScore_some b b1 t hadd
  obtain ⟨n, hn⟩ := Int.eq_ofNat_of_zero_le hs.lo
  obtain ⟨h21, v, hp, ho⟩ := addThrow_legal_outcome b t hs ht b1.Pins b1.Times hthrow hne n hn
  have h0 : b1.Scores.get 0 = 0 := by
    rw [score_get_zero _ _ hscore]
    exact hs.s0
  exact ⟨Shape.write b b1 n v hs hn h21 hp ho h0, n, hn, h21, v, hp, ho⟩

theorem LegalPlay.shape (now : String) (b : Bowl) (h : LegalPlay now b) : Shape b := by
  induction h with
  | fresh => exact Shape.fresh now
  | step t _ ht ha ih => exact (Shape.step _ _ t ih ht ha).1

/-! ## Runs of legal play -/

theorem LegalRun.of_play (ts : List String) :
    ∀ b b1 : Bowl, play b ts = some b1 → LegalRun b ts b1 := by
  induction ts with
  | nil =>
    intro b b1 h
    simp only [play, Option.some.injEq] at h
    subst h
    exact LegalRun.nil b
  | cons t ts ih =>
    intro b b1 h
    simp only [play] at h
    cases ha : addScore b t with
    | none => rw [ha] at h; simp at h
    | some b2 =>
      rw [ha] at h
      simp only [] at h
      split at h
      · rename_i hc
        exact LegalRun.cons t ts hc.1 ⟨ha, hc.2⟩ (ih b2 b1 h)
      · simp at h

theorem LegalPlay.run (now : String) (ts : List String) :
    ∀ b b1 : Bowl, LegalPlay now b → LegalRun b ts b1 → LegalPlay now b1 := by
  induction ts with
  | nil =>
    intro b b1 hb h
    cases h
    exact hb
  | cons t ts ih =>
    intro b b1 hb h
    cases h with
    | cons _ _ ht ha hr => exact ih _ b1 (LegalPlay.step t hb ht ha) hr

theorem LegalRun.append (ts us : List String) :
    ∀ b b1 b2 : Bowl, LegalRun b ts b1 → LegalRun b1 us b2 → LegalRun b (ts ++ us) b2 := by
  induction ts with
  | nil =>
    intro b b1 b2 h1 h2
    cases h1
    exact h2
  | cons t ts ih =>
    intro b b1 b2 h1 h2
    cases h1 with
    | cons _ _ ht ha hr => exact LegalRun.cons t (ts ++ us) ht ha (ih _ b1 b2 hr h2)

/-! ## The second ball of frame ten -/

theorem tenth_second_ball (r r1 : Bowl) (t : String) (hy : r.Pins.get 20 = "yet")
    (h19 : r.Times = 19) (ha : Accepted r t r1) :
    ((r.Pins.get 18 = "X" ∨ r1.Pins.get 19 = "/") → r1.Times = 20) ∧
    (¬ (r.Pins.get 18 = "X" ∨ r1.Pins.get 19 = "/") →
      r1.Times = 21 ∧ r1.Pins.get 20 = "yet") := by
  obtain ⟨hadd, hne⟩ := ha
  obtain ⟨hthrow, _⟩ := addScore_some r r1 t hadd
  have hw : ∀ v d, writeThrow r v d = some (r.Pins.set 19 v, 19 + d) := by
    intro v d
    have := writeThrow_eq r v d (by omega) (by omega)
    rw [this, h19]
    rfl
  by_cases hx : r.Pins.get 18 = "X"
  · rw [addThrow_19_strike r t h19 hx] at hthrow
    obtain ⟨c1, hst, hc⟩ := map_some_inv _ _ _ _ hthrow
    refine ⟨fun _ => ?_, fun hn => absurd (Or.inl hx) hn⟩
    rcases strike_cases r t with h1 | h1 | ⟨v, hv, _, _, h1⟩
    · rw [h1] at hst
      simp only [Option.some.injEq, Prod.mk.injEq] at hst
      exact absurd hst.1.symm hne
    · rw [h1, hw] at hst
      simp only [Option.some.injEq, Prod.mk.injEq] at hst
      have e : r1.Pins.get 19 = "X" := by
        rw [← hst.1]
        exact PinArr.get_set_eq _ _ _ (by omega)
      simp only [e, if_true] at hc
      omega
    · rw [h1, hw] at hst
      simp only [Option.some.injEq, Prod.mk.injEq] at hst
      have e : r1.Pins.get 19 = v := by
        rw [← hst.1]
        exact PinArr.get_set_eq _ _ _ (by omega)
      simp only [e, if_neg hv] at hc
      omega
  · rw [addThrow_19_spare r t h19 hx] at hthrow
    obtain ⟨c1, hst, hc⟩ := map_some_inv _ _ _ _ hthrow
    rcases spare_cases r t (by omega) (by omega) with h1 | ⟨v, _, _, h1⟩
    · rw [h1] at hst
      simp only [Option.some.injEq, Prod.mk.injEq] at hst
      exact absurd hst.1.symm hne
    · rw [h1, hw] at hst
      simp only [Option.some.injEq, Prod.mk.injEq] at hst
      have e20 : r1.Pins.get 20 = "yet" := by
        rw [← hst.1, PinArr.get_set_ne _ _ _ _ (by omega)]
        exact hy
      constructor
      · rintro (h | h)
        · exact absurd h hx
        · simp only [h, ne_eq, not_true_eq_false, if_false] at hc
          omega
      · intro hn
        have h2 : r1.Pins.get 19 ≠ "/" := fun e => hn (Or.inr e)
        simp only [ne_eq, h2, not_false_eq_true, if_true] at hc
        exact ⟨hc, e20⟩

/-- C6: on a record of legal play with cursor 19, an accepted token leaves the
cursor at 20 when slot 18 holds a strike or the token was recorded as a spare,
and otherwise at 21 with slot 20 still pending; a strike recorded at slot 19
after a strike at slot 18 gives cursor 20. -/
theorem tenth_frame_second_ball_cursor (now : String) (r r1 : Bowl) (t : String)
    (hr : LegalPlay now r) (h19 : r.Times = 19) (ha : Accepted r t r1) :
    ((r.Pins.get 18 = "X" ∨ r1.Pins.get 19 = "/") → r1.Times = 20) ∧
    (¬ (r.Pins.get 18 = "X" ∨ r1.Pins.get 19 = "/") →
      r1.Times = 21 ∧ r1.Pins.get 20 = "yet") ∧
    (r.Pins.get 18 = "X" → r1.Pins.get 19 = "X" → r1.Times = 20) := by
  have hy : r.Pins.get 20 = "yet" := (LegalPlay.shape now r hr).yet 20 (by omega) (by omega)
  obtain ⟨h1, h2⟩ := tenth_second_ball r r1 t hy h19 ha
  exact ⟨h1, h2, fun hx _ => h1 (Or.inl hx)⟩

set_option maxRecDepth 100000 in
theorem demoTenStrikes_play :
    play (initBowl "ann") (List.replicate 10 "X") = some demoTenStrikes := by decide

set_option maxRecDepth 100000 in
/-- Witness of C6: after ten strikes the cursor is 19 with a strike in slot 18;
an eleventh strike is accepted and leaves the cursor at 20. -/
theorem tenth_frame_second_ball_cursor_witness :
    ∃ r1, Accepted demoTenStrikes "X" r1 ∧ r1.Pins.get 19 = "X" ∧ r1.Times = 20 := by
  have hr : LegalPlay "ann" demoTenStrikes :=
    LegalPlay.run "ann" _ _ _ (LegalPlay.fresh) (LegalRun.of_play _ _ _ demoTenStrikes_play)
  have ha : ∃ r1, addScore demoTenStrikes "X" = some r1 ∧ r1.Pins ≠ demoTenStrikes.Pins ∧
      r1.Pins.get 19 = "X" := by
    refine ⟨_, rfl, ?_, ?_⟩ <;> decide
  obtain ⟨r1, h1, h2, h3⟩ := ha
  exact ⟨r1, ⟨h1, h2⟩, h3,
    (tenth_frame_second_ball_cursor "ann" demoTenStrikes r1 "X" hr (by decide) ⟨h1, h2⟩).2.2
      (by decide) h3⟩

/-! ## The scorer without the reduction to 64 bits -/

theorem numVal_some {s : String} {v : Int} (h : atoi s = some v) : numVal s = v := by
  simp [numVal, h]

theorem numVal_none {s : String} (h : atoi s = none) : numVal s = 0 := by
  simp [numVal, h]

theorem pinVal_some {s : String} {v : Int} (h : atoi s = some v) : pinVal s = v := by
  simp [pinVal, h]

theorem pinVal_none {s : String} (h : atoi s = none) :
    pinVal s = if s = "X" then 10 else 0 := by
  simp [pinVal, h]

theorem numVal_range (pins : PinArr) (hv : ValOK pins) (k : Nat) :
    -100 ≤ numVal (pins.get k) ∧ numVal (pins.get k) ≤ 100 := by
  cases h : atoi (pins.get k) with
  | none => rw [numVal_none h]; omega
  | some v => rw [numVal_some h]; exact hv k v h

theorem pinVal_range (pins : PinArr) (hv : ValOK pins) (k : Nat) :
    -100 ≤ pinVal (pins.get k) ∧ pinVal (pins.get k) ≤ 100 := by
  cases h : atoi (pins.get k) with
  | none => rw [pinVal_none h]; split <;> omega
  | some v => rw [pinVal_some h]; exact hv k v h

theorem add64_eq (a b : Int) (h1 : -9223372036854775808 ≤ a + b)
    (h2 : a + b < 9223372036854775808) : add64 a b = a + b :=
  wrap64_of_range _ h1 h2

theorem sub64_eq (a b : Int) (h1 : -9223372036854775808 ≤ a - b)
    (h2 : a - b < 9223372036854775808) : sub64 a b = a - b :=
  wrap64_of_range _ h1 h2

theorem strikeValue_eq (pins : PinArr) (i f : Nat) (base : Int) (hv : ValOK pins)
    (hb : -1000000 ≤ base ∧ base ≤ 1000000) :
    strikeValue pins i f base = base + strikeDelta pins i f := by
  have n3 := numVal_range pins hv (i + 3)
  have p3 := pinVal_range pins hv (i + 3)
  have p4 := pinVal_range pins hv (i + 4)
  have e0 : add64 base 10 = base + 10 := add64_eq _ _ (by omega) (by omega)
  unfold strikeValue strikeDelta
  simp only [e0]
  cases h2 : atoi (pins.get (i + 2)) with
  | some p =>
    have hp := hv _ _ h2
    have e1 : add64 (base + 10) p = base + 10 + p := add64_eq _ _ (by omega) (by omega)
    have e2 : sub64 10 p = 10 - p := sub64_eq _ _ (by omega) (by omega)
    simp only [Option.isSome_some, if_true, numVal_some h2, e1, e2]
    split
    · rw [add64_eq _ _ (by omega) (by omega)]
      omega
    · cases h3 : atoi (pins.get (i + 3)) with
      | some q =>
        rw [numVal_some h3] at n3 ⊢
        simp only []
        rw [add64_eq _ _ (by omega) (by omega)]
        omega
      | none =>
        rw [numVal_none h3]
        simp only []
        omega
  | none =>
    simp only [Option.isSome_none, Bool.false_eq_true, if_false]
    have e1 : add64 (base + 10) 10 = base + 20 := by
      rw [add64_eq _ _ (by omega) (by omega)]
      omega
    split
    · rw [e1]
      split
      · cases h3 : atoi (pins.get (i + 3)) with
        | some q =>
          rw [pinVal_some h3] at p3 ⊢
          simp only []
          rw [add64_eq _ _ (by omega) (by omega)]
          omega
        | none =>
          rw [pinVal_none h3]
          simp only []
          split
          · rw [add64_eq _ _ (by omega) (by omega)]
            omega
          · omega
      · cases h4 : atoi (pins.get (i + 4)) with
        | some q =>
          rw [pinVal_some h4] at p4 ⊢
          simp only []
          rw [add64_eq _ _ (by omega) (by omega)]
          omega
        | none =>
          rw [pinVal_none h4]
          simp only []
          split
          · rw [add64_eq _ _ (by omega) (by omega)]
            omega
          · omega
    · split
      · rw [e1]
      · cases h3 : atoi (pins.get (i + 3)) with
        | some q =>
          rw [numVal_some h3] at n3 ⊢
          simp only []
          rw [add64_eq _ _ (by omega) (by omega)]
          omega
        | none =>
          rw [numVal_none h3]
          simp only []
          omega

theorem spareValue_eq (pins : PinArr) (i : Nat) (base : Int) (hv : ValOK pins)
    (hb : -1000000 ≤ base ∧ base ≤ 1000000) :
    spareValue pins i base = base + spareDelta pins i := by
  have p1 := pinVal_range pins hv (i + 1)
  have e0 : add64 base 10 = base + 10 := add64_eq _ _ (by omega) (by omega)
  unfold spareValue spareDelta
  simp only [e0]
  cases h1 : atoi (pins.get (i + 1)) with
  | some q =>
    rw [pinVal_some h1] at p1 ⊢
    simp only []
    rw [add64_eq _ _ (by omega) (by omega)]
    omega
  | none =>
    rw [pinVal_none h1]
    simp only []
    split
    · rw [add64_eq _ _ (by omega) (by omega)]
      omega
    · omega

theorem atoi_ne_of_some {s : String} {v : Int} (h : atoi s = some v) (u : String)
    (hu : atoi u = none) : s ≠ u := by
  intro e
  rw [e, hu] at h
  exact absurd h (by simp)

theorem tenthBall_range (pins : PinArr) (hv : ValOK pins) (k : Nat) (next : String) :
    -100 ≤ tenthBall (pins.get k) next ∧ tenthBall (pins.get k) next ≤ 100 := by
  have := numVal_range pins hv k
  unfold tenthBall
  split
  · split <;> omega
  · split <;> omega

theorem tenthFirst_eq (pins : PinArr) (base : Int) (hv : ValOK pins)
    (hb : -1000000 ≤ base ∧ base ≤ 1000000) :
    tenthFirst pins base =
      base + (if pins.get 18 = "/" then 0 else tenthBall (pins.get 18) (pins.get 19)) := by
  unfold tenthFirst tenthBall
  cases h : atoi (pins.get 18) with
  | some p =>
    have hp := hv _ _ h
    have hne : pins.get 18 ≠ "/" := atoi_ne_of_some h "/" rfl
    simp only [Option.isSome_some, if_true, numVal_some h, if_neg hne]
    split
    · rw [add64_eq _ _ (by omega) (by omega)]
    · omega
  | none =>
    simp only [Option.isSome_none, Bool.false_eq_true, if_false]
    by_cases hx : pins.get 18 = "X"
    · have hne : pins.get 18 ≠ "/" := by rw [hx]; decide
      rw [if_pos hx, if_neg hne, if_pos (Or.inl hx), add64_eq _ _ (by omega) (by omega)]
    · by_cases hs : pins.get 18 = "/"
      · rw [if_neg hx, if_pos hs]
        omega
      · have : ¬ (pins.get 18 = "X" ∨ pins.get 18 = "/") := by
          rintro (h1 | h1)
          · exact hx h1
          · exact hs h1
        rw [if_neg hx, if_neg hs, if_neg this]
        omega

theorem tenthSecond_eq (pins : PinArr) (s1 : Int) (hv : ValOK pins)
    (hb : -2000000 ≤ s1 ∧ s1 ≤ 2000000) :
    tenthSecond pins s1 = s1 + tenthBall (pins.get 19) (pins.get 20) := by
  unfold tenthSecond tenthBall
  cases h : atoi (pins.get 19) with
  | some p =>
    have hp := hv _ _ h
    simp only [Option.isSome_some, if_true, numVal_some h]
    split
    · rw [add64_eq _ _ (by omega) (by omega)]
    · omega
  | none =>
    simp only [Option.isSome_none, Bool.false_eq_true, if_false]
    by_cases hx : pins.get 19 = "X"
    · rw [if_pos hx, if_pos (Or.inl hx), add64_eq _ _ (by omega) (by omega)]
    · by_cases hs : pins.get 19 = "/"
      · rw [if_neg hx, if_pos hs, if_pos (Or.inr hs), add64_eq _ _ (by omega) (by omega)]
      · have : ¬ (pins.get 19 = "X" ∨ pins.get 19 = "/") := by
          rintro (h1 | h1)
          · exact hx h1
          · exact hs h1
        rw [if_neg hx, if_neg hs, if_neg this]
        omega

theorem tenthThird_eq (pins : PinArr) (s2 : Int) (hv : ValOK pins)
    (hb : -3000000 ≤ s2 ∧ s2 ≤ 3000000) :
    tenthThird pins s2 = s2 + tenthBall (pins.get 20) "" := by
  unfold tenthThird tenthBall
  cases h : atoi (pins.get 20) with
  | some p =>
    have hp := hv _ _ h
    simp only [Option.isSome_some, if_true, numVal_some h]
    rw [if_pos (by decide), add64_eq _ _ (by omega) (by omega)]
  | none =>
    simp only [Option.isSome_none, Bool.false_eq_true, if_false]
    by_cases hx : pins.get 20 = "X"
    · rw [if_pos hx, if_pos (Or.inl hx), add64_eq _ _ (by omega) (by omega)]
    · by_cases hs : pins.get 20 = "/"
      · rw [if_neg hx, if_pos hs, if_pos (Or.inr hs), add64_eq _ _ (by omega) (by omega)]
      · have : ¬ (pins.get 20 = "X" ∨ pins.get 20 = "/") := by
          rintro (h1 | h1)
          · exact hx h1
          · exact hs h1
        rw [if_neg hx, if_neg hs, if_neg this]
        omega

theorem tenthValue_eq (pins : PinArr) (base : Int) (hv : ValOK pins)
    (hb : -1000000 ≤ base ∧ base ≤ 1000000) :
    tenthValue pins base = base + tenthDelta pins := by
  have r18 := tenthBall_range pins hv 18 (pins.get 19)
  have r19 := tenthBall_range pins hv 19 (pins.get 20)
  have b1 : -100 ≤ (if pins.get 18 = "/" then 0 else tenthBall (pins.get 18) (pins.get 19)) ∧
      (if pins.get 18 = "/" then 0 else tenthBall (pins.get 18) (pins.get 19)) ≤ 100 := by
    split <;> omega
  unfold tenthValue tenthDelta
  rw [tenthFirst_eq pins base hv hb, tenthSecond_eq pins _ hv (by omega),
    tenthThird_eq pins _ hv (by omega)]
  omega

/-! ## One frame of the scorer's loop -/

theorem atoi_X : atoi "X" = none := rfl

theorem atoi_G : atoi "G" = none := rfl

theorem atoi_F : atoi "F" = none := rfl

theorem atoi_yet : atoi "yet" = none := rfl

theorem atoi_slash : atoi "/" = none := rfl

theorem atoi_dash : atoi "-" = none := rfl

theorem scoreBody_strike (pins : PinArr) (times : Int) (i : Nat) (st : Nat × ScoreArr)
    (h18 : i < 17) (hev : i % 2 = 0) (hX : pins.get i = "X")
    (hla : pins.get (i + 3) ≠ "yet" ∨ pins.get (i + 4) ≠ "yet") :
    scoreBody pins times i st =
      some (st.1 + 1, st.2.set (st.1 + 1) (strikeValue pins i (st.1 + 1) (st.2.get st.1))) := by
  have hat : atoi (pins.get i) = none := by rw [hX]; rfl
  have hl : strikeLookahead pins i = some true := by
    unfold strikeLookahead
    by_cases h3 : pins.get (i + 3) ≠ "yet"
    · rw [if_pos h3]
    · have h4 : pins.get (i + 4) ≠ "yet" := by
        rcases hla with h | h
        · exact absurd h h3
        · exact h
      rw [if_neg h3, if_pos (by omega)]
      simp [h4]
  unfold scoreBody
  simp only [show i < 18 from by omega, hev, if_true, hX, atoi_X, hl, Nat.add_sub_cancel]

theorem scoreBody_first (pins : PinArr) (times : Int) (i : Nat) (st : Nat × ScoreArr)
    (h18 : i < 18) (hev : i % 2 = 0) (hf : FirstNX (pins.get i)) :
    scoreBody pins times i st = some (st.1 + 1, st.2) := by
  unfold scoreBody
  simp only [h18, hev, if_true]
  rcases hf with h | h | ⟨v, h, _⟩
  · simp only [h, atoi_G]
    simp
  · simp only [h, atoi_F]
    simp
  · simp only [h]
    simp

theorem scoreBody_yet (pins : PinArr) (times : Int) (i : Nat) (st : Nat × ScoreArr)
    (h18 : i < 18) (hodd : i % 2 = 1) (hy : pins.get i = "yet") :
    scoreBody pins times i st = some (st.1, st.2) := by
  have hat : atoi (pins.get i) = none := by rw [hy]; rfl
  have h2 : ¬ i % 2 = 0 := by omega
  unfold scoreBody
  simp only [h18, h2, if_true, if_false, hy, atoi_yet]
  simp

theorem scoreBody_slash (pins : PinArr) (times : Int) (i : Nat) (st : Nat × ScoreArr)
    (h18 : i < 18) (hodd : i % 2 = 1) (hs : pins.get i = "/")
    (hla : pins.get (i + 1) ≠ "yet") :
    scoreBody pins times i st =
      some (st.1, st.2.set st.1 (spareValue pins i (st.2.get (st.1 - 1)))) := by
  have hat : atoi (pins.get i) = none := by rw [hs]; rfl
  have h2 : ¬ i % 2 = 0 := by omega
  unfold scoreBody
  simp only [h18, h2, if_true, if_false, hs, atoi_slash]
  simp [hla]

theorem scoreBody_open (pins : PinArr) (times : Int) (i : Nat) (st : Nat × ScoreArr)
    (h18 : i < 18) (hodd : i % 2 = 1) (hv : ValOK pins)
    (hb : -1000000 ≤ st.2.get (st.1 - 1) ∧ st.2.get (st.1 - 1) ≤ 1000000)
    (ho : SecondOpen (pins.get (i - 1)) (pins.get i)) :
    scoreBody pins times i st =
      some (st.1, st.2.set st.1
        (st.2.get (st.1 - 1) + (numVal (pins.get (i - 1)) + numVal (pins.get i)))) := by
  have h2 : ¬ i % 2 = 0 := by omega
  have h3 : i % 2 ≠ 0 := h2
  have nprev := numVal_range pins hv (i - 1)
  unfold scoreBody
  simp only [h18, h2, if_true, if_false]
  rcases ho with h | h | ⟨w, ⟨h, hw1, hw2⟩, _⟩
  · have hat : atoi (pins.get i) = none := by rw [h]; rfl
    rw [numVal_none hat]
    simp only [h, atoi_dash, atoi_F]
    rw [if_neg (by decide), if_neg (by decide), if_pos (by decide), if_pos h3]
    cases hq : atoi (pins.get (i - 1)) with
    | some q =>
      rw [numVal_some hq] at nprev ⊢
      simp only []
      rw [add64_eq _ _ (by omega) (by omega)]
      simp
    | none =>
      rw [numVal_none hq]
      simp
  · have hat : atoi (pins.get i) = none := by rw [h]; rfl
    rw [numVal_none hat]
    simp only [h, atoi_dash, atoi_F]
    rw [if_neg (by decide), if_neg (by decide), if_pos (by decide), if_pos h3]
    cases hq : atoi (pins.get (i - 1)) with
    | some q =>
      rw [numVal_some hq] at nprev ⊢
      simp only []
      rw [add64_eq _ _ (by omega) (by omega)]
      simp
    | none =>
      rw [numVal_none hq]
      simp
  · rw [numVal_some h]
    simp only [h]
    rw [if_pos h3]
    cases hq : atoi (pins.get (i - 1)) with
    | some q =>
      rw [numVal_some hq] at nprev ⊢
      simp only []
      rw [add64_eq w q (by omega) (by omega), add64_eq _ _ (by omega) (by omega)]
      congr 3
      omega
    | none =>
      rw [numVal_none hq]
      simp only []
      rw [add64_eq _ _ (by omega) (by omega)]
      simp

theorem FirstNX.fnx_atoi_cases {s : String} (h : FirstNX s) :
    atoi s = none ∨ ∃ v, NumPin s v := by
  rcases h with h | h | h
  · left; rw [h]; rfl
  · left; rw [h]; rfl
  · right; exact h

theorem SecondOpen.so_atoi_cases {a s : String} (h : SecondOpen a s) :
    atoi s = none ∨ ∃ v, NumPin s v := by
  rcases h with h | h | ⟨v, h, _⟩
  · left; rw [h]; rfl
  · left; rw [h]; rfl
  · right; exact ⟨v, h⟩

theorem FrameDone.fd_atoi_cases {p : PinArr} {i : Nat} (h : FrameDone p i) :
    (atoi (p.get i) = none ∨ ∃ v, NumPin (p.get i) v) ∧
    (atoi (p.get (i + 1)) = none ∨ ∃ v, NumPin (p.get (i + 1)) v) := by
  rcases h with ⟨h1, h2⟩ | ⟨h1, h2 | h2⟩
  · exact ⟨Or.inl (by rw [h1]; rfl), Or.inl (by rw [h2]; rfl)⟩
  · exact ⟨h1.fnx_atoi_cases, Or.inl (by rw [h2]; rfl)⟩
  · exact ⟨h1.fnx_atoi_cases, h2.so_atoi_cases⟩

theorem TenthDone.td_atoi_cases {p : PinArr} (h : TenthDone p) :
    (atoi (p.get 18) = none ∨ ∃ v, NumPin (p.get 18) v) ∧
    (atoi (p.get 19) = none ∨ ∃ v, NumPin (p.get 19) v) ∧
    (atoi (p.get 20) = none ∨ ∃ v, NumPin (p.get 20) v) := by
  have hx : ∀ s, s = "X" → (atoi s = none ∨ ∃ v, NumPin s v) :=
    fun s e => Or.inl (by rw [e]; rfl)
  have hs : ∀ s, s = "/" → (atoi s = none ∨ ∃ v, NumPin s v) :=
    fun s e => Or.inl (by rw [e]; rfl)
  have hy : ∀ s, s = "yet" → (atoi s = none ∨ ∃ v, NumPin s v) :=
    fun s e => Or.inl (by rw [e]; rfl)
  rcases h with ⟨h1, h2, h3⟩ | ⟨h1, h2, h3 | h3⟩ | ⟨h1, h2, h3 | h3⟩ | ⟨h1, h2, h3 | h3⟩
  · exact ⟨h1.fnx_atoi_cases, h2.so_atoi_cases, hy _ h3⟩
  · exact ⟨hx _ h1, hx _ h2, hx _ h3⟩
  · exact ⟨hx _ h1, hx _ h2, h3.fnx_atoi_cases⟩
  · exact ⟨hx _ h1, h2.fnx_atoi_cases, hs _ h3⟩
  · exact ⟨hx _ h1, h2.fnx_atoi_cases, h3.so_atoi_cases⟩
  · exact ⟨h1.fnx_atoi_cases, hs _ h2, hx _ h3⟩
  · exact ⟨h1.fnx_atoi_cases, hs _ h2, h3.fnx_atoi_cases⟩

theorem get_out_of_range (p : PinArr) (k : Nat) (h : 21 ≤ k) : p.get k = "" := by
  have hl : p.1.length ≤ k := by rw [p.2]; exact h
  simp [PinArr.get, List.getD_eq_getElem?_getD, List.getElem?_eq_none hl]

/-- On complete pins every numeric slot holds 1 to 9. -/
theorem Complete.numeric {p : PinArr} (hc : Complete p) (k : Nat) (v : Int)
    (h : atoi (p.get k) = some v) : 1 ≤ v ∧ v ≤ 9 := by
  have key : atoi (p.get k) = none ∨ ∃ w, NumPin (p.get k) w := by
    by_cases hk : k < 18
    · have hd := (hc.1 (k / 2) (by omega)).fd_atoi_cases
      rcases Nat.mod_two_eq_zero_or_one k with h0 | h1
      · have e : 2 * (k / 2) = k := by omega
        rw [e] at hd
        exact hd.1
      · have e : 2 * (k / 2) + 1 = k := by omega
        rw [e] at hd
        exact hd.2
    · by_cases h21 : 21 ≤ k
      · left
        rw [get_out_of_range p k h21]
        rfl
      · have ht := hc.2.td_atoi_cases
        have : k = 18 ∨ k = 19 ∨ k = 20 := by omega
        rcases this with e | e | e <;> subst e
        · exact ht.1
        · exact ht.2.1
        · exact ht.2.2
  rcases key with hn | ⟨w, hw, h1, h2⟩
  · rw [hn] at h
    exact absurd h (by simp)
  · rw [hw] at h
    simp only [Option.some.injEq] at h
    subst h
    exact ⟨h1, h2⟩

theorem Complete.valOK {p : PinArr} (hc : Complete p) : ValOK p := by
  intro k v h
  have := hc.numeric k v h
  omega

theorem TenthDone.td_first_ne_yet {p : PinArr} (h : TenthDone p) : p.get 18 ≠ "yet" := by
  rcases h with ⟨h1, _⟩ | ⟨h1, _⟩ | ⟨h1, _⟩ | ⟨h1, _⟩
  · exact h1.fnx_ne_yet
  · rw [h1]; decide
  · rw [h1]; decide
  · exact h1.fnx_ne_yet

theorem TenthDone.second_ne_yet {p : PinArr} (h : TenthDone p) : p.get 19 ≠ "yet" := by
  rcases h with ⟨_, h1, _⟩ | ⟨_, h1, _⟩ | ⟨_, h1, _⟩ | ⟨_, h1, _⟩
  · exact h1.so_ne_yet
  · rw [h1]; decide
  · exact h1.fnx_ne_yet
  · rw [h1]; decide

theorem FrameDone.fd_first_ne_yet {p : PinArr} {i : Nat} (h : FrameDone p i) :
    p.get i ≠ "yet" := by
  rcases h with ⟨h1, _⟩ | ⟨h1, _⟩
  · rw [h1]; decide
  · exact h1.fnx_ne_yet

/-- The first slot of the frame after slot `i` (frame ten at slot 18) is thrown. -/
theorem Complete.next_first {p : PinArr} (hc : Complete p) (j : Nat) (hj : j ≤ 9) :
    p.get (2 * j) ≠ "yet" := by
  by_cases h9 : j < 9
  · exact (hc.1 j h9).fd_first_ne_yet
  · have e : j = 9 := by omega
    subst e
    exact hc.2.td_first_ne_yet

/-- On complete pins every frame has its bonus balls. -/
theorem Complete.lookOK {p : PinArr} (hc : Complete p) (j : Nat) (hj : j < 9) :
    LookOK p (2 * j) := by
  constructor
  · intro _
    by_cases h8 : j < 8
    · rcases hc.1 (j + 1) (by omega) with ⟨_, _⟩ | ⟨_, h2 | h2⟩
      · right
        have := hc.next_first (j + 2) (by omega)
        have e : 2 * (j + 2) = 2 * j + 4 := by omega
        rw [e] at this
        exact this
      · left
        have e : 2 * (j + 1) + 1 = 2 * j + 3 := by omega
        rw [e] at h2
        rw [h2]
        decide
      · left
        have e : 2 * (j + 1) + 1 = 2 * j + 3 := by omega
        rw [e] at h2
        exact h2.so_ne_yet
    · left
      have e : j = 8 := by omega
      subst e
      exact hc.2.second_ne_yet
  · intro _
    have := hc.next_first (j + 1) (by omega)
    have e : 2 * (j + 1) = 2 * j + 2 := by omega
    rw [e] at this
    exact this

theorem strikeDelta_crude (p : PinArr) (hv : ValOK p) (i f : Nat) :
    -300 ≤ strikeDelta p i f ∧ strikeDelta p i f ≤ 300 := by
  have n2 := numVal_range p hv (i + 2)
  have n3 := numVal_range p hv (i + 3)
  have p3 := pinVal_range p hv (i + 3)
  have p4 := pinVal_range p hv (i + 4)
  unfold strikeDelta
  split_ifs <;> omega

theorem frameDelta_crude (p : PinArr) (hv : ValOK p) (i : Nat) :
    -300 ≤ frameDelta p i ∧ frameDelta p i ≤ 300 := by
  have n0 := numVal_range p hv i
  have n1 := numVal_range p hv (i + 1)
  have p2 := pinVal_range p hv (i + 1 + 1)
  have hs := strikeDelta_crude p hv i (i / 2 + 1)
  unfold frameDelta spareDelta
  split_ifs <;> omega

/-- The two iterations of the scorer's loop over a complete frame write the
frame's cumulative score. -/
theorem frame_step (pins : PinArr) (times : Int) (j : Nat) (st : Nat × ScoreArr)
    (rest : List Nat) (hj : j < 9) (hf : st.1 = j) (hd : FrameDone pins (2 * j))
    (hla : LookOK pins (2 * j)) (hv : ValOK pins)
    (hb : -1000000 ≤ st.2.get j ∧ st.2.get j ≤ 1000000) :
    scoreLoop pins times (2 * j :: (2 * j + 1) :: rest) st =
      scoreLoop pins times rest
        (j + 1, st.2.set (j + 1) (st.2.get j + frameDelta pins (2 * j))) := by
  obtain ⟨f, s⟩ := st
  simp only at hf hb
  subst hf
  have e2 : 2 * f / 2 + 1 = f + 1 := by omega
  rcases hd with ⟨h1, h2⟩ | ⟨h1, h2 | h2⟩
  · have hb1 := scoreBody_strike pins times (2 * f) (f, s) (by omega) (by omega) h1 (hla.1 h1)
    rw [scoreLoop_cons pins times _ _ _ _ hb1]
    have hb2 := scoreBody_yet pins times (2 * f + 1)
      (f + 1, s.set (f + 1) (strikeValue pins (2 * f) (f + 1) (s.get f)))
      (by omega) (by omega) h2
    rw [scoreLoop_cons pins times _ _ _ _ hb2]
    simp only [strikeValue_eq pins (2 * f) (f + 1) (s.get f) hv hb, frameDelta, h1, if_true, e2]
  · have hb1 := scoreBody_first pins times (2 * f) (f, s) (by omega) (by omega) h1
    rw [scoreLoop_cons pins times _ _ _ _ hb1]
    have hb2 := scoreBody_slash pins times (2 * f + 1) (f + 1, s) (by omega) (by omega) h2
      (hla.2 h2)
    rw [scoreLoop_cons pins times _ _ _ _ hb2]
    simp only [Nat.add_sub_cancel, spareValue_eq pins (2 * f + 1) (s.get f) hv hb, frameDelta,
      if_neg h1.fnx_ne_X, h2, if_true]
  · have hb1 := scoreBody_first pins times (2 * f) (f, s) (by omega) (by omega) h1
    rw [scoreLoop_cons pins times _ _ _ _ hb1]
    have hb2 := scoreBody_open pins times (2 * f + 1) (f + 1, s) (by omega) (by omega) hv
      (by simpa using hb) (by simpa using h2)
    rw [scoreLoop_cons pins times _ _ _ _ hb2]
    simp only [Nat.add_sub_cancel, frameDelta, if_neg h1.fnx_ne_X, if_neg h2.so_ne_slash]

/-! ## The scorer on complete pins -/

theorem scoreBody_tenth (pins : PinArr) (i : Nat) (st : Nat × ScoreArr) (h18 : 18 ≤ i) :
    scoreBody pins 21 i st =
      some (frameAt i st.1,
        st.2.set (frameAt i st.1) (tenthValue pins (st.2.get (frameAt i st.1 - 1)))) := by
  have h : ¬ i < 18 := by omega
  unfold scoreBody frameAt
  simp only [h, if_false, if_true]

theorem tenth_loop (pins : PinArr) (st : Nat × ScoreArr) (hf : st.1 = 9) :
    ∃ st1, scoreLoop pins 21 [18, 19, 20] st = some st1 ∧ st1.1 = 10 ∧
      st1.2.get 10 = tenthValue pins (st.2.get 9) ∧ ∀ k, k ≤ 9 → st1.2.get k = st.2.get k := by
  obtain ⟨f, s⟩ := st
  simp only at hf
  subst hf
  rw [scoreLoop_cons pins 21 18 _ _ _ (scoreBody_tenth pins 18 _ (by omega)),
    scoreLoop_cons pins 21 19 _ _ _ (scoreBody_tenth pins 19 _ (by omega)),
    scoreLoop_cons pins 21 20 _ _ _ (scoreBody_tenth pins 20 _ (by omega))]
  refine ⟨_, rfl, rfl, ?_, ?_⟩
  · simp only [frameAt]
    norm_num
    rw [ScoreArr.sget_set_eq _ 10 _ (by omega), ScoreArr.sget_set_ne _ 10 9 _ (by omega),
      ScoreArr.sget_set_ne _ 10 9 _ (by omega)]
  · intro k hk
    simp only [frameAt]
    norm_num
    rw [ScoreArr.sget_set_ne _ 10 k _ (by omega), ScoreArr.sget_set_ne _ 10 k _ (by omega),
      ScoreArr.sget_set_ne _ 10 k _ (by omega)]

theorem frameSum_crude (p : PinArr) (hv : ValOK p) (k : Nat) :
    -300 * (k : Int) ≤ frameSum p k ∧ frameSum p k ≤ 300 * (k : Int) := by
  induction k with
  | zero => simp [frameSum]
  | succ k ih =>
    have := frameDelta_crude p hv (2 * k)
    simp only [frameSum]
    push_cast
    omega

theorem tenthDelta_crude (p : PinArr) (hv : ValOK p) :
    -300 ≤ tenthDelta p ∧ tenthDelta p ≤ 300 := by
  have r18 := tenthBall_range p hv 18 (p.get 19)
  have r19 := tenthBall_range p hv 19 (p.get 20)
  have r20 := tenthBall_range p hv 20 ""
  unfold tenthDelta
  split <;> omega

/-- The loop of the scorer from frame `j + 1` on, over complete pins with the
cursor at 21: every later entry of the scores is the sum of the frames before it. -/
theorem crux_aux (pins : PinArr) (hc : Complete pins) :
    ∀ (m j : Nat) (st : Nat × ScoreArr), j + m = 9 → st.1 = j →
      st.2.get j = frameSum pins j →
      ∃ st1, scoreLoop pins 21 (List.range' (2 * j) (21 - 2 * j)) st = some st1 ∧
        (∀ k, j ≤ k → k ≤ 9 → st1.2.get k = frameSum pins k) ∧
        st1.2.get 10 = totalScore pins := by
  have hv := hc.valOK
  intro m
  induction m with
  | zero =>
    intro j st hj hf hs
    have e : j = 9 := by omega
    subst e
    have hb := frameSum_crude pins hv 9
    obtain ⟨st1, h1, _, h3, h4⟩ := tenth_loop pins st hf
    refine ⟨st1, h1, ?_, ?_⟩
    · intro k hk1 hk2
      have e : k = 9 := by omega
      subst e
      rw [h4 9 (le_refl _), hs]
    · rw [h3, hs, tenthValue_eq pins _ hv (by omega)]
      rfl
  | succ m ih =>
    intro j st hj hf hs
    have hb := frameSum_crude pins hv j
    have hlist : List.range' (2 * j) (21 - 2 * j) =
        2 * j :: (2 * j + 1) :: List.range' (2 * (j + 1)) (21 - 2 * (j + 1)) := by
      have e : 21 - 2 * j = (21 - 2 * (j + 1)) + 1 + 1 := by omega
      have e2 : 2 * j + 1 + 1 = 2 * (j + 1) := by omega
      rw [e, List.range'_succ, List.range'_succ, e2]
    rw [hlist, frame_step pins 21 j st _ (by omega) hf (hc.1 j (by omega))
      (hc.lookOK j (by omega)) hv (by rw [hs]; omega)]
    have hnew : (st.2.set (j + 1) (st.2.get j + frameDelta pins (2 * j))).get (j + 1) =
        frameSum pins (j + 1) := by
      rw [ScoreArr.sget_set_eq _ _ _ (by omega), hs]
      rfl
    obtain ⟨st1, h1, h2, h3⟩ := ih (j + 1) (j + 1, _) (by omega) rfl hnew
    refine ⟨st1, h1, ?_, h3⟩
    intro k hk1 hk2
    by_cases e : k = j
    · subst e
      have htr := scoreLoop_track pins 21 (21 - 2 * (k + 1)) (2 * (k + 1)) _ st1 (by omega)
        (by simp only [frameBefore]; omega) h1
      have hk : k < frameBefore (2 * (k + 1)) := by
        simp only [frameBefore]
        omega
      have hne : (st.2.set (k + 1) (st.2.get k + frameDelta pins (2 * k))).get k = st.2.get k :=
        ScoreArr.sget_set_ne _ _ _ _ (by omega)
      exact ((htr.2 k (Or.inr hk)).trans hne).trans hs
    · exact h2 k (by omega) hk2

/-- On complete pins with the cursor at 21 and `Scores[0] = 0` the scorer returns
the cumulative sums of the frames, whatever the other stored scores are. -/
theorem score_complete (b : Bowl) (hc : Complete b.Pins) (ht : b.Times = 21)
    (h0 : b.Scores.get 0 = 0) :
    ∃ sc, score b = some sc ∧ (∀ k, k ≤ 9 → sc.get k = frameSum b.Pins k) ∧
      sc.get 10 = totalScore b.Pins := by
  obtain ⟨st1, h1, h2, h3⟩ := crux_aux b.Pins hc 9 0 (0, b.Scores) (by omega) rfl h0
  refine ⟨st1.2, ?_, fun k hk => h2 k (by omega) hk, h3⟩
  rw [score_eq_loop, ht]
  have e : List.range' (2 * 0) (21 - 2 * 0) = List.range' 0 21 := rfl
  rw [e] at h1
  rw [h1]
  rfl

/-! ## Frame ten -/

theorem LegalPlay.scored (now : String) (r : Bowl) (h : LegalPlay now r) (hne : r.Times ≠ 0) :
    ∃ b : Bowl, b.Scores.get 0 = 0 ∧
      score { b with Pins := r.Pins, Times := r.Times } = some r.Scores ∧
      maxScore { b with Pins := r.Pins, Times := r.Times, Scores := r.Scores } =
        some r.MaxScore := by
  cases h with
  | fresh => exact absurd rfl hne
  | step t hb _ ha =>
    obtain ⟨_, _, _, h1, h2⟩ := addScore_some _ _ t ha.1
    exact ⟨_, (LegalPlay.shape now _ hb).s0, h1, h2⟩

theorem Shape.complete (b : Bowl) (hs : Shape b) (h21 : b.Times = 21) : Complete b.Pins :=
  ⟨fun j hj => hs.done j hj (by omega), hs.t21 h21⟩

/-- At the end of a game of legal play the stored scores are the cumulative sums
of the frames. -/
theorem LegalPlay.final_scores (now : String) (r : Bowl) (h : LegalPlay now r)
    (h21 : r.Times = 21) :
    (∀ k, k ≤ 9 → r.Scores.get k = frameSum r.Pins k) ∧
      r.Scores.get 10 = totalScore r.Pins := by
  obtain ⟨b, hb0, hsc, _⟩ := LegalPlay.scored now r h (by omega)
  have hc := Shape.complete r (LegalPlay.shape now r h) h21
  obtain ⟨sc, h1, h2, h3⟩ :=
    score_complete { b with Pins := r.Pins, Times := r.Times } hc h21 hb0
  rw [hsc] at h1
  simp only [Option.some.injEq] at h1
  subst h1
  exact ⟨h2, h3⟩

theorem numVal_G : numVal "G" = 0 := rfl

theorem numVal_F : numVal "F" = 0 := rfl

theorem numVal_dash : numVal "-" = 0 := rfl

theorem numVal_yet : numVal "yet" = 0 := rfl

theorem tenthBall_X (next : String) : tenthBall "X" next = 10 := by
  simp [tenthBall, atoi_X]

theorem tenthBall_slash (next : String) : tenthBall "/" next = 10 := by
  simp [tenthBall, atoi_slash]

theorem tenthBall_yet (next : String) : tenthBall "yet" next = 0 := by
  simp [tenthBall, atoi_yet]

theorem tenthBall_first {s : String} (h : FirstNX s) (next : String) :
    tenthBall s next = if next = "/" then 0 else numVal s := by
  rcases h with h | h | ⟨v, h, _⟩
  · rw [h]
    simp [tenthBall, atoi_G, numVal_G]
  · rw [h]
    simp [tenthBall, atoi_F, numVal_F]
  · simp only [tenthBall, h, Option.isSome_some, if_true]
    by_cases hn : next = "/" <;> simp [hn]

theorem tenthBall_open {a s : String} (h : SecondOpen a s) (next : String) :
    tenthBall s next = if next = "/" then 0 else numVal s := by
  rcases h with h | h | ⟨v, ⟨h, _⟩, _⟩
  · rw [h]
    simp [tenthBall, atoi_dash, numVal_dash]
  · rw [h]
    simp [tenthBall, atoi_F, numVal_F]
  · simp only [tenthBall, h, Option.isSome_some, if_true]
    by_cases hn : next = "/" <;> simp [hn]

theorem face_X {p : PinArr} {i : Nat} (h : p.get i = "X") : face p i = 10 := by
  simp [face, h]

theorem face_slash {p : PinArr} {i : Nat} (h : p.get i = "/") :
    face p i = 10 - numVal (p.get (i - 1)) := by
  simp [face, h]

theorem face_other {p : PinArr} {i : Nat} (h1 : p.get i ≠ "X") (h2 : p.get i ≠ "/") :
    face p i = numVal (p.get i) := by
  simp [face, h1, h2]

/-- On a complete tenth frame the pins the scorer adds are the face values of
its balls. -/
theorem tenthDelta_faces (p : PinArr) (h : TenthDone p) :
    tenthDelta p = face p 18 + face p 19 + face p 20 := by
  have ne1 : ("yet" : String) ≠ "/" := by decide
  have ne2 : ("X" : String) ≠ "/" := by decide
  have ne3 : ("" : String) ≠ "/" := by decide
  unfold tenthDelta
  rcases h with ⟨h1, h2, h3⟩ | ⟨h1, h2, h3 | h3⟩ | ⟨h1, h2, h3 | h3⟩ | ⟨h1, h2, h3 | h3⟩
  · rw [if_neg h1.fnx_ne_slash, tenthBall_first h1, tenthBall_open h2, if_neg h2.so_ne_slash,
      face_other h1.fnx_ne_X h1.fnx_ne_slash, face_other h2.so_ne_X h2.so_ne_slash,
      face_other (by rw [h3]; decide) (by rw [h3]; decide), h3, if_neg ne1, tenthBall_yet,
      numVal_yet]
  · rw [face_X h1, face_X h2, face_X h3, h1, h2, h3, if_neg ne2, tenthBall_X, tenthBall_X]
  · rw [face_X h1, face_X h2, face_other h3.fnx_ne_X h3.fnx_ne_slash, tenthBall_first h3, h1, h2,
      if_neg ne2, tenthBall_X, tenthBall_X, if_neg ne3]
  · have e : p.get (20 - 1) = p.get 19 := rfl
    rw [face_X h1, face_other h2.fnx_ne_X h2.fnx_ne_slash, face_slash h3, tenthBall_first h2, h1, h3,
      if_neg ne2, tenthBall_X, tenthBall_slash, if_pos rfl, e]
    omega
  · rw [face_X h1, face_other h2.fnx_ne_X h2.fnx_ne_slash, face_other h3.so_ne_X h3.so_ne_slash,
      tenthBall_first h2, tenthBall_open h3, h1, if_neg ne2, tenthBall_X, if_neg h3.so_ne_slash,
      if_neg ne3]
  · have e : p.get (19 - 1) = p.get 18 := rfl
    rw [face_other h1.fnx_ne_X h1.fnx_ne_slash, face_slash h2, face_X h3, if_neg h1.fnx_ne_slash,
      tenthBall_first h1, h2, h3, tenthBall_slash, tenthBall_X, if_pos rfl, e]
    omega
  · have e : p.get (19 - 1) = p.get 18 := rfl
    rw [face_other h1.fnx_ne_X h1.fnx_ne_slash, face_slash h2, face_other h3.fnx_ne_X h3.fnx_ne_slash,
      if_neg h1.fnx_ne_slash, tenthBall_first h1, tenthBall_first h3, h2, tenthBall_slash,
      if_neg ne3, if_pos rfl, e]
    omega

/-- C7: on a record of legal play with the cursor at 21 the value of frame ten,
`Scores[10] - Scores[9]`, is the sum of the face values of the balls in slots
18 to 20 (strike 10, spare 10 minus the ball before it, "G", "-", "F" and a
pending slot 0, a digit its value). -/
theorem tenth_frame_value (now : String) (r : Bowl) (h : LegalPlay now r)
    (h21 : r.Times = 21) :
    r.Scores.get 10 - r.Scores.get 9 = face r.Pins 18 + face r.Pins 19 + face r.Pins 20 := by
  obtain ⟨h1, h2⟩ := LegalPlay.final_scores now r h h21
  rw [h2, h1 9 (le_refl _), ← tenthDelta_faces r.Pins ((LegalPlay.shape now r h).t21 h21)]
  unfold totalScore
  omega

theorem LegalPlay.of_play_fresh (now : String) (ts : List String) (r : Bowl)
    (h : play (initBowl now) ts = some r) : LegalPlay now r :=
  LegalPlay.run now ts _ r LegalPlay.fresh (LegalRun.of_play ts _ r h)

set_option maxRecDepth 100000 in
theorem demoTenthXXX_play :
    play (initBowl "ann") (List.replicate 18 "0" ++ ["X", "X", "X"]) = some demoTenthXXX := by
  decide

set_option maxRecDepth 100000 in
theorem demoTenthX53_play :
    play (initBowl "ann") (List.replicate 18 "0" ++ ["X", "5", "3"]) = some demoTenthX53 := by
  decide

set_option maxRecDepth 100000 in
theorem demoTenth43_play :
    play (initBowl "ann") (List.replicate 18 "0" ++ ["4", "3"]) = some demoTenth43 := by
  decide

set_option maxRecDepth 100000 in
/-- Witness of C7: frame ten strike, strike, strike gives 30 with three slots
used; strike, 5, 3 gives 18; 4, 3 gives 7 with slot 20 pending and the cursor at
21. -/
theorem tenth_frame_value_witness :
    (demoTenthXXX.Scores.get 10 - demoTenthXXX.Scores.get 9 = 30 ∧
      demoTenthXXX.Pins.get 20 = "X") ∧
    demoTenthX53.Scores.get 10 - demoTenthX53.Scores.get 9 = 18 ∧
    (demoTenth43.Scores.get 10 - demoTenth43.Scores.get 9 = 7 ∧
      demoTenth43.Pins.get 20 = "yet" ∧ demoTenth43.Times = 21) :=
  ⟨⟨(tenth_frame_value "ann" demoTenthXXX (LegalPlay.of_play_fresh _ _ _ demoTenthXXX_play)
        (by decide)).trans (by decide), by decide⟩,
    (tenth_frame_value "ann" demoTenthX53 (LegalPlay.of_play_fresh _ _ _ demoTenthX53_play)
      (by decide)).trans (by decide),
    (tenth_frame_value "ann" demoTenth43 (LegalPlay.of_play_fresh _ _ _ demoTenth43_play)
      (by decide)).trans (by decide), by decide, by decide⟩

/-! ## Values of complete frames -/

theorem pinVal_X : pinVal "X" = 10 := rfl

theorem FirstNX.fnx_vals {s : String} (h : FirstNX s) :
    pinVal s = numVal s ∧ 0 ≤ numVal s ∧ numVal s ≤ 9 := by
  rcases h with h | h | ⟨v, h, h1, h2⟩
  · rw [h]; decide
  · rw [h]; decide
  · rw [pinVal_some h, numVal_some h]
    exact ⟨rfl, by omega, h2⟩

theorem SecondOpen.so_vals {a s : String} (h : SecondOpen a s) :
    0 ≤ numVal s ∧ (0 ≤ numVal a → numVal a ≤ 9 → numVal a + numVal s ≤ 9) := by
  rcases h with h | h | ⟨v, ⟨h, h1, h2⟩, h3⟩
  · rw [h]
    exact ⟨by decide, fun _ h9 => by rw [numVal_dash]; omega⟩
  · rw [h]
    exact ⟨by decide, fun _ h9 => by rw [numVal_F]; omega⟩
  · rw [numVal_some h]
    exact ⟨by omega, fun _ _ => h3⟩

theorem frameDelta_open (p : PinArr) (i : Nat) (h1 : p.get i ≠ "X")
    (h2 : p.get (i + 1) ≠ "/") :
    frameDelta p i = numVal (p.get i) + numVal (p.get (i + 1)) := by
  simp only [frameDelta, if_neg h1, if_neg h2]

theorem frameDelta_spare (p : PinArr) (i : Nat) (h1 : p.get i ≠ "X")
    (h2 : p.get (i + 1) = "/") : frameDelta p i = 10 + pinVal (p.get (i + 2)) := by
  simp only [frameDelta, if_neg h1, h2, if_true, spareDelta]

theorem frameDelta_XX (p : PinArr) (i : Nat) (h1 : p.get i = "X") (h2 : p.get (i + 2) = "X") :
    frameDelta p i = 20 + pinVal (p.get (if i / 2 + 1 = 9 then i + 3 else i + 4)) := by
  simp only [frameDelta, h1, if_true, strikeDelta, h2, atoi_X, Option.isSome_none,
    Bool.false_eq_true, if_false]

theorem frameDelta_XN (p : PinArr) (i : Nat) (h1 : p.get i = "X")
    (h2 : FirstNX (p.get (i + 2))) :
    frameDelta p i =
      if p.get (i + 3) = "/" then 20 else 10 + numVal (p.get (i + 2)) + numVal (p.get (i + 3)) := by
  simp only [frameDelta, h1, if_true, strikeDelta]
  rcases h2 with h | h | ⟨v, h, _⟩
  · simp only [h, atoi_G, Option.isSome_none, Bool.false_eq_true, if_false, numVal_G]
    rw [if_neg (by decide)]
    split <;> omega
  · simp only [h, atoi_F, Option.isSome_none, Bool.false_eq_true, if_false, numVal_F]
    rw [if_neg (by decide)]
    split <;> omega
  · simp only [h, Option.isSome_some, if_true]

/-- The frame after frame `j + 1` on complete pins starts with a strike, or holds
a first ball and a second ball. -/
theorem Complete.after {p : PinArr} (hc : Complete p) (j : Nat) (hj : j < 9) :
    p.get (2 * j + 2) = "X" ∨
      (FirstNX (p.get (2 * j + 2)) ∧
        (p.get (2 * j + 3) = "/" ∨ SecondOpen (p.get (2 * j + 2)) (p.get (2 * j + 3)))) := by
  by_cases h8 : j < 8
  · have e : 2 * (j + 1) = 2 * j + 2 := by omega
    have e1 : 2 * j + 2 + 1 = 2 * j + 3 := by omega
    have := hc.1 (j + 1) (by omega)
    rw [e] at this
    rcases this with ⟨h1, _⟩ | ⟨h1, h2⟩
    · exact Or.inl h1
    · rw [e1] at h2
      exact Or.inr ⟨h1, h2⟩
  · have e : j = 8 := by omega
    subst e
    rcases hc.2 with ⟨h1, h2, _⟩ | ⟨h1, _⟩ | ⟨h1, _⟩ | ⟨h1, h2, _⟩
    · exact Or.inr ⟨h1, Or.inr h2⟩
    · exact Or.inl h1
    · exact Or.inl h1
    · exact Or.inr ⟨h1, Or.inl h2⟩

/-- After two strikes in a row the next ball on complete pins is a first ball. -/
theorem Complete.third {p : PinArr} (hc : Complete p) (j : Nat) (hj : j < 9)
    (hX : p.get (2 * j + 2) = "X") :
    p.get (if 2 * j / 2 + 1 = 9 then 2 * j + 3 else 2 * j + 4) = "X" ∨
      FirstNX (p.get (if 2 * j / 2 + 1 = 9 then 2 * j + 3 else 2 * j + 4)) := by
  by_cases h8 : j = 8
  · subst h8
    simp only [show 2 * 8 / 2 + 1 = 9 from rfl, if_true]
    rcases hc.2 with ⟨h1, _⟩ | ⟨_, h2, _⟩ | ⟨_, h2, _⟩ | ⟨h1, _⟩
    · exact absurd hX h1.fnx_ne_X
    · exact Or.inl h2
    · exact Or.inr h2
    · exact absurd hX h1.fnx_ne_X
  · have hne : ¬ 2 * j / 2 + 1 = 9 := by omega
    rw [if_neg hne]
    by_cases h7 : j = 7
    · subst h7
      rcases hc.2 with ⟨h1, _⟩ | ⟨h1, _⟩ | ⟨h1, _⟩ | ⟨h1, _⟩
      · exact Or.inr h1
      · exact Or.inl h1
      · exact Or.inl h1
      · exact Or.inr h1
    · have e : 2 * (j + 2) = 2 * j + 4 := by omega
      have := hc.1 (j + 2) (by omega)
      rw [e] at this
      rcases this with ⟨h1, _⟩ | ⟨h1, _⟩
      · exact Or.inl h1
      · exact Or.inr h1

theorem pinVal_first_le {s : String} (h : s = "X" ∨ FirstNX s) :
    0 ≤ pinVal s ∧ pinVal s ≤ 10 := by
  rcases h with h | h
  · rw [h]; decide
  · have := h.fnx_vals
    omega

/-- On complete pins a frame scores 0 to 30, at most 20 unless it is a strike
followed by a strike. -/
theorem Complete.frame_bounds {p : PinArr} (hc : Complete p) (j : Nat) (hj : j < 9) :
    0 ≤ frameDelta p (2 * j) ∧ frameDelta p (2 * j) ≤ 30 ∧
      (p.get (2 * j) ≠ "X" ∨ p.get (2 * j + 2) ≠ "X" → frameDelta p (2 * j) ≤ 20) := by
  have hafter := hc.after j hj
  rcases hc.1 j hj with ⟨h1, _⟩ | ⟨h1, h2 | h2⟩
  · rcases hafter with h3 | ⟨h3, h4⟩
    · rw [frameDelta_XX p _ h1 h3]
      have := pinVal_first_le (hc.third j hj h3)
      refine ⟨by omega, by omega, ?_⟩
      rintro (h | h)
      · exact absurd h1 h
      · exact absurd h3 h
    · rw [frameDelta_XN p _ h1 h3]
      have v1 := h3.fnx_vals
      rcases h4 with h4 | h4
      · rw [if_pos h4]
        exact ⟨by omega, by omega, fun _ => by omega⟩
      · rw [if_neg h4.so_ne_slash]
        have v2 := h4.so_vals
        have := v2.2 v1.2.1 v1.2.2
        exact ⟨by omega, by omega, fun _ => by omega⟩
  · rw [frameDelta_spare p _ h1.fnx_ne_X h2]
    have : 0 ≤ pinVal (p.get (2 * j + 2)) ∧ pinVal (p.get (2 * j + 2)) ≤ 10 := by
      rcases hafter with h3 | ⟨h3, _⟩
      · exact pinVal_first_le (Or.inl h3)
      · exact pinVal_first_le (Or.inr h3)
    exact ⟨by omega, by omega, fun _ => by omega⟩
  · rw [frameDelta_open p _ h1.fnx_ne_X h2.so_ne_slash]
    have v1 := h1.fnx_vals
    have v2 := h2.so_vals
    have := v2.2 v1.2.1 v1.2.2
    exact ⟨by omega, by omega, fun _ => by omega⟩

theorem face_first {p : PinArr} {i : Nat} (h : p.get i = "X" ∨ FirstNX (p.get i)) :
    0 ≤ face p i ∧ face p i ≤ 10 := by
  rcases h with h | h
  · rw [face_X h]; omega
  · rw [face_other h.fnx_ne_X h.fnx_ne_slash]
    have := h.fnx_vals
    omega

/-- A complete tenth frame scores 0 to 30, at most 20 unless it starts with two
strikes. -/
theorem TenthDone.td_bounds {p : PinArr} (h : TenthDone p) :
    0 ≤ tenthDelta p ∧ tenthDelta p ≤ 30 ∧
      (p.get 18 ≠ "X" ∨ p.get 19 ≠ "X" → tenthDelta p ≤ 20) := by
  rw [tenthDelta_faces p h]
  have e19 : p.get (19 - 1) = p.get 18 := rfl
  have e20 : p.get (20 - 1) = p.get 19 := rfl
  rcases h with ⟨h1, h2, h3⟩ | ⟨h1, h2, h3⟩ | ⟨h1, h2, h3 | h3⟩ | ⟨h1, h2, h3⟩
  · have v1 := h1.fnx_vals
    have v2 := h2.so_vals
    have := v2.2 v1.2.1 v1.2.2
    rw [face_other h1.fnx_ne_X h1.fnx_ne_slash, face_other h2.so_ne_X h2.so_ne_slash,
      face_other (by rw [h3]; decide) (by rw [h3]; decide), h3, numVal_yet]
    exact ⟨by omega, by omega, fun _ => by omega⟩
  · have := face_first h3
    rw [face_X h1, face_X h2]
    refine ⟨by omega, by omega, ?_⟩
    rintro (h | h)
    · exact absurd h1 h
    · exact absurd h2 h
  · have v2 := h2.fnx_vals
    rw [face_X h1, face_other h2.fnx_ne_X h2.fnx_ne_slash, face_slash h3, e20]
    exact ⟨by omega, by omega, fun _ => by omega⟩
  · have v2 := h2.fnx_vals
    have v3 := h3.so_vals
    have := v3.2 v2.2.1 v2.2.2
    rw [face_X h1, face_other h2.fnx_ne_X h2.fnx_ne_slash,
      face_other h3.so_ne_X h3.so_ne_slash]
    exact ⟨by omega, by omega, fun _ => by omega⟩
  · have v1 := h1.fnx_vals
    have := face_first h3
    rw [face_other h1.fnx_ne_X h1.fnx_ne_slash, face_slash h2, e19]
    exact ⟨by omega, by omega, fun _ => by omega⟩

/-! ## The best continuation of a record of legal play -/

theorem Shape.p17 {b : Bowl} (hs : Shape b) : b.Pins.get 17 ≠ "X" := by
  by_cases h : b.Times ≤ 17
  · rw [hs.yet 17 h (by decide)]
    decide
  · rcases hs.done 8 (by decide) (by omega) with ⟨_, h2⟩ | ⟨_, h2 | h2⟩
    · rw [show 2 * 8 + 1 = 17 from rfl] at h2
      rw [h2]; decide
    · rw [show 2 * 8 + 1 = 17 from rfl] at h2
      rw [h2]; decide
    · exact h2.so_ne_X

theorem legalTok_X : LegalTok "X" := by decide

theorem legalTok_slash : LegalTok "/" := by decide

/-- Writing at the cursor of a record of legal play changes the pins. -/
theorem Shape.set_ne {b : Bowl} (hs : Shape b) (n : Nat) (hn : b.Times = (n : Int))
    (h21 : n < 21) (v : String) (hv : v ≠ "yet") : b.Pins.set n v ≠ b.Pins := by
  intro e
  have h1 := PinArr.get_set_eq b.Pins n v h21
  rw [e, hs.yet n (by omega) h21] at h1
  exact hv h1.symm

/-- From a write of the recorder to the accepted call of `addScore`. -/
theorem Shape.accept_write {b : Bowl} (hs : Shape b) (n : Nat) (hn : b.Times = (n : Int))
    (h21 : n < 21) (t v : String) (c : Int) (hv : v ≠ "yet") (hvX : n = 17 → v ≠ "X")
    (h : addThrow b t = some (b.Pins.set n v, c)) (h0 : 0 ≤ c) :
    ∃ b1, Accepted b t b1 ∧ b1.Pins = b.Pins.set n v ∧ b1.Times = c := by
  have h17 : (b.Pins.set n v).get 17 ≠ "X" := by
    by_cases e : n = 17
    · subst e
      rw [PinArr.get_set_eq _ _ _ (by decide)]
      exact hvX rfl
    · rw [PinArr.get_set_ne _ _ _ _ e]
      exact hs.p17
  obtain ⟨b1, h1, h2, h3⟩ := addScore_isSome b t _ c h h0 h17
  exact ⟨b1, ⟨h1, by rw [h2]; exact hs.set_ne n hn h21 v hv⟩, h2, h3⟩

theorem fillHigh_X (p : PinArr) (i : Nat) (h : p.get (i - 1) = "X") :
    fillHigh p i = p.set i "X" := by
  simp only [fillHigh, h, if_true]

theorem fillHigh_slash (p : PinArr) (i : Nat) (h : p.get (i - 1) = "/") :
    fillHigh p i = p.set i "X" := by
  simp only [fillHigh, h, if_true, ite_self]

theorem fillHigh_other (p : PinArr) (i : Nat) (h1 : p.get (i - 1) ≠ "X")
    (h2 : p.get (i - 1) ≠ "/") : fillHigh p i = p.set i "/" := by
  simp only [fillHigh, if_neg h1, if_neg h2]

/-- The token that keeps the projection: at every cursor before the end one
legal token is accepted, moves the cursor on and leaves the scratch pins of
`maxScore` as they were. -/
theorem Shape.best_step {b : Bowl} (hs : Shape b) (ht : b.Times < 21) :
    ∃ t b1, LegalTok t ∧ Accepted b t b1 ∧ b.Times < b1.Times ∧ maxFill b1 = maxFill b := by
  obtain ⟨n, hn⟩ := Int.eq_ofNat_of_zero_le hs.lo
  have hn21 : n < 21 := by omega
  have htn : b.Times.toNat = n := by omega
  have h0 : 0 ≤ b.Times := hs.lo
  by_cases h17 : n ≤ 17
  · rcases Nat.mod_two_eq_zero_or_one n with hev | hodd
    · have hthrow : addThrow b "X" = some (b.Pins.set n "X", b.Times + 2) := by
        rw [addThrow_even b "X" (by omega) (by omega), strike_X, writeThrow_eq b _ _ h0 ht, htn]
      obtain ⟨b1, ha, hp, hc⟩ := hs.accept_write n hn hn21 "X" "X" _ (by decide)
        (by omega) hthrow (by omega)
      refine ⟨"X", b1, legalTok_X, ha, by omega, ?_⟩
      obtain ⟨q, hq, hg⟩ := maxFill_even b n hn (by omega) hev
      obtain ⟨q1, hq1, hg1⟩ := maxFill_even b1 (n + 2) (by rw [hc, hn]; rfl) (by omega)
        (by omega)
      rw [hq, hq1]
      congr 1
      apply PinArr.ext_get
      intro i hi
      rw [hg i, hg1 i, hp, PinArr.get_set _ _ _ _ hn21]
      by_cases e : i = n
      · subst e
        rw [if_neg (by omega), if_pos rfl, if_pos ⟨le_refl _, hi, Or.inr hev⟩]
      · rw [if_neg e]
        by_cases c : n + 2 ≤ i ∧ i < 21 ∧ (17 < i ∨ i % 2 = 0)
        · rw [if_pos c, if_pos ⟨by omega, c.2⟩]
        · rw [if_neg c, if_neg (by omega)]
    · have hthrow : addThrow b "/" = some (b.Pins.set n "/", b.Times + 1) := by
        rw [addThrow_odd b "/" (by omega) (by omega), spare_slash, writeThrow_eq b _ _ h0 ht,
          htn]
      obtain ⟨b1, ha, hp, hc⟩ := hs.accept_write n hn hn21 "/" "/" _ (by decide)
        (fun _ => by decide) hthrow (by omega)
      refine ⟨"/", b1, legalTok_slash, ha, by omega, ?_⟩
      obtain ⟨q, hq, hg⟩ := maxFill_odd b n hn (by omega) hodd
      obtain ⟨q1, hq1, hg1⟩ := maxFill_even b1 (n + 1) (by rw [hc, hn]; rfl) (by omega)
        (by omega)
      rw [hq, hq1]
      congr 1
      apply PinArr.ext_get
      intro i hi
      rw [hg i, hg1 i, hp, PinArr.get_set _ _ _ _ hn21]
  · by_cases h18 : n = 18
    · subst h18
      have hthrow : addThrow b "X" = some (b.Pins.set 18 "X", 19) := by
        rw [addThrow_18 b "X" hn, strike_X, writeThrow_eq b _ _ h0 ht, htn]
        simp only [Option.map_some', PinArr.get_set_eq _ 18 "X" (by decide), if_true, hn]
        rfl
      obtain ⟨b1, ha, hp, hc⟩ := hs.accept_write 18 hn hn21 "X" "X" _ (by decide)
        (by omega) hthrow (by omega)
      refine ⟨"X", b1, legalTok_X, ha, by omega, ?_⟩
      obtain ⟨q, hq, hg⟩ := maxFill_even b 18 hn (by omega) (by decide)
      rw [hq, maxFill_19 b1 hc, hp]
      congr 1
      have e1 : fillHigh (b.Pins.set 18 "X") 19 = (b.Pins.set 18 "X").set 19 "X" :=
        fillHigh_X _ 19 (PinArr.get_set_eq _ 18 "X" (by decide))
      have e2 : fillHigh ((b.Pins.set 18 "X").set 19 "X") 20 =
          ((b.Pins.set 18 "X").set 19 "X").set 20 "X" :=
        fillHigh_X _ 20 (PinArr.get_set_eq _ 19 "X" (by decide))
      rw [e1, e2]
      apply PinArr.ext_get
      intro i hi
      rw [hg i, PinArr.get_set _ _ _ _ (by decide), PinArr.get_set _ _ _ _ (by decide),
        PinArr.get_set _ _ _ _ (by decide)]
      by_cases c : 18 ≤ i
      · have c1 : 18 ≤ i ∧ i < 21 ∧ (17 < i ∨ i % 2 = 0) := ⟨c, hi, Or.inl (by omega)⟩
        rw [if_pos c1]
        have : i = 18 ∨ i = 19 ∨ i = 20 := by omega
        rcases this with e | e | e <;> subst e <;> rfl
      · have c1 : ¬ (18 ≤ i ∧ i < 21 ∧ (17 < i ∨ i % 2 = 0)) := fun h => c h.1
        rw [if_neg c1, if_neg (by omega), if_neg (by omega), if_neg (by omega)]
    · by_cases h19 : n = 19
      · subst h19
        by_cases hx : b.Pins.get 18 = "X"
        · have hthrow : addThrow b "X" = some (b.Pins.set 19 "X", 20) := by
            rw [addThrow_19_strike b "X" hn hx, strike_X, writeThrow_eq b _ _ h0 ht, htn]
            simp only [Option.map_some', PinArr.get_set_eq _ 19 "X" (by decide), if_true, hn]
            rfl
          obtain ⟨b1, ha, hp, hc⟩ := hs.accept_write 19 hn hn21 "X" "X" _ (by decide)
            (by omega) hthrow (by omega)
          refine ⟨"X", b1, legalTok_X, ha, by omega, ?_⟩
          rw [maxFill_19 b hn, maxFill_20 b1 hc, hp, fillHigh_X b.Pins 19 hx]
        · have hnx : b.Pins.get 18 ≠ "/" := by
            rcases hs.t19 hn with h | h
            · exact absurd h hx
            · exact h.fnx_ne_slash
          have hthrow : addThrow b "/" = some (b.Pins.set 19 "/", 20) := by
            rw [addThrow_19_spare b "/" hn hx, spare_slash, writeThrow_eq b _ _ h0 ht, htn]
            simp only [Option.map_some', PinArr.get_set_eq _ 19 "/" (by decide), hn]
            rfl
          obtain ⟨b1, ha, hp, hc⟩ := hs.accept_write 19 hn hn21 "/" "/" _ (by decide)
            (by omega) hthrow (by omega)
          refine ⟨"/", b1, legalTok_slash, ha, by omega, ?_⟩
          rw [maxFill_19 b hn, maxFill_20 b1 hc, hp, fillHigh_other b.Pins 19 hx hnx]
      · have h20 : n = 20 := by omega
        subst h20
        by_cases hx : b.Pins.get 19 = "X" ∨ b.Pins.get 19 = "/"
        · have hthrow : addThrow b "X" = some (b.Pins.set 20 "X", 21) := by
            rw [addThrow_20_strike b "X" hn hx, strike_X, writeThrow_eq b _ _ h0 ht, htn]
            simp only [Option.map_some', PinArr.get_set_eq _ 20 "X" (by decide)]
            rfl
          obtain ⟨b1, ha, hp, hc⟩ := hs.accept_write 20 hn hn21 "X" "X" _ (by decide)
            (by omega) hthrow (by omega)
          refine ⟨"X", b1, legalTok_X, ha, by omega, ?_⟩
          rw [maxFill_20 b hn, maxFill_21 b1 (by omega), hp]
          rcases hx with hx | hx
          · rw [fillHigh_X b.Pins 20 hx]
          · rw [fillHigh_slash b.Pins 20 hx]
        · have hthrow : addThrow b "/" = some (b.Pins.set 20 "/", 21) := by
            rw [addThrow_20_spare b "/" hn hx, spare_slash, writeThrow_eq b _ _ h0 ht, htn]
            simp only [Option.map_some', PinArr.get_set_eq _ 20 "/" (by decide)]
            rfl
          obtain ⟨b1, ha, hp, hc⟩ := hs.accept_write 20 hn hn21 "/" "/" _ (by decide)
            (by omega) hthrow (by omega)
          refine ⟨"/", b1, legalTok_slash, ha, by omega, ?_⟩
          push_neg at hx
          rw [maxFill_20 b hn, maxFill_21 b1 (by omega), hp, fillHigh_other b.Pins 20 hx.1 hx.2]

/-- Every unfinished record of legal play has a legal continuation to the end of
the game whose pins are the scratch pins of `maxScore`. -/
theorem LegalPlay.best_run (now : String) :
    ∀ (k : Nat) (b : Bowl), LegalPlay now b → 21 - b.Times ≤ (k : Int) →
      ∃ ts b1, LegalRun b ts b1 ∧ b1.Times = 21 ∧ maxFill b = some b1.Pins := by
  intro k
  induction k with
  | zero =>
    intro b hb hk
    have hs := LegalPlay.shape now b hb
    have := hs.hi
    exact ⟨[], b, LegalRun.nil b, by omega, maxFill_21 b (by omega)⟩
  | succ k ih =>
    intro b hb hk
    have hs := LegalPlay.shape now b hb
    by_cases h21 : b.Times = 21
    · exact ⟨[], b, LegalRun.nil b, h21, maxFill_21 b (by omega)⟩
    · have hhi := hs.hi
      obtain ⟨t, b1, ht, ha, hlt, hfill⟩ := hs.best_step (by omega)
      obtain ⟨ts, b2, hr, h2, hq⟩ := ih b1 (LegalPlay.step t hb ht ha) (by push_cast at hk; omega)
      exact ⟨t :: ts, b2, LegalRun.cons t ts ht ha hr, h2, by rw [← hfill, hq]⟩

/-- The stored projection of a record of legal play is the total of the scratch
pins of `maxScore`, which are complete. -/
theorem LegalPlay.maxScore_eq (now : String) (r : Bowl) (h : LegalPlay now r) :
    ∃ q, maxFill r = some q ∧ Complete q ∧ r.MaxScore = totalScore q := by
  have hs := LegalPlay.shape now r h
  obtain ⟨k, hk⟩ := Int.eq_ofNat_of_zero_le (show (0 : Int) ≤ 21 - r.Times by have := hs.hi; omega)
  obtain ⟨ts, r1, hr, h21, hq⟩ := LegalPlay.best_run now k r h (by omega)
  have hc : Complete r1.Pins :=
    Shape.complete r1 (LegalPlay.shape now r1 (LegalPlay.run now ts r r1 h hr)) h21
  refine ⟨r1.Pins, hq, hc, ?_⟩
  cases h with
  | fresh =>
    have hm : maxScore (rename (initBowl "") now) = some 300 :=
      (maxScore_rename (initBowl "") now).trans maxScore_fresh
    have hm1 : maxScore (initBowl now) = some 300 := hm
    obtain ⟨sc, h1, _, h3⟩ :=
      score_complete { initBowl now with Pins := r1.Pins, Times := 21 } hc rfl rfl
    simp only [maxScore, hq, h1, Option.some.injEq] at hm1
    rw [← h3, hm1]
    rfl
  | @step b _ t hb _ ha =>
    obtain ⟨_, _, _, _, h2⟩ := addScore_some b r t ha.1
    have hq1 : maxFill { b with Pins := r.Pins, Times := r.Times, Scores := r.Scores } =
        some r1.Pins := hq
    obtain ⟨sc, h1, _, h3⟩ :=
      score_complete { b with Pins := r1.Pins, Times := 21, Scores := r.Scores } hc rfl hs.s0
    simp only [maxScore, hq1] at h2
    rw [h1] at h2
    simp only [Option.some.injEq] at h2
    rw [← h2, h3]

/-! ## No continuation beats the projection -/

/-- A run of legal play leaves the slots before the cursor as they are and does
not move the cursor back. -/
theorem LegalRun.keeps (ts : List String) :
    ∀ b b1 : Bowl, Shape b → LegalRun b ts b1 →
      b.Times ≤ b1.Times ∧ ∀ i : Nat, (i : Int) < b.Times → b1.Pins.get i = b.Pins.get i := by
  induction ts with
  | nil =>
    intro b b1 _ h
    cases h
    exact ⟨le_refl _, fun _ _ => rfl⟩
  | cons t ts ih =>
    intro b b2 hs h
    cases h with
    | @cons _ b1 _ _ _ ht ha hr =>
      obtain ⟨hs1, n, hn, h21, v, hp, ho⟩ := Shape.step b b1 t hs ht ha
      obtain ⟨hle, hkeep⟩ := ih b1 b2 hs1 hr
      have hlt : b.Times < b1.Times := by
        unfold ThrowOutcome at ho
        omega
      refine ⟨by omega, fun i hi => ?_⟩
      rw [hkeep i (by omega), hp]
      exact PinArr.get_set_ne _ _ _ _ (by omega)

theorem frameSum_mono (p q : PinArr) (k : Nat)
    (h : ∀ j, j < k → frameDelta p (2 * j) ≤ frameDelta q (2 * j)) :
    frameSum p k ≤ frameSum q k := by
  induction k with
  | zero => exact le_refl _
  | succ k ih =>
    have h1 := ih (fun j hj => h j (by omega))
    have h2 := h k (by omega)
    simp only [frameSum]
    omega

/-- A strike followed by strikes scores 30. -/
theorem frameDelta_strikes (q : PinArr) (j : Nat) (h0 : q.get (2 * j) = "X")
    (h2 : q.get (2 * j + 2) = "X")
    (h3 : q.get (if 2 * j / 2 + 1 = 9 then 2 * j + 3 else 2 * j + 4) = "X") :
    frameDelta q (2 * j) = 30 := by
  rw [frameDelta_XX q _ h0 h2, h3]
  rfl

/-- With the cursor at slot 18 or before, no complete game that extends the
record scores more in a frame than the pins filled with strikes (and a spare
for a frame in progress). -/
theorem Shape.low_frame {r : Bowl} (hs : Shape r) (t : Nat) (ht : r.Times = (t : Int))
    (h18 : t ≤ 18) (q p : PinArr) (hc : Complete p)
    (Q1 : ∀ s, t ≤ s → s ≤ 18 → s % 2 = 0 → q.get s = "X")
    (Q2 : q.get 19 = "X")
    (Q3 : t % 2 = 1 → q.get t = "/")
    (Q4 : ∀ s, s < t → q.get s = r.Pins.get s)
    (hag : ∀ s, s < t → p.get s = r.Pins.get s)
    (j : Nat) (hj : j < 9) : frameDelta p (2 * j) ≤ frameDelta q (2 * j) := by
  obtain ⟨_, hb30, hb20⟩ := hc.frame_bounds j hj
  have third : t ≤ 2 * j + 2 →
      q.get (if 2 * j / 2 + 1 = 9 then 2 * j + 3 else 2 * j + 4) = "X" := by
    intro hle
    by_cases e : j = 8
    · subst e
      exact Q2
    · rw [if_neg (by omega)]
      exact Q1 _ (by omega) (by omega) (by omega)
  by_cases c1 : t ≤ 2 * j
  · rw [frameDelta_strikes q j (Q1 _ c1 (by omega) (by omega))
      (Q1 _ (by omega) (by omega) (by omega)) (third (by omega))]
    exact hb30
  by_cases c2 : t = 2 * j + 1
  · have hf := hs.half j hj (by omega)
    have e0 : q.get (2 * j) = r.Pins.get (2 * j) := Q4 _ (by omega)
    have e1 : q.get (2 * j + 1) = "/" := by
      rw [← c2]
      exact Q3 (by omega)
    rw [frameDelta_spare q _ (by rw [e0]; exact hf.fnx_ne_X) e1,
      Q1 (2 * j + 2) (by omega) (by omega) (by omega)]
    exact hb20 (Or.inl (by rw [hag _ (by omega)]; exact hf.fnx_ne_X))
  have hd := hs.done j hj (by omega)
  have q0 : q.get (2 * j) = r.Pins.get (2 * j) := Q4 _ (by omega)
  have q1 : q.get (2 * j + 1) = r.Pins.get (2 * j + 1) := Q4 _ (by omega)
  have p0 : p.get (2 * j) = r.Pins.get (2 * j) := hag _ (by omega)
  have p1 : p.get (2 * j + 1) = r.Pins.get (2 * j + 1) := hag _ (by omega)
  rcases hd with ⟨hX, _⟩ | ⟨hF, hsl | hso⟩
  · by_cases d1 : t = 2 * j + 2
    · rw [frameDelta_strikes q j (by rw [q0]; exact hX)
        (Q1 _ (by omega) (by omega) (by omega)) (third (by omega))]
      exact hb30
    by_cases d2 : t = 2 * j + 3
    · have hf := hs.half (j + 1) (by omega) (by push_cast; omega)
      have e : 2 * (j + 1) = 2 * j + 2 := by omega
      rw [e] at hf
      have e2 : q.get (2 * j + 2) = r.Pins.get (2 * j + 2) := Q4 _ (by omega)
      have e3 : q.get (2 * j + 3) = "/" := by
        rw [← d2]
        exact Q3 (by omega)
      rw [frameDelta_XN q _ (by rw [q0]; exact hX) (by rw [e2]; exact hf), if_pos e3]
      exact hb20 (Or.inr (by rw [hag _ (by omega)]; exact hf.fnx_ne_X))
    have hd2 := hs.done (j + 1) (by omega) (by push_cast; omega)
    have e : 2 * (j + 1) = 2 * j + 2 := by omega
    rw [e] at hd2
    have q2 : q.get (2 * j + 2) = r.Pins.get (2 * j + 2) := Q4 _ (by omega)
    have q3 : q.get (2 * j + 3) = r.Pins.get (2 * j + 3) := Q4 _ (by omega)
    have p2 : p.get (2 * j + 2) = r.Pins.get (2 * j + 2) := hag _ (by omega)
    have p3 : p.get (2 * j + 3) = r.Pins.get (2 * j + 3) := hag _ (by omega)
    rcases hd2 with ⟨hX2, _⟩ | ⟨hF2, _⟩
    · by_cases d3 : t = 2 * j + 4
      · rw [frameDelta_strikes q j (by rw [q0]; exact hX) (by rw [q2]; exact hX2)
          (by rw [if_neg (by omega)]; exact Q1 _ (by omega) (by omega) (by omega))]
        exact hb30
      · rw [frameDelta_XX q _ (by rw [q0]; exact hX) (by rw [q2]; exact hX2),
          frameDelta_XX p _ (by rw [p0]; exact hX) (by rw [p2]; exact hX2),
          if_neg (by omega), Q4 _ (by omega), hag _ (by omega)]
    · rw [frameDelta_XN q _ (by rw [q0]; exact hX) (by rw [q2]; exact hF2),
        frameDelta_XN p _ (by rw [p0]; exact hX) (by rw [p2]; exact hF2), q2, q3, p2, p3]
  · by_cases d1 : t = 2 * j + 2
    · rw [frameDelta_spare q _ (by rw [q0]; exact hF.fnx_ne_X) (by rw [q1]; exact hsl),
        Q1 (2 * j + 2) (by omega) (by omega) (by omega)]
      exact hb20 (Or.inl (by rw [p0]; exact hF.fnx_ne_X))
    · rw [frameDelta_spare q _ (by rw [q0]; exact hF.fnx_ne_X) (by rw [q1]; exact hsl),
        frameDelta_spare p _ (by rw [p0]; exact hF.fnx_ne_X) (by rw [p1]; exact hsl),
        Q4 _ (by omega), hag _ (by omega)]
  · rw [frameDelta_open q _ (by rw [q0]; exact hF.fnx_ne_X) (by rw [q1]; exact hso.so_ne_slash),
      frameDelta_open p _ (by rw [p0]; exact hF.fnx_ne_X) (by rw [p1]; exact hso.so_ne_slash),
      q0, q1, p0, p1]

/-- With the cursor in the tenth frame, no complete game that extends the record
scores more in a frame than pins that agree with it up to slot 18 and hold the
best second ball of the tenth frame. -/
theorem Shape.high_frame {r : Bowl} (hs : Shape r) (h19 : 19 ≤ r.Times) (q p : PinArr)
    (hc : Complete p)
    (Q4 : ∀ s, s ≤ 18 → q.get s = r.Pins.get s)
    (hag : ∀ s, s ≤ 18 → p.get s = r.Pins.get s)
    (QX : r.Pins.get 18 = "X" → q.get 19 = "X" ∨ q.get 19 = p.get 19)
    (QS : r.Pins.get 18 ≠ "X" → q.get 19 = "/" ∨ q.get 19 = p.get 19)
    (j : Nat) (hj : j < 9) : frameDelta p (2 * j) ≤ frameDelta q (2 * j) := by
  obtain ⟨_, hb30, hb20⟩ := hc.frame_bounds j hj
  have hd := hs.done j hj (by omega)
  have q0 : q.get (2 * j) = r.Pins.get (2 * j) := Q4 _ (by omega)
  have q1 : q.get (2 * j + 1) = r.Pins.get (2 * j + 1) := Q4 _ (by omega)
  have q2 : q.get (2 * j + 2) = r.Pins.get (2 * j + 2) := Q4 _ (by omega)
  have p0 : p.get (2 * j) = r.Pins.get (2 * j) := hag _ (by omega)
  have p1 : p.get (2 * j + 1) = r.Pins.get (2 * j + 1) := hag _ (by omega)
  have p2 : p.get (2 * j + 2) = r.Pins.get (2 * j + 2) := hag _ (by omega)
  rcases hd with ⟨hX, _⟩ | ⟨hF, hsl | hso⟩
  · rcases hc.after j hj with hX2 | ⟨hF2, _⟩
    · rw [p2] at hX2
      by_cases e : j = 8
      · subst e
        rcases QX hX2 with h | h
        · rw [frameDelta_strikes q 8 (by rw [q0]; exact hX) (by rw [q2]; exact hX2) h]
          exact hb30
        · rw [frameDelta_XX q _ (by rw [q0]; exact hX) (by rw [q2]; exact hX2),
            frameDelta_XX p _ (by rw [p0]; exact hX) (by rw [p2]; exact hX2)]
          have e1 : q.get (if 2 * 8 / 2 + 1 = 9 then 2 * 8 + 3 else 2 * 8 + 4) = q.get 19 := rfl
          have e2 : p.get (if 2 * 8 / 2 + 1 = 9 then 2 * 8 + 3 else 2 * 8 + 4) = p.get 19 := rfl
          rw [e1, e2, h]
      · rw [frameDelta_XX q _ (by rw [q0]; exact hX) (by rw [q2]; exact hX2),
          frameDelta_XX p _ (by rw [p0]; exact hX) (by rw [p2]; exact hX2),
          if_neg (by omega), Q4 _ (by omega), hag _ (by omega)]
    · rw [p2] at hF2
      by_cases e : j = 8
      · subst e
        rcases QS hF2.fnx_ne_X with h | h
        · rw [frameDelta_XN q _ (by rw [q0]; exact hX) (by rw [q2]; exact hF2), if_pos h]
          exact hb20 (Or.inr (by rw [p2]; exact hF2.fnx_ne_X))
        · have e1 : q.get (2 * 8 + 3) = q.get 19 := rfl
          have e2 : p.get (2 * 8 + 3) = p.get 19 := rfl
          rw [frameDelta_XN q _ (by rw [q0]; exact hX) (by rw [q2]; exact hF2),
            frameDelta_XN p _ (by rw [p0]; exact hX) (by rw [p2]; exact hF2), q2, p2, e1, e2, h]
      · rw [frameDelta_XN q _ (by rw [q0]; exact hX) (by rw [q2]; exact hF2),
          frameDelta_XN p _ (by rw [p0]; exact hX) (by rw [p2]; exact hF2), q2, p2,
          Q4 _ (by omega), hag _ (by omega)]
  · rw [frameDelta_spare q _ (by rw [q0]; exact hF.fnx_ne_X) (by rw [q1]; exact hsl),
      frameDelta_spare p _ (by rw [p0]; exact hF.fnx_ne_X) (by rw [p1]; exact hsl), q2, p2]
  · rw [frameDelta_open q _ (by rw [q0]; exact hF.fnx_ne_X) (by rw [q1]; exact hso.so_ne_slash),
      frameDelta_open p _ (by rw [p0]; exact hF.fnx_ne_X) (by rw [p1]; exact hso.so_ne_slash),
      q0, q1, p0, p1]

theorem tenthDelta_XXX (q : PinArr) (h18 : q.get 18 = "X") (h19 : q.get 19 = "X")
    (h20 : q.get 20 = "X") : tenthDelta q = 30 := by
  rw [tenthDelta_faces q (Or.inr (Or.inl ⟨h18, h19, Or.inl h20⟩)), face_X h18, face_X h19,
    face_X h20]
  rfl

theorem tenthDelta_spare_X (q : PinArr) (h18 : FirstNX (q.get 18)) (h19 : q.get 19 = "/")
    (h20 : q.get 20 = "X") : tenthDelta q = 20 := by
  have e : q.get (19 - 1) = q.get 18 := rfl
  rw [tenthDelta_faces q (Or.inr (Or.inr (Or.inr ⟨h18, h19, Or.inl h20⟩))),
    face_other h18.fnx_ne_X h18.fnx_ne_slash, face_slash h19, face_X h20, e]
  omega

theorem tenthDelta_X_spare (q : PinArr) (h18 : q.get 18 = "X") (h19 : FirstNX (q.get 19))
    (h20 : q.get 20 = "/") : tenthDelta q = 20 := by
  have e : q.get (20 - 1) = q.get 19 := rfl
  rw [tenthDelta_faces q (Or.inr (Or.inr (Or.inl ⟨h18, h19, Or.inl h20⟩))),
    face_X h18, face_other h19.fnx_ne_X h19.fnx_ne_slash, face_slash h20, e]
  omega

/-- No complete game that extends an unfinished record of legal play totals more
than the scratch pins of `maxScore`. -/
theorem Shape.fill_dominates {r : Bowl} (hs : Shape r) (ht : r.Times < 21) (q : PinArr)
    (hq : maxFill r = some q) (p : PinArr) (hc : Complete p)
    (hag : ∀ s : Nat, (s : Int) < r.Times → p.get s = r.Pins.get s) :
    totalScore p ≤ totalScore q := by
  obtain ⟨n, hn⟩ := Int.eq_ofNat_of_zero_le hs.lo
  obtain ⟨_, ht30, ht20⟩ := hc.2.td_bounds
  have hag1 : ∀ s, s < n → p.get s = r.Pins.get s := fun s h => hag s (by omega)
  unfold totalScore
  by_cases h18 : n ≤ 18
  · have key : (∀ s, n ≤ s → s ≤ 18 → s % 2 = 0 → q.get s = "X") ∧ q.get 19 = "X" ∧
        q.get 20 = "X" ∧ (n % 2 = 1 → q.get n = "/") ∧
        (∀ s, s < n → q.get s = r.Pins.get s) := by
      rcases Nat.mod_two_eq_zero_or_one n with hev | hodd
      · obtain ⟨q1, hq1, hg⟩ := maxFill_even r n hn (by omega) hev
        rw [hq] at hq1
        simp only [Option.some.injEq] at hq1
        subst hq1
        refine ⟨fun s h1 h2 h3 => ?_, ?_, ?_, fun h => by omega, fun s h => ?_⟩
        · rw [hg s, if_pos ⟨h1, by omega, Or.inr h3⟩]
        · rw [hg 19, if_pos ⟨by omega, by decide, Or.inl (by decide)⟩]
        · rw [hg 20, if_pos ⟨by omega, by decide, Or.inl (by decide)⟩]
        · rw [hg s, if_neg (by omega)]
      · obtain ⟨q1, hq1, hg⟩ := maxFill_odd r n hn (by omega) hodd
        rw [hq] at hq1
        simp only [Option.some.injEq] at hq1
        subst hq1
        refine ⟨fun s h1 h2 h3 => ?_, ?_, ?_, fun _ => ?_, fun s h => ?_⟩
        · rw [hg s, if_pos ⟨by omega, by omega, Or.inr h3⟩]
        · rw [hg 19, if_pos ⟨by omega, by decide, Or.inl (by decide)⟩]
        · rw [hg 20, if_pos ⟨by omega, by decide, Or.inl (by decide)⟩]
        · rw [hg n, if_neg (by omega), if_pos rfl]
        · rw [hg s, if_neg (by omega), if_neg (by omega)]
    obtain ⟨Q1, Q2, Q20, Q3, Q4⟩ := key
    have hf := frameSum_mono p q 9 (hs.low_frame n hn h18 q p hc Q1 Q2 Q3 Q4 hag1)
    rw [tenthDelta_XXX q (Q1 18 h18 (by omega) (by decide)) Q2 Q20]
    omega
  · by_cases h19 : n = 19
    · subst h19
      have hq1 := maxFill_19 r hn
      rw [hq] at hq1
      simp only [Option.some.injEq] at hq1
      have Q4 : ∀ s, s ≤ 18 → q.get s = r.Pins.get s := by
        intro s h
        rw [hq1, fillHigh_get_ne _ 20 s (by omega), fillHigh_get_ne _ 19 s (by omega)]
      have hag2 : ∀ s, s ≤ 18 → p.get s = r.Pins.get s := fun s h => hag1 s (by omega)
      by_cases hx : r.Pins.get 18 = "X"
      · have e19 : q.get 19 = "X" := by
          rw [hq1, fillHigh_get_ne _ 20 19 (by decide), fillHigh_X r.Pins 19 hx]
          exact PinArr.get_set_eq _ 19 "X" (by decide)
        have e20 : q.get 20 = "X" := by
          have : (fillHigh r.Pins 19).get (20 - 1) = "X" := by
            rw [fillHigh_X r.Pins 19 hx]
            exact PinArr.get_set_eq _ 19 "X" (by decide)
          rw [hq1, fillHigh_X _ 20 this]
          exact PinArr.get_set_eq _ 20 "X" (by decide)
        have hf := frameSum_mono p q 9 (hs.high_frame (by omega) q p hc Q4 hag2
          (fun _ => Or.inl e19) (fun h => absurd hx h))
        rw [tenthDelta_XXX q (by rw [Q4 18 (le_refl _)]; exact hx) e19 e20]
        omega
      · have hF : FirstNX (r.Pins.get 18) := by
          rcases hs.t19 hn with h | h
          · exact absurd h hx
          · exact h
        have e19 : q.get 19 = "/" := by
          rw [hq1, fillHigh_get_ne _ 20 19 (by decide),
            fillHigh_other r.Pins 19 hx hF.fnx_ne_slash]
          exact PinArr.get_set_eq _ 19 "/" (by decide)
        have e20 : q.get 20 = "X" := by
          have : (fillHigh r.Pins 19).get (20 - 1) = "/" := by
            rw [fillHigh_other r.Pins 19 hx hF.fnx_ne_slash]
            exact PinArr.get_set_eq _ 19 "/" (by decide)
          rw [hq1, fillHigh_slash _ 20 this]
          exact PinArr.get_set_eq _ 20 "X" (by decide)
        have hf := frameSum_mono p q 9 (hs.high_frame (by omega) q p hc Q4 hag2
          (fun h => absurd h hx) (fun _ => Or.inl e19))
        rw [tenthDelta_spare_X q (by rw [Q4 18 (le_refl _)]; exact hF) e19 e20]
        have := ht20 (Or.inl (by rw [hag2 18 (le_refl _)]; exact hx))
        omega
    · have h20 : n = 20 := by omega
      subst h20
      have hq1 := maxFill_20 r hn
      rw [hq] at hq1
      simp only [Option.some.injEq] at hq1
      have Q5 : ∀ s, s ≤ 19 → q.get s = r.Pins.get s := by
        intro s h
        rw [hq1, fillHigh_get_ne _ 20 s (by omega)]
      have hag2 : ∀ s, s ≤ 19 → p.get s = r.Pins.get s := fun s h => hag1 s (by omega)
      have e19 : q.get 19 = p.get 19 := by rw [Q5 19 (le_refl _), hag2 19 (le_refl _)]
      have hf := frameSum_mono p q 9 (hs.high_frame (by omega) q p hc
        (fun s h => Q5 s (by omega)) (fun s h => hag2 s (by omega))
        (fun _ => Or.inr e19) (fun _ => Or.inr e19))
      rcases hs.t20 hn with ⟨hX, hX2 | hF2⟩ | ⟨hF, hsl⟩
      · have e20 : q.get 20 = "X" := by
          rw [hq1, fillHigh_X r.Pins 20 hX2]
          exact PinArr.get_set_eq _ 20 "X" (by decide)
        rw [tenthDelta_XXX q (by rw [Q5 18 (by decide)]; exact hX)
          (by rw [Q5 19 (le_refl _)]; exact hX2) e20]
        omega
      · have e20 : q.get 20 = "/" := by
          rw [hq1, fillHigh_other r.Pins 20 hF2.fnx_ne_X hF2.fnx_ne_slash]
          exact PinArr.get_set_eq _ 20 "/" (by decide)
        rw [tenthDelta_X_spare q (by rw [Q5 18 (by decide)]; exact hX)
          (by rw [Q5 19 (le_refl _)]; exact hF2) e20]
        have := ht20 (Or.inr (by rw [hag2 19 (le_refl _)]; exact hF2.fnx_ne_X))
        omega
      · have e20 : q.get 20 = "X" := by
          rw [hq1, fillHigh_slash r.Pins 20 hsl]
          exact PinArr.get_set_eq _ 20 "X" (by decide)
        rw [tenthDelta_spare_X q (by rw [Q5 18 (by decide)]; exact hF)
          (by rw [Q5 19 (le_refl _)]; exact hsl) e20]
        have := ht20 (Or.inl (by rw [hag2 18 (by decide)]; exact hF.fnx_ne_X))
        omega

/-! ## The projection is the best final score -/

theorem AcceptedRun.of_playAccepted (ts : List String) :
    ∀ b b1 : Bowl, playAccepted b ts = some b1 → AcceptedRun b ts b1 := by
  induction ts with
  | nil =>
    intro b b1 h
    simp only [playAccepted, Option.some.injEq] at h
    subst h
    exact AcceptedRun.nil b
  | cons t ts ih =>
    intro b b1 h
    simp only [playAccepted] at h
    cases ha : addScore b t with
    | none => rw [ha] at h; simp at h
    | some b2 =>
      rw [ha] at h
      simp only [] at h
      split at h
      · rename_i hc
        exact AcceptedRun.cons t ts ⟨ha, hc⟩ (ih b2 b1 h)
      · simp at h

theorem LegalRun.accepted (ts : List String) :
    ∀ b b1 : Bowl, LegalRun b ts b1 → AcceptedRun b ts b1 := by
  induction ts with
  | nil =>
    intro b b1 h
    cases h
    exact AcceptedRun.nil b
  | cons t ts ih =>
    intro b b1 h
    cases h with
    | cons _ _ _ ha hr => exact AcceptedRun.cons t ts ha (ih _ b1 hr)

set_option maxRecDepth 100000 in
theorem demoWrapGame_final :
    ∃ r1 : Bowl, playAccepted (initBowl "ann") demoWrapGame = some r1 ∧ r1.Times = 21 ∧
      r1.Scores.get 10 = 9223372036854775807 := by
  refine ⟨_, rfl, ?_, ?_⟩ <;> rfl

set_option maxRecDepth 100000 in
theorem demoMidGame_play : play (initBowl "ann") ["X", "5"] = some demoMidGame := by decide

/-- Outside the tokens of the score input: with numerals of twenty characters,
which the score input cannot hold, the projection is not a bound in the model.
From the fresh record "ann" (cursor 0, `MaxScore` 300) the twenty tokens
"-4611686018427387904", "-4611686018427387904", "-1" and seventeen "0" are all
accepted by a direct call and complete the game (cursor 21); frame one is worth
-2^63, the ball of -1 wraps the 64-bit sum around, and `Scores[10]` ends as
9223372036854775807. -/
theorem accepted_completion_exceeds_maxScore :
    LegalPlay "ann" (initBowl "ann") ∧ (initBowl "ann").Times < 21 ∧
      (initBowl "ann").MaxScore = 300 ∧
      ∃ r1 : Bowl, AcceptedRun (initBowl "ann") demoWrapGame r1 ∧ r1.Times = 21 ∧
        r1.Scores.get 10 = 9223372036854775807 ∧
        ¬ r1.Scores.get 10 ≤ (initBowl "ann").MaxScore := by
  obtain ⟨r1, h1, h2, h3⟩ := demoWrapGame_final
  refine ⟨LegalPlay.fresh, by decide, rfl, r1, AcceptedRun.of_playAccepted _ _ _ h1, h2, h3, ?_⟩
  rw [h3]
  decide

/-! ## Recording pinfalls as unsigned numerals -/

theorem atoi_toString (n : Nat) (h : n ≤ 10) : atoi (toString n) = some (n : Int) := by
  interval_cases n <;> rfl

theorem legalTok_toString (n : Nat) (h : n ≤ 10) : LegalTok (toString n) := by
  interval_cases n <;> decide

theorem sym1_ten : sym1 10 = "X" := rfl

theorem sym1_first (a : Nat) (h : a < 10) : FirstNX (sym1 a) ∧ numVal (sym1 a) = (a : Int) := by
  interval_cases a
  · exact ⟨Or.inl rfl, rfl⟩
  all_goals exact ⟨Or.inr (Or.inr ⟨_, rfl, by decide, by decide⟩), rfl⟩

theorem sym1_pinVal (a : Nat) (h : a ≤ 10) : pinVal (sym1 a) = (a : Int) := by
  interval_cases a <;> rfl

theorem sym2_slash (l v : Nat) (h : l + v = 10) : sym2 l v = "/" := by
  simp [sym2, h]

theorem sym2_open (f : String) (l v : Nat) (hf : numVal f = (l : Int)) (h : l + v < 10) :
    SecondOpen f (sym2 l v) ∧ numVal (sym2 l v) = (v : Int) := by
  have e : sym2 l v = if v = 0 then "-" else toString v := by
    simp only [sym2, if_neg (show ¬ l + v = 10 by omega)]
  rw [e]
  by_cases h0 : v = 0
  · subst h0
    exact ⟨Or.inl rfl, rfl⟩
  · rw [if_neg h0]
    have ha := atoi_toString v (by omega)
    exact ⟨Or.inr (Or.inr ⟨(v : Int), ⟨ha, by omega, by omega⟩, by rw [hf]; omega⟩),
      numVal_some ha⟩

theorem strike_toString (b : Bowl) (a : Nat) (h : a ≤ 10) :
    strike b (toString a) = writeThrow b (sym1 a) (if a = 10 then 2 else 1) := by
  unfold strike
  rw [atoi_toString a h]
  simp only [sym1]
  by_cases h0 : a = 0
  · subst h0
    simp
  · by_cases h10 : a = 10
    · subst h10
      simp
    · have h1 : (a : Int) < 10 := by omega
      have h2 : ¬ (a : Int) = 0 := by omega
      simp only [if_pos h1, if_neg h2, if_neg h0, if_neg h10]

theorem spare_toString (b : Bowl) (f : String) (l v : Nat) (hp : prevPin b = some f)
    (hf : numVal f = (l : Int)) (hl : l ≤ 9) (h : l + v ≤ 10) :
    spare b (toString v) = writeThrow b (sym2 l v) 1 := by
  unfold spare
  rw [atoi_toString v (by omega), hp]
  simp only [sym2]
  have key : ∀ m : Int, m = 10 - (l : Int) →
      (if (v : Int) < m then (if (v : Int) = 0 then writeThrow b "-" 1
        else writeThrow b (toString v) 1)
       else if (v : Int) = m then writeThrow b "/" 1 else some (b.Pins, b.Times)) =
      writeThrow b (if l + v = 10 then "/" else if v = 0 then "-" else toString v) 1 := by
    intro m hm
    by_cases c : l + v = 10
    · rw [if_neg (by omega), if_pos (by omega), if_pos c]
    · rw [if_pos (by omega), if_neg c]
      by_cases h0 : v = 0
      · rw [if_pos (by omega), if_pos h0]
      · rw [if_neg (by omega), if_neg h0]
  cases hq : atoi f with
  | none =>
    have h0 : l = 0 := by
      rw [numVal_none hq] at hf
      omega
    subst h0
    exact key 10 rfl
  | some l1 =>
    have h1 : l1 = (l : Int) := by
      rw [numVal_some hq] at hf
      exact hf
    subst h1
    have hs : sub64 10 (l : Int) = 10 - (l : Int) := wrap64_of_range _ (by omega) (by omega)
    simp only [hs]
    exact key _ rfl

theorem sym1_ne_yet (a : Nat) (h : a ≤ 10) : sym1 a ≠ "yet" := by
  interval_cases a <;> decide

theorem sym1_ne_X (a : Nat) (h : a < 10) : sym1 a ≠ "X" := (sym1_first a h).1.fnx_ne_X

theorem sym1_ne_slash (a : Nat) (h : a ≤ 10) : sym1 a ≠ "/" := by
  interval_cases a <;> decide

theorem sym2_ne (f : String) (l v : Nat) (hf : numVal f = (l : Int)) (h : l + v ≤ 10) :
    sym2 l v ≠ "yet" ∧ sym2 l v ≠ "X" := by
  by_cases c : l + v = 10
  · rw [sym2_slash l v c]
    exact ⟨by decide, by decide⟩
  · have := (sym2_open f l v hf (by omega)).1
    exact ⟨this.so_ne_yet, this.so_ne_X⟩

theorem prevPin_at (b : Bowl) (n : Nat) (hn : b.Times = (n : Int) + 1) (h : n < 21) :
    prevPin b = some (b.Pins.get n) := by
  have h1 : 1 ≤ b.Times ∧ b.Times < 22 := by omega
  have h2 : (b.Times - 1).toNat = n := by omega
  simp only [prevPin, if_pos h1, h2]

/-- One accepted token of legal play, from the write of the recorder. -/
theorem LegalPlay.record (now : String) (b : Bowl) (hb : LegalPlay now b) (n : Nat)
    (hn : b.Times = (n : Int)) (h21 : n < 21) (t v : String) (c : Int) (ht : LegalTok t)
    (hv : v ≠ "yet") (hvX : n = 17 → v ≠ "X")
    (h : addThrow b t = some (b.Pins.set n v, c)) (h0 : 0 ≤ c) :
    ∃ b1, LegalPlay now b1 ∧ LegalRun b [t] b1 ∧ b1.Pins = b.Pins.set n v ∧ b1.Times = c := by
  obtain ⟨b1, ha, hp, hc⟩ :=
    (LegalPlay.shape now b hb).accept_write n hn h21 t v c hv hvX h h0
  exact ⟨b1, LegalPlay.step t hb ht ha, LegalRun.cons t [] ht ha (LegalRun.nil b1), hp, hc⟩

/-- A first ball of `a` pins on a first-ball slot of frames 1-9. -/
theorem LegalPlay.record_first (now : String) (b : Bowl) (hb : LegalPlay now b) (j : Nat)
    (hj : j < 9) (hn : b.Times = 2 * (j : Int)) (a : Nat) (ha : a ≤ 10) :
    ∃ b1, LegalPlay now b1 ∧ LegalRun b [toString a] b1 ∧
      b1.Pins = b.Pins.set (2 * j) (sym1 a) ∧
      b1.Times = 2 * (j : Int) + (if a = 10 then 2 else 1) := by
  have hn1 : b.Times = ((2 * j : Nat) : Int) := by push_cast; exact hn
  have htn : b.Times.toNat = 2 * j := by omega
  refine LegalPlay.record now b hb (2 * j) hn1 (by omega) _ _ _ (legalTok_toString a ha)
    (sym1_ne_yet a ha) (by omega) ?_ (by split <;> omega)
  rw [addThrow_even b _ (by omega) (by omega), strike_toString b a ha,
    writeThrow_eq b _ _ (by omega) (by omega), htn, hn]

/-- A second ball of `v` pins after a first ball of `l` pins in frames 1-9. -/
theorem LegalPlay.record_second (now : String) (b : Bowl) (hb : LegalPlay now b) (j : Nat)
    (hj : j < 9) (hn : b.Times = 2 * (j : Int) + 1) (l v : Nat)
    (hf : numVal (b.Pins.get (2 * j)) = (l : Int)) (hl : l ≤ 9) (h : l + v ≤ 10) :
    ∃ b1, LegalPlay now b1 ∧ LegalRun b [toString v] b1 ∧
      b1.Pins = b.Pins.set (2 * j + 1) (sym2 l v) ∧ b1.Times = 2 * (j : Int) + 2 := by
  have hn1 : b.Times = ((2 * j + 1 : Nat) : Int) := by push_cast; exact hn
  have htn : b.Times.toNat = 2 * j + 1 := by omega
  have hne := sym2_ne _ l v hf h
  refine LegalPlay.record now b hb (2 * j + 1) hn1 (by omega) _ _ _
    (legalTok_toString v (by omega)) hne.1 (fun _ => hne.2) ?_ (by omega)
  rw [addThrow_odd b _ (by omega) (by omega),
    spare_toString b _ l v (prevPin_at b (2 * j) (by push_cast; omega) (by omega)) hf hl h,
    writeThrow_eq b _ _ (by omega) (by omega), htn, hn]
  rfl

theorem strike_toString_at (b : Bowl) (n : Nat) (hn : b.Times = (n : Int)) (h21 : n < 21)
    (a : Nat) (ha : a ≤ 10) :
    strike b (toString a) =
      some (b.Pins.set n (sym1 a), (n : Int) + (if a = 10 then 2 else 1)) := by
  have htn : b.Times.toNat = n := by omega
  rw [strike_toString b a ha, writeThrow_eq b _ _ (by omega) (by omega), htn, hn]

theorem spare_toString_at (b : Bowl) (n : Nat) (hn : b.Times = (n : Int) + 1) (h21 : n < 20)
    (l v : Nat) (hf : numVal (b.Pins.get n) = (l : Int)) (hl : l ≤ 9) (h : l + v ≤ 10) :
    spare b (toString v) = some (b.Pins.set (n + 1) (sym2 l v), (n : Int) + 2) := by
  have htn : b.Times.toNat = n + 1 := by omega
  rw [spare_toString b _ l v (prevPin_at b n hn (by omega)) hf hl h,
    writeThrow_eq b _ _ (by omega) (by omega), htn, hn]
  have e : (n : Int) + 1 + 1 = (n : Int) + 2 := by omega
  rw [e]

/-- The first ball of frame ten. -/
theorem LegalPlay.record_18 (now : String) (b : Bowl) (hb : LegalPlay now b)
    (hn : b.Times = 18) (a : Nat) (ha : a ≤ 10) :
    ∃ b1, LegalPlay now b1 ∧ LegalRun b [toString a] b1 ∧
      b1.Pins = b.Pins.set 18 (sym1 a) ∧ b1.Times = 19 := by
  refine LegalPlay.record now b hb 18 hn (by decide) _ _ _ (legalTok_toString a ha)
    (sym1_ne_yet a ha) (by omega) ?_ (by decide)
  rw [addThrow_18 b _ hn, strike_toString_at b 18 hn (by decide) a ha]
  simp only [Option.map_some', PinArr.get_set_eq _ 18 _ (by decide : 18 < 21)]
  by_cases c : a = 10
  · subst c
    rfl
  · rw [if_neg (sym1_ne_X a (by omega)), if_neg c]
    rfl

/-- The second ball of frame ten after a strike. -/
theorem LegalPlay.record_19_first (now : String) (b : Bowl) (hb : LegalPlay now b)
    (hn : b.Times = 19) (hx : b.Pins.get 18 = "X") (a : Nat) (ha : a ≤ 10) :
    ∃ b1, LegalPlay now b1 ∧ LegalRun b [toString a] b1 ∧
      b1.Pins = b.Pins.set 19 (sym1 a) ∧ b1.Times = 20 := by
  refine LegalPlay.record now b hb 19 hn (by decide) _ _ _ (legalTok_toString a ha)
    (sym1_ne_yet a ha) (by omega) ?_ (by decide)
  rw [addThrow_19_strike b _ hn hx, strike_toString_at b 19 hn (by decide) a ha]
  simp only [Option.map_some', PinArr.get_set_eq _ 19 _ (by decide : 19 < 21)]
  by_cases c : a = 10
  · subst c
    rfl
  · rw [if_neg (sym1_ne_X a (by omega)), if_neg c]
    rfl

/-- The second ball of frame ten after a first ball that is not a strike. -/
theorem LegalPlay.record_19_second (now : String) (b : Bowl) (hb : LegalPlay now b)
    (hn : b.Times = 19) (hx : b.Pins.get 18 ≠ "X") (l v : Nat)
    (hf : numVal (b.Pins.get 18) = (l : Int)) (hl : l ≤ 9) (h : l + v ≤ 10) :
    ∃ b1, LegalPlay now b1 ∧ LegalRun b [toString v] b1 ∧
      b1.Pins = b.Pins.set 19 (sym2 l v) ∧ b1.Times = if l + v = 10 then 20 else 21 := by
  have hne := sym2_ne _ l v hf h
  refine LegalPlay.record now b hb 19 hn (by decide) _ _ _ (legalTok_toString v (by omega))
    hne.1 (fun _ => hne.2) ?_ (by split <;> decide)
  rw [addThrow_19_spare b _ hn hx, spare_toString_at b 18 hn (by decide) l v hf hl h]
  simp only [Option.map_some', PinArr.get_set_eq _ 19 _ (by decide : 19 < 21)]
  by_cases c : l + v = 10
  · rw [sym2_slash l v c, if_neg (by simp), if_pos c]
    rfl
  · rw [if_pos (sym2_open _ l v hf (by omega)).1.so_ne_slash, if_neg c]

/-- The third ball of frame ten after a strike or a spare in slot 19. -/
theorem LegalPlay.record_20_first (now : String) (b : Bowl) (hb : LegalPlay now b)
    (hn : b.Times = 20) (hx : b.Pins.get 19 = "X" ∨ b.Pins.get 19 = "/") (a : Nat)
    (ha : a ≤ 10) :
    ∃ b1, LegalPlay now b1 ∧ LegalRun b [toString a] b1 ∧
      b1.Pins = b.Pins.set 20 (sym1 a) ∧ b1.Times = 21 := by
  refine LegalPlay.record now b hb 20 hn (by decide) _ _ _ (legalTok_toString a ha)
    (sym1_ne_yet a ha) (by omega) ?_ (by decide)
  rw [addThrow_20_strike b _ hn hx, strike_toString_at b 20 hn (by decide) a ha]
  simp only [Option.map_some', PinArr.get_set_eq _ 20 _ (by decide : 20 < 21)]
  rw [if_pos (sym1_ne_yet a ha)]

/-- The third ball of frame ten after a strike and a ball that left pins. -/
theorem LegalPlay.record_20_second (now : String) (b : Bowl) (hb : LegalPlay now b)
    (hn : b.Times = 20) (hx : ¬ (b.Pins.get 19 = "X" ∨ b.Pins.get 19 = "/")) (l v : Nat)
    (hf : numVal (b.Pins.get 19) = (l : Int)) (hl : l ≤ 9) (h : l + v ≤ 10) :
    ∃ b1, LegalPlay now b1 ∧ LegalRun b [toString v] b1 ∧
      b1.Pins = b.Pins.set 20 (sym2 l v) ∧ b1.Times = 21 := by
  have hne := sym2_ne _ l v hf h
  refine LegalPlay.record now b hb 20 hn (by decide) _ _ _ (legalTok_toString v (by omega))
    hne.1 (fun _ => hne.2) ?_ (by decide)
  rw [addThrow_20_spare b _ hn hx, spare_toString_at b 19 hn (by decide) l v hf hl h]
  simp only [Option.map_some', PinArr.get_set_eq _ 20 _ (by decide : 20 < 21)]
  rw [if_pos hne.1]

/-! ## Reading pinfalls back from the pins -/

theorem strikeDelta_first (p : PinArr) (i f : Nat) (h : FirstNX (p.get (i + 2))) :
    strikeDelta p i f =
      if p.get (i + 3) = "/" then 20 else 10 + numVal (p.get (i + 2)) + numVal (p.get (i + 3)) := by
  simp only [strikeDelta]
  rcases h with h | h | ⟨v, h, _⟩
  · simp only [h, atoi_G, Option.isSome_none, Bool.false_eq_true, if_false, numVal_G]
    rw [if_neg (by decide)]
    split <;> omega
  · simp only [h, atoi_F, Option.isSome_none, Bool.false_eq_true, if_false, numVal_F]
    rw [if_neg (by decide)]
    split <;> omega
  · simp only [h, Option.isSome_some, if_true]

theorem strikeDelta_two (p : PinArr) (i f a b : Nat) (ha : a < 10) (h : a + b ≤ 10)
    (h1 : p.get (i + 2) = sym1 a) (h2 : p.get (i + 3) = sym2 a b) :
    strikeDelta p i f = 10 + (a : Int) + (b : Int) := by
  have f1 := sym1_first a ha
  rw [strikeDelta_first p i f (by rw [h1]; exact f1.1), h1, h2, f1.2]
  by_cases c : a + b = 10
  · rw [if_pos (sym2_slash a b c)]
    omega
  · have f2 := sym2_open (sym1 a) a b f1.2 (by omega)
    rw [if_neg f2.1.so_ne_slash, f2.2]

theorem strikeDelta_strike (p : PinArr) (i f : Nat) (c : Int) (h1 : p.get (i + 2) = "X")
    (h3 : pinVal (p.get (if f = 9 then i + 3 else i + 4)) = c) :
    strikeDelta p i f = 10 + 10 + c := by
  simp only [strikeDelta, h1, atoi_X, Option.isSome_none, Bool.false_eq_true, if_false, if_true,
    h3]
  omega

theorem face_sym1 (p : PinArr) (i a : Nat) (ha : a ≤ 10) (h : p.get i = sym1 a) :
    face p i = (a : Int) := by
  by_cases c : a = 10
  · subst c
    rw [face_X (by rw [h]; rfl)]
    rfl
  · have f1 := sym1_first a (by omega)
    rw [face_other (by rw [h]; exact f1.1.fnx_ne_X) (by rw [h]; exact f1.1.fnx_ne_slash), h, f1.2]

theorem face_sym2 (p : PinArr) (i l v : Nat) (hl : l + v ≤ 10)
    (hprev : numVal (p.get (i - 1)) = (l : Int)) (h : p.get i = sym2 l v) :
    face p i = (v : Int) := by
  by_cases c : l + v = 10
  · rw [face_slash (by rw [h]; exact sym2_slash l v c), hprev]
    omega
  · have f2 := sym2_open (p.get (i - 1)) l v hprev (by omega)
    rw [face_other (by rw [h]; exact f2.1.so_ne_X) (by rw [h]; exact f2.1.so_ne_slash), h, f2.2]

theorem frameDelta_two (p : PinArr) (i a b : Nat) (ha : a < 10) (h : a + b ≤ 10)
    (h1 : p.get i = sym1 a) (h2 : p.get (i + 1) = sym2 a b) :
    frameDelta p i =
      if a + b = 10 then 10 + pinVal (p.get (i + 2)) else (a : Int) + (b : Int) := by
  have f1 := sym1_first a ha
  by_cases c : a + b = 10
  · rw [if_pos c, frameDelta_spare p i (by rw [h1]; exact f1.1.fnx_ne_X)
      (by rw [h2]; exact sym2_slash a b c)]
  · have f2 := sym2_open (sym1 a) a b f1.2 (by omega)
    rw [if_neg c, frameDelta_open p i (by rw [h1]; exact f1.1.fnx_ne_X)
      (by rw [h2]; exact f2.1.so_ne_slash), h1, h2, f1.2, f2.2]

theorem frameDelta_strike (p : PinArr) (i : Nat) (h : p.get i = "X") :
    frameDelta p i = strikeDelta p i (i / 2 + 1) := by
  simp only [frameDelta, h, if_true]

/-- Recording frame ten of a legal game: the run ends the game, frame ten is
worth the sum of its balls, and its first two balls read back as recorded. -/
theorem LegalPlay.record_tenth (now : String) (b : Bowl) (hb : LegalPlay now b)
    (hn : b.Times = 18) (balls : List Nat) (h : legalTenth balls = true) :
    ∃ r, LegalRun b (balls.map toString) r ∧ r.Times = 21 ∧
      tenthDelta r.Pins = ((balls.sum : Nat) : Int) ∧
      pinVal (r.Pins.get 18) = ((balls.getD 0 0 : Nat) : Int) ∧
      strikeDelta r.Pins 16 9 = 10 + ((balls.getD 0 0 : Nat) : Int) + ((balls.getD 1 0 : Nat) : Int) := by
  have hs := LegalPlay.shape now b hb
  have y20 : b.Pins.get 20 = "yet" := hs.yet 20 (by omega) (by decide)
  rcases balls with _ | ⟨a, _ | ⟨v, _ | ⟨c, _ | ⟨d, rest⟩⟩⟩⟩
  · simp [legalTenth] at h
  · simp [legalTenth] at h
  · simp only [legalTenth, decide_eq_true_eq] at h
    obtain ⟨b1, hl1, hr1, hp1, ht1⟩ := LegalPlay.record_18 now b hb hn a (by omega)
    have f1 := sym1_first a h.1
    have g1 : b1.Pins.get 18 = sym1 a := by
      rw [hp1]
      exact PinArr.get_set_eq _ 18 _ (by decide)
    obtain ⟨r, hl2, hr2, hp2, ht2⟩ := LegalPlay.record_19_second now b1 hl1 ht1
      (by rw [g1]; exact f1.1.fnx_ne_X) a v (by rw [g1]; exact f1.2) (by omega) (by omega)
    rw [if_neg (by omega)] at ht2
    have g18 : r.Pins.get 18 = sym1 a := by
      rw [hp2, PinArr.get_set_ne _ 19 18 _ (by decide)]
      exact g1
    have g19 : r.Pins.get 19 = sym2 a v := by
      rw [hp2]
      exact PinArr.get_set_eq _ 19 _ (by decide)
    have g20 : r.Pins.get 20 = "yet" := by
      rw [hp2, PinArr.get_set_ne _ 19 20 _ (by decide), hp1,
        PinArr.get_set_ne _ 18 20 _ (by decide)]
      exact y20
    refine ⟨r, LegalRun.append _ _ b b1 r hr1 hr2, ht2, ?_, ?_, ?_⟩
    · rw [tenthDelta_faces r.Pins ((LegalPlay.shape now r hl2).t21 ht2),
        face_sym1 r.Pins 18 a (by omega) g18,
        face_sym2 r.Pins 19 a v (by omega) (by rw [show 19 - 1 = 18 from rfl, g18]; exact f1.2) g19,
        face_other (by rw [g20]; decide) (by rw [g20]; decide), g20, numVal_yet]
      simp
    · rw [g18]
      exact sym1_pinVal a (by omega)
    · exact strikeDelta_two r.Pins 16 9 a v h.1 (by omega) g18 g19
  · simp only [legalTenth] at h
    by_cases ca : a = 10
    · subst ca
      rw [if_pos rfl] at h
      have hv : v ≤ 10 := by
        by_cases cv : v = 10
        · omega
        · rw [if_neg cv, decide_eq_true_eq] at h
          omega
      obtain ⟨b1, hl1, hr1, hp1, ht1⟩ := LegalPlay.record_18 now b hb hn 10 (by omega)
      have g1 : b1.Pins.get 18 = "X" := by
        rw [hp1]
        exact PinArr.get_set_eq _ 18 _ (by decide)
      obtain ⟨b2, hl2, hr2, hp2, ht2⟩ := LegalPlay.record_19_first now b1 hl1 ht1 g1 v hv
      have g2 : b2.Pins.get 19 = sym1 v := by
        rw [hp2]
        exact PinArr.get_set_eq _ 19 _ (by decide)
      have key : ∀ (r : Bowl) (s : String), LegalPlay now r → LegalRun b2 [toString c] r →
          r.Pins = b2.Pins.set 20 s → r.Times = 21 → face (b2.Pins.set 20 s) 20 = (c : Int) →
          ∃ r, LegalRun b ([10, v, c].map toString) r ∧ r.Times = 21 ∧
            tenthDelta r.Pins = (([10, v, c].sum : Nat) : Int) ∧
            pinVal (r.Pins.get 18) = ((([10, v, c] : List Nat).getD 0 0 : Nat) : Int) ∧
            strikeDelta r.Pins 16 9 = 10 + ((([10, v, c] : List Nat).getD 0 0 : Nat) : Int) +
              ((([10, v, c] : List Nat).getD 1 0 : Nat) : Int) := by
        intro r s hl3 hr3 hp3 ht3 hface
        have g18 : r.Pins.get 18 = "X" := by
          rw [hp3, PinArr.get_set_ne _ 20 18 _ (by decide), hp2,
            PinArr.get_set_ne _ 19 18 _ (by decide)]
          exact g1
        have g19 : r.Pins.get 19 = sym1 v := by
          rw [hp3, PinArr.get_set_ne _ 20 19 _ (by decide)]
          exact g2
        refine ⟨r, LegalRun.append _ _ b b1 r hr1 (LegalRun.append _ _ b1 b2 r hr2 hr3), ht3,
          ?_, ?_, ?_⟩
        · rw [tenthDelta_faces r.Pins ((LegalPlay.shape now r hl3).t21 ht3),
            face_sym1 r.Pins 18 10 (by omega) g18, face_sym1 r.Pins 19 v hv g19, hp3, hface]
          simp
          omega
        · rw [g18]
          rfl
        · rw [strikeDelta_strike r.Pins 16 9 (v : Int) g18
            (by rw [if_pos rfl, g19]; exact sym1_pinVal v hv)]
          simp
      by_cases cv : v = 10
      · subst cv
        rw [if_pos rfl, decide_eq_true_eq] at h
        obtain ⟨r, hl3, hr3, hp3, ht3⟩ :=
          LegalPlay.record_20_first now b2 hl2 ht2 (Or.inl (by rw [g2]; rfl)) c h
        exact key r _ hl3 hr3 hp3 ht3
          (face_sym1 _ 20 c h (PinArr.get_set_eq _ 20 _ (by decide)))
      · rw [if_neg cv, decide_eq_true_eq] at h
        have f2 := sym1_first v (by omega)
        obtain ⟨r, hl3, hr3, hp3, ht3⟩ := LegalPlay.record_20_second now b2 hl2 ht2
          (by
            rw [g2]
            rintro (e | e)
            · exact f2.1.fnx_ne_X e
            · exact f2.1.fnx_ne_slash e)
          v c (by rw [g2]; exact f2.2) (by omega) h
        exact key r _ hl3 hr3 hp3 ht3
          (face_sym2 _ 20 v c h
            (by rw [show 20 - 1 = 19 from rfl, PinArr.get_set_ne _ 20 19 _ (by decide), g2]
                exact f2.2)
            (PinArr.get_set_eq _ 20 _ (by decide)))
    · rw [if_neg ca, decide_eq_true_eq] at h
      have ha : a < 10 := by omega
      obtain ⟨b1, hl1, hr1, hp1, ht1⟩ := LegalPlay.record_18 now b hb hn a (by omega)
      have f1 := sym1_first a ha
      have g1 : b1.Pins.get 18 = sym1 a := by
        rw [hp1]
        exact PinArr.get_set_eq _ 18 _ (by decide)
      obtain ⟨b2, hl2, hr2, hp2, ht2⟩ := LegalPlay.record_19_second now b1 hl1 ht1
        (by rw [g1]; exact f1.1.fnx_ne_X) a v (by rw [g1]; exact f1.2) (by omega) (by omega)
      rw [if_pos h.1] at ht2
      have g2 : b2.Pins.get 19 = sym2 a v := by
        rw [hp2]
        exact PinArr.get_set_eq _ 19 _ (by decide)
      obtain ⟨r, hl3, hr3, hp3, ht3⟩ := LegalPlay.record_20_first now b2 hl2 ht2
        (Or.inr (by rw [g2]; exact sym2_slash a v h.1)) c h.2
      have g18 : r.Pins.get 18 = sym1 a := by
        rw [hp3, PinArr.get_set_ne _ 20 18 _ (by decide), hp2,
          PinArr.get_set_ne _ 19 18 _ (by decide)]
        exact g1
      have g19 : r.Pins.get 19 = sym2 a v := by
        rw [hp3, PinArr.get_set_ne _ 20 19 _ (by decide)]
        exact g2
      have g20 : r.Pins.get 20 = sym1 c := by
        rw [hp3]
        exact PinArr.get_set_eq _ 20 _ (by decide)
      refine ⟨r, LegalRun.append _ _ b b1 r hr1 (LegalRun.append _ _ b1 b2 r hr2 hr3), ht3,
        ?_, ?_, ?_⟩
      · rw [tenthDelta_faces r.Pins ((LegalPlay.shape now r hl3).t21 ht3),
          face_sym1 r.Pins 18 a (by omega) g18,
          face_sym2 r.Pins 19 a v (by omega)
            (by rw [show 19 - 1 = 18 from rfl, g18]; exact f1.2) g19,
          face_sym1 r.Pins 20 c h.2 g20]
        simp
        omega
      · rw [g18]
        exact sym1_pinVal a (by omega)
      · exact strikeDelta_two r.Pins 16 9 a v ha (by omega) g18 g19
  · simp [legalTenth] at h

/-- Recording a legal game from frame `j + 1` on: the run ends the game, the
frames from `j + 1` on total the standard score of the balls recorded, and the
first two balls read back as recorded by the frame before. -/
theorem LegalPlay.record_game (now : String) :
    ∀ (k j : Nat) (balls : List Nat), j + k = 9 → legalGame k balls = true →
      ∀ b : Bowl, LegalPlay now b → b.Times = 2 * (j : Int) →
      ∃ r, LegalRun b (balls.map toString) r ∧ r.Times = 21 ∧
        totalScore r.Pins - frameSum r.Pins j = ((stdScore k balls : Nat) : Int) ∧
        pinVal (r.Pins.get (2 * j)) = ((balls.getD 0 0 : Nat) : Int) ∧
        ∀ i0, i0 + 2 = 2 * j → strikeDelta r.Pins i0 (i0 / 2 + 1) =
          10 + ((balls.getD 0 0 : Nat) : Int) + ((balls.getD 1 0 : Nat) : Int) := by
  intro k
  induction k with
  | zero =>
    intro j balls hj h b hb hn
    have e : j = 9 := by omega
    subst e
    simp only [legalGame] at h
    obtain ⟨r, hr, h21, h1, h2, h3⟩ := LegalPlay.record_tenth now b hb (by omega) balls h
    refine ⟨r, hr, h21, ?_, h2, ?_⟩
    · simp only [totalScore, stdScore]
      omega
    · intro i0 hi
      have e : i0 = 16 := by omega
      subst e
      exact h3
  | succ k ih =>
    intro j balls hj h b hb hn
    have hj8 : j < 9 := by omega
    rcases balls with _ | ⟨a, rest⟩
    · simp [legalGame] at h
    simp only [legalGame] at h
    have e2 : 2 * (j + 1) = 2 * j + 2 := by omega
    by_cases ca : a = 10
    · subst ca
      rw [if_pos rfl] at h
      obtain ⟨b1, hl1, hr1, hp1, ht1⟩ := LegalPlay.record_first now b hb j hj8 hn 10 (by omega)
      rw [if_pos rfl] at ht1
      obtain ⟨r, hr, h21, h1, h2, h3⟩ :=
        ih (j + 1) rest (by omega) h b1 hl1 (by rw [ht1]; push_cast; omega)
      have hk := (LegalRun.keeps _ b1 r (LegalPlay.shape now b1 hl1) hr).2
      have g0 : r.Pins.get (2 * j) = "X" := by
        rw [hk (2 * j) (by rw [ht1]; push_cast; omega), hp1]
        exact PinArr.get_set_eq _ _ _ (by omega)
      rw [e2] at h2
      have hd : frameDelta r.Pins (2 * j) =
          10 + ((rest.getD 0 0 : Nat) : Int) + ((rest.getD 1 0 : Nat) : Int) := by
        rw [frameDelta_strike r.Pins _ g0]
        exact h3 (2 * j) (by omega)
      refine ⟨r, LegalRun.append _ _ b b1 r hr1 hr, h21, ?_, ?_, ?_⟩
      · have hf : frameSum r.Pins (j + 1) = frameSum r.Pins j + frameDelta r.Pins (2 * j) := rfl
        simp only [stdScore, if_true]
        push_cast
        omega
      · rw [g0]
        rfl
      · intro i0 hi
        rw [strikeDelta_strike r.Pins i0 _ ((rest.getD 0 0 : Nat) : Int)
          (by rw [hi]; exact g0)
          (by rw [if_neg (by omega), show i0 + 4 = 2 * j + 2 by omega]; exact h2)]
        simp
    · rw [if_neg ca] at h
      rcases rest with _ | ⟨v, rest2⟩
      · simp at h
      simp only [Bool.and_eq_true, decide_eq_true_eq] at h
      have ha : a < 10 := by omega
      have f1 := sym1_first a ha
      obtain ⟨b1, hl1, hr1, hp1, ht1⟩ := LegalPlay.record_first now b hb j hj8 hn a (by omega)
      rw [if_neg ca] at ht1
      have g1 : b1.Pins.get (2 * j) = sym1 a := by
        rw [hp1]
        exact PinArr.get_set_eq _ _ _ (by omega)
      obtain ⟨b2, hl2, hr2, hp2, ht2⟩ := LegalPlay.record_second now b1 hl1 j hj8 ht1 a v
        (by rw [g1]; exact f1.2) (by omega) h.1
      obtain ⟨r, hr, h21, h1, h2, h3⟩ :=
        ih (j + 1) rest2 (by omega) h.2 b2 hl2 (by rw [ht2]; push_cast; omega)
      have hk := (LegalRun.keeps _ b2 r (LegalPlay.shape now b2 hl2) hr).2
      have g0 : r.Pins.get (2 * j) = sym1 a := by
        rw [hk (2 * j) (by rw [ht2]; push_cast; omega), hp2,
          PinArr.get_set_ne _ _ _ _ (by omega)]
        exact g1
      have g01 : r.Pins.get (2 * j + 1) = sym2 a v := by
        rw [hk (2 * j + 1) (by rw [ht2]; push_cast; omega), hp2]
        exact PinArr.get_set_eq _ _ _ (by omega)
      rw [e2] at h2
      have hd := frameDelta_two r.Pins (2 * j) a v ha h.1 g0 g01
      rw [h2] at hd
      refine ⟨r, LegalRun.append _ _ b b1 r hr1 (LegalRun.append _ _ b1 b2 r hr2 hr), h21,
        ?_, ?_, ?_⟩
      · have hf : frameSum r.Pins (j + 1) = frameSum r.Pins j + frameDelta r.Pins (2 * j) := rfl
        simp only [stdScore, if_neg ca]
        by_cases c : a + v = 10
        · rw [if_pos c] at hd
          rw [if_pos c]
          push_cast
          omega
        · rw [if_neg c] at hd
          rw [if_neg c]
          push_cast
          omega
      · rw [g0]
        exact sym1_pinVal a (by omega)
      · intro i0 hi
        exact strikeDelta_two r.Pins i0 _ a v ha h.1 (by rw [hi]; exact g0)
          (by rw [show i0 + 3 = 2 * j + 1 by omega]; exact g01)

theorem LegalRun.addScores_eq (ts : List String) :
    ∀ b b1 : Bowl, LegalRun b ts b1 → addScores b ts = some b1 := by
  induction ts with
  | nil =>
    intro b b1 h
    cases h
    rfl
  | cons t ts ih =>
    intro b b1 h
    cases h with
    | cons _ _ _ ha hr =>
      simp only [addScores, ha.1]
      exact ih _ b1 hr

/-- C2: recording the balls of a complete legal ten-pin game one by one with
`addScore`, as unsigned decimal tokens from a fresh record, returns a record
with cursor 21 whose `Scores[10]` is the standard ten-pin score of the game. -/
theorem legal_game_standard_score (now : String) (balls : List Nat)
    (h : legalGame 9 balls = true) :
    ∃ r, addScores (initBowl now) (balls.map toString) = some r ∧ r.Times = 21 ∧
      r.Scores.get 10 = ((stdScore 9 balls : Nat) : Int) := by
  obtain ⟨r, hr, h21, h1, _, _⟩ :=
    LegalPlay.record_game now 9 0 balls rfl h (initBowl now) LegalPlay.fresh rfl
  have hl := LegalPlay.run now _ _ r LegalPlay.fresh hr
  refine ⟨r, LegalRun.addScores_eq _ _ r hr, h21, ?_⟩
  rw [(LegalPlay.final_scores now r hl h21).2]
  have e : frameSum r.Pins 0 = 0 := rfl
  omega

/-- Witness for C2: nine strikes and X, 5, 3 in frame ten score 283. -/
theorem legal_game_standard_score_witness :
    legalGame 9 demoGame = true ∧ stdScore 9 demoGame = 283 ∧
      ∃ r, addScores (initBowl "ann") (demoGame.map toString) = some r ∧ r.Times = 21 ∧
        r.Scores.get 10 = ((stdScore 9 demoGame : Nat) : Int) :=
  ⟨by decide, by decide, legal_game_standard_score "ann" demoGame (by decide)⟩

/-! ## What the validator checks -/

theorem pinsLoop_iff (pins : PinArr) (l : List Nat) :
    pinsLoop pins l = true ↔ ∀ i ∈ l, pinOk pins i = true := by
  induction l with
  | nil => simp [pinsLoop]
  | cons i is ih =>
    simp only [pinsLoop, List.mem_cons, forall_eq_or_imp]
    by_cases h : pinOk pins i = true
    · simp [h, ih]
    · simp [h]

theorem pinOk_iff (pins : PinArr) (i : Nat) (hi : i < 21) :
    pinOk pins i = true ↔ SlotPasses pins i := by
  unfold pinOk SlotPasses FirstRole
  cases ha : atoi (pins.get i) with
  | some v =>
    simp only [ha, Option.some.injEq, exists_eq_left', false_and, or_false, reduceCtorEq]
    by_cases c : v > 9
    · simp [c]
    · simp [c]
      omega
  | none =>
    simp only [ha, false_and, exists_false, false_or, true_and, reduceCtorEq]
    have e19 : 19 - 1 = 18 := rfl
    have e20 : 20 - 1 = 19 := rfl
    by_cases c18 : i > 18
    · have hcase : i = 19 ∨ i = 20 := by omega
      rcases hcase with e | e
      · subst e
        by_cases cx : pins.get 18 = "X"
        · simp [cx]
          tauto
        · simp [cx]
          tauto
      · subst e
        by_cases cx : pins.get 19 = "X" ∨ pins.get 19 = "/"
        · simp [cx]
          tauto
        · simp [cx]
          tauto
    · by_cases cev : i % 2 = 0
      · have c1 : i < 18 ∨ i = 18 := by omega
        have n19 : ¬ i = 19 := by omega
        have n20 : ¬ i = 20 := by omega
        rcases c1 with c1 | c1
        · simp [c18, cev, c1, n19, n20]
          tauto
        · subst c1
          simp
          tauto
      · have n18 : ¬ i = 18 := by omega
        have n19 : ¬ i = 19 := by omega
        have n20 : ¬ i = 20 := by omega
        simp [c18, cev, n18, n19, n20]
        tauto

set_option maxRecDepth 100000 in
/-- C11 (as stated): the validator keeps pins whose frame one is "9", "9" (two
numeric balls that sum to 18) and pins whose frame one is "X", "5" (a ball in
the slot after a first-ball strike); it returns both unchanged with the flag
true, not the all-pending sequence. -/
theorem pinsCheck_keeps_nine_nine :
    demoNineNine.get 0 = "9" ∧ demoNineNine.get 1 = "9" ∧
      pinsCheck demoNineNine = (demoNineNine, true) ∧ demoNineNine ≠ initPins ∧
      demoStrikeFive.get 0 = "X" ∧ demoStrikeFive.get 1 = "5" ∧
      pinsCheck demoStrikeFive = (demoStrikeFive, true) ∧ demoStrikeFive ≠ initPins := by
  decide

/-- C11 (amended): `pinsCheck` tests every slot on its own. It returns its input
unchanged with the flag true exactly when every slot passes the test of
`SlotPasses` (an integer slot at most 9 whatever its position; any other slot
"yet" or a symbol of its position role), and the all-pending sequence with the
flag false when some slot fails it. -/
theorem pinsCheck_per_slot (pins : PinArr) :
    (pinsCheck pins = (pins, true) ∧ ∀ i, i < 21 → SlotPasses pins i) ∨
      (pinsCheck pins = (initPins, false) ∧ (∀ i, i < 21 → initPins.get i = "yet") ∧
        ∃ i, i < 21 ∧ ¬ SlotPasses pins i) := by
  by_cases h : pinsLoop pins (List.range 21) = true
  · left
    refine ⟨by simp [pinsCheck, h], fun i hi => ?_⟩
    rw [pinsLoop_iff] at h
    exact (pinOk_iff pins i hi).1 (h i (List.mem_range.2 hi))
  · right
    refine ⟨by simp [pinsCheck, h], fun i hi => initPins_get i hi, ?_⟩
    rw [pinsLoop_iff] at h
    push_neg at h
    obtain ⟨i, hi, hne⟩ := h
    have hi1 := List.mem_range.1 hi
    exact ⟨i, hi1, fun hp => hne ((pinOk_iff pins i hi1).2 hp)⟩

theorem scoresLoop_iff : ∀ (l : List Int) (lim : Int),
    scoresLoop l lim = true ↔ ∀ k, k < l.length → l.getD k 0 ≤ lim + 30 * (k : Int) := by
  intro l
  induction l with
  | nil =>
    intro lim
    simp [scoresLoop]
  | cons x rest ih =>
    intro lim
    simp only [scoresLoop]
    by_cases c : x > lim
    · simp only [if_pos c, Bool.false_eq_true, false_iff, not_forall]
      exact ⟨0, by simp, by simpa using c⟩
    · rw [if_neg c, ih (lim + 30)]
      constructor
      · intro h k hk
        rcases k with _ | k
        · simp
          omega
        · have := h k (by simpa using hk)
          simp only [List.getD_cons_succ]
          push_cast
          omega
      · intro h k hk
        have := h (k + 1) (by simpa using hk)
        simp only [List.getD_cons_succ] at this
        push_cast at this
        omega

set_option maxRecDepth 100000 in
/-- C12 (as stated): the score check keeps the array 0, 30, 10, -1, ... whose
defined entries go down, and the array that starts at -5; it returns both
unchanged with the flag true. -/
theorem scoresCheck_keeps_decreasing :
    demoDecreasing.get 1 = 30 ∧ demoDecreasing.get 2 = 10 ∧
      scoresCheck demoDecreasing = (demoDecreasing, true) ∧ demoDecreasing ≠ initScores ∧
      demoNegStart.get 0 = -5 ∧ scoresCheck demoNegStart = (demoNegStart, true) ∧
      demoNegStart ≠ initScores := by
  decide

/-- C12 (amended): `scoresCheck` tests a cap only. It returns its input unchanged
with the flag true exactly when `Scores[k] ≤ 30 * k` for every `k` in 0..10, and
the default array 0, -1, ..., -1 with the flag false when some entry is above
its cap. -/
theorem scoresCheck_cap (s : ScoreArr) :
    (scoresCheck s = (s, true) ∧ ∀ k : Nat, k < 11 → s.get k ≤ 30 * (k : Int)) ∨
      (scoresCheck s = (initScores, false) ∧ initScores.get 0 = 0 ∧
        (∀ k : Nat, 1 ≤ k → k < 11 → initScores.get k = -1) ∧
        ∃ k : Nat, k < 11 ∧ 30 * (k : Int) < s.get k) := by
  by_cases h : scoresLoop s.1 0 = true
  · left
    refine ⟨by simp [scoresCheck, h], fun k hk => ?_⟩
    rw [scoresLoop_iff] at h
    have := h k (by rw [s.2]; exact hk)
    simpa [ScoreArr.get] using this
  · right
    refine ⟨by simp [scoresCheck, h], rfl, fun k h1 h2 => by interval_cases k <;> rfl, ?_⟩
    rw [scoresLoop_iff] at h
    push_neg at h
    obtain ⟨k, hk, hlt⟩ := h
    rw [s.2] at hk
    exact ⟨k, hk, by simpa [ScoreArr.get] using hlt⟩

set_option maxRecDepth 100000 in
/-- C13: a negative cursor passes the validator. The record "ann" with cursor -1
is returned unchanged by `dataCheck`, and the next `addScore` panics on the read
of `Pins[Times-1]`. -/
theorem dataCheck_keeps_negative_cursor :
    demoNegCursor.Name = "ann" ∧ demoNegCursor.Times = -1 ∧
      dataCheck demoNegCursor "now" = demoNegCursor ∧
      (dataCheck demoNegCursor "now").Times = -1 ∧
      addScore (dataCheck demoNegCursor "now") "5" = none := by
  decide

/-- C14: on a record with a name, `MaxScore` at most 300 and cursor at most 21,
`dataCheck` keeps the name, `MaxScore`, the cursor and the number of archives;
the pair of pins and scores is the input pair or the default pair; and every
archive is checked on its own (`checkArchive` of that archive), keeps its time
stamp, and has the input pair or the default pair. -/
theorem dataCheck_resets_pairs (b : Bowl) (now : String) (hn : b.Name ≠ "")
    (hm : b.MaxScore ≤ 300) (ht : b.Times ≤ 21) :
    (dataCheck b now).Name = b.Name ∧ (dataCheck b now).MaxScore = b.MaxScore ∧
      (dataCheck b now).Times = b.Times ∧
      (dataCheck b now).Archives.length = b.Archives.length ∧
      (((dataCheck b now).Pins = b.Pins ∧ (dataCheck b now).Scores = b.Scores) ∨
        ((dataCheck b now).Pins = initPins ∧ (dataCheck b now).Scores = initScores)) ∧
      ∀ (i : Nat) (a : Archive), b.Archives[i]? = some a →
        (dataCheck b now).Archives[i]? = some (checkArchive a) ∧
          (checkArchive a).Time = a.Time ∧
          (((checkArchive a).Pins = a.Pins ∧ (checkArchive a).Scores = a.Scores) ∨
            ((checkArchive a).Pins = initPins ∧ (checkArchive a).Scores = initScores)) := by
  have hm1 : ¬ b.MaxScore > 300 := not_lt.mpr hm
  have ht1 : ¬ b.Times > 21 := not_lt.mpr ht
  have hd : dataCheck b now =
      { b with
        Pins := (checkPair b.Pins b.Scores).1
        Scores := (checkPair b.Pins b.Scores).2
        Archives := b.Archives.map checkArchive } := by
    simp [dataCheck, hn, hm1, ht1]
  rw [hd]
  refine ⟨rfl, rfl, rfl, by simp, ?_, ?_⟩
  · rcases checkPair_cases b.Pins b.Scores with ⟨h, _, _⟩ | h
    · left
      simp [h]
    · right
      simp [h]
  · intro i a ha
    refine ⟨by simp [ha], rfl, ?_⟩
    rcases checkPair_cases a.Pins a.Scores with ⟨h, _, _⟩ | h
    · left
      simp [checkArchive, h]
    · right
      simp [checkArchive, h]

set_option maxRecDepth 100000 in
/-- Witness for C14: a record whose scores are above the cap and whose archive
holds an unknown symbol; both pairs are reset to the default pair. -/
theorem dataCheck_resets_pairs_witness :
    (dataCheck demoLoaded "now").Pins = initPins ∧
      (dataCheck demoLoaded "now").Scores = initScores ∧
      (dataCheck demoLoaded "now").Name = demoLoaded.Name ∧
      (dataCheck demoLoaded "now").MaxScore = demoLoaded.MaxScore ∧
      (dataCheck demoLoaded "now").Times = demoLoaded.Times ∧
      (dataCheck demoLoaded "now").Archives.length = demoLoaded.Archives.length ∧
      (((dataCheck demoLoaded "now").Pins = demoLoaded.Pins ∧
          (dataCheck demoLoaded "now").Scores = demoLoaded.Scores) ∨
        ((dataCheck demoLoaded "now").Pins = initPins ∧
          (dataCheck demoLoaded "now").Scores = initScores)) ∧
      ∀ (i : Nat) (a : Archive), demoLoaded.Archives[i]? = some a →
        (dataCheck demoLoaded "now").Archives[i]? = some (checkArchive a) ∧
          (checkArchive a).Time = a.Time ∧
          (((checkArchive a).Pins = a.Pins ∧ (checkArchive a).Scores = a.Scores) ∨
            ((checkArchive a).Pins = initPins ∧ (checkArchive a).Scores = initScores)) :=
  ⟨by decide, by decide,
    dataCheck_resets_pairs demoLoaded "now" (by decide) (by decide) (by decide)⟩

/-- C15: `nextGame` appends one archive, holding the current pins and scores,
after the archives there are (which keep their content and order), keeps the
name, and resets the pins to all "yet", the scores to 0, -1, ..., -1, `MaxScore`
to 300 and the cursor to 0. -/
theorem nextGame_appends_and_resets (b : Bowl) (now : String) :
    (nextGame b now).Archives = b.Archives ++ [{ Time := now, Pins := b.Pins, Scores := b.Scores }] ∧
      (nextGame b now).Archives.length = b.Archives.length + 1 ∧
      (∀ i, i < b.Archives.length → (nextGame b now).Archives[i]? = b.Archives[i]?) ∧
      (nextGame b now).Name = b.Name ∧
      (∀ i, i < 21 → (nextGame b now).Pins.get i = "yet") ∧
      (nextGame b now).Scores.get 0 = 0 ∧
      (∀ k, 1 ≤ k → k < 11 → (nextGame b now).Scores.get k = -1) ∧
      (nextGame b now).MaxScore = 300 ∧ (nextGame b now).Times = 0 := by
  refine ⟨rfl, by simp [nextGame], fun i hi => ?_, rfl, fun i hi => initPins_get i hi, rfl,
    fun k h1 h2 => ?_, rfl, rfl⟩
  · simp only [nextGame]
    exact List.getElem?_append_left hi
  · have : (nextGame b now).Scores = initScores := rfl
    rw [this]
    interval_cases k <;> rfl

/-! ## Two worked games -/

theorem spareFrames_append (l : List String) (a : String) :
    spareFrames (l ++ [a]) = spareFrames l ++ ["5", a] := by
  induction l with
  | nil => rfl
  | cons c cs ih => simp [spareFrames, ih]

set_option maxRecDepth 100000 in
theorem spareRunOk_all : ∀ k, k < 10 → spareRunOk k = true := by
  intro k hk
  interval_cases k <;> decide

theorem spareRun_state (k : Nat) (hk : k < 10) :
    ∃ r, addScores (initBowl "") (spareFrames (List.replicate k "/") ++ ["5"]) = some r ∧
      SecondBallPos r ∧ firstBallPins r = 5 := by
  have h := spareRunOk_all k hk
  unfold spareRunOk at h
  cases hr : addScores (initBowl "") (spareFrames (List.replicate k "/") ++ ["5"]) with
  | none => rw [hr] at h; simp at h
  | some r =>
    rw [hr] at h
    simp only [decide_eq_true_eq] at h
    exact ⟨r, rfl, ⟨h.1, by rw [h.2]; decide⟩, h.2⟩

theorem addScore_five_spare (r : Bowl) (hp : SecondBallPos r) (h5 : firstBallPins r = 5) :
    addScore r "5" = addScore r "/" := by
  apply addScore_congr
  apply addThrow_spare_congr r _ _ hp
  rw [spare_complement r "5" hp (by rw [h5]; rfl), spare_slash]

theorem spare_run (cs : List String) :
    (∀ c ∈ cs, c = "5" ∨ c = "/") → cs.length ≤ 10 →
      addScores (initBowl "") (spareFrames cs) =
        addScores (initBowl "") (spareFrames (List.replicate cs.length "/")) := by
  induction cs using List.reverseRecOn with
  | nil => intro _ _; rfl
  | append_singleton l a ih =>
    intro hcs hlen
    have hl : l.length < 10 := by
      rw [List.length_append] at hlen
      simp at hlen
      omega
    have ih1 := ih (fun c hc => hcs c (List.mem_append_left _ hc)) (le_of_lt hl)
    obtain ⟨r, hr, hpos, h5⟩ := spareRun_state l.length hl
    have hrep : List.replicate (l ++ [a]).length "/" = List.replicate l.length "/" ++ ["/"] := by
      rw [List.length_append, List.length_singleton, List.replicate_succ']
    have e1 : ∀ x : String, ["5", x] = ["5"] ++ [x] := fun _ => rfl
    rw [hrep, spareFrames_append, spareFrames_append, e1 a, e1 "/", ← List.append_assoc,
      ← List.append_assoc, addScores_append, addScores_append _ ["/"], addScores_append, ih1,
      ← addScores_append, hr]
    simp only [Option.some_bind]
    rw [addScores_single, addScores_single]
    rcases hcs a (List.mem_append_right _ (List.mem_singleton.mpr rfl)) with e | e
    · rw [e]
      exact addScore_five_spare r hpos h5
    · rw [e]

set_option maxRecDepth 100000 in
theorem spare_game_final :
    ∃ r, addScores (initBowl "") (spareFrames (List.replicate 10 "/") ++ ["5"]) = some r ∧
      r.Times = 21 ∧ r.Scores.get 10 = 150 ∧
      ∀ k : Nat, 1 ≤ k → k ≤ 10 → r.Scores.get k = 15 * (k : Int) := by
  refine ⟨_, rfl, rfl, rfl, ?_⟩
  intro k h1 h2
  interval_cases k <;> rfl

/-- C16: ten frames that are each a first ball of 5 and a spare (second token
"5" or "/"), then one bonus ball of 5, recorded from a fresh record, end with
cursor 21, `Scores[10] = 150` and `Scores[k] = 15 * k` for every `k` in 1..10. -/
theorem ten_spares_score_150 (now : String) (cs : List String) (hlen : cs.length = 10)
    (hcs : ∀ c ∈ cs, c = "5" ∨ c = "/") :
    ∃ r, addScores (initBowl now) (spareFrames cs ++ ["5"]) = some r ∧ r.Times = 21 ∧
      r.Scores.get 10 = 150 ∧ ∀ k : Nat, 1 ≤ k → k ≤ 10 → r.Scores.get k = 15 * (k : Int) := by
  obtain ⟨r, hr, h21, h10, hk⟩ := spare_game_final
  have h0 : initBowl now = rename (initBowl "") now := rfl
  refine ⟨rename r now, ?_, h21, h10, hk⟩
  rw [h0, addScores_rename, addScores_append, spare_run cs hcs (le_of_eq hlen), hlen,
    ← addScores_append, hr]
  rfl

/-- Witness for C16 with the second tokens "5" and "/" in turn. -/
theorem ten_spares_score_150_witness :
    ∃ r, addScores (initBowl "ann") (spareFrames demoSpareTokens ++ ["5"]) = some r ∧
      r.Times = 21 ∧ r.Scores.get 10 = 150 ∧
      ∀ k : Nat, 1 ≤ k → k ≤ 10 → r.Scores.get k = 15 * (k : Int) :=
  ten_spares_score_150 "ann" demoSpareTokens (by decide) (by decide)

set_option maxRecDepth 100000 in
theorem strike_then_open_final :
    ∃ r, addScores (initBowl "") demoStrikeThenOpen = some r ∧ r.Times = 21 ∧
      r.Pins.get 20 = "yet" ∧ r.Scores.get 1 = 17 ∧
      (∀ k : Nat, 2 ≤ k → k ≤ 10 → r.Scores.get k = r.Scores.get (k - 1) + 7) ∧
      r.Scores.get 10 = 80 := by
  refine ⟨_, rfl, rfl, rfl, rfl, ?_, rfl⟩
  intro k h1 h2
  interval_cases k <;> rfl

/-- C17: one strike followed by nine open frames of 3 then 4 pins, recorded from
a fresh record, ends with cursor 21 and slot 20 still pending, `Scores[1] = 17`,
each later frame adding 7, and `Scores[10] = 80`. -/
theorem strike_then_open_frames_score_80 (now : String) :
    ∃ r, addScores (initBowl now) demoStrikeThenOpen = some r ∧ r.Times = 21 ∧
      r.Pins.get 20 = "yet" ∧ r.Scores.get 1 = 17 ∧
      (∀ k : Nat, 2 ≤ k → k ≤ 10 → r.Scores.get k = r.Scores.get (k - 1) + 7) ∧
      r.Scores.get 10 = 80 := by
  obtain ⟨r, hr, h⟩ := strike_then_open_final
  have h0 : initBowl now = rename (initBowl "") now := rfl
  refine ⟨rename r now, ?_, h⟩
  rw [h0, addScores_rename, hr]
  rfl

set_option maxRecDepth 100000 in
/-- C19: a defined score after an undetermined one. From the fresh record "ann",
sixteen balls "0", the strike "X" of frame nine and the first ball "9" of frame
ten leave `Scores[9]` undetermined; the token "q", which `spare` rejects, then
moves the cursor to 21 and `score` writes `Scores[10] = -1 + 9 = 8` while
`Scores[9]` is still -1. -/
theorem defined_score_after_undetermined :
    ∃ r, addScores (initBowl "ann") demoRejectedEnd = some r ∧ r.Times = 21 ∧
      r.Pins.get 19 = "yet" ∧ r.Scores.get 9 = -1 ∧ r.Scores.get 10 = 8 := by
  refine ⟨_, rfl, ?_, ?_, ?_, ?_⟩ <;> rfl

/-! ## The scorer on the pins of a game in progress -/

theorem scoreBody_strike_wait (pins : PinArr) (times : Int) (i : Nat) (st : Nat × ScoreArr)
    (h18 : i < 17) (hev : i % 2 = 0) (hX : pins.get i = "X")
    (h3 : pins.get (i + 3) = "yet") (h4 : pins.get (i + 4) = "yet") :
    scoreBody pins times i st = some (st.1 + 1, st.2) := by
  have hl : strikeLookahead pins i = some false := by
    unfold strikeLookahead
    rw [if_neg (by rw [h3]; simp), if_pos (by omega)]
    simp [h4]
  unfold scoreBody
  simp only [show i < 18 from by omega, hev, if_true, hX, atoi_X, hl]

theorem scoreBody_yet_even (pins : PinArr) (times : Int) (i : Nat) (st : Nat × ScoreArr)
    (h18 : i < 18) (hev : i % 2 = 0) (hy : pins.get i = "yet") :
    scoreBody pins times i st = some (st.1 + 1, st.2) := by
  unfold scoreBody
  simp only [h18, hev, if_true, hy, atoi_yet]
  simp

theorem scoreBody_slash_wait (pins : PinArr) (times : Int) (i : Nat) (st : Nat × ScoreArr)
    (h18 : i < 18) (hodd : i % 2 = 1) (hs : pins.get i = "/")
    (hla : pins.get (i + 1) = "yet") :
    scoreBody pins times i st = some (st.1, st.2) := by
  have h2 : ¬ i % 2 = 0 := by omega
  unfold scoreBody
  simp only [h18, h2, if_true, if_false, hs, atoi_slash]
  simp [hla]

theorem scoreBody_tenth_idle (pins : PinArr) (times : Int) (i : Nat) (st : Nat × ScoreArr)
    (h18 : 18 ≤ i) (ht : times ≠ 21) :
    scoreBody pins times i st = some (frameAt i st.1, st.2) := by
  have h : ¬ i < 18 := by omega
  unfold scoreBody frameAt
  simp only [h, if_false, ht]

theorem tenth_loop_idle (pins : PinArr) (times : Int) (st : Nat × ScoreArr) (hf : st.1 = 9)
    (ht : times ≠ 21) : scoreLoop pins times [18, 19, 20] st = some (10, st.2) := by
  obtain ⟨f, s⟩ := st
  simp only at hf
  subst hf
  rw [scoreLoop_cons pins times 18 _ _ _ (scoreBody_tenth_idle pins times 18 _ (by omega) ht),
    scoreLoop_cons pins times 19 _ _ _ (scoreBody_tenth_idle pins times 19 _ (by omega) ht),
    scoreLoop_cons pins times 20 _ _ _ (scoreBody_tenth_idle pins times 20 _ (by omega) ht)]
  rfl

theorem idle_step (pins : PinArr) (times : Int) (j : Nat) (st : Nat × ScoreArr)
    (rest : List Nat) (hj : j < 9) (hi : Idle pins (2 * j)) :
    scoreLoop pins times (2 * j :: (2 * j + 1) :: rest) st =
      scoreLoop pins times rest (st.1 + 1, st.2) := by
  rcases hi with ⟨h1, h2, h3, h4⟩ | ⟨h1, h2, h3⟩ | ⟨h1, h2⟩ | ⟨h1, h2⟩
  · rw [scoreLoop_cons pins times _ _ _ _
        (scoreBody_strike_wait pins times (2 * j) st (by omega) (by omega) h1 h3 h4),
      scoreLoop_cons pins times _ _ _ _
        (scoreBody_yet pins times (2 * j + 1) _ (by omega) (by omega) h2)]
  · rw [scoreLoop_cons pins times _ _ _ _
        (scoreBody_first pins times (2 * j) st (by omega) (by omega) h1),
      scoreLoop_cons pins times _ _ _ _
        (scoreBody_slash_wait pins times (2 * j + 1) _ (by omega) (by omega) h2 h3)]
  · rw [scoreLoop_cons pins times _ _ _ _
        (scoreBody_first pins times (2 * j) st (by omega) (by omega) h1),
      scoreLoop_cons pins times _ _ _ _
        (scoreBody_yet pins times (2 * j + 1) _ (by omega) (by omega) h2)]
  · rw [scoreLoop_cons pins times _ _ _ _
        (scoreBody_yet_even pins times (2 * j) st (by omega) (by omega) h1),
      scoreLoop_cons pins times _ _ _ _
        (scoreBody_yet pins times (2 * j + 1) _ (by omega) (by omega) h2)]

/-- The loop of `score` from frame `j + 1` on, on pins whose frames 1-9 are each
scored or idle: a scored frame adds its value to the score before it, an idle
frame keeps the stored score, and frame ten is scored only with the cursor at
21. -/
theorem partial_aux (pins : PinArr) (times : Int) (hv : ValOK pins)
    (hst : ∀ j, j < 9 → Scored pins (2 * j) ∨ Idle pins (2 * j)) :
    ∀ (m j : Nat) (st : Nat × ScoreArr), j + m = 9 → st.1 = j →
      (∀ k, k ≤ 10 → -10000 - 300 * (j : Int) ≤ st.2.get k ∧
        st.2.get k ≤ 10000 + 300 * (j : Int)) →
      ∃ st1, scoreLoop pins times (List.range' (2 * j) (21 - 2 * j)) st = some st1 ∧
        (∀ k, k ≤ j → st1.2.get k = st.2.get k) ∧
        (∀ k, j ≤ k → k < 9 →
          (Scored pins (2 * k) ∧ st1.2.get (k + 1) = st1.2.get k + frameDelta pins (2 * k)) ∨
          (Idle pins (2 * k) ∧ st1.2.get (k + 1) = st.2.get (k + 1))) ∧
        (times = 21 → st1.2.get 10 = st1.2.get 9 + tenthDelta pins) ∧
        (times ≠ 21 → st1.2.get 10 = st.2.get 10) := by
  intro m
  induction m with
  | zero =>
    intro j st hj hf hb
    have e : j = 9 := by omega
    subst e
    have e2 : List.range' (2 * 9) (21 - 2 * 9) = [18, 19, 20] := rfl
    rw [e2]
    by_cases ht : times = 21
    · subst ht
      obtain ⟨st1, h1, _, h3, h4⟩ := tenth_loop pins st hf
      refine ⟨st1, h1, fun k hk => h4 k hk, fun k h1 h2 => by omega, fun _ => ?_,
        fun h => absurd rfl h⟩
      have hb9 := hb 9 (by omega)
      rw [h3, h4 9 (le_refl _), tenthValue_eq pins _ hv (by omega)]
    · rw [tenth_loop_idle pins times st hf ht]
      exact ⟨_, rfl, fun k _ => rfl, fun k h1 h2 => by omega, fun h => absurd h ht,
        fun _ => rfl⟩
  | succ m ih =>
    intro j st hj hf hb
    have hlist : List.range' (2 * j) (21 - 2 * j) =
        2 * j :: (2 * j + 1) :: List.range' (2 * (j + 1)) (21 - 2 * (j + 1)) := by
      have e : 21 - 2 * j = (21 - 2 * (j + 1)) + 1 + 1 := by omega
      have e2 : 2 * j + 1 + 1 = 2 * (j + 1) := by omega
      rw [e, List.range'_succ, List.range'_succ, e2]
    rw [hlist]
    rcases hst j (by omega) with hs | hi
    · have hbj := hb j (by omega)
      rw [frame_step pins times j st _ (by omega) hf hs.1 hs.2 hv (by omega)]
      have hd := frameDelta_crude pins hv (2 * j)
      obtain ⟨s1, hs1⟩ : ∃ s1, s1 = st.2.set (j + 1) (st.2.get j + frameDelta pins (2 * j)) :=
        ⟨_, rfl⟩
      rw [← hs1]
      have geq : s1.get (j + 1) = st.2.get j + frameDelta pins (2 * j) := by
        rw [hs1]
        exact ScoreArr.sget_set_eq _ _ _ (by omega)
      have gne : ∀ k, k ≠ j + 1 → s1.get k = st.2.get k := by
        intro k hk
        rw [hs1]
        exact ScoreArr.sget_set_ne _ _ _ _ (fun h => hk h.symm)
      have hb1 : ∀ k, k ≤ 10 →
          -10000 - 300 * ((j + 1 : Nat) : Int) ≤ s1.get k ∧
          s1.get k ≤ 10000 + 300 * ((j + 1 : Nat) : Int) := by
        intro k hk
        by_cases e : k = j + 1
        · subst e
          rw [geq]
          push_cast
          omega
        · rw [gne k e]
          have := hb k hk
          push_cast
          omega
      obtain ⟨st1, h1, h2, h3, h4, h5⟩ := ih (j + 1) (j + 1, s1) (by omega) rfl hb1
      simp only at h2 h3 h5
      refine ⟨st1, h1, ?_, ?_, h4, ?_⟩
      · intro k hk
        rw [h2 k (by omega)]
        exact gne k (by omega)
      · intro k hk1 hk2
        by_cases e : k = j
        · subst e
          left
          refine ⟨hs, ?_⟩
          rw [h2 (k + 1) (le_refl _), h2 k (by omega), geq, gne k (by omega)]
        · rcases h3 k (by omega) hk2 with h | h
          · exact Or.inl h
          · right
            refine ⟨h.1, ?_⟩
            rw [h.2]
            exact gne (k + 1) (by omega)
      · intro ht
        rw [h5 ht]
        exact gne 10 (by omega)
    · rw [idle_step pins times j st _ (by omega) hi]
      have hb1 : ∀ k, k ≤ 10 →
          -10000 - 300 * ((j + 1 : Nat) : Int) ≤ st.2.get k ∧
          st.2.get k ≤ 10000 + 300 * ((j + 1 : Nat) : Int) := by
        intro k hk
        have := hb k hk
        push_cast
        omega
      obtain ⟨st1, h1, h2, h3, h4, h5⟩ :=
        ih (j + 1) (st.1 + 1, st.2) (by omega) (by simp only; omega) hb1
      refine ⟨st1, h1, fun k hk => h2 k (by omega), ?_, h4, h5⟩
      intro k hk1 hk2
      by_cases e : k = j
      · subst e
        right
        exact ⟨hi, h2 (k + 1) (le_refl _)⟩
      · exact h3 k (by omega) hk2

/-! ## Shape of a game in progress, frame by frame -/

theorem Shape.ne_yet_lt {b : Bowl} (hs : Shape b) (i : Nat) (hi : i < 21)
    (h : b.Pins.get i ≠ "yet") : (i : Int) < b.Times := by
  by_contra hc
  exact h (hs.yet i (by omega) hi)

/-- Every frame of frames 1-9 is scored or idle. -/
theorem Shape.status {b : Bowl} (hs : Shape b) (j : Nat) (hj : j < 9) :
    Scored b.Pins (2 * j) ∨ Idle b.Pins (2 * j) := by
  by_cases c1 : 2 * (j : Int) + 2 ≤ b.Times
  · have hd := hs.done j hj c1
    rcases hd with ⟨h1, h2⟩ | ⟨h1, h2 | h2⟩
    · by_cases c3 : b.Pins.get (2 * j + 3) = "yet"
      · by_cases c4 : b.Pins.get (2 * j + 4) = "yet"
        · exact Or.inr (Or.inl ⟨h1, h2, c3, c4⟩)
        · exact Or.inl ⟨Or.inl ⟨h1, h2⟩, fun _ => Or.inr c4,
            fun h => absurd (h2.symm.trans h) (by decide)⟩
      · exact Or.inl ⟨Or.inl ⟨h1, h2⟩, fun _ => Or.inl c3,
          fun h => absurd (h2.symm.trans h) (by decide)⟩
    · by_cases c2 : b.Pins.get (2 * j + 2) = "yet"
      · exact Or.inr (Or.inr (Or.inl ⟨h1, h2, c2⟩))
      · exact Or.inl ⟨Or.inr ⟨h1, Or.inl h2⟩, fun h => absurd h h1.fnx_ne_X, fun _ => c2⟩
    · exact Or.inl ⟨Or.inr ⟨h1, Or.inr h2⟩, fun h => absurd h h1.fnx_ne_X,
        fun h => absurd h h2.so_ne_slash⟩
  · right
    by_cases c2 : b.Times = 2 * (j : Int) + 1
    · exact Or.inr (Or.inr (Or.inl ⟨hs.half j hj c2, hs.yet (2 * j + 1) (by omega) (by omega)⟩))
    · exact Or.inr (Or.inr (Or.inr ⟨hs.yet (2 * j) (by omega) (by omega),
        hs.yet (2 * j + 1) (by omega) (by omega)⟩))

theorem scored_not_idle (p : PinArr) (i : Nat) (h : Scored p i) : ¬ Idle p i := by
  obtain ⟨hd, hl⟩ := h
  rintro (⟨h1, _, h3, h4⟩ | ⟨_, h2, h3⟩ | ⟨h1, h2⟩ | ⟨h1, _⟩)
  · rcases hl.1 h1 with h | h
    · exact h h3
    · exact h h4
  · exact hl.2 h2 h3
  · rcases hd with ⟨hx, _⟩ | ⟨_, hsl | hso⟩
    · exact h1.fnx_ne_X hx
    · exact absurd (h2.symm.trans hsl) (by decide)
    · exact hso.so_ne_yet h2
  · exact hd.fd_first_ne_yet h1

/-- A complete frame lies before the cursor. -/
theorem Shape.done_le {b : Bowl} (hs : Shape b) (j : Nat) (hj : j < 9)
    (hd : FrameDone b.Pins (2 * j)) : 2 * (j : Int) + 2 ≤ b.Times := by
  have h0 := hs.ne_yet_lt (2 * j) (by omega) hd.fd_first_ne_yet
  by_contra hc
  have ht : b.Times = 2 * (j : Int) + 1 := by push_cast at h0; omega
  have hf := hs.half j hj ht
  have hy := hs.yet (2 * j + 1) (by push_cast; omega) (by omega)
  rcases hd with ⟨hx, _⟩ | ⟨_, hsl | hso⟩
  · exact hf.fnx_ne_X hx
  · exact absurd (hy.symm.trans hsl) (by decide)
  · exact hso.so_ne_yet hy

/-- A first-ball slot before the cursor holds a strike or another first ball. -/
theorem Shape.first_shape {b : Bowl} (hs : Shape b) (j : Nat) (hj : j ≤ 9)
    (hlt : 2 * (j : Int) < b.Times) :
    b.Pins.get (2 * j) = "X" ∨ FirstNX (b.Pins.get (2 * j)) := by
  by_cases h9 : j = 9
  · subst h9
    have hhi := hs.hi
    by_cases c19 : b.Times = 19
    · exact hs.t19 c19
    · by_cases c20 : b.Times = 20
      · rcases hs.t20 c20 with ⟨h, _⟩ | ⟨h, _⟩
        · exact Or.inl h
        · exact Or.inr h
      · have c21 : b.Times = 21 := by omega
        rcases hs.t21 c21 with ⟨h, _⟩ | ⟨h, _⟩ | ⟨h, _⟩ | ⟨h, _⟩
        · exact Or.inr h
        · exact Or.inl h
        · exact Or.inl h
        · exact Or.inr h
  · by_cases c1 : 2 * (j : Int) + 2 ≤ b.Times
    · rcases hs.done j (by omega) c1 with ⟨h, _⟩ | ⟨h, _⟩
      · exact Or.inl h
      · exact Or.inr h
    · exact Or.inr (hs.half j (by omega) (by omega))

theorem Shape.sh_valOK {b : Bowl} (hs : Shape b) : ValOK b.Pins := by
  intro k v hk
  have key : atoi (b.Pins.get k) = none ∨ ∃ w, NumPin (b.Pins.get k) w := by
    by_cases h21 : k < 21
    · by_cases hy : b.Pins.get k = "yet"
      · left; rw [hy]; rfl
      · have hlt := hs.ne_yet_lt k h21 hy
        have hhi := hs.hi
        by_cases hk18 : k < 18
        · rcases Nat.mod_two_eq_zero_or_one k with h0 | h1
          · have e : 2 * (k / 2) = k := by omega
            have := hs.first_shape (k / 2) (by omega) (by omega)
            rw [e] at this
            rcases this with h | h
            · left; rw [h]; rfl
            · exact h.fnx_atoi_cases
          · have e : 2 * (k / 2) + 1 = k := by omega
            have hd := (hs.done (k / 2) (by omega) (by omega)).fd_atoi_cases
            rw [e] at hd
            exact hd.2
        · by_cases c18 : k = 18
          · subst c18
            rcases hs.first_shape 9 (le_refl _) (by omega) with h | h
            · left
              rw [show 2 * 9 = 18 from rfl] at h
              rw [h]; rfl
            · exact h.fnx_atoi_cases
          · by_cases c21 : b.Times = 21
            · have := (hs.t21 c21).td_atoi_cases
              by_cases c19 : k = 19
              · subst c19; exact this.2.1
              · have c20 : k = 20 := by omega
                subst c20; exact this.2.2
            · have c20 : b.Times = 20 := by omega
              have c19 : k = 19 := by omega
              subst c19
              rcases hs.t20 c20 with ⟨_, h | h⟩ | ⟨_, h⟩
              · left; rw [h]; rfl
              · exact h.fnx_atoi_cases
              · left; rw [h]; rfl
    · left
      have : b.Pins.get k = "" := get_out_of_range b.Pins k (by omega)
      rw [this]; rfl
  rcases key with h | ⟨w, hw, h1, h2⟩
  · rw [h] at hk; simp at hk
  · rw [hw] at hk
    simp only [Option.some.injEq] at hk
    omega

/-- The bonus balls of a scored frame: after a strike, a strike and one more
first ball, or a first ball and its second ball; after a spare, a first ball. -/
theorem Shape.look {b : Bowl} (hs : Shape b) (j : Nat) (hj : j < 9)
    (hsc : Scored b.Pins (2 * j)) :
    (b.Pins.get (2 * j) = "X" →
      (b.Pins.get (2 * j + 2) = "X" ∧
        (b.Pins.get (if 2 * j / 2 + 1 = 9 then 2 * j + 3 else 2 * j + 4) = "X" ∨
          FirstNX (b.Pins.get (if 2 * j / 2 + 1 = 9 then 2 * j + 3 else 2 * j + 4)))) ∨
      (FirstNX (b.Pins.get (2 * j + 2)) ∧
        (b.Pins.get (2 * j + 3) = "/" ∨
          SecondOpen (b.Pins.get (2 * j + 2)) (b.Pins.get (2 * j + 3))))) ∧
    (b.Pins.get (2 * j + 1) = "/" →
      b.Pins.get (2 * j + 2) = "X" ∨ FirstNX (b.Pins.get (2 * j + 2))) := by
  have e2 : 2 * (j + 1) = 2 * j + 2 := by omega
  constructor
  · intro hX
    have hlt : 2 * (j : Int) + 3 < b.Times := by
      rcases hsc.2.1 hX with h | h
      · have := hs.ne_yet_lt (2 * j + 3) (by omega) h
        push_cast at this
        omega
      · have := hs.ne_yet_lt (2 * j + 4) (by omega) h
        push_cast at this
        omega
    by_cases h8 : j = 8
    · subst h8
      have hhi := hs.hi
      simp only [show 2 * 8 / 2 + 1 = 9 from rfl, if_true]
      by_cases c20 : b.Times = 20
      · rcases hs.t20 c20 with ⟨h1, h2 | h2⟩ | ⟨h1, h2⟩
        · exact Or.inl ⟨h1, Or.inl h2⟩
        · exact Or.inl ⟨h1, Or.inr h2⟩
        · exact Or.inr ⟨h1, Or.inl h2⟩
      · have c21 : b.Times = 21 := by omega
        rcases hs.t21 c21 with ⟨h1, h2, _⟩ | ⟨h1, h2, _⟩ | ⟨h1, h2, _⟩ | ⟨h1, h2, _⟩
        · exact Or.inr ⟨h1, Or.inr h2⟩
        · exact Or.inl ⟨h1, Or.inl h2⟩
        · exact Or.inl ⟨h1, Or.inr h2⟩
        · exact Or.inr ⟨h1, Or.inl h2⟩
    · have hd := hs.done (j + 1) (by omega) (by push_cast; omega)
      rw [e2] at hd
      rw [if_neg (by omega)]
      rcases hd with ⟨h1, h2⟩ | ⟨h1, h2⟩
      · left
        refine ⟨h1, ?_⟩
        have h4 : b.Pins.get (2 * j + 4) ≠ "yet" := by
          rcases hsc.2.1 hX with h | h
          · exact absurd h2 h
          · exact h
        have := hs.first_shape (j + 2) (by omega)
          (by have := hs.ne_yet_lt (2 * j + 4) (by omega) h4; push_cast at this ⊢; omega)
        rw [show 2 * (j + 2) = 2 * j + 4 by omega] at this
        exact this
      · exact Or.inr ⟨h1, h2⟩
  · intro hsl
    have hne := hsc.2.2 hsl
    have := hs.first_shape (j + 1) (by omega)
      (by have := hs.ne_yet_lt (2 * j + 2) (by omega) hne; push_cast at this ⊢; omega)
    rw [e2] at this
    exact this

/-- Frames are scored from the left: the frame before a scored frame is scored. -/
theorem Shape.scored_prev {b : Bowl} (hs : Shape b) (j : Nat) (hj : j + 1 < 9)
    (hsc : Scored b.Pins (2 * (j + 1))) : Scored b.Pins (2 * j) := by
  have e2 : 2 * (j + 1) = 2 * j + 2 := by omega
  have hle := hs.done_le (j + 1) hj hsc.1
  have hd := hs.done j (by omega) (by push_cast at hle; omega)
  refine ⟨hd, ?_, ?_⟩
  · intro hX
    have hd1 := hsc.1
    rw [e2] at hd1
    rcases hd1 with ⟨h1, _⟩ | ⟨_, h2 | h2⟩
    · right
      have hl := hsc.2.1
      rw [e2] at hl
      have hlt : 2 * (j : Int) + 4 < b.Times := by
        rcases hl h1 with h | h
        · have := hs.ne_yet_lt (2 * j + 2 + 3) (by omega) h
          push_cast at this
          omega
        · have := hs.ne_yet_lt (2 * j + 2 + 4) (by omega) h
          push_cast at this
          omega
      have := hs.first_shape (j + 2) (by omega) (by push_cast; omega)
      rw [show 2 * (j + 2) = 2 * j + 4 by omega] at this
      rcases this with h | h
      · rw [h]; decide
      · exact h.fnx_ne_yet
    · left
      rw [show 2 * j + 3 = 2 * j + 2 + 1 by omega, h2]
      decide
    · left
      rw [show 2 * j + 3 = 2 * j + 2 + 1 by omega]
      exact h2.so_ne_yet
  · intro _
    have := hsc.1.fd_first_ne_yet
    rw [e2] at this
    exact this

/-- At the end of the game frame nine is scored. -/
theorem Shape.scored_last {b : Bowl} (hs : Shape b) (h21 : b.Times = 21) :
    Scored b.Pins (2 * 8) := by
  have ht := hs.t21 h21
  exact ⟨hs.done 8 (by omega) (by omega), fun _ => Or.inl ht.second_ne_yet,
    fun _ => ht.td_first_ne_yet⟩

/-- Every frame up to a scored frame is scored. -/
theorem Shape.scored_below {b : Bowl} (hs : Shape b) (j : Nat) (hj : j < 9)
    (hsc : Scored b.Pins (2 * j)) : ∀ i, i ≤ j → Scored b.Pins (2 * i) := by
  induction j with
  | zero =>
    intro i hi
    have : i = 0 := by omega
    subst this
    exact hsc
  | succ j ih =>
    intro i hi
    by_cases e : i = j + 1
    · subst e
      exact hsc
    · exact ih (by omega) (hs.scored_prev j hj hsc) i (by omega)

/-- A write at the cursor keeps scored frames scored. -/
theorem Shape.scored_write {b : Bowl} (hs : Shape b) (n : Nat) (hn : b.Times = (n : Int))
    (h21 : n < 21) (v : String) (j : Nat) (hj : j < 9) (hsc : Scored b.Pins (2 * j)) :
    Scored (b.Pins.set n v) (2 * j) := by
  have hle := hs.done_le j hj hsc.1
  have hy : b.Pins.get n = "yet" := hs.yet n (by omega) h21
  have keep : ∀ s, b.Pins.get s ≠ "yet" → (b.Pins.set n v).get s = b.Pins.get s := by
    intro s hne
    apply PinArr.get_set_ne
    intro e
    rw [← e] at hne
    exact hne hy
  have g0 : (b.Pins.set n v).get (2 * j) = b.Pins.get (2 * j) :=
    PinArr.get_set_ne _ _ _ _ (by omega)
  have g1 : (b.Pins.set n v).get (2 * j + 1) = b.Pins.get (2 * j + 1) :=
    PinArr.get_set_ne _ _ _ _ (by omega)
  refine ⟨FrameDone.congr _ _ _ g0 g1 hsc.1, ?_, ?_⟩
  · intro hX
    rw [g0] at hX
    rcases hsc.2.1 hX with h | h
    · exact Or.inl (by rw [keep _ h]; exact h)
    · exact Or.inr (by rw [keep _ h]; exact h)
  · intro hsl
    rw [g1] at hsl
    have h := hsc.2.2 hsl
    rw [keep _ h]
    exact h

theorem ScoresOK.crude {r : Bowl} (h : ScoresOK r) (hs : Shape r) :
    ∀ k : Nat, k ≤ 10 →
      -1 - 300 * (k : Int) ≤ r.Scores.get k ∧ r.Scores.get k ≤ 300 * (k : Int) := by
  have hv := hs.sh_valOK
  intro k
  induction k with
  | zero =>
    intro _
    rw [hs.s0]
    simp
  | succ k ih =>
    intro hk
    have hb := ih (by omega)
    by_cases h9 : k < 9
    · rcases h.frames k h9 with ⟨_, he⟩ | ⟨_, he⟩
      · have hd := frameDelta_crude r.Pins hv (2 * k)
        rw [he]
        omega
      · rw [he]
        omega
    · have e : k = 9 := by omega
      subst e
      rcases h.tenth with ⟨_, he⟩ | ⟨_, he⟩
      · have hd := tenthDelta_crude r.Pins hv
        rw [he]
        omega
      · rw [he]
        omega

/-- The stored scores of every record of legal play. -/
theorem LegalPlay.scores_ok (now : String) (r : Bowl) (h : LegalPlay now r) : ScoresOK r := by
  induction h with
  | fresh =>
    refine ⟨fun k hk => Or.inr ⟨Or.inr (Or.inr (Or.inr
      ⟨initPins_get _ (by omega), initPins_get _ (by omega)⟩)), ?_⟩,
      Or.inr ⟨by
        have : (initBowl now).Times = 0 := rfl
        omega, rfl⟩⟩
    have : (initBowl now).Scores = initScores := rfl
    rw [this]
    interval_cases k <;> rfl
  | @step b r t hb ht ha ih =>
    have hsb := LegalPlay.shape now b hb
    obtain ⟨hsr, n, hn, h21, v, hp, _⟩ := Shape.step b r t hsb ht ha
    obtain ⟨_, _, _, hscore, _⟩ := addScore_some b r t ha.1
    have hcr := ih.crude hsb
    obtain ⟨st1, h1, _, h3, h4, h5⟩ := partial_aux r.Pins r.Times hsr.sh_valOK
      (fun j hj => hsr.status j hj) 9 0 (0, b.Scores) rfl rfl
      (fun k hk => by
        have := hcr k hk
        simp only
        push_cast
        omega)
    have e : List.range' (2 * 0) (21 - 2 * 0) = List.range' 0 21 := rfl
    rw [e] at h1
    rw [score_eq_loop] at hscore
    have hloop : scoreLoop r.Pins r.Times (List.range' 0 21) (0, b.Scores) = some st1 := h1
    rw [hloop] at hscore
    simp only [Option.map_some', Option.some.injEq] at hscore
    rw [hscore] at h3 h4 h5
    simp only at h3 h5
    have hbt : b.Times ≠ 21 := by omega
    refine ⟨fun k hk => ?_, ?_⟩
    · rcases h3 k (by omega) hk with hh | ⟨hi, he⟩
      · exact Or.inl hh
      · right
        refine ⟨hi, ?_⟩
        rw [he]
        rcases ih.frames k hk with ⟨hsc, _⟩ | ⟨_, hm⟩
        · have := hsb.scored_write n hn h21 v k hk hsc
          rw [← hp] at this
          exact absurd hi (scored_not_idle _ _ this)
        · exact hm
    · by_cases c : r.Times = 21
      · exact Or.inl ⟨c, h4 c⟩
      · right
        refine ⟨c, ?_⟩
        rw [h5 c]
        rcases ih.tenth with ⟨hh, _⟩ | ⟨_, hm⟩
        · exact absurd hh hbt
        · exact hm

/-! ## Scores of a game in progress -/

/-- A scored frame is worth 0 to 30 pins. -/
theorem Shape.scored_bounds {b : Bowl} (hs : Shape b) (j : Nat) (hj : j < 9)
    (hsc : Scored b.Pins (2 * j)) :
    0 ≤ frameDelta b.Pins (2 * j) ∧ frameDelta b.Pins (2 * j) ≤ 30 := by
  obtain ⟨hl1, hl2⟩ := hs.look j hj hsc
  rcases hsc.1 with ⟨h1, _⟩ | ⟨h1, h2 | h2⟩
  · rcases hl1 h1 with ⟨h3, h4⟩ | ⟨h3, h4⟩
    · rw [frameDelta_XX _ _ h1 h3]
      have := pinVal_first_le h4
      omega
    · rw [frameDelta_XN _ _ h1 h3]
      have v1 := h3.fnx_vals
      rcases h4 with h4 | h4
      · rw [if_pos h4]
        omega
      · rw [if_neg h4.so_ne_slash]
        have v2 := h4.so_vals
        have := v2.2 v1.2.1 v1.2.2
        omega
  · rw [frameDelta_spare _ _ h1.fnx_ne_X h2]
    have := pinVal_first_le (hl2 h2)
    omega
  · rw [frameDelta_open _ _ h1.fnx_ne_X h2.so_ne_slash]
    have v1 := h1.fnx_vals
    have v2 := h2.so_vals
    have := v2.2 v1.2.1 v1.2.2
    omega

theorem face_eq_pinVal {p : PinArr} {i : Nat} (h : p.get i = "X" ∨ FirstNX (p.get i)) :
    face p i = pinVal (p.get i) := by
  rcases h with h | h
  · rw [face_X h, h]
    rfl
  · rw [face_other h.fnx_ne_X h.fnx_ne_slash, h.fnx_vals.1]

/-- A scored strike frame is worth 10 plus the face values of the next two
balls. -/
theorem Shape.strike_faces {b : Bowl} (hs : Shape b) (j : Nat) (hj : j < 9)
    (hsc : Scored b.Pins (2 * j)) (hX : b.Pins.get (2 * j) = "X") :
    b.Pins.get (2 * (j + 1)) ≠ "yet" ∧ b.Pins.get (bonusSlot2 b.Pins (j + 1)) ≠ "yet" ∧
      frameDelta b.Pins (2 * j) =
        10 + face b.Pins (2 * (j + 1)) + face b.Pins (bonusSlot2 b.Pins (j + 1)) := by
  have e2 : 2 * (j + 1) = 2 * j + 2 := by omega
  unfold bonusSlot2
  rw [e2]
  rcases (hs.look j hj hsc).1 hX with ⟨h3, h4⟩ | ⟨h3, h4⟩
  · rw [if_pos h3]
    have ei : (if 2 * j / 2 + 1 = 9 then 2 * j + 3 else 2 * j + 4) =
        (if j + 1 = 9 then 19 else 2 * j + 2 + 2) := by
      by_cases c : j + 1 = 9
      · rw [if_pos c, if_pos (by omega)]
        omega
      · rw [if_neg c, if_neg (by omega)]
    rw [ei] at h4
    refine ⟨by rw [h3]; decide, ?_, ?_⟩
    · rcases h4 with h | h
      · rw [h]; decide
      · exact h.fnx_ne_yet
    · rw [frameDelta_XX _ _ hX h3, ei, face_X h3, face_eq_pinVal h4]
      omega
  · rw [if_neg h3.fnx_ne_X]
    have e3 : 2 * j + 2 + 1 = 2 * j + 3 := by omega
    rw [e3]
    have v1 := h3.fnx_vals
    refine ⟨h3.fnx_ne_yet, ?_, ?_⟩
    · rcases h4 with h | h
      · rw [h]; decide
      · exact h.so_ne_yet
    · rw [frameDelta_XN _ _ hX h3, face_other h3.fnx_ne_X h3.fnx_ne_slash]
      rcases h4 with h4 | h4
      · rw [if_pos h4, face_slash h4, show 2 * j + 3 - 1 = 2 * j + 2 by omega]
        omega
      · rw [if_neg h4.so_ne_slash, face_other h4.so_ne_X h4.so_ne_slash]

set_option maxRecDepth 100000 in
theorem demoTwoStrikes_play : play (initBowl "ann") ["X", "X", "5"] = some demoTwoStrikes := by
  decide

/-- C18: in every record of legal play, for every frame `k` in 1..9 whose first
ball is a strike: when the next two thrown balls are both recorded,
`Scores[k] - Scores[k-1]` is 10 plus the face values of those two balls, and when
one of them is still pending `Scores[k]` is -1. -/
theorem strike_frame_score (now : String) (r : Bowl) (h : LegalPlay now r) (k : Nat)
    (hk1 : 1 ≤ k) (hk9 : k ≤ 9) (hX : r.Pins.get (2 * k - 2) = "X") :
    (r.Pins.get (2 * k) ≠ "yet" ∧ r.Pins.get (bonusSlot2 r.Pins k) ≠ "yet" →
      r.Scores.get k - r.Scores.get (k - 1) =
        10 + face r.Pins (2 * k) + face r.Pins (bonusSlot2 r.Pins k)) ∧
    (r.Pins.get (2 * k) = "yet" ∨ r.Pins.get (bonusSlot2 r.Pins k) = "yet" →
      r.Scores.get k = -1) := by
  obtain ⟨j, rfl⟩ : ∃ j, k = j + 1 := ⟨k - 1, by omega⟩
  have hj : j < 9 := by omega
  have e0 : 2 * (j + 1) - 2 = 2 * j := by omega
  have e1 : j + 1 - 1 = j := by omega
  rw [e0] at hX
  rw [e1]
  have hs := LegalPlay.shape now r h
  have hok := LegalPlay.scores_ok now r h
  rcases hok.frames j hj with ⟨hsc, he⟩ | ⟨hi, he⟩
  · obtain ⟨f1, f2, f3⟩ := hs.strike_faces j hj hsc hX
    constructor
    · intro _
      rw [he, f3]
      omega
    · rintro (hy | hy)
      · exact absurd hy f1
      · exact absurd hy f2
  · constructor
    · rintro ⟨g1, g2⟩
      exfalso
      rcases hi with ⟨_, _, h3, h4⟩ | ⟨hf, _⟩ | ⟨hf, _⟩ | ⟨hy, _⟩
      · have hsh := hs.first_shape (j + 1) (by omega)
          (by
            have := hs.ne_yet_lt (2 * (j + 1)) (by omega) g1
            exact this)
        unfold bonusSlot2 at g2
        rcases hsh with hx | hf
        · rw [if_pos hx] at g2
          by_cases c : j + 1 = 9
          · rw [if_pos c] at g2
            have e : 2 * j + 3 = 19 := by omega
            rw [e] at h3
            exact g2 h3
          · rw [if_neg c] at g2
            have e : 2 * (j + 1) + 2 = 2 * j + 4 := by omega
            rw [e] at g2
            exact g2 h4
        · rw [if_neg hf.fnx_ne_X] at g2
          have e : 2 * (j + 1) + 1 = 2 * j + 3 := by omega
          rw [e] at g2
          exact g2 h3
      · exact hf.fnx_ne_X hX
      · exact hf.fnx_ne_X hX
      · rw [hX] at hy
        exact absurd hy (by decide)
    · intro _
      exact he

/-- Witness for C18 after two strikes and a first ball of 5: frame one is worth
10 + 10 + 5, frame two still waits for its second bonus ball. -/
theorem strike_frame_score_witness :
    demoTwoStrikes.Scores.get 1 = 25 ∧ demoTwoStrikes.Scores.get 2 = -1 ∧
      ((demoTwoStrikes.Pins.get (2 * 1) ≠ "yet" ∧
          demoTwoStrikes.Pins.get (bonusSlot2 demoTwoStrikes.Pins 1) ≠ "yet" →
        demoTwoStrikes.Scores.get 1 - demoTwoStrikes.Scores.get (1 - 1) =
          10 + face demoTwoStrikes.Pins (2 * 1) +
            face demoTwoStrikes.Pins (bonusSlot2 demoTwoStrikes.Pins 1)) ∧
      (demoTwoStrikes.Pins.get (2 * 1) = "yet" ∨
          demoTwoStrikes.Pins.get (bonusSlot2 demoTwoStrikes.Pins 1) = "yet" →
        demoTwoStrikes.Scores.get 1 = -1)) :=
  ⟨by decide, by decide,
    strike_frame_score "ann" demoTwoStrikes
      (LegalPlay.of_play_fresh "ann" ["X", "X", "5"] demoTwoStrikes demoTwoStrikes_play) 1
      (by decide) (by decide) (by decide)⟩

/-- In a record of legal play a scored frame follows a score that is not
negative and adds 0 to 30 to it. -/
theorem LegalPlay.scored_step (now : String) (r : Bowl) (h : LegalPlay now r) :
    ∀ j, j < 9 → Scored r.Pins (2 * j) →
      0 ≤ r.Scores.get j ∧ 0 ≤ r.Scores.get (j + 1) - r.Scores.get j ∧
        r.Scores.get (j + 1) - r.Scores.get j ≤ 30 := by
  have hs := LegalPlay.shape now r h
  have hok := LegalPlay.scores_ok now r h
  have step : ∀ j, j < 9 → Scored r.Pins (2 * j) →
      r.Scores.get (j + 1) = r.Scores.get j + frameDelta r.Pins (2 * j) := by
    intro j hj hsc
    rcases hok.frames j hj with ⟨_, he⟩ | ⟨hi, _⟩
    · exact he
    · exact absurd hi (scored_not_idle _ _ hsc)
  intro j
  induction j with
  | zero =>
    intro hj hsc
    have hb := hs.scored_bounds 0 hj hsc
    have he := step 0 hj hsc
    rw [he, hs.s0]
    omega
  | succ j ih =>
    intro hj hsc
    have hp := ih (by omega) (hs.scored_prev j hj hsc)
    have hb := hs.scored_bounds (j + 1) hj hsc
    have he := step (j + 1) hj hsc
    rw [he]
    omega

/-- In a record of legal play a defined score follows a score that is not
negative and exceeds it by 0 to 30. -/
theorem LegalPlay.defined_step (now : String) (r : Bowl) (h : LegalPlay now r) (k : Nat)
    (hk1 : 1 ≤ k) (hk : k ≤ 10) (hd : r.Scores.get k ≠ -1) :
    0 ≤ r.Scores.get (k - 1) ∧ 0 ≤ r.Scores.get k - r.Scores.get (k - 1) ∧
      r.Scores.get k - r.Scores.get (k - 1) ≤ 30 := by
  have hs := LegalPlay.shape now r h
  have hok := LegalPlay.scores_ok now r h
  obtain ⟨j, rfl⟩ : ∃ j, k = j + 1 := ⟨k - 1, by omega⟩
  have e1 : j + 1 - 1 = j := by omega
  rw [e1]
  by_cases hj : j < 9
  · rcases hok.frames j hj with ⟨hsc, _⟩ | ⟨_, he⟩
    · exact LegalPlay.scored_step now r h j hj hsc
    · exact absurd he hd
  · have e : j = 9 := by omega
    subst e
    rcases hok.tenth with ⟨h21, he⟩ | ⟨_, he⟩
    · have h8 := LegalPlay.scored_step now r h 8 (by omega) (hs.scored_last h21)
      have hb := (hs.t21 h21).td_bounds
      have e9 : r.Scores.get (9 + 1) = r.Scores.get 10 := rfl
      have e8 : r.Scores.get (8 + 1) = r.Scores.get 9 := rfl
      rw [e8] at h8
      rw [e9, he]
      omega
    · exact absurd he hd

/-- C20: in every record of legal play `Scores[0] = 0`, the defined entries of
`Scores` are non-decreasing in the frame index, and a defined entry exceeds the
defined entry before it by 0 to 30. -/
theorem scores_nondecreasing_steps_at_most_30 (now : String) (r : Bowl)
    (h : LegalPlay now r) :
    r.Scores.get 0 = 0 ∧
    (∀ i j : Nat, i ≤ j → j ≤ 10 → r.Scores.get i ≠ -1 → r.Scores.get j ≠ -1 →
      r.Scores.get i ≤ r.Scores.get j) ∧
    (∀ k : Nat, 1 ≤ k → k ≤ 10 → r.Scores.get (k - 1) ≠ -1 → r.Scores.get k ≠ -1 →
      0 ≤ r.Scores.get k - r.Scores.get (k - 1) ∧
        r.Scores.get k - r.Scores.get (k - 1) ≤ 30) := by
  refine ⟨(LegalPlay.shape now r h).s0, ?_, ?_⟩
  · intro i j
    induction j with
    | zero =>
      intro hij _ _ _
      have : i = 0 := by omega
      subst this
      exact le_refl _
    | succ j ih =>
      intro hij hj hi hd
      by_cases e : i = j + 1
      · subst e
        exact le_refl _
      · have hst := LegalPlay.defined_step now r h (j + 1) (by omega) hj hd
        have e1 : j + 1 - 1 = j := by omega
        rw [e1] at hst
        have := ih (by omega) (by omega) hi (by omega)
        omega
  · intro k hk1 hk _ hd
    exact (LegalPlay.defined_step now r h k hk1 hk hd).2

/-- Witness for C20 on the record after two strikes and a first ball of 5
(scores 0, 25, then undetermined). -/
theorem scores_nondecreasing_steps_at_most_30_witness :
    demoTwoStrikes.Scores.get 1 = 25 ∧
    demoTwoStrikes.Scores.get 0 = 0 ∧
    (∀ i j : Nat, i ≤ j → j ≤ 10 → demoTwoStrikes.Scores.get i ≠ -1 →
      demoTwoStrikes.Scores.get j ≠ -1 →
      demoTwoStrikes.Scores.get i ≤ demoTwoStrikes.Scores.get j) ∧
    (∀ k : Nat, 1 ≤ k → k ≤ 10 → demoTwoStrikes.Scores.get (k - 1) ≠ -1 →
      demoTwoStrikes.Scores.get k ≠ -1 →
      0 ≤ demoTwoStrikes.Scores.get k - demoTwoStrikes.Scores.get (k - 1) ∧
        demoTwoStrikes.Scores.get k - demoTwoStrikes.Scores.get (k - 1) ≤ 30) :=
  ⟨by decide,
    scores_nondecreasing_steps_at_most_30 "ann" demoTwoStrikes
      (LegalPlay.of_play_fresh "ann" ["X", "X", "5"] demoTwoStrikes demoTwoStrikes_play)⟩

/-! ## The recorder on any token -/

theorem strike_res (b : Bowl) (t : String) (n : Nat) (hn : b.Times = (n : Int)) (h21 : n < 21) :
    strike b t = some (b.Pins, (n : Int)) ∨
      strike b t = some (b.Pins.set n "X", (n : Int) + 2) ∨
      ∃ v, v ≠ "X" ∧ v ≠ "/" ∧ v ≠ "yet" ∧ strike b t = some (b.Pins.set n v, (n : Int) + 1) := by
  have hw : ∀ v d, writeThrow b v d = some (b.Pins.set n v, (n : Int) + d) := by
    intro v d
    have e : b.Times.toNat = n := by omega
    rw [writeThrow_eq b v d (by omega) (by omega), e, hn]
  rcases strike_cases b t with h | h | ⟨v, h1, h2, h3, h⟩
  · left
    rw [h, hn]
  · right; left
    rw [h, hw]
  · right; right
    exact ⟨v, h1, h2, h3, by rw [h, hw]⟩

theorem spare_res (b : Bowl) (t : String) (n : Nat) (hn : b.Times = (n : Int)) (h1 : 1 ≤ n)
    (h21 : n < 21) :
    spare b t = some (b.Pins, (n : Int)) ∨
      ∃ v, v ≠ "X" ∧ v ≠ "yet" ∧ spare b t = some (b.Pins.set n v, (n : Int) + 1) := by
  have hw : ∀ v d, writeThrow b v d = some (b.Pins.set n v, (n : Int) + d) := by
    intro v d
    have e : b.Times.toNat = n := by omega
    rw [writeThrow_eq b v d (by omega) (by omega), e, hn]
  rcases spare_cases b t (by omega) (by omega) with h | ⟨v, h1, h2, h⟩
  · left
    rw [h, hn]
  · right
    exact ⟨v, h1, h2, by rw [h, hw]⟩

/-- What `addScore` does to the pins and the cursor with any token, on a record
whose slot at the cursor is pending: nothing (at slot 19 after a first ball that
is not a strike the cursor still moves to 21), or one write at the cursor with
the cursor moved on. -/
theorem addThrow_outcome (b : Bowl) (t : String) (n : Nat) (hn : b.Times = (n : Int))
    (h21 : n ≤ 21) (hy : n < 21 → b.Pins.get n = "yet") :
    ∃ p c, addThrow b t = some (p, c) ∧
      ((p = b.Pins ∧ (c = n ∨ (n = 19 ∧ b.Pins.get 18 ≠ "X" ∧ c = 21))) ∨
       (n < 21 ∧ ∃ v, p = b.Pins.set n v ∧ v ≠ "yet" ∧
         ((n ≤ 17 ∧ n % 2 = 0 ∧ ((v = "X" ∧ c = n + 2) ∨ (v ≠ "X" ∧ c = n + 1))) ∨
          (n ≤ 17 ∧ n % 2 = 1 ∧ v ≠ "X" ∧ c = n + 1) ∨
          (n = 18 ∧ c = 19) ∨ (n = 19 ∧ (c = 20 ∨ c = 21)) ∨ (n = 20 ∧ c = 21)))) := by
  have xy : ("X" : String) ≠ "yet" := by decide
  by_cases h17 : n ≤ 17
  · have hyn := hy (by omega)
    rcases Nat.mod_two_eq_zero_or_one n with hev | hodd
    · rw [addThrow_even b t (by omega) (by omega)]
      rcases strike_res b t n hn (by omega) with h | h | ⟨v, h1, _, h3, h⟩
      · exact ⟨_, _, h, Or.inl ⟨rfl, Or.inl rfl⟩⟩
      · exact ⟨_, _, h, Or.inr ⟨by omega, "X", rfl, xy,
          Or.inl ⟨h17, hev, Or.inl ⟨rfl, rfl⟩⟩⟩⟩
      · exact ⟨_, _, h, Or.inr ⟨by omega, v, rfl, h3,
          Or.inl ⟨h17, hev, Or.inr ⟨h1, rfl⟩⟩⟩⟩
    · rw [addThrow_odd b t (by omega) (by omega)]
      rcases spare_res b t n hn (by omega) (by omega) with h | ⟨v, h1, h3, h⟩
      · exact ⟨_, _, h, Or.inl ⟨rfl, Or.inl rfl⟩⟩
      · exact ⟨_, _, h, Or.inr ⟨by omega, v, rfl, h3, Or.inr (Or.inl ⟨h17, hodd, h1, rfl⟩)⟩⟩
  by_cases h18 : n = 18
  · subst h18
    have hyn := hy (by omega)
    rw [addThrow_18 b t hn]
    rcases strike_res b t 18 hn (by omega) with h | h | ⟨v, h1, _, h3, h⟩
    · rw [h]
      refine ⟨_, _, rfl, Or.inl ⟨rfl, Or.inl ?_⟩⟩
      simp only [hyn]
      rw [if_neg (by decide)]
    · rw [h]
      refine ⟨_, _, rfl, Or.inr ⟨by omega, "X", rfl, xy, Or.inr (Or.inr (Or.inl ⟨rfl, ?_⟩))⟩⟩
      simp only [PinArr.get_set_eq _ 18 _ (by decide : 18 < 21), if_true]
      rfl
    · rw [h]
      refine ⟨_, _, rfl, Or.inr ⟨by omega, v, rfl, h3, Or.inr (Or.inr (Or.inl ⟨rfl, ?_⟩))⟩⟩
      simp only [PinArr.get_set_eq _ 18 _ (by decide : 18 < 21), if_neg h1]
      rfl
  by_cases h19 : n = 19
  · subst h19
    have hyn := hy (by omega)
    by_cases hx : b.Pins.get 18 = "X"
    · rw [addThrow_19_strike b t hn hx]
      rcases strike_res b t 19 hn (by omega) with h | h | ⟨v, h1, _, h3, h⟩
      · rw [h]
        refine ⟨_, _, rfl, Or.inl ⟨rfl, Or.inl ?_⟩⟩
        simp only [hyn]
        rw [if_neg (by decide)]
      · rw [h]
        refine ⟨_, _, rfl, Or.inr ⟨by omega, "X", rfl, xy,
          Or.inr (Or.inr (Or.inr (Or.inl ⟨rfl, Or.inl ?_⟩)))⟩⟩
        simp only [PinArr.get_set_eq _ 19 _ (by decide : 19 < 21), if_true]
        rfl
      · rw [h]
        refine ⟨_, _, rfl, Or.inr ⟨by omega, v, rfl, h3,
          Or.inr (Or.inr (Or.inr (Or.inl ⟨rfl, Or.inl ?_⟩)))⟩⟩
        simp only [PinArr.get_set_eq _ 19 _ (by decide : 19 < 21), if_neg h1]
        rfl
    · rw [addThrow_19_spare b t hn hx]
      rcases spare_res b t 19 hn (by omega) (by omega) with h | ⟨v, h1, h3, h⟩
      · rw [h]
        refine ⟨_, _, rfl, Or.inl ⟨rfl, Or.inr ⟨rfl, hx, ?_⟩⟩⟩
        simp only [hyn]
        rw [if_pos (by decide)]
      · rw [h]
        refine ⟨_, _, rfl, Or.inr ⟨by omega, v, rfl, h3,
          Or.inr (Or.inr (Or.inr (Or.inl ⟨rfl, ?_⟩)))⟩⟩
        simp only [PinArr.get_set_eq _ 19 _ (by decide : 19 < 21)]
        by_cases c : v = "/"
        · left
          rw [if_neg (by simpa using c)]
          rfl
        · right
          rw [if_pos c]
  by_cases h20 : n = 20
  · subst h20
    have hyn := hy (by omega)
    by_cases hx : b.Pins.get 19 = "X" ∨ b.Pins.get 19 = "/"
    · rw [addThrow_20_strike b t hn hx]
      rcases strike_res b t 20 hn (by omega) with h | h | ⟨v, h1, _, h3, h⟩
      · rw [h]
        refine ⟨_, _, rfl, Or.inl ⟨rfl, Or.inl ?_⟩⟩
        simp only [hyn]
        rw [if_neg (by decide)]
      · rw [h]
        refine ⟨_, _, rfl, Or.inr ⟨by omega, "X", rfl, xy,
          Or.inr (Or.inr (Or.inr (Or.inr ⟨rfl, ?_⟩)))⟩⟩
        simp only [PinArr.get_set_eq _ 20 _ (by decide : 20 < 21)]
        rw [if_pos xy]
      · rw [h]
        refine ⟨_, _, rfl, Or.inr ⟨by omega, v, rfl, h3,
          Or.inr (Or.inr (Or.inr (Or.inr ⟨rfl, ?_⟩)))⟩⟩
        simp only [PinArr.get_set_eq _ 20 _ (by decide : 20 < 21)]
        rw [if_pos h3]
    · rw [addThrow_20_spare b t hn hx]
      rcases spare_res b t 20 hn (by omega) (by omega) with h | ⟨v, h1, h3, h⟩
      · rw [h]
        refine ⟨_, _, rfl, Or.inl ⟨rfl, Or.inl ?_⟩⟩
        simp only [hyn]
        rw [if_neg (by decide)]
      · rw [h]
        refine ⟨_, _, rfl, Or.inr ⟨by omega, v, rfl, h3,
          Or.inr (Or.inr (Or.inr (Or.inr ⟨rfl, ?_⟩)))⟩⟩
        simp only [PinArr.get_set_eq _ 20 _ (by decide : 20 < 21)]
        rw [if_pos h3]
  · have e21 : b.Times = 21 := by omega
    have e : n = 21 := by omega
    refine ⟨b.Pins, b.Times, by simp [addThrow, e21], Or.inl ⟨rfl, Or.inl ?_⟩⟩
    rw [hn]

/-! ## Records reached with any tokens -/

theorem Sound.snd_fresh (now : String) : Sound (initBowl now) where
  lo := by
    have : (initBowl now).Times = 0 := rfl
    omega
  hi := by
    have : (initBowl now).Times = 0 := rfl
    omega
  yet := fun i _ hi => initPins_get i hi
  done := fun j _ h => by
    have : (initBowl now).Times = 0 := rfl
    omega
  half := fun j _ h => by
    have : (initBowl now).Times = 0 := rfl
    omega
  t18 := fun h => by
    have : (initBowl now).Times = 0 := rfl
    omega

theorem Sound.snd_p17 {b : Bowl} (hs : Sound b) : b.Pins.get 17 ≠ "X" := by
  by_cases h : b.Times ≤ 17
  · rw [hs.yet 17 h (by decide)]
    decide
  · rcases hs.done 8 (by decide) (by omega) with ⟨_, h2⟩ | ⟨_, _, h2, _⟩
    · rw [show 2 * 8 + 1 = 17 from rfl] at h2
      rw [h2]; decide
    · exact h2

/-- The write of one slot at the cursor `n`, with the cursor moved to `c` as the
recorder does, keeps the record sound. -/
theorem Sound.snd_write {b b1 : Bowl} (hs : Sound b) (n : Nat) (hn : b.Times = (n : Int))
    (h21 : n < 21) (v : String) (hp : b1.Pins = b.Pins.set n v) (hv : v ≠ "yet")
    (ho : (n ≤ 17 ∧ n % 2 = 0 ∧ ((v = "X" ∧ b1.Times = n + 2) ∨ (v ≠ "X" ∧ b1.Times = n + 1))) ∨
      (n ≤ 17 ∧ n % 2 = 1 ∧ v ≠ "X" ∧ b1.Times = n + 1) ∨
      (n = 18 ∧ b1.Times = 19) ∨ (n = 19 ∧ (b1.Times = 20 ∨ b1.Times = 21)) ∨
      (n = 20 ∧ b1.Times = 21)) : Sound b1 := by
  have gne : ∀ i, i ≠ n → b1.Pins.get i = b.Pins.get i := by
    intro i hi
    rw [hp]
    exact PinArr.get_set_ne _ _ _ _ (fun e => hi e.symm)
  have geq : b1.Pins.get n = v := by
    rw [hp]
    exact PinArr.get_set_eq _ _ _ h21
  have hlt : b.Times < b1.Times ∧ b1.Times ≤ 21 := by omega
  refine ⟨by omega, hlt.2, ?_, ?_, ?_, ?_⟩
  · intro i h1 h2
    rw [gne i (by omega)]
    exact hs.yet i (by omega) h2
  · intro j hj hle
    by_cases c : 2 * (j : Int) + 2 ≤ b.Times
    · have := hs.done j hj c
      rw [gne (2 * j) (by omega), gne (2 * j + 1) (by omega)]
      exact this
    · have hn17 : n ≤ 17 := by omega
      rcases ho with ⟨_, hev, h | h⟩ | ⟨_, hodd, h1, h2⟩ | h | h | h
      · have e : n = 2 * j := by omega
        left
        rw [← e, geq, gne (n + 1) (by omega)]
        exact ⟨h.1, hs.yet (n + 1) (by omega) (by omega)⟩
      · omega
      · have e : n = 2 * j + 1 := by omega
        have hh := hs.half j hj (by omega)
        right
        rw [← e, geq, gne (2 * j) (by omega)]
        exact ⟨hh.1, hh.2, h1, hv⟩
      · omega
      · omega
      · omega
  · intro j hj he
    have e : n = 2 * j := by omega
    have hvx : v ≠ "X" := by
      rcases ho with ⟨_, _, h | h⟩ | ⟨_, hodd, _⟩ | h | h | h
      · omega
      · exact h.1
      · omega
      · omega
      · omega
      · omega
    rw [← e, geq]
    exact ⟨hvx, hv⟩
  · intro h18
    by_cases c : n = 18
    · rw [c] at geq
      rw [geq]
      exact hv
    · rw [gne 18 (fun e => c e.symm)]
      exact hs.t18 (by omega)

/-- Moving the cursor without a write, as a rejected token does, keeps the
record sound. -/
theorem Sound.skip {b b1 : Bowl} (hs : Sound b) (hp : b1.Pins = b.Pins)
    (hc : b1.Times = b.Times ∨ (b.Times = 19 ∧ b1.Times = 21)) : Sound b1 := by
  refine ⟨by have := hs.lo; omega, by have := hs.hi; omega, ?_, ?_, ?_, ?_⟩
  · intro i h1 h2
    rw [hp]
    exact hs.yet i (by omega) h2
  · intro j hj hle
    rw [hp]
    exact hs.done j hj (by omega)
  · intro j hj he
    rw [hp]
    exact hs.half j hj (by omega)
  · intro h18
    rw [hp]
    exact hs.t18 (by omega)

/-- From a sound record `addScore` returns with every token, the result is
sound, and an accepted token moves the cursor on. -/
theorem Sound.snd_step {b : Bowl} (hs : Sound b) (t : String) :
    ∃ b1, addScore b t = some b1 ∧ Sound b1 ∧ b.Times ≤ b1.Times ∧
      (b1.Pins ≠ b.Pins → b.Times < b1.Times ∧
        ∃ v, b1.Pins = b.Pins.set b.Times.toNat v ∧ v ≠ "yet") := by
  obtain ⟨n, hn⟩ := Int.eq_ofNat_of_zero_le hs.lo
  have hhi := hs.hi
  have htn : b.Times.toNat = n := by omega
  obtain ⟨p, c, hthrow, ho⟩ :=
    addThrow_outcome b t n hn (by omega) (fun h => hs.yet n (by omega) h)
  rcases ho with ⟨hp, hc⟩ | ⟨h21, v, hp, hv, hc⟩
  · have h17 : p.get 17 ≠ "X" := by rw [hp]; exact hs.snd_p17
    obtain ⟨b1, h1, h2, h3⟩ := addScore_isSome b t p c hthrow (by omega) h17
    refine ⟨b1, h1, hs.skip (by rw [h2, hp]) ?_, by omega, fun hne => ?_⟩
    · rw [h3]
      rcases hc with hc | ⟨h19, _, hc⟩
      · left; omega
      · right; omega
    · exact absurd (by rw [h2, hp]) hne
  · have h17 : p.get 17 ≠ "X" := by
      rw [hp]
      by_cases e : n = 17
      · subst e
        rw [PinArr.get_set_eq _ _ _ (by decide)]
        rcases hc with ⟨_, hev, _⟩ | ⟨_, _, h, _⟩ | h | h | h
        · omega
        · exact h
        · omega
        · omega
        · omega
      · rw [PinArr.get_set_ne _ _ _ _ e]
        exact hs.snd_p17
    obtain ⟨b1, h1, h2, h3⟩ := addScore_isSome b t p c hthrow (by omega) h17
    have hlt : b.Times < c := by omega
    refine ⟨b1, h1, hs.snd_write n hn h21 v (by rw [h2, hp]) hv (by rw [h3]; exact hc),
      by omega, fun _ => ⟨by omega, v, by rw [h2, hp, htn], hv⟩⟩

theorem Reachable.sound (now : String) (r : Bowl) (h : Reachable now r) : Sound r := by
  induction h with
  | fresh => exact Sound.snd_fresh now
  | step t _ ha ih =>
    obtain ⟨b1, h1, h2, _⟩ := ih.snd_step t
    rw [h1] at ha
    simp only [Option.some.injEq] at ha
    rw [← ha]
    exact h2

theorem Reachable.of_addScores (now : String) (ts : List String) :
    ∀ b r : Bowl, Reachable now b → addScores b ts = some r → Reachable now r := by
  induction ts with
  | nil =>
    intro b r hb h
    simp only [addScores, Option.some.injEq] at h
    rw [← h]
    exact hb
  | cons t ts ih =>
    intro b r hb h
    simp only [addScores] at h
    cases ha : addScore b t with
    | none => rw [ha] at h; simp at h
    | some b1 =>
      rw [ha] at h
      exact ih b1 r (Reachable.step t hb ha) h

theorem Sound.acceptedCount_le (ts : List String) :
    ∀ b : Bowl, Sound b → (acceptedCount b ts : Int) + b.Times ≤ 21 := by
  induction ts with
  | nil =>
    intro b hs
    have := hs.hi
    simp only [acceptedCount]
    omega
  | cons t ts ih =>
    intro b hs
    obtain ⟨b1, h1, h2, h3, h4⟩ := hs.snd_step t
    have := ih b1 h2
    simp only [acceptedCount, h1]
    by_cases c : b1.Pins ≠ b.Pins
    · have := (h4 c).1
      rw [if_pos c]
      push_cast
      omega
    · rw [if_neg c]
      push_cast
      omega

/-- C23: for every record reached from a fresh record with any tokens, the
cursor is in 0..21 and every slot from the cursor on is "yet"; a further
`addScore` returns with every token (no index of `strike`, `spare`, `score` or
`maxScore` is out of range), an accepted token moves the cursor strictly on, and
no run of tokens from the record has more accepted calls than 21 minus the
cursor, so at most 21 from a fresh record. -/
theorem reachable_cursor_bounds_no_panic (now : String) (r : Bowl) (h : Reachable now r) :
    0 ≤ r.Times ∧ r.Times ≤ 21 ∧
    (∀ i : Nat, r.Times ≤ (i : Int) → i < 21 → r.Pins.get i = "yet") ∧
    (∀ t : String, ∃ r1, addScore r t = some r1 ∧ (r1.Pins ≠ r.Pins → r.Times < r1.Times)) ∧
    (∀ ts : List String, (acceptedCount r ts : Int) ≤ 21 - r.Times) ∧
    (∀ ts : List String, acceptedCount (initBowl now) ts ≤ 21) := by
  have hs := Reachable.sound now r h
  refine ⟨hs.lo, hs.hi, hs.yet, fun t => ?_, fun ts => ?_, fun ts => ?_⟩
  · obtain ⟨b1, h1, _, _, h4⟩ := hs.snd_step t
    exact ⟨b1, h1, fun hne => (h4 hne).1⟩
  · have := hs.acceptedCount_le ts
    omega
  · have := (Sound.snd_fresh now).acceptedCount_le ts
    have e : (initBowl now).Times = 0 := rfl
    omega

set_option maxRecDepth 100000 in
theorem demoAnyRecord_run : addScores (initBowl "ann") demoAnyTokens = some demoAnyRecord := by
  decide

set_option maxRecDepth 100000 in
/-- Witness for C23 on the record after the tokens "X", "q", "-5", "14", "7",
"/", "yet", "10" (cursor 8). -/
theorem reachable_cursor_bounds_no_panic_witness :
    demoAnyRecord.Times = 8 ∧ acceptedCount (initBowl "ann") demoAnyTokens = 6 ∧
    0 ≤ demoAnyRecord.Times ∧ demoAnyRecord.Times ≤ 21 ∧
    (∀ i : Nat, demoAnyRecord.Times ≤ (i : Int) → i < 21 → demoAnyRecord.Pins.get i = "yet") ∧
    (∀ t : String, ∃ r1, addScore demoAnyRecord t = some r1 ∧
      (r1.Pins ≠ demoAnyRecord.Pins → demoAnyRecord.Times < r1.Times)) ∧
    (∀ ts : List String, (acceptedCount demoAnyRecord ts : Int) ≤ 21 - demoAnyRecord.Times) ∧
    (∀ ts : List String, acceptedCount (initBowl "ann") ts ≤ 21) :=
  ⟨by decide, by decide,
    reachable_cursor_bounds_no_panic "ann" demoAnyRecord
      (Reachable.of_addScores "ann" demoAnyTokens _ _ Reachable.fresh demoAnyRecord_run)⟩

set_option maxRecDepth 100000 in
/-- C21 (as stated): after the strike "X" on a fresh record the cursor is 2, so
the accepted first-ball strike moved it by 2, not by 1, and slot 1, below the
cursor, is still pending. -/
theorem strike_moves_cursor_by_two :
    addScores (initBowl "ann") ["X"] = some demoOneStrike ∧
      (initBowl "ann").Times = 0 ∧ demoOneStrike.Pins.get 0 = "X" ∧
      demoOneStrike.Times = 2 ∧ demoOneStrike.Pins.get 1 = "yet" := by
  decide

/-- C21 (amended): in every record reached from a fresh record with any tokens,
the cursor is in 0..21, every slot from the cursor on is pending, a slot of
frames 1-9 before the cursor is pending exactly when it is the second slot of a
frame whose first slot holds "X", and slot 18 is thrown once the cursor is past
it. In frames 1-9 an accepted first-ball strike moves the cursor by 2, every
other accepted first ball by 1, and an accepted second ball (never "X") by 1. -/
theorem reachable_slots_and_cursor (now : String) (r : Bowl) (h : Reachable now r) :
    0 ≤ r.Times ∧ r.Times ≤ 21 ∧
    (∀ i : Nat, r.Times ≤ (i : Int) → i < 21 → r.Pins.get i = "yet") ∧
    (∀ i : Nat, (i : Int) < r.Times → i < 18 →
      (r.Pins.get i = "yet" ↔ (i % 2 = 1 ∧ r.Pins.get (i - 1) = "X"))) ∧
    (18 < r.Times → r.Pins.get 18 ≠ "yet") ∧
    (∀ (t : String) (r1 : Bowl), addScore r t = some r1 → r1.Pins ≠ r.Pins → r.Times ≤ 17 →
      (r.Times % 2 = 0 →
        (r1.Pins.get r.Times.toNat = "X" ∧ r1.Times = r.Times + 2) ∨
        (r1.Pins.get r.Times.toNat ≠ "X" ∧ r1.Times = r.Times + 1)) ∧
      (r.Times % 2 = 1 → r1.Pins.get r.Times.toNat ≠ "X" ∧ r1.Times = r.Times + 1)) := by
  have hs := Reachable.sound now r h
  refine ⟨hs.lo, hs.hi, hs.yet, ?_, hs.t18, ?_⟩
  · intro i hlt h18
    rcases Nat.mod_two_eq_zero_or_one i with hev | hodd
    · have e : 2 * (i / 2) = i := by omega
      have hne : r.Pins.get i ≠ "yet" := by
        by_cases c : 2 * ((i / 2 : Nat) : Int) + 2 ≤ r.Times
        · rcases hs.done (i / 2) (by omega) c with ⟨h1, _⟩ | ⟨_, h1, _⟩
          · rw [e] at h1
            rw [h1]; decide
          · rw [e] at h1
            exact h1
        · have := (hs.half (i / 2) (by omega) (by omega)).2
          rw [e] at this
          exact this
      constructor
      · intro hy
        exact absurd hy hne
      · rintro ⟨h1, _⟩
        omega
    · have e : 2 * (i / 2) + 1 = i := by omega
      have e1 : 2 * (i / 2) = i - 1 := by omega
      have hd := hs.done (i / 2) (by omega) (by omega)
      rw [e, e1] at hd
      rcases hd with ⟨h1, h2⟩ | ⟨h1, _, _, h2⟩
      · exact ⟨fun _ => ⟨hodd, h1⟩, fun _ => h2⟩
      · exact ⟨fun hy => absurd hy h2, fun hx => absurd hx.2 h1⟩
  · intro t r1 ha hne h17
    obtain ⟨n, hn⟩ := Int.eq_ofNat_of_zero_le hs.lo
    have htn : r.Times.toNat = n := by omega
    obtain ⟨hthrow, _⟩ := addScore_some r r1 t ha
    obtain ⟨p, c, hthrow1, ho⟩ :=
      addThrow_outcome r t n hn (by omega) (fun h => hs.yet n (by omega) h)
    rw [hthrow] at hthrow1
    simp only [Option.some.injEq, Prod.mk.injEq] at hthrow1
    obtain ⟨e1, e2⟩ := hthrow1
    rw [← e1, ← e2] at ho
    rcases ho with ⟨hp, _⟩ | ⟨h21, v, hp, _, hc⟩
    · exact absurd hp hne
    · have geq : r1.Pins.get n = v := by
        rw [hp]
        exact PinArr.get_set_eq _ _ _ h21
      rw [htn, geq]
      rcases hc with ⟨_, hev, hc⟩ | ⟨_, hodd, h1, h2⟩ | hc | hc | hc
      · refine ⟨fun _ => ?_, fun h => by omega⟩
        rcases hc with ⟨h1, h2⟩ | ⟨h1, h2⟩
        · exact Or.inl ⟨h1, by omega⟩
        · exact Or.inr ⟨h1, by omega⟩
      · exact ⟨fun h => by omega, fun _ => ⟨h1, by omega⟩⟩
      · omega
      · omega
      · omega

set_option maxRecDepth 100000 in
/-- Witness for C21 on the record after one strike. -/
theorem reachable_slots_and_cursor_witness :
    demoOneStrike.Times = 2 ∧
    0 ≤ demoOneStrike.Times ∧ demoOneStrike.Times ≤ 21 ∧
    (∀ i : Nat, demoOneStrike.Times ≤ (i : Int) → i < 21 → demoOneStrike.Pins.get i = "yet") ∧
    (∀ i : Nat, (i : Int) < demoOneStrike.Times → i < 18 →
      (demoOneStrike.Pins.get i = "yet" ↔
        (i % 2 = 1 ∧ demoOneStrike.Pins.get (i - 1) = "X"))) ∧
    (18 < demoOneStrike.Times → demoOneStrike.Pins.get 18 ≠ "yet") ∧
    (∀ (t : String) (r1 : Bowl), addScore demoOneStrike t = some r1 →
      r1.Pins ≠ demoOneStrike.Pins → demoOneStrike.Times ≤ 17 →
      (demoOneStrike.Times % 2 = 0 →
        (r1.Pins.get demoOneStrike.Times.toNat = "X" ∧ r1.Times = demoOneStrike.Times + 2) ∨
        (r1.Pins.get demoOneStrike.Times.toNat ≠ "X" ∧
          r1.Times = demoOneStrike.Times + 1)) ∧
      (demoOneStrike.Times % 2 = 1 →
        r1.Pins.get demoOneStrike.Times.toNat ≠ "X" ∧ r1.Times = demoOneStrike.Times + 1)) :=
  ⟨by decide,
    reachable_slots_and_cursor "ann" demoOneStrike
      (Reachable.of_addScores "ann" ["X"] _ _ Reachable.fresh (by decide))⟩

/-! ## Pins the validator keeps -/

theorem pinsCheck_passes (p : PinArr) (h : (pinsCheck p).2 = true) :
    ∀ i, i < 21 → SlotPasses p i := by
  have hl : pinsLoop p (List.range 21) = true := by
    by_contra c
    simp [pinsCheck, c] at h
  rw [pinsLoop_iff] at hl
  intro i hi
  exact (pinOk_iff p i hi).1 (hl i (List.mem_range.2 hi))

theorem pinsCheck_X_slots (p : PinArr) (h : (pinsCheck p).2 = true) (i : Nat) (hi : i < 21)
    (hX : p.get i = "X") : (i < 18 ∧ i % 2 = 0) ∨ 18 ≤ i := by
  rcases pinsCheck_passes p h i hi with ⟨v, hv, _⟩ | ⟨_, hc⟩
  · rw [hX, atoi_X] at hv
    exact absurd hv (by simp)
  · rcases hc with hc | hc | ⟨hr, _⟩ | ⟨_, hc | hc⟩
    · rw [hX] at hc
      exact absurd hc (by decide)
    · rw [hX] at hc
      exact absurd hc (by decide)
    · rcases hr with hr | hr | ⟨hr, _⟩ | ⟨hr, _⟩
      · exact Or.inl hr
      · exact Or.inr (by omega)
      · exact Or.inr (by omega)
      · exact Or.inr (by omega)
    · rw [hX] at hc
      exact absurd hc (by decide)
    · rw [hX] at hc
      exact absurd hc (by decide)

/-- With the cursor in 0..21 the recorder returns, with a cursor that is not
negative, and writes no "X" to slot 17. -/
theorem addThrow_total (b : Bowl) (t : String) (h0 : 0 ≤ b.Times) (h21 : b.Times ≤ 21) :
    ∃ p c, addThrow b t = some (p, c) ∧ 0 ≤ c ∧ (b.Pins.get 17 ≠ "X" → p.get 17 ≠ "X") := by
  obtain ⟨n, hn⟩ := Int.eq_ofNat_of_zero_le h0
  have keep : ∀ v, n ≠ 17 → b.Pins.get 17 ≠ "X" → (b.Pins.set n v).get 17 ≠ "X" := by
    intro v hne h
    rw [PinArr.get_set_ne _ _ _ _ hne]
    exact h
  by_cases h17 : n ≤ 17
  · rcases Nat.mod_two_eq_zero_or_one n with hev | hodd
    · rw [addThrow_even b t (by omega) (by omega)]
      rcases strike_res b t n hn (by omega) with h | h | ⟨v, _, _, _, h⟩
      · exact ⟨_, _, h, by omega, fun h => h⟩
      · exact ⟨_, _, h, by omega, keep _ (by omega)⟩
      · exact ⟨_, _, h, by omega, keep _ (by omega)⟩
    · rw [addThrow_odd b t (by omega) (by omega)]
      rcases spare_res b t n hn (by omega) (by omega) with h | ⟨v, h1, _, h⟩
      · exact ⟨_, _, h, by omega, fun h => h⟩
      · refine ⟨_, _, h, by omega, fun hh => ?_⟩
        by_cases e : n = 17
        · subst e
          rw [PinArr.get_set_eq _ _ _ (by decide)]
          exact h1
        · exact keep _ e hh
  by_cases h18 : n = 18
  · subst h18
    rw [addThrow_18 b t hn]
    rcases strike_res b t 18 hn (by omega) with h | h | ⟨v, _, _, _, h⟩
    · rw [h]
      exact ⟨_, _, rfl, by simp only; split <;> omega, fun h => h⟩
    · rw [h]
      exact ⟨_, _, rfl, by simp only; split <;> omega, keep _ (by omega)⟩
    · rw [h]
      exact ⟨_, _, rfl, by simp only; split <;> omega, keep _ (by omega)⟩
  by_cases h19 : n = 19
  · subst h19
    by_cases hx : b.Pins.get 18 = "X"
    · rw [addThrow_19_strike b t hn hx]
      rcases strike_res b t 19 hn (by omega) with h | h | ⟨v, _, _, _, h⟩
      · rw [h]
        exact ⟨_, _, rfl, by simp only; split <;> omega, fun h => h⟩
      · rw [h]
        exact ⟨_, _, rfl, by simp only; split <;> omega, keep _ (by omega)⟩
      · rw [h]
        exact ⟨_, _, rfl, by simp only; split <;> omega, keep _ (by omega)⟩
    · rw [addThrow_19_spare b t hn hx]
      rcases spare_res b t 19 hn (by omega) (by omega) with h | ⟨v, _, _, h⟩
      · rw [h]
        exact ⟨_, _, rfl, by simp only; split <;> omega, fun h => h⟩
      · rw [h]
        exact ⟨_, _, rfl, by simp only; split <;> omega, keep _ (by omega)⟩
  by_cases h20 : n = 20
  · subst h20
    by_cases hx : b.Pins.get 19 = "X" ∨ b.Pins.get 19 = "/"
    · rw [addThrow_20_strike b t hn hx]
      rcases strike_res b t 20 hn (by omega) with h | h | ⟨v, _, _, _, h⟩
      · rw [h]
        exact ⟨_, _, rfl, by simp only; split <;> omega, fun h => h⟩
      · rw [h]
        exact ⟨_, _, rfl, by simp only; split <;> omega, keep _ (by omega)⟩
      · rw [h]
        exact ⟨_, _, rfl, by simp only; split <;> omega, keep _ (by omega)⟩
    · rw [addThrow_20_spare b t hn hx]
      rcases spare_res b t 20 hn (by omega) (by omega) with h | ⟨v, _, _, h⟩
      · rw [h]
        exact ⟨_, _, rfl, by simp only; split <;> omega, fun h => h⟩
      · rw [h]
        exact ⟨_, _, rfl, by simp only; split <;> omega, keep _ (by omega)⟩
  · have e21 : b.Times = 21 := by omega
    exact ⟨b.Pins, b.Times, by simp [addThrow, e21], h0, fun h => h⟩

/-- C24: for every record whose pins `pinsCheck` accepts and whose cursor is in
0..21, `addScore` returns with every token, and so do `score` and `maxScore` on
the record: accepted pins hold "X" only on even slots below 18 and on slots
18-20, so the strike lookahead reads `Pins[i+3]` and `Pins[i+4]` with
`i + 4 ≤ 20`. -/
theorem accepted_pins_no_out_of_range (b : Bowl) (hp : (pinsCheck b.Pins).2 = true)
    (h0 : 0 ≤ b.Times) (h21 : b.Times ≤ 21) :
    (∀ t : String, ∃ r, addScore b t = some r) ∧
    (∃ sc, score b = some sc) ∧ (∃ ms, maxScore b = some ms) ∧
    (∀ i, i < 21 → b.Pins.get i = "X" → (i < 18 ∧ i % 2 = 0) ∨ 18 ≤ i) ∧
    (∀ i, i < 18 → b.Pins.get i = "X" → i + 4 ≤ 20) := by
  have hx := pinsCheck_X_slots b.Pins hp
  have h17 : b.Pins.get 17 ≠ "X" := by
    intro h
    have := hx 17 (by decide) h
    omega
  refine ⟨fun t => ?_, score_isSome b h17, maxScore_isSome b h0 h17, hx, fun i hi h => ?_⟩
  · obtain ⟨p, c, hthrow, hc, hk⟩ := addThrow_total b t h0 h21
    obtain ⟨r, hr, _⟩ := addScore_isSome b t p c hthrow hc (hk h17)
    exact ⟨r, hr⟩
  · have := hx i (by omega) h
    omega

set_option maxRecDepth 100000 in
/-- Witness for C24 on a record with the pins "X", "5", "9", "9" and cursor 4. -/
theorem accepted_pins_no_out_of_range_witness :
    (pinsCheck demoKept.Pins).2 = true ∧ demoKept.Times = 4 ∧
    (∀ t : String, ∃ r, addScore demoKept t = some r) ∧
    (∃ sc, score demoKept = some sc) ∧ (∃ ms, maxScore demoKept = some ms) ∧
    (∀ i, i < 21 → demoKept.Pins.get i = "X" → (i < 18 ∧ i % 2 = 0) ∨ 18 ≤ i) ∧
    (∀ i, i < 18 → demoKept.Pins.get i = "X" → i + 4 ≤ 20) :=
  ⟨by decide, by decide,
    accepted_pins_no_out_of_range demoKept (by decide) (by decide) (by decide)⟩

/-! ## Records of legal play pass the validator -/

theorem LegalPlay.name_archives (now : String) (r : Bowl) (h : LegalPlay now r) :
    r.Name = now ∧ r.Archives = [] := by
  induction h with
  | fresh => exact ⟨rfl, rfl⟩
  | step t _ _ ha ih =>
    obtain ⟨_, h1, h2, _⟩ := addScore_some _ _ t ha.1
    exact ⟨h1.trans ih.1, h2.trans ih.2⟩

theorem Complete.frameSum_le {p : PinArr} (hc : Complete p) :
    ∀ k, k ≤ 9 → 0 ≤ frameSum p k ∧ frameSum p k ≤ 30 * (k : Int) := by
  intro k
  induction k with
  | zero =>
    intro _
    simp [frameSum]
  | succ k ih =>
    intro hk
    have h1 := ih (by omega)
    have h2 := hc.frame_bounds k (by omega)
    simp only [frameSum]
    push_cast
    omega

theorem LegalPlay.maxScore_le (now : String) (r : Bowl) (h : LegalPlay now r) :
    r.MaxScore ≤ 300 := by
  obtain ⟨q, _, hc, hm⟩ := LegalPlay.maxScore_eq now r h
  have h1 := hc.frameSum_le 9 (le_refl _)
  have h2 := hc.2.td_bounds
  rw [hm]
  unfold totalScore
  omega

theorem LegalPlay.score_cap (now : String) (r : Bowl) (h : LegalPlay now r) :
    ∀ k : Nat, k ≤ 10 → r.Scores.get k ≤ 30 * (k : Int) := by
  have hs := LegalPlay.shape now r h
  have hok := LegalPlay.scores_ok now r h
  intro k
  induction k with
  | zero =>
    intro _
    rw [hs.s0]
    simp
  | succ k ih =>
    intro hk
    have hb := ih (by omega)
    by_cases h9 : k < 9
    · rcases hok.frames k h9 with ⟨hsc, _⟩ | ⟨_, he⟩
      · have := LegalPlay.scored_step now r h k h9 hsc
        omega
      · rw [he]
        omega
    · have e : k = 9 := by omega
      subst e
      rcases hok.tenth with ⟨h21, he⟩ | ⟨_, he⟩
      · have hb2 := (hs.t21 h21).td_bounds
        have e10 : r.Scores.get (9 + 1) = r.Scores.get 10 := rfl
        rw [e10, he]
        omega
      · have e10 : r.Scores.get (9 + 1) = r.Scores.get 10 := rfl
        rw [e10, he]
        omega

theorem slot_yet (p : PinArr) (i : Nat) (h : p.get i = "yet") : SlotPasses p i :=
  Or.inr ⟨by rw [h]; rfl, Or.inl h⟩

theorem slot_first (p : PinArr) (i : Nat) (hr : FirstRole p i)
    (h : p.get i = "X" ∨ FirstNX (p.get i)) : SlotPasses p i := by
  rcases h with h | h | h | ⟨v, h, _, h9⟩
  · exact Or.inr ⟨by rw [h]; rfl, Or.inr (Or.inr (Or.inl ⟨hr, Or.inl h⟩))⟩
  · exact Or.inr ⟨by rw [h]; rfl, Or.inr (Or.inr (Or.inl ⟨hr, Or.inr h⟩))⟩
  · exact Or.inr ⟨by rw [h]; rfl, Or.inr (Or.inl h)⟩
  · exact Or.inl ⟨v, h, h9⟩

theorem slot_second (p : PinArr) (i : Nat) (a : String) (hr : ¬ FirstRole p i)
    (h : p.get i = "/" ∨ SecondOpen a (p.get i)) : SlotPasses p i := by
  rcases h with h | h | h | ⟨v, ⟨h, _, h9⟩, _⟩
  · exact Or.inr ⟨by rw [h]; rfl, Or.inr (Or.inr (Or.inr ⟨hr, Or.inl h⟩))⟩
  · exact Or.inr ⟨by rw [h]; rfl, Or.inr (Or.inr (Or.inr ⟨hr, Or.inr h⟩))⟩
  · exact Or.inr ⟨by rw [h]; rfl, Or.inr (Or.inl h)⟩
  · exact Or.inl ⟨v, h, h9⟩

/-- Every slot of a record of legal play passes the test of the validator. -/
theorem Shape.slotPasses {b : Bowl} (hs : Shape b) (i : Nat) (hi : i < 21) :
    SlotPasses b.Pins i := by
  by_cases hy : b.Pins.get i = "yet"
  · exact slot_yet _ _ hy
  have hlt := hs.ne_yet_lt i hi hy
  have hhi := hs.hi
  by_cases h18 : i < 18
  · rcases Nat.mod_two_eq_zero_or_one i with hev | hodd
    · have e : 2 * (i / 2) = i := by omega
      have := hs.first_shape (i / 2) (by omega) (by omega)
      rw [e] at this
      exact slot_first _ _ (Or.inl ⟨h18, hev⟩) this
    · have e : 2 * (i / 2) + 1 = i := by omega
      have hd := hs.done (i / 2) (by omega) (by omega)
      have hr : ¬ FirstRole b.Pins i := by
        rintro (⟨_, h⟩ | h | ⟨h, _⟩ | ⟨h, _⟩) <;> omega
      rcases hd with ⟨_, h2⟩ | ⟨_, h2⟩
      · rw [e] at h2
        exact absurd h2 hy
      · rw [e] at h2
        exact slot_second _ _ _ hr h2
  by_cases c18 : i = 18
  · subst c18
    exact slot_first _ _ (Or.inr (Or.inl rfl)) (hs.first_shape 9 (le_refl _) (by omega))
  have key : (FirstRole b.Pins i ∧ (b.Pins.get i = "X" ∨ FirstNX (b.Pins.get i))) ∨
      (¬ FirstRole b.Pins i ∧ ∃ a, b.Pins.get i = "/" ∨ SecondOpen a (b.Pins.get i)) := by
    have nr19 : b.Pins.get 18 ≠ "X" → ¬ FirstRole b.Pins 19 := by
      intro hx
      rintro (⟨h, _⟩ | h | ⟨_, h⟩ | ⟨h, _⟩)
      · omega
      · omega
      · exact hx h
      · omega
    have nr20 : b.Pins.get 19 ≠ "X" → b.Pins.get 19 ≠ "/" → ¬ FirstRole b.Pins 20 := by
      intro hx hsl
      rintro (⟨h, _⟩ | h | ⟨h, _⟩ | ⟨_, h | h⟩)
      · omega
      · omega
      · omega
      · exact hx h
      · exact hsl h
    by_cases c21 : b.Times = 21
    · by_cases c19 : i = 19
      · subst c19
        rcases hs.t21 c21 with ⟨h1, h2, _⟩ | ⟨h1, h2, _⟩ | ⟨h1, h2, _⟩ | ⟨h1, h2, _⟩
        · exact Or.inr ⟨nr19 h1.fnx_ne_X, _, Or.inr h2⟩
        · exact Or.inl ⟨Or.inr (Or.inr (Or.inl ⟨rfl, h1⟩)), Or.inl h2⟩
        · exact Or.inl ⟨Or.inr (Or.inr (Or.inl ⟨rfl, h1⟩)), Or.inr h2⟩
        · exact Or.inr ⟨nr19 h1.fnx_ne_X, "", Or.inl h2⟩
      · have c20 : i = 20 := by omega
        subst c20
        rcases hs.t21 c21 with ⟨_, _, h3⟩ | ⟨_, h2, h3⟩ | ⟨_, h2, h3⟩ | ⟨_, h2, h3⟩
        · exact absurd h3 hy
        · exact Or.inl ⟨Or.inr (Or.inr (Or.inr ⟨rfl, Or.inl h2⟩)), h3⟩
        · exact Or.inr ⟨nr20 h2.fnx_ne_X h2.fnx_ne_slash, _, h3⟩
        · exact Or.inl ⟨Or.inr (Or.inr (Or.inr ⟨rfl, Or.inr h2⟩)), h3⟩
    · have c20 : b.Times = 20 := by omega
      have c19 : i = 19 := by omega
      subst c19
      rcases hs.t20 c20 with ⟨h1, h2⟩ | ⟨h1, h2⟩
      · exact Or.inl ⟨Or.inr (Or.inr (Or.inl ⟨rfl, h1⟩)), h2⟩
      · exact Or.inr ⟨nr19 h1.fnx_ne_X, "", Or.inl h2⟩
  rcases key with ⟨hr, h⟩ | ⟨hr, a, h⟩
  · exact slot_first _ _ hr h
  · exact slot_second _ _ a hr h

theorem Shape.pinsCheck_ok {b : Bowl} (hs : Shape b) : pinsCheck b.Pins = (b.Pins, true) := by
  have hl : pinsLoop b.Pins (List.range 21) = true := by
    rw [pinsLoop_iff]
    intro i hi
    have hi1 := List.mem_range.1 hi
    exact (pinOk_iff b.Pins i hi1).2 (hs.slotPasses i hi1)
  simp [pinsCheck, hl]

theorem LegalPlay.scoresCheck_ok (now : String) (r : Bowl) (h : LegalPlay now r) :
    scoresCheck r.Scores = (r.Scores, true) := by
  have hl : scoresLoop r.Scores.1 0 = true := by
    rw [scoresLoop_iff]
    intro k hk
    rw [r.Scores.2] at hk
    have := LegalPlay.score_cap now r h k (by omega)
    simpa [ScoreArr.get] using this
  simp [scoresCheck, hl]

/-- C25: every record reached from a fresh record with a non-empty name by legal
play is returned unchanged by `dataCheck`; its pins are accepted by `pinsCheck`
and its scores by `scoresCheck`. -/
theorem legal_play_round_trip (now : String) (r : Bowl) (stamp : String) (hne : now ≠ "")
    (h : LegalPlay now r) :
    dataCheck r stamp = r ∧ pinsCheck r.Pins = (r.Pins, true) ∧
      scoresCheck r.Scores = (r.Scores, true) := by
  have hs := LegalPlay.shape now r h
  have hp := hs.pinsCheck_ok
  have hsc := LegalPlay.scoresCheck_ok now r h
  obtain ⟨hname, harch⟩ := LegalPlay.name_archives now r h
  refine ⟨?_, hp, hsc⟩
  apply dataCheck_of_valid r stamp (by rw [hname]; exact hne)
    (LegalPlay.maxScore_le now r h) hs.hi (by rw [hp]) (by rw [hsc])
  intro a ha
  rw [harch] at ha
  simp at ha

set_option maxRecDepth 100000 in
/-- Witness for C25 on the record after two strikes and a first ball of 5. -/
theorem legal_play_round_trip_witness :
    demoTwoStrikes.Times = 5 ∧
    dataCheck demoTwoStrikes "later" = demoTwoStrikes ∧
      pinsCheck demoTwoStrikes.Pins = (demoTwoStrikes.Pins, true) ∧
      scoresCheck demoTwoStrikes.Scores = (demoTwoStrikes.Scores, true) :=
  ⟨by decide,
    legal_play_round_trip "ann" demoTwoStrikes "later" (by decide)
      (LegalPlay.of_play_fresh "ann" ["X", "X", "5"] demoTwoStrikes demoTwoStrikes_play)⟩

/-! ## The scorer and the stored scores -/

/-- The loop of the scorer on pins whose scored frames come first: as
`partial_aux`, with a bound on the stored score only where a scored frame reads
it. -/
theorem partial_live (pins : PinArr) (times : Int) (hv : ValOK pins)
    (hst : ∀ j, j < 9 → Scored pins (2 * j) ∨ Idle pins (2 * j))
    (hpre : ∀ j, j + 1 < 9 → Scored pins (2 * (j + 1)) → Scored pins (2 * j))
    (hlast : times = 21 → Scored pins (2 * 8)) :
    ∀ (m j : Nat) (st : Nat × ScoreArr), j + m = 9 → st.1 = j →
      ((j < 9 ∧ Scored pins (2 * j)) ∨ (j = 9 ∧ times = 21) →
        -300 * (j : Int) ≤ st.2.get j ∧ st.2.get j ≤ 300 * (j : Int)) →
      ∃ st1, scoreLoop pins times (List.range' (2 * j) (21 - 2 * j)) st = some st1 ∧
        (∀ k, k ≤ j → st1.2.get k = st.2.get k) ∧
        (∀ k, j ≤ k → k < 9 →
          (Scored pins (2 * k) ∧ st1.2.get (k + 1) = st1.2.get k + frameDelta pins (2 * k)) ∨
          (Idle pins (2 * k) ∧ st1.2.get (k + 1) = st.2.get (k + 1))) ∧
        (times = 21 → st1.2.get 10 = st1.2.get 9 + tenthDelta pins) ∧
        (times ≠ 21 → st1.2.get 10 = st.2.get 10) := by
  intro m
  induction m with
  | zero =>
    intro j st hj hf hb
    have e : j = 9 := by omega
    subst e
    have e2 : List.range' (2 * 9) (21 - 2 * 9) = [18, 19, 20] := rfl
    rw [e2]
    by_cases ht : times = 21
    · have hb9 := hb (Or.inr ⟨rfl, ht⟩)
      subst ht
      obtain ⟨st1, h1, _, h3, h4⟩ := tenth_loop pins st hf
      refine ⟨st1, h1, fun k hk => h4 k hk, fun k h1 h2 => by omega, fun _ => ?_,
        fun h => absurd rfl h⟩
      rw [h3, h4 9 (le_refl _), tenthValue_eq pins _ hv (by omega)]
    · rw [tenth_loop_idle pins times st hf ht]
      exact ⟨_, rfl, fun k _ => rfl, fun k h1 h2 => by omega, fun h => absurd h ht,
        fun _ => rfl⟩
  | succ m ih =>
    intro j st hj hf hb
    have hlist : List.range' (2 * j) (21 - 2 * j) =
        2 * j :: (2 * j + 1) :: List.range' (2 * (j + 1)) (21 - 2 * (j + 1)) := by
      have e : 21 - 2 * j = (21 - 2 * (j + 1)) + 1 + 1 := by omega
      have e2 : 2 * j + 1 + 1 = 2 * (j + 1) := by omega
      rw [e, List.range'_succ, List.range'_succ, e2]
    rw [hlist]
    rcases hst j (by omega) with hs | hi
    · have hbj := hb (Or.inl ⟨by omega, hs⟩)
      rw [frame_step pins times j st _ (by omega) hf hs.1 hs.2 hv (by omega)]
      have hd := frameDelta_crude pins hv (2 * j)
      obtain ⟨s1, hs1⟩ : ∃ s1, s1 = st.2.set (j + 1) (st.2.get j + frameDelta pins (2 * j)) :=
        ⟨_, rfl⟩
      rw [← hs1]
      have geq : s1.get (j + 1) = st.2.get j + frameDelta pins (2 * j) := by
        rw [hs1]
        exact ScoreArr.sget_set_eq _ _ _ (by omega)
      have gne : ∀ k, k ≠ j + 1 → s1.get k = st.2.get k := by
        intro k hk
        rw [hs1]
        exact ScoreArr.sget_set_ne _ _ _ _ (fun h => hk h.symm)
      have hb1 : (j + 1 < 9 ∧ Scored pins (2 * (j + 1))) ∨ (j + 1 = 9 ∧ times = 21) →
          -300 * ((j + 1 : Nat) : Int) ≤ s1.get (j + 1) ∧
          s1.get (j + 1) ≤ 300 * ((j + 1 : Nat) : Int) := by
        intro _
        rw [geq]
        push_cast
        omega
      obtain ⟨st1, h1, h2, h3, h4, h5⟩ := ih (j + 1) (j + 1, s1) (by omega) rfl hb1
      simp only at h2 h3 h5
      refine ⟨st1, h1, ?_, ?_, h4, ?_⟩
      · intro k hk
        rw [h2 k (by omega)]
        exact gne k (by omega)
      · intro k hk1 hk2
        by_cases e : k = j
        · subst e
          left
          refine ⟨hs, ?_⟩
          rw [h2 (k + 1) (le_refl _), h2 k (by omega), geq, gne k (by omega)]
        · rcases h3 k (by omega) hk2 with h | h
          · exact Or.inl h
          · right
            refine ⟨h.1, ?_⟩
            rw [h.2]
            exact gne (k + 1) (by omega)
      · intro ht
        rw [h5 ht]
        exact gne 10 (by omega)
    · rw [idle_step pins times j st _ (by omega) hi]
      have hb1 : (j + 1 < 9 ∧ Scored pins (2 * (j + 1))) ∨ (j + 1 = 9 ∧ times = 21) →
          -300 * ((j + 1 : Nat) : Int) ≤ st.2.get (j + 1) ∧
          st.2.get (j + 1) ≤ 300 * ((j + 1 : Nat) : Int) := by
        intro h
        exfalso
        rcases h with ⟨h1, h2⟩ | ⟨h1, h2⟩
        · exact scored_not_idle _ _ (hpre j h1 h2) hi
        · have e : j = 8 := by omega
          subst e
          exact scored_not_idle _ _ (hlast h2) hi
      obtain ⟨st1, h1, h2, h3, h4, h5⟩ :=
        ih (j + 1) (st.1 + 1, st.2) (by omega) (by simp only; omega) hb1
      refine ⟨st1, h1, fun k hk => h2 k (by omega), ?_, h4, h5⟩
      intro k hk1 hk2
      by_cases e : k = j
      · subst e
        right
        exact ⟨hi, h2 (k + 1) (le_refl _)⟩
      · exact h3 k (by omega) hk2

/-- On a record in the shape of legal play the scorer returns the cumulative
sum of the frames for every scored frame and the stored score for every
other frame, whatever the stored scores are. -/
theorem Shape.score_split {b : Bowl} (hs : Shape b) :
    ∃ sc, score b = some sc ∧ sc.get 0 = 0 ∧
      (∀ k : Nat, k < 9 →
        (Scored b.Pins (2 * k) → sc.get (k + 1) = frameSum b.Pins (k + 1)) ∧
        (¬ Scored b.Pins (2 * k) → sc.get (k + 1) = b.Scores.get (k + 1))) ∧
      (b.Times = 21 → sc.get 10 = totalScore b.Pins) ∧
      (b.Times ≠ 21 → sc.get 10 = b.Scores.get 10) := by
  obtain ⟨st1, h1, h2, h3, h4, h5⟩ := partial_live b.Pins b.Times hs.sh_valOK
    (fun j hj => hs.status j hj) (fun j hj h => hs.scored_prev j hj h)
    (fun h => hs.scored_last h) 9 0 (0, b.Scores) rfl rfl
    (fun _ => by
      simp only
      rw [hs.s0]
      simp)
  have e : List.range' (2 * 0) (21 - 2 * 0) = List.range' 0 21 := rfl
  rw [e] at h1
  simp only at h2 h3 h5
  have h0 : st1.2.get 0 = 0 := by rw [h2 0 (le_refl _)]; exact hs.s0
  have hsum : ∀ k : Nat, k < 9 → Scored b.Pins (2 * k) →
      st1.2.get (k + 1) = frameSum b.Pins (k + 1) := by
    intro k
    induction k with
    | zero =>
      intro hk hsc
      rcases h3 0 (by omega) hk with ⟨_, he⟩ | ⟨hi, _⟩
      · rw [he, h0]
        simp only [frameSum]
      · exact absurd hi (scored_not_idle _ _ hsc)
    | succ k ih =>
      intro hk hsc
      have hp := ih (by omega) (hs.scored_prev k hk hsc)
      rcases h3 (k + 1) (by omega) hk with ⟨_, he⟩ | ⟨hi, _⟩
      · rw [he, hp]
        simp only [frameSum]
      · exact absurd hi (scored_not_idle _ _ hsc)
  refine ⟨st1.2, ?_, h0, fun k hk => ⟨hsum k hk, fun hn => ?_⟩, fun ht => ?_, h5⟩
  · rw [score_eq_loop, h1]
    rfl
  · rcases h3 k (by omega) hk with ⟨hsc, _⟩ | ⟨_, he⟩
    · exact absurd hsc hn
    · exact he
  · rw [h4 ht, hsum 8 (by omega) (hs.scored_last ht)]
    rfl

/-- The shape of legal play is a property of the pins, the cursor and
`Scores[0]`. -/
theorem Shape.of_pins {b b1 : Bowl} (hs : Shape b) (hp : b1.Pins = b.Pins)
    (ht : b1.Times = b.Times) (h0 : b1.Scores.get 0 = 0) : Shape b1 := by
  obtain ⟨n1, p1, s1, m1, t1, a1⟩ := b1
  simp only at hp ht h0
  subst hp ht
  exact ⟨hs.lo, hs.hi, hs.yet, hs.done, hs.half, hs.t19, hs.t20, hs.t21, h0⟩

/-- The scratch pins of `maxScore` on a record in the shape of legal play are
complete. -/
theorem Shape.fill_complete :
    ∀ (k : Nat) (b : Bowl), Shape b → 21 - b.Times ≤ (k : Int) →
      ∃ q, maxFill b = some q ∧ Complete q := by
  intro k
  induction k with
  | zero =>
    intro b hs hk
    have := hs.hi
    exact ⟨b.Pins, maxFill_21 b (by omega), Shape.complete b hs (by omega)⟩
  | succ k ih =>
    intro b hs hk
    by_cases h21 : b.Times = 21
    · exact ⟨b.Pins, maxFill_21 b (by omega), Shape.complete b hs h21⟩
    · have hhi := hs.hi
      obtain ⟨t, b1, ht, ha, hlt, hfill⟩ := hs.best_step (by omega)
      obtain ⟨q, hq, hc⟩ := ih b1 (Shape.step b b1 t hs ht ha).1 (by push_cast at hk; omega)
      exact ⟨q, by rw [← hfill, hq], hc⟩

/-- The recorder reads the pins and the cursor only. -/
theorem addThrow_pins_cursor (b1 b2 : Bowl) (t : String) (hp : b2.Pins = b1.Pins)
    (ht : b2.Times = b1.Times) : addThrow b2 t = addThrow b1 t := by
  obtain ⟨n1, p1, s1, m1, t1, a1⟩ := b1
  obtain ⟨n2, p2, s2, m2, t2, a2⟩ := b2
  simp only at hp ht
  subst hp ht
  rfl

/-- The scorer on two records in the shape of legal play with the same pins and
cursor. -/
theorem Shape.score_pair {b1 b2 : Bowl} (h1 : Shape b1) (h2 : Shape b2)
    (hp : b2.Pins = b1.Pins) (ht : b2.Times = b1.Times) :
    ∃ sc1 sc2, score b1 = some sc1 ∧ score b2 = some sc2 ∧ sc2.get 0 = 0 ∧
      SameScored b1.Pins b1.Times b1.Scores b2.Scores sc1 sc2 := by
  obtain ⟨sc1, e1, z1, f1, t1, u1⟩ := h1.score_split
  obtain ⟨sc2, e2, z2, f2, t2, u2⟩ := h2.score_split
  rw [hp] at f2 t2
  rw [ht] at t2 u2
  refine ⟨sc1, sc2, e1, e2, z2, by rw [z1, z2], fun k hk => ⟨fun hsc => ?_, fun hn => ?_⟩,
    fun h => ?_, fun h => ⟨u1 h, u2 h⟩⟩
  · rw [(f1 k hk).1 hsc, (f2 k hk).1 hsc]
  · exact ⟨(f1 k hk).2 hn, (f2 k hk).2 hn⟩
  · rw [t1 h, t2 h]

/-- C22, counterexample: the fresh record and the record `demoStale` have the
same pins and the same cursor, `dataCheck` returns `demoStale` unchanged, and
the scorer returns 7 for frame one on `demoStale` and -1 on the fresh record;
so does `addScore` with the token "5". -/
theorem score_keeps_stored_score :
    demoStale.Pins = (initBowl "ann").Pins ∧ demoStale.Times = (initBowl "ann").Times ∧
      dataCheck demoStale "now" = demoStale ∧
      (score demoStale).map (fun sc => sc.get 1) = some 7 ∧
      (score (initBowl "ann")).map (fun sc => sc.get 1) = some (-1) ∧
      (addScore demoStale "5").map (fun r => r.Scores.get 1) = some 7 ∧
      (addScore (initBowl "ann") "5").map (fun r => r.Scores.get 1) = some (-1) := by
  decide

/-- C22, amended: for two records in the shape of legal play with the same pins
and the same cursor, `score` returns on both an array, the two arrays are equal
at index 0, at every scored frame of frames 1-9 and, with the cursor at 21, at
frame ten, and at every other frame each array holds the stored score of its
own record; and `addScore` with the same accepted token of legal play yields
the same pins, cursor and `MaxScore`, and `Scores` that compare in the same
way. -/
theorem score_agrees_on_scored_frames (b1 b2 : Bowl) (hp : b1.Pins = b2.Pins)
    (ht : b1.Times = b2.Times) (h1 : Shape b1) (h2 : Shape b2) :
    (∃ sc1 sc2, score b1 = some sc1 ∧ score b2 = some sc2 ∧
      SameScored b1.Pins b1.Times b1.Scores b2.Scores sc1 sc2) ∧
    ∀ (t : String) (r1 : Bowl), LegalTok t → Accepted b1 t r1 →
      ∃ r2, addScore b2 t = some r2 ∧ r2.Pins = r1.Pins ∧ r2.Times = r1.Times ∧
        r2.MaxScore = r1.MaxScore ∧
        SameScored r1.Pins r1.Times b1.Scores b2.Scores r1.Scores r2.Scores := by
  refine ⟨?_, ?_⟩
  · obtain ⟨sc1, sc2, e1, e2, _, hsame⟩ := Shape.score_pair h1 h2 hp.symm ht.symm
    exact ⟨sc1, sc2, e1, e2, hsame⟩
  · intro t r1 hlt ha
    obtain ⟨hsr, _⟩ := Shape.step b1 r1 t h1 hlt ha
    obtain ⟨hthrow, _, _, hscore, hmax⟩ := addScore_some b1 r1 t ha.1
    have hthrow2 : addThrow b2 t = some (r1.Pins, r1.Times) := by
      rw [addThrow_pins_cursor b1 b2 t hp.symm ht.symm]
      exact hthrow
    have hs1 : Shape { b1 with Pins := r1.Pins, Times := r1.Times } :=
      hsr.of_pins rfl rfl h1.s0
    have hs2 : Shape { b2 with Pins := r1.Pins, Times := r1.Times } :=
      hsr.of_pins rfl rfl h2.s0
    obtain ⟨sc1, sc2, e1, e2, z2, hsame⟩ := Shape.score_pair hs1 hs2 rfl rfl
    rw [hscore] at e1
    simp only [Option.some.injEq] at e1
    subst e1
    obtain ⟨k, hk⟩ := Int.eq_ofNat_of_zero_le
      (show (0 : Int) ≤ 21 - r1.Times by have := hsr.hi; omega)
    obtain ⟨q, hq, hc⟩ := Shape.fill_complete k r1 hsr (by omega)
    have hq1 : maxFill { b1 with Pins := r1.Pins, Times := r1.Times, Scores := r1.Scores } =
        some q := hq
    have hq2 : maxFill { b2 with Pins := r1.Pins, Times := r1.Times, Scores := sc2 } =
        some q := hq
    obtain ⟨m1, hm1, _, hv1⟩ :=
      score_complete { b1 with Pins := q, Times := 21, Scores := r1.Scores } hc rfl hsr.s0
    obtain ⟨m2, hm2, _, hv2⟩ :=
      score_complete { b2 with Pins := q, Times := 21, Scores := sc2 } hc rfl z2
    simp only [maxScore, hq1] at hmax
    rw [hm1] at hmax
    simp only [Option.some.injEq] at hmax
    obtain ⟨v2, hv⟩ : ∃ v2, v2 = m2.get 10 := ⟨_, rfl⟩
    refine ⟨{ b2 with Pins := r1.Pins, Times := r1.Times, Scores := sc2, MaxScore := v2 },
      ?_, rfl, rfl, ?_, hsame⟩
    · simp only [addScore, hthrow2, e2, maxScore, hq2, hm2, hv]
    · show v2 = r1.MaxScore
      rw [hv, hv2, ← hmax, hv1]

set_option maxRecDepth 100000 in
/-- Witness for C22 (amended): the record after "X", "X", "5" and the same
record with other stored scores. -/
theorem score_agrees_on_scored_frames_witness :
    demoStaleTwo.Scores ≠ demoTwoStrikes.Scores ∧
    ((∃ sc1 sc2, score demoTwoStrikes = some sc1 ∧ score demoStaleTwo = some sc2 ∧
      SameScored demoTwoStrikes.Pins demoTwoStrikes.Times demoTwoStrikes.Scores
        demoStaleTwo.Scores sc1 sc2) ∧
    ∀ (t : String) (r1 : Bowl), LegalTok t → Accepted demoTwoStrikes t r1 →
      ∃ r2, addScore demoStaleTwo t = some r2 ∧ r2.Pins = r1.Pins ∧ r2.Times = r1.Times ∧
        r2.MaxScore = r1.MaxScore ∧
        SameScored r1.Pins r1.Times demoTwoStrikes.Scores demoStaleTwo.Scores
          r1.Scores r2.Scores) :=
  ⟨by decide, score_agrees_on_scored_frames demoTwoStrikes demoStaleTwo rfl rfl
    (LegalPlay.shape "ann" demoTwoStrikes
      (LegalPlay.of_play_fresh "ann" ["X", "X", "5"] demoTwoStrikes demoTwoStrikes_play))
    (Shape.of_pins (LegalPlay.shape "ann" demoTwoStrikes
      (LegalPlay.of_play_fresh "ann" ["X", "X", "5"] demoTwoStrikes demoTwoStrikes_play))
      rfl rfl rfl)⟩

/-! ## Token aliases -/

theorem SecondSlot.slot_prevPin (b : Bowl) (hp : SecondSlot b) :
    prevPin b = some (b.Pins.get (b.Times - 1).toNat) := by
  have h : 1 ≤ b.Times ∧ b.Times < 22 := by
    rcases hp with ⟨_, h17, hodd⟩ | ⟨h19, _⟩ | ⟨h20, _⟩ <;> omega
  simp [prevPin, h]

theorem SecondSlot.slot_congr (b : Bowl) (t u : String) (hp : SecondSlot b)
    (h : spare b t = spare b u) : addThrow b t = addThrow b u := by
  rcases hp with ⟨_, h17, hodd⟩ | ⟨h19, hx⟩ | ⟨h20, hx⟩
  · have h1 : ¬ b.Times > 17 := not_lt.mpr h17
    have h2 : ¬ b.Times % 2 = 0 := by omega
    simp [addThrow, h1, h2, h]
  · simp [addThrow, h19, hx, h]
  · simp [addThrow, h20, hx, h]

theorem SecondSlot.slot_pins (b : Bowl) (t : String) (p : PinArr) (c : Int)
    (hp : SecondSlot b) (h : addThrow b t = some (p, c)) :
    ∃ c1, spare b t = some (p, c1) := by
  rcases hp with ⟨_, h17, hodd⟩ | ⟨h19, hx⟩ | ⟨h20, hx⟩
  · rw [addThrow_odd b t h17 hodd] at h
    exact ⟨c, h⟩
  · rw [addThrow_19_spare b t h19 hx] at h
    exact map_snd_some _ _ p c h
  · rw [addThrow_20_spare b t h20 hx] at h
    exact map_snd_some _ _ p c h

/-- On a second-ball position after a first ball of -9 to 9 pins the token "0"
is recorded as "-". -/
theorem SecondSlot.slot_zero (b : Bowl) (hp : SecondSlot b) (hlo : -9 ≤ firstBallPins b)
    (hhi : firstBallPins b ≤ 9) : spare b "0" = writeThrow b "-" 1 := by
  have h : atoi "0" = some 0 := rfl
  unfold firstBallPins at hlo hhi
  unfold spare
  rw [h, SecondSlot.slot_prevPin b hp]
  simp only []
  cases hq : atoi (b.Pins.get (b.Times - 1).toNat) with
  | none => simp
  | some l =>
    rw [hq] at hlo hhi
    simp only [] at hlo hhi
    have hs : sub64 10 l = 10 - l := wrap64_of_range _ (by omega) (by omega)
    have : (0 : Int) < 10 - l := by omega
    simp [hs, this]

/-- With the cursor in 0..21 and no "X" in slot 17, `addScore` returns a record
for every token. -/
theorem addScore_returns (b : Bowl) (t : String) (h0 : 0 ≤ b.Times) (h21 : b.Times ≤ 21)
    (h17 : b.Pins.get 17 ≠ "X") : ∃ r, addScore b t = some r := by
  obtain ⟨p, c, hthrow, hc, hk⟩ := addThrow_total b t h0 h21
  obtain ⟨r, hr, _⟩ := addScore_isSome b t p c hthrow hc (hk h17)
  exact ⟨r, hr⟩

theorem FirstBallPos.fb_bounds {b : Bowl} (hp : FirstBallPos b) : 0 ≤ b.Times ∧ b.Times ≤ 21 := by
  rcases hp with ⟨_, h17, hev⟩ | h18 | ⟨h19, hx⟩ | ⟨h20, hx⟩ <;> omega

theorem SecondSlot.slot_bounds {b : Bowl} (hp : SecondSlot b) : 0 ≤ b.Times ∧ b.Times ≤ 21 := by
  rcases hp with ⟨_, h17, hodd⟩ | ⟨h19, _⟩ | ⟨h20, _⟩ <;> omega

/-- C9: token aliases. On a first-ball position "10", "x", "X" give the same
result, "0", "g", "G", "-" give the same result and "f", "F" give the same
result; when slot 17 does not hold "X" (as in every record reached by `addScore`
calls or accepted by `pinsCheck`) these results are records, with "X", "G" and
"F" written at the cursor. On a second-ball position after a first ball of -9
to 9 pins "0", "g", "G", "-" give the same result, a record with "-" written
(a symbol other than "G"); after a first ball of `l` pins, `0 ≤ l ≤ 9`, every
numeral whose value is `10 - l` gives the same result as "/", a record with "/"
written. -/
theorem token_aliases (b : Bowl) :
    (FirstBallPos b →
      addScore b "10" = addScore b "X" ∧ addScore b "x" = addScore b "X" ∧
      addScore b "0" = addScore b "G" ∧ addScore b "g" = addScore b "G" ∧
      addScore b "-" = addScore b "G" ∧ addScore b "f" = addScore b "F" ∧
      (∀ r, addScore b "X" = some r → r.Pins = b.Pins.set b.Times.toNat "X") ∧
      (∀ r, addScore b "G" = some r → r.Pins = b.Pins.set b.Times.toNat "G") ∧
      (∀ r, addScore b "F" = some r → r.Pins = b.Pins.set b.Times.toNat "F") ∧
      (b.Pins.get 17 ≠ "X" →
        (∃ r, addScore b "X" = some r ∧ r.Pins = b.Pins.set b.Times.toNat "X") ∧
        (∃ r, addScore b "G" = some r ∧ r.Pins = b.Pins.set b.Times.toNat "G") ∧
        (∃ r, addScore b "F" = some r ∧ r.Pins = b.Pins.set b.Times.toNat "F"))) ∧
    (SecondSlot b → -9 ≤ firstBallPins b → firstBallPins b ≤ 9 →
      addScore b "0" = addScore b "-" ∧ addScore b "g" = addScore b "-" ∧
      addScore b "G" = addScore b "-" ∧
      (∀ r, addScore b "-" = some r → r.Pins = b.Pins.set b.Times.toNat "-") ∧ "-" ≠ "G" ∧
      (b.Pins.get 17 ≠ "X" →
        ∃ r, addScore b "-" = some r ∧ r.Pins = b.Pins.set b.Times.toNat "-")) ∧
    (SecondBallPos b →
      (∀ tok, atoi tok = some (10 - firstBallPins b) → addScore b tok = addScore b "/") ∧
      (∀ r, addScore b "/" = some r → r.Pins = b.Pins.set b.Times.toNat "/") ∧
      (b.Pins.get 17 ≠ "X" →
        ∃ r, addScore b "/" = some r ∧ r.Pins = b.Pins.set b.Times.toNat "/")) := by
  refine ⟨?_, ?_, ?_⟩
  · intro hp
    have key : ∀ t u, strike b t = strike b u → addScore b t = addScore b u :=
      fun t u h => addScore_congr b t u (addThrow_strike_congr b t u hp h)
    have wr : ∀ t v d, strike b t = writeThrow b v d → ∀ r, addScore b t = some r →
        r.Pins = b.Pins.set b.Times.toNat v := by
      intro t v d hs r hr
      obtain ⟨c1, h1⟩ := addThrow_strike_pins b t r.Pins r.Times hp (addScore_some b r t hr).1
      rw [hs] at h1
      exact writeThrow_pins b v d _ _ h1
    have ex : ∀ t v d, strike b t = writeThrow b v d → b.Pins.get 17 ≠ "X" →
        ∃ r, addScore b t = some r ∧ r.Pins = b.Pins.set b.Times.toNat v := by
      intro t v d hs h17
      obtain ⟨r, hr⟩ := addScore_returns b t hp.fb_bounds.1 hp.fb_bounds.2 h17
      exact ⟨r, hr, wr t v d hs r hr⟩
    refine ⟨key _ _ ?_, key _ _ ?_, key _ _ ?_, key _ _ ?_, key _ _ ?_, key _ _ ?_,
      wr _ _ _ (strike_X b), wr _ _ _ (strike_G b), wr _ _ _ (strike_F b),
      fun h17 => ⟨ex _ _ _ (strike_X b) h17, ex _ _ _ (strike_G b) h17,
        ex _ _ _ (strike_F b) h17⟩⟩
    · rw [strike_10, strike_X]
    · rw [strike_x, strike_X]
    · rw [strike_0, strike_G]
    · rw [strike_g, strike_G]
    · rw [strike_dash, strike_G]
    · rw [strike_f, strike_F]
  · intro hp hlo hhi
    have key : ∀ t u, spare b t = spare b u → addScore b t = addScore b u :=
      fun t u h => addScore_congr b t u (SecondSlot.slot_congr b t u hp h)
    have wr : ∀ r, addScore b "-" = some r → r.Pins = b.Pins.set b.Times.toNat "-" := by
      intro r hr
      obtain ⟨c1, h1⟩ := SecondSlot.slot_pins b "-" r.Pins r.Times hp (addScore_some b r "-" hr).1
      rw [spare_dash] at h1
      exact writeThrow_pins b "-" 1 _ _ h1
    refine ⟨key _ _ ?_, key _ _ ?_, key _ _ ?_, wr, by decide, fun h17 => ?_⟩
    · rw [SecondSlot.slot_zero b hp hlo hhi, spare_dash]
    · rw [spare_g, spare_dash]
    · rw [spare_G, spare_dash]
    · obtain ⟨r, hr⟩ := addScore_returns b "-" hp.slot_bounds.1 hp.slot_bounds.2 h17
      exact ⟨r, hr, wr r hr⟩
  · intro hp
    have key : ∀ t u, spare b t = spare b u → addScore b t = addScore b u :=
      fun t u h => addScore_congr b t u (addThrow_spare_congr b t u hp h)
    have wr : ∀ r, addScore b "/" = some r → r.Pins = b.Pins.set b.Times.toNat "/" := by
      intro r hr
      obtain ⟨c1, h1⟩ := addThrow_spare_pins b "/" r.Pins r.Times hp (addScore_some b r "/" hr).1
      rw [spare_slash] at h1
      exact writeThrow_pins b "/" 1 _ _ h1
    refine ⟨fun tok ht => key _ _ (by rw [spare_complement b tok hp ht, spare_slash]), wr,
      fun h17 => ?_⟩
    have hb : 0 ≤ b.Times ∧ b.Times ≤ 21 := by
      rcases hp.1 with ⟨_, h17, hodd⟩ | ⟨h19, _⟩ | ⟨h20, _⟩ <;> omega
    obtain ⟨r, hr⟩ := addScore_returns b "/" hb.1 hb.2 h17
    exact ⟨r, hr, wr r hr⟩

set_option maxRecDepth 100000 in
/-- Witness of C9: on the fresh record (first-ball position) "10" gives the
record of "X", with "X" in slot 0; on the record after "-5" (second-ball
position) "0" gives the record of "-", with "-" in slot 1; on the record after
"3" the numeral "7" gives the record of "/", with "/" in slot 1. -/
theorem token_aliases_witness :
    (FirstBallPos (initBowl "ann") ∧ (initBowl "ann").Pins.get 17 ≠ "X" ∧
      addScore (initBowl "ann") "10" = addScore (initBowl "ann") "X" ∧
      ∃ r, addScore (initBowl "ann") "X" = some r ∧
        r.Pins = (initBowl "ann").Pins.set (initBowl "ann").Times.toNat "X") ∧
    (SecondSlot secondNegDemo ∧ firstBallPins secondNegDemo = -5 ∧
      addScore secondNegDemo "0" = addScore secondNegDemo "-" ∧
      ∃ r, addScore secondNegDemo "-" = some r ∧
        r.Pins = secondNegDemo.Pins.set secondNegDemo.Times.toNat "-") ∧
    (SecondBallPos secondDemo ∧ addScore secondDemo "7" = addScore secondDemo "/" ∧
      ∃ r, addScore secondDemo "/" = some r ∧
        r.Pins = secondDemo.Pins.set secondDemo.Times.toNat "/") :=
  ⟨⟨Or.inl ⟨by decide, by decide, by decide⟩, by decide,
      ((token_aliases (initBowl "ann")).1 (Or.inl ⟨by decide, by decide, by decide⟩)).1,
      (((token_aliases (initBowl "ann")).1
        (Or.inl ⟨by decide, by decide, by decide⟩)).2.2.2.2.2.2.2.2.2 (by decide)).1⟩,
    ⟨Or.inl ⟨by decide, by decide, by decide⟩, by decide,
      ((token_aliases secondNegDemo).2.1 (Or.inl ⟨by decide, by decide, by decide⟩)
        (by decide) (by decide)).1,
      ((token_aliases secondNegDemo).2.1 (Or.inl ⟨by decide, by decide, by decide⟩)
        (by decide) (by decide)).2.2.2.2.2 (by decide)⟩,
    ⟨⟨Or.inl ⟨by decide, by decide, by decide⟩, by decide, by decide⟩,
      ((token_aliases secondDemo).2.2
        ⟨Or.inl ⟨by decide, by decide, by decide⟩, by decide, by decide⟩).1 "7" (by decide),
      ((token_aliases secondDemo).2.2
        ⟨Or.inl ⟨by decide, by decide, by decide⟩, by decide, by decide⟩).2.2 (by decide)⟩⟩

/-! ## Input tokens -/

theorem digitVal_le (c : Char) (d : Nat) (h : digitVal c = some d) : d ≤ 9 := by
  unfold digitVal at h
  split at h
  · simp only [Option.some.injEq] at h
    omega
  · simp at h

theorem parseDigits_short (cs : List Char) (hl : cs.length ≤ 1) (n : Nat)
    (h : parseDigits cs 0 = some n) : n ≤ 9 := by
  match cs, hl with
  | [], _ =>
    simp only [parseDigits, Option.some.injEq] at h
    omega
  | [c], _ =>
    simp only [parseDigits] at h
    cases hd : digitVal c with
    | none => rw [hd] at h; simp at h
    | some d =>
      rw [hd] at h
      simp only [parseDigits, Option.some.injEq] at h
      have := digitVal_le c d hd
      omega

/-- The value of a numeral of at most two characters is at least -9. -/
theorem atoi_short (t : String) (hl : t.length ≤ 2) (n : Int) (h : atoi t = some n) :
    -9 ≤ n := by
  have hd : t.data.length ≤ 2 := hl
  unfold atoi at h
  cases hdat : t.data with
  | nil => rw [hdat] at h; simp at h
  | cons c cs =>
    rw [hdat] at h hd
    simp only [List.length_cons] at hd
    simp only [] at h
    by_cases c1 : c = '-'
    · rw [if_pos c1] at h
      cases cs with
      | nil => simp at h
      | cons d ds =>
        simp only [] at h
        cases hp : parseDigits (d :: ds) 0 with
        | none => rw [hp] at h; simp at h
        | some k =>
          rw [hp] at h
          simp only [] at h
          have := parseDigits_short (d :: ds) (by simp only [List.length_cons] at hd ⊢; omega) k hp
          split at h
          · simp only [Option.some.injEq] at h
            omega
          · simp at h
    · rw [if_neg c1] at h
      by_cases c2 : c = '+'
      · rw [if_pos c2] at h
        cases cs with
        | nil => simp at h
        | cons d ds =>
          simp only [] at h
          cases hp : parseDigits (d :: ds) 0 with
          | none => rw [hp] at h; simp at h
          | some k =>
            rw [hp] at h
            simp only [] at h
            split at h
            · simp only [Option.some.injEq] at h
              omega
            · simp at h
      · rw [if_neg c2] at h
        cases hp : parseDigits (c :: cs) 0 with
        | none => rw [hp] at h; simp at h
        | some k =>
          rw [hp] at h
          simp only [] at h
          split at h
          · simp only [Option.some.injEq] at h
            omega
          · simp at h

/-- The value of a numeric input token is at least -9. -/
theorem InputTok.value_ge {t : String} (h : InputTok t) (n : Int) (ha : atoi t = some n) :
    -9 ≤ n := by
  rcases h with h | hn | hm
  · exact atoi_short t h n ha
  · rcases atoi_numeral t hn with h1 | ⟨k, h1⟩
    · rw [h1] at ha
      simp at ha
    · rw [h1] at ha
      simp only [Option.some.injEq] at ha
      omega
  · exfalso
    have hnone : atoi t = none := by
      rcases hm with h | h | h | h | h | h | h | h <;>
      · rw [h]
        rfl
    rw [hnone] at ha
    simp at ha

theorem LegalTok.input {t : String} (h : LegalTok t) : InputTok t := Or.inr h

/-- What `strike` does with an input token: nothing, a strike, or a first ball
that is not a strike. -/
theorem strike_input (b : Bowl) (t : String) (h : InputTok t) :
    strike b t = some (b.Pins, b.Times) ∨ strike b t = writeThrow b "X" 2 ∨
      ∃ v, FirstL v ∧ strike b t = writeThrow b v 1 := by
  unfold strike
  cases ha : atoi t with
  | none =>
    simp only []
    by_cases h1 : t = "x" ∨ t = "X"
    · right; left; rw [if_pos h1]
    by_cases h2 : t = "g" ∨ t = "G"
    · right; right
      exact ⟨"G", Or.inl rfl, by rw [if_neg h1, if_pos h2]⟩
    by_cases h3 : t = "-"
    · right; right
      exact ⟨"G", Or.inl rfl, by rw [if_neg h1, if_neg h2, if_pos h3]⟩
    by_cases h4 : t = "f" ∨ t = "F"
    · right; right
      exact ⟨"F", Or.inr (Or.inl rfl), by rw [if_neg h1, if_neg h2, if_neg h3, if_pos h4]⟩
    · left
      rw [if_neg h1, if_neg h2, if_neg h3, if_neg h4]
  | some n =>
    simp only []
    have hge := h.value_ge n ha
    by_cases h10 : n < 10
    · by_cases h0 : n = 0
      · right; right
        exact ⟨"G", Or.inl rfl, by rw [if_pos h10, if_pos h0]⟩
      · right; right
        exact ⟨t, Or.inr (Or.inr ⟨n, ha, hge, by omega⟩), by rw [if_pos h10, if_neg h0]⟩
    · by_cases h11 : n = 10
      · right; left
        rw [if_neg h10, if_pos h11]
      · left
        rw [if_neg h10, if_neg h11]

/-- What `spare` does with an input token after a first ball `a` of -9 to 9
pins: nothing, a spare, or a second ball that is not a spare. -/
theorem spare_input (b : Bowl) (t a : String) (h : InputTok t) (hprev : prevPin b = some a)
    (hl : -9 ≤ numVal a ∧ numVal a ≤ 9) :
    spare b t = some (b.Pins, b.Times) ∨ spare b t = writeThrow b "/" 1 ∨
      ∃ v, SecondL a v ∧ spare b t = writeThrow b v 1 := by
  unfold spare
  rw [hprev]
  cases ha : atoi t with
  | none =>
    simp only []
    by_cases h1 : t = "/"
    · right; left; rw [if_pos h1]
    by_cases h2 : t = "g" ∨ t = "G"
    · right; right
      exact ⟨"-", Or.inl rfl, by rw [if_neg h1, if_pos h2]⟩
    by_cases h3 : t = "-"
    · right; right
      exact ⟨"-", Or.inl rfl, by rw [if_neg h1, if_neg h2, if_pos h3]⟩
    by_cases h4 : t = "f" ∨ t = "F"
    · right; right
      exact ⟨"F", Or.inr (Or.inl rfl), by rw [if_neg h1, if_neg h2, if_neg h3, if_pos h4]⟩
    · left
      rw [if_neg h1, if_neg h2, if_neg h3, if_neg h4]
  | some n =>
    simp only []
    have hge := h.value_ge n ha
    unfold numVal at hl
    cases hq : atoi a with
    | none =>
      simp only []
      have hv : numVal a = 0 := by simp [numVal, hq]
      by_cases h10 : n < 10
      · by_cases h0 : n = 0
        · right; right
          exact ⟨"-", Or.inl rfl, by rw [if_pos h10, if_pos h0]⟩
        · right; right
          exact ⟨t, Or.inr (Or.inr ⟨n, ⟨ha, hge, by omega⟩, by omega⟩),
            by rw [if_pos h10, if_neg h0]⟩
      · by_cases h11 : n = 10
        · right; left
          rw [if_neg h10, if_pos h11]
        · left
          rw [if_neg h10, if_neg h11]
    | some l =>
      rw [hq] at hl
      simp only [] at hl ⊢
      have hv : numVal a = l := by simp [numVal, hq]
      have hs : sub64 10 l = 10 - l := wrap64_of_range _ (by omega) (by omega)
      rw [hs]
      by_cases h10 : n < 10 - l
      · by_cases h0 : n = 0
        · right; right
          exact ⟨"-", Or.inl rfl, by rw [if_pos h10, if_pos h0]⟩
        · right; right
          exact ⟨t, Or.inr (Or.inr ⟨n, ⟨ha, hge, by omega⟩, by omega⟩),
            by rw [if_pos h10, if_neg h0]⟩
      · by_cases h11 : n = 10 - l
        · right; left
          rw [if_neg h10, if_pos h11]
        · left
          rw [if_neg h10, if_neg h11]

/-! ## Symbols written from input tokens -/

theorem NumL.nl_ne {s : String} {v : Int} (h : NumL s v) (u : String)
    (hu : atoi u = none) : s ≠ u := by
  intro e
  have h1 := h.1
  rw [e, hu] at h1
  exact absurd h1 (by simp)

theorem NumW.nw_ne {s : String} {v : Int} (h : NumW s v) (u : String)
    (hu : atoi u = none) : s ≠ u := by
  intro e
  have h1 := h.1
  rw [e, hu] at h1
  exact absurd h1 (by simp)

theorem NumL.wide {s : String} {v : Int} (h : NumL s v) : NumW s v :=
  ⟨h.1, h.2.1, by have := h.2.2; omega⟩

theorem NumPin.np_loose {s : String} {v : Int} (h : NumPin s v) : NumL s v :=
  ⟨h.1, by have := h.2.1; omega, h.2.2⟩

theorem FirstNX.loose {s : String} (h : FirstNX s) : FirstL s := by
  rcases h with h | h | ⟨v, h⟩
  · exact Or.inl h
  · exact Or.inr (Or.inl h)
  · exact Or.inr (Or.inr ⟨v, h.np_loose⟩)

theorem SecondOpen.so_loose {a s : String} (h : SecondOpen a s) : SecondL a s := by
  rcases h with h | h | ⟨v, h, h3⟩
  · exact Or.inl h
  · exact Or.inr (Or.inl h)
  · exact Or.inr (Or.inr ⟨v, h.np_loose.wide, h3⟩)

theorem FrameDone.fd_loose {p : PinArr} {i : Nat} (h : FrameDone p i) : FrameL p i := by
  rcases h with h | ⟨h1, h2 | h2⟩
  · exact Or.inl h
  · exact Or.inr ⟨h1.loose, Or.inl h2⟩
  · exact Or.inr ⟨h1.loose, Or.inr h2.so_loose⟩

theorem TenthDone.td_loose {p : PinArr} (h : TenthDone p) : TenthL p := by
  rcases h with ⟨h1, h2, h3⟩ | ⟨h1, h2, h3 | h3⟩ | ⟨h1, h2, h3 | h3⟩ | ⟨h1, h2, h3 | h3⟩
  · exact Or.inl ⟨h1.loose, h2.so_loose, h3⟩
  · exact Or.inr (Or.inl ⟨h1, h2, Or.inl h3⟩)
  · exact Or.inr (Or.inl ⟨h1, h2, Or.inr h3.loose⟩)
  · exact Or.inr (Or.inr (Or.inl ⟨h1, h2.loose, Or.inl h3⟩))
  · exact Or.inr (Or.inr (Or.inl ⟨h1, h2.loose, Or.inr h3.so_loose⟩))
  · exact Or.inr (Or.inr (Or.inr ⟨h1.loose, h2, Or.inl h3⟩))
  · exact Or.inr (Or.inr (Or.inr ⟨h1.loose, h2, Or.inr h3.loose⟩))

/-- A record in the shape of legal play is in the shape of input play. -/
theorem Shape.sh_loose {b : Bowl} (hs : Shape b) : ShapeL b where
  lo := hs.lo
  hi := hs.hi
  yet := hs.yet
  done := fun j hj h => (hs.done j hj h).fd_loose
  half := fun j hj h => (hs.half j hj h).loose
  t19 := fun h => (hs.t19 h).imp id FirstNX.loose
  t20 := fun h => by
    rcases hs.t20 h with ⟨h1, h2 | h2⟩ | ⟨h1, h2⟩
    · exact Or.inl ⟨h1, Or.inl h2⟩
    · exact Or.inl ⟨h1, Or.inr h2.loose⟩
    · exact Or.inr ⟨h1.loose, h2⟩
  t21 := fun h => (hs.t21 h).td_loose
  s0 := hs.s0

theorem FirstL.fl_ne_X {s : String} (h : FirstL s) : s ≠ "X" := by
  rcases h with h | h | ⟨v, h⟩
  · rw [h]; decide
  · rw [h]; decide
  · exact h.nl_ne "X" rfl

theorem FirstL.fl_ne_slash {s : String} (h : FirstL s) : s ≠ "/" := by
  rcases h with h | h | ⟨v, h⟩
  · rw [h]; decide
  · rw [h]; decide
  · exact h.nl_ne "/" rfl

theorem FirstL.fl_ne_yet {s : String} (h : FirstL s) : s ≠ "yet" := by
  rcases h with h | h | ⟨v, h⟩
  · rw [h]; decide
  · rw [h]; decide
  · exact h.nl_ne "yet" rfl

theorem FirstL.fl_numVal_range {s : String} (h : FirstL s) :
    -9 ≤ numVal s ∧ numVal s ≤ 9 := by
  rcases h with h | h | ⟨v, h, h1, h2⟩
  · rw [h]; decide
  · rw [h]; decide
  · simp only [numVal, h]
    exact ⟨h1, h2⟩

theorem SecondL.sl_ne_X {a s : String} (h : SecondL a s) : s ≠ "X" := by
  rcases h with h | h | ⟨v, h, _⟩
  · rw [h]; decide
  · rw [h]; decide
  · exact h.nw_ne "X" rfl

theorem SecondL.sl_ne_slash {a s : String} (h : SecondL a s) : s ≠ "/" := by
  rcases h with h | h | ⟨v, h, _⟩
  · rw [h]; decide
  · rw [h]; decide
  · exact h.nw_ne "/" rfl

theorem SecondL.sl_ne_yet {a s : String} (h : SecondL a s) : s ≠ "yet" := by
  rcases h with h | h | ⟨v, h, _⟩
  · rw [h]; decide
  · rw [h]; decide
  · exact h.nw_ne "yet" rfl

/-! ## Input play keeps the shape of the record -/

/-- The outcomes of `strike` on an input token that is accepted. -/
theorem strike_accept_l (b : Bowl) (t : String) (n : Nat) (hn : b.Times = (n : Int))
    (h21 : n < 21) (ht : InputTok t) (p : PinArr) (c : Int) (h : strike b t = some (p, c))
    (hne : p ≠ b.Pins) :
    (p = b.Pins.set n "X" ∧ c = n + 2) ∨ ∃ v, FirstL v ∧ p = b.Pins.set n v ∧ c = n + 1 := by
  have hw : ∀ v d, writeThrow b v d = some (b.Pins.set n v, (n : Int) + d) := by
    intro v d
    have := writeThrow_eq b v d (by omega) (by omega)
    rw [this, hn]
    simp
  rcases strike_input b t ht with h1 | h1 | ⟨v, hv, h1⟩
  · rw [h1] at h
    simp only [Option.some.injEq, Prod.mk.injEq] at h
    exact absurd h.1.symm hne
  · rw [h1, hw] at h
    simp only [Option.some.injEq, Prod.mk.injEq] at h
    exact Or.inl ⟨h.1.symm, h.2.symm⟩
  · rw [h1, hw] at h
    simp only [Option.some.injEq, Prod.mk.injEq] at h
    exact Or.inr ⟨v, hv, h.1.symm, h.2.symm⟩

/-- The outcomes of `spare` on an input token that is accepted. -/
theorem spare_accept_l (b : Bowl) (t : String) (n : Nat) (hn : b.Times = (n : Int))
    (h1 : 1 ≤ n) (h21 : n < 21) (hf : FirstL (b.Pins.get (n - 1))) (ht : InputTok t)
    (p : PinArr) (c : Int) (h : spare b t = some (p, c)) (hne : p ≠ b.Pins) :
    ∃ v, (v = "/" ∨ SecondL (b.Pins.get (n - 1)) v) ∧ p = b.Pins.set n v ∧ c = n + 1 := by
  have hw : ∀ v d, writeThrow b v d = some (b.Pins.set n v, (n : Int) + d) := by
    intro v d
    have := writeThrow_eq b v d (by omega) (by omega)
    rw [this, hn]
    simp
  have hprev : prevPin b = some (b.Pins.get (n - 1)) := by
    have e : (b.Times - 1).toNat = n - 1 := by omega
    have c1 : 1 ≤ b.Times ∧ b.Times < 22 := by omega
    simp [prevPin, c1, e]
  rcases spare_input b t _ ht hprev hf.fl_numVal_range with h1 | h1 | ⟨v, hv, h1⟩
  · rw [h1] at h
    simp only [Option.some.injEq, Prod.mk.injEq] at h
    exact absurd h.1.symm hne
  · rw [h1, hw] at h
    simp only [Option.some.injEq, Prod.mk.injEq] at h
    exact ⟨"/", Or.inl rfl, h.1.symm, h.2.symm⟩
  · rw [h1, hw] at h
    simp only [Option.some.injEq, Prod.mk.injEq] at h
    exact ⟨v, Or.inr hv, h.1.symm, h.2.symm⟩

/-- An accepted input token writes one slot, at the cursor. -/
theorem addThrow_input_outcome (b : Bowl) (t : String) (hs : ShapeL b) (ht : InputTok t)
    (p : PinArr) (c : Int) (h : addThrow b t = some (p, c)) (hne : p ≠ b.Pins)
    (n : Nat) (hn : b.Times = (n : Int)) :
    n < 21 ∧ ∃ v, p = b.Pins.set n v ∧ OutcomeL b n v c := by
  have hhi := hs.hi
  by_cases h17 : n ≤ 17
  · refine ⟨by omega, ?_⟩
    rcases Nat.mod_two_eq_zero_or_one n with hev | hodd
    · rw [addThrow_even b t (by omega) (by omega)] at h
      rcases strike_accept_l b t n hn (by omega) ht p c h hne with ⟨hp, hc⟩ | ⟨v, hv, hp, hc⟩
      · exact ⟨"X", hp, Or.inl ⟨h17, hev, Or.inl ⟨rfl, hc⟩⟩⟩
      · exact ⟨v, hp, Or.inl ⟨h17, hev, Or.inr ⟨hv, hc⟩⟩⟩
    · rw [addThrow_odd b t (by omega) (by omega)] at h
      have hf : FirstL (b.Pins.get (n - 1)) := by
        have := hs.half ((n - 1) / 2) (by omega) (by omega)
        have e : 2 * ((n - 1) / 2) = n - 1 := by omega
        rw [e] at this
        exact this
      obtain ⟨v, hv, hp, hc⟩ := spare_accept_l b t n hn (by omega) (by omega) hf ht p c h hne
      exact ⟨v, hp, Or.inr (Or.inl ⟨h17, hodd, hv, hc⟩)⟩
  by_cases h18 : n = 18
  · subst h18
    refine ⟨by omega, ?_⟩
    rw [addThrow_18 b t hn] at h
    obtain ⟨c1, hst, hc⟩ := map_some_inv _ _ p c h
    rcases strike_accept_l b t 18 hn (by omega) ht p c1 hst hne with ⟨hp, hc1⟩ | ⟨v, hv, hp, hc1⟩
    · refine ⟨"X", hp, Or.inr (Or.inr (Or.inl ⟨rfl, Or.inl rfl, ?_⟩))⟩
      have e : p.get 18 = "X" := by rw [hp]; exact PinArr.get_set_eq _ _ _ (by omega)
      simp only [e, if_true] at hc
      omega
    · refine ⟨v, hp, Or.inr (Or.inr (Or.inl ⟨rfl, Or.inr hv, ?_⟩))⟩
      have e : p.get 18 = v := by rw [hp]; exact PinArr.get_set_eq _ _ _ (by omega)
      simp only [e, if_neg hv.fl_ne_X] at hc
      omega
  by_cases h19 : n = 19
  · subst h19
    refine ⟨by omega, ?_⟩
    by_cases hx : b.Pins.get 18 = "X"
    · rw [addThrow_19_strike b t hn hx] at h
      obtain ⟨c1, hst, hc⟩ := map_some_inv _ _ p c h
      rcases strike_accept_l b t 19 hn (by omega) ht p c1 hst hne with
        ⟨hp, hc1⟩ | ⟨v, hv, hp, hc1⟩
      · refine ⟨"X", hp, Or.inr (Or.inr (Or.inr (Or.inl ⟨rfl, hx, Or.inl rfl, ?_⟩)))⟩
        have e : p.get 19 = "X" := by rw [hp]; exact PinArr.get_set_eq _ _ _ (by omega)
        simp only [e, if_true] at hc
        omega
      · refine ⟨v, hp, Or.inr (Or.inr (Or.inr (Or.inl ⟨rfl, hx, Or.inr hv, ?_⟩)))⟩
        have e : p.get 19 = v := by rw [hp]; exact PinArr.get_set_eq _ _ _ (by omega)
        simp only [e, if_neg hv.fl_ne_X] at hc
        omega
    · rw [addThrow_19_spare b t hn hx] at h
      obtain ⟨c1, hst, hc⟩ := map_some_inv _ _ p c h
      have hf : FirstL (b.Pins.get (19 - 1)) := by
        rcases hs.t19 hn with h1 | h1
        · exact absurd h1 hx
        · exact h1
      obtain ⟨v, hv, hp, hc1⟩ := spare_accept_l b t 19 hn (by omega) (by omega) hf ht p c1 hst hne
      have e : p.get 19 = v := by rw [hp]; exact PinArr.get_set_eq _ _ _ (by omega)
      refine ⟨v, hp, Or.inr (Or.inr (Or.inr (Or.inr (Or.inl ⟨rfl, hx, ?_⟩))))⟩
      rcases hv with hv | hv
      · left
        simp only [e, hv, ne_eq, not_true_eq_false, if_false] at hc
        exact ⟨hv, by omega⟩
      · right
        simp only [e, ne_eq, hv.sl_ne_slash, not_false_eq_true, if_true] at hc
        exact ⟨hv, hc⟩
  by_cases h20 : n = 20
  · subst h20
    refine ⟨by omega, ?_⟩
    by_cases hx : b.Pins.get 19 = "X" ∨ b.Pins.get 19 = "/"
    · rw [addThrow_20_strike b t hn hx] at h
      obtain ⟨c1, hst, hc⟩ := map_some_inv _ _ p c h
      rcases strike_accept_l b t 20 hn (by omega) ht p c1 hst hne with
        ⟨hp, hc1⟩ | ⟨v, hv, hp, hc1⟩
      · refine ⟨"X", hp, Or.inr (Or.inr (Or.inr (Or.inr (Or.inr (Or.inl
          ⟨rfl, hx, Or.inl rfl, ?_⟩)))))⟩
        have e : p.get 20 = "X" := by rw [hp]; exact PinArr.get_set_eq _ _ _ (by omega)
        simp [e] at hc
        exact hc
      · refine ⟨v, hp, Or.inr (Or.inr (Or.inr (Or.inr (Or.inr (Or.inl
          ⟨rfl, hx, Or.inr hv, ?_⟩)))))⟩
        have e : p.get 20 = v := by rw [hp]; exact PinArr.get_set_eq _ _ _ (by omega)
        simp only [e, ne_eq, hv.fl_ne_yet, not_false_eq_true, if_true] at hc
        exact hc
    · rw [addThrow_20_spare b t hn hx] at h
      obtain ⟨c1, hst, hc⟩ := map_some_inv _ _ p c h
      have hf : FirstL (b.Pins.get (20 - 1)) := by
        rcases hs.t20 hn with ⟨_, h1 | h1⟩ | ⟨_, h1⟩
        · exact absurd (Or.inl h1) hx
        · exact h1
        · exact absurd (Or.inr h1) hx
      obtain ⟨v, hv, hp, hc1⟩ := spare_accept_l b t 20 hn (by omega) (by omega) hf ht p c1 hst hne
      have e : p.get 20 = v := by rw [hp]; exact PinArr.get_set_eq _ _ _ (by omega)
      have hvy : v ≠ "yet" := by
        rcases hv with hv | hv
        · rw [hv]; decide
        · exact hv.sl_ne_yet
      refine ⟨v, hp, Or.inr (Or.inr (Or.inr (Or.inr (Or.inr (Or.inr ⟨rfl, hx, hv, ?_⟩)))))⟩
      simp only [e, ne_eq, hvy, not_false_eq_true, if_true] at hc
      exact hc
  · exfalso
    have e21 : b.Times = 21 := by omega
    have : addThrow b t = some (b.Pins, b.Times) := by
      simp [addThrow, e21]
    rw [this] at h
    simp only [Option.some.injEq, Prod.mk.injEq] at h
    exact hne h.1.symm

theorem FrameL.congr_l (p q : PinArr) (i : Nat) (h0 : q.get i = p.get i)
    (h1 : q.get (i + 1) = p.get (i + 1)) (h : FrameL p i) : FrameL q i := by
  unfold FrameL at h ⊢
  rw [h0, h1]
  exact h

/-- The shape is kept by the write of an accepted input token. -/
theorem ShapeL.write_l (b b1 : Bowl) (n : Nat) (v : String) (hs : ShapeL b)
    (hn : b.Times = (n : Int)) (h21 : n < 21) (hp : b1.Pins = b.Pins.set n v)
    (ho : OutcomeL b n v b1.Times) (h0 : b1.Scores.get 0 = 0) : ShapeL b1 := by
  have gne : ∀ i, i ≠ n → b1.Pins.get i = b.Pins.get i := by
    intro i hi
    rw [hp]
    exact PinArr.get_set_ne _ _ _ _ (fun e => hi e.symm)
  have geq : b1.Pins.get n = v := by
    rw [hp]
    exact PinArr.get_set_eq _ _ _ h21
  have hyet : ∀ i : Nat, n ≤ i → i < 21 → b.Pins.get i = "yet" :=
    fun i h1 h2 => hs.yet i (by omega) h2
  have hc : (n : Int) + 1 ≤ b1.Times ∧ b1.Times ≤ 21 := by
    rcases ho with ⟨_, _, ⟨_, h⟩ | ⟨_, h⟩⟩ | ⟨_, _, _, h⟩ | ⟨_, _, h⟩ | ⟨_, _, _, h⟩ |
      ⟨_, _, ⟨_, h⟩ | ⟨_, h⟩⟩ | ⟨_, _, _, h⟩ | ⟨_, _, _, h⟩ <;> omega
  have hdone_old : ∀ j : Nat, j < 9 → 2 * j + 2 ≤ n → FrameL b1.Pins (2 * j) := by
    intro j hj h
    exact FrameL.congr_l b.Pins b1.Pins (2 * j) (gne _ (by omega)) (gne _ (by omega))
      (hs.done j hj (by omega))
  refine
    { lo := by omega
      hi := hc.2
      yet := fun i h1 h2 => by rw [gne i (by omega)]; exact hs.yet i (by omega) h2
      done := ?_
      half := ?_
      t19 := ?_
      t20 := ?_
      t21 := ?_
      s0 := h0 }
  · intro j hj h
    by_cases hold : 2 * j + 2 ≤ n
    · exact hdone_old j hj hold
    rcases ho with ⟨_, hev, ⟨hv, hc⟩ | ⟨hv, hc⟩⟩ | ⟨_, hodd, hv, hc⟩ | ⟨_, _, hc⟩ |
      ⟨_, _, _, hc⟩ | ⟨_, _, ⟨_, hc⟩ | ⟨_, hc⟩⟩ | ⟨_, _, _, hc⟩ | ⟨_, _, _, hc⟩
    · have e : 2 * j = n := by omega
      rw [e]
      left
      exact ⟨by rw [geq, hv], by rw [gne (n + 1) (by omega)]; exact hyet _ (by omega) (by omega)⟩
    · omega
    · have e : 2 * j = n - 1 := by omega
      have e1 : n - 1 + 1 = n := by omega
      rw [e]
      right
      have hf : FirstL (b.Pins.get (n - 1)) := by
        have := hs.half j hj (by omega)
        rw [e] at this
        exact this
      rw [e1, geq, gne (n - 1) (by omega)]
      exact ⟨hf, hv⟩
    all_goals omega
  · intro j hj h
    rcases ho with ⟨_, hev, ⟨hv, hc⟩ | ⟨hv, hc⟩⟩ | ⟨_, hodd, hv, hc⟩ | ⟨_, _, hc⟩ |
      ⟨_, _, _, hc⟩ | ⟨_, _, ⟨_, hc⟩ | ⟨_, hc⟩⟩ | ⟨_, _, _, hc⟩ | ⟨_, _, _, hc⟩
    · omega
    · have e : 2 * j = n := by omega
      rw [e, geq]
      exact hv
    all_goals omega
  · intro h
    rcases ho with ⟨_, hev, ⟨hv, hc⟩ | ⟨hv, hc⟩⟩ | ⟨_, hodd, hv, hc⟩ | ⟨h18, hv, hc⟩ |
      ⟨_, _, _, hc⟩ | ⟨_, _, ⟨_, hc⟩ | ⟨_, hc⟩⟩ | ⟨_, _, _, hc⟩ | ⟨_, _, _, hc⟩
    · omega
    · omega
    · omega
    · subst h18
      rw [geq]
      exact hv
    all_goals omega
  · intro h
    rcases ho with ⟨_, hev, ⟨hv, hc⟩ | ⟨hv, hc⟩⟩ | ⟨_, hodd, hv, hc⟩ | ⟨h18, hv, hc⟩ |
      ⟨h19, hx, hv, hc⟩ | ⟨h19, hx, ⟨hv, hc⟩ | ⟨hv, hc⟩⟩ | ⟨_, _, _, hc⟩ | ⟨_, _, _, hc⟩
    · omega
    · omega
    · omega
    · omega
    · subst h19
      left
      rw [geq, gne 18 (by omega)]
      exact ⟨hx, hv⟩
    · subst h19
      right
      rw [geq, gne 18 (by omega)]
      rcases hs.t19 hn with h1 | h1
      · exact absurd h1 hx
      · exact ⟨h1, hv⟩
    all_goals omega
  · intro h
    rcases ho with ⟨_, hev, ⟨hv, hc⟩ | ⟨hv, hc⟩⟩ | ⟨_, hodd, hv, hc⟩ | ⟨h18, hv, hc⟩ |
      ⟨h19, hx, hv, hc⟩ | ⟨h19, hx, ⟨hv, hc⟩ | ⟨hv, hc⟩⟩ | ⟨h20, hx, hv, hc⟩ |
      ⟨h20, hx, hv, hc⟩
    · omega
    · omega
    · omega
    · omega
    · omega
    · omega
    · subst h19
      left
      rw [geq, gne 18 (by omega), gne 20 (by omega)]
      rcases hs.t19 hn with h1 | h1
      · exact absurd h1 hx
      · exact ⟨h1, hv, hyet 20 (by omega) (by omega)⟩
    · subst h20
      unfold TenthL
      rw [geq, gne 18 (by omega), gne 19 (by omega)]
      rcases hs.t20 hn with ⟨h1, h2 | h2⟩ | ⟨h1, h2⟩
      · right; left
        exact ⟨h1, h2, hv⟩
      · rcases hx with hx | hx
        · exact absurd hx h2.fl_ne_X
        · exact absurd hx h2.fl_ne_slash
      · right; right; right
        exact ⟨h1, h2, hv⟩
    · subst h20
      unfold TenthL
      rw [geq, gne 18 (by omega), gne 19 (by omega)]
      rcases hs.t20 hn with ⟨h1, h2 | h2⟩ | ⟨h1, h2⟩
      · exact absurd (Or.inl h2) hx
      · right; right; left
        exact ⟨h1, h2, hv⟩
      · exact absurd (Or.inr h2) hx

/-- One accepted input token keeps the shape of the record, and writes
one slot as the throw grammar allows. -/
theorem ShapeL.step_l (b b1 : Bowl) (t : String) (hs : ShapeL b) (ht : InputTok t)
    (ha : Accepted b t b1) :
    ShapeL b1 ∧ ∃ n : Nat, b.Times = (n : Int) ∧ n < 21 ∧
      ∃ v, b1.Pins = b.Pins.set n v ∧ OutcomeL b n v b1.Times := by
  obtain ⟨hadd, hne⟩ := ha
  obtain ⟨hthrow, _, _, hscore, _⟩ := addScore_some b b1 t hadd
  obtain ⟨n, hn⟩ := Int.eq_ofNat_of_zero_le hs.lo
  obtain ⟨h21, v, hp, ho⟩ := addThrow_input_outcome b t hs ht b1.Pins b1.Times hthrow hne n hn
  have h0 : b1.Scores.get 0 = 0 := by
    rw [score_get_zero _ _ hscore]
    exact hs.s0
  exact ⟨ShapeL.write_l b b1 n v hs hn h21 hp ho h0, n, hn, h21, v, hp, ho⟩

/-! ## The scorer on pins complete with balls of input play -/

theorem scoreBody_first_l (pins : PinArr) (times : Int) (i : Nat) (st : Nat × ScoreArr)
    (h18 : i < 18) (hev : i % 2 = 0) (hf : FirstL (pins.get i)) :
    scoreBody pins times i st = some (st.1 + 1, st.2) := by
  unfold scoreBody
  simp only [h18, hev, if_true]
  rcases hf with h | h | ⟨v, h, _⟩
  · simp only [h, atoi_G]
    simp
  · simp only [h, atoi_F]
    simp
  · simp only [h]
    simp

theorem scoreBody_open_l (pins : PinArr) (times : Int) (i : Nat) (st : Nat × ScoreArr)
    (h18 : i < 18) (hodd : i % 2 = 1) (hv : ValOK pins)
    (hb : -1000000 ≤ st.2.get (st.1 - 1) ∧ st.2.get (st.1 - 1) ≤ 1000000)
    (ho : SecondL (pins.get (i - 1)) (pins.get i)) :
    scoreBody pins times i st =
      some (st.1, st.2.set st.1
        (st.2.get (st.1 - 1) + (numVal (pins.get (i - 1)) + numVal (pins.get i)))) := by
  have h2 : ¬ i % 2 = 0 := by omega
  have h3 : i % 2 ≠ 0 := h2
  have nprev := numVal_range pins hv (i - 1)
  unfold scoreBody
  simp only [h18, h2, if_true, if_false]
  rcases ho with h | h | ⟨w, ⟨h, hw1, hw2⟩, _⟩
  · have hat : atoi (pins.get i) = none := by rw [h]; rfl
    rw [numVal_none hat]
    simp only [h, atoi_dash, atoi_F]
    rw [if_neg (by decide), if_neg (by decide), if_pos (by decide), if_pos h3]
    cases hq : atoi (pins.get (i - 1)) with
    | some q =>
      rw [numVal_some hq] at nprev ⊢
      simp only []
      rw [add64_eq _ _ (by omega) (by omega)]
      simp
    | none =>
      rw [numVal_none hq]
      simp
  · have hat : atoi (pins.get i) = none := by rw [h]; rfl
    rw [numVal_none hat]
    simp only [h, atoi_dash, atoi_F]
    rw [if_neg (by decide), if_neg (by decide), if_pos (by decide), if_pos h3]
    cases hq : atoi (pins.get (i - 1)) with
    | some q =>
      rw [numVal_some hq] at nprev ⊢
      simp only []
      rw [add64_eq _ _ (by omega) (by omega)]
      simp
    | none =>
      rw [numVal_none hq]
      simp
  · rw [numVal_some h]
    simp only [h]
    rw [if_pos h3]
    cases hq : atoi (pins.get (i - 1)) with
    | some q =>
      rw [numVal_some hq] at nprev ⊢
      simp only []
      rw [add64_eq w q (by omega) (by omega), add64_eq _ _ (by omega) (by omega)]
      congr 3
      omega
    | none =>
      rw [numVal_none hq]
      simp only []
      rw [add64_eq _ _ (by omega) (by omega)]
      simp

theorem FirstL.fl_atoi_cases {s : String} (h : FirstL s) :
    atoi s = none ∨ ∃ v, NumW s v := by
  rcases h with h | h | ⟨v, h⟩
  · left; rw [h]; rfl
  · left; rw [h]; rfl
  · right; exact ⟨v, h.wide⟩

theorem SecondL.sl_atoi_cases {a s : String} (h : SecondL a s) :
    atoi s = none ∨ ∃ v, NumW s v := by
  rcases h with h | h | ⟨v, h, _⟩
  · left; rw [h]; rfl
  · left; rw [h]; rfl
  · right; exact ⟨v, h⟩

theorem FrameL.fdl_atoi_cases {p : PinArr} {i : Nat} (h : FrameL p i) :
    (atoi (p.get i) = none ∨ ∃ v, NumW (p.get i) v) ∧
    (atoi (p.get (i + 1)) = none ∨ ∃ v, NumW (p.get (i + 1)) v) := by
  rcases h with ⟨h1, h2⟩ | ⟨h1, h2 | h2⟩
  · exact ⟨Or.inl (by rw [h1]; rfl), Or.inl (by rw [h2]; rfl)⟩
  · exact ⟨h1.fl_atoi_cases, Or.inl (by rw [h2]; rfl)⟩
  · exact ⟨h1.fl_atoi_cases, h2.sl_atoi_cases⟩

theorem TenthL.tdl_atoi_cases {p : PinArr} (h : TenthL p) :
    (atoi (p.get 18) = none ∨ ∃ v, NumW (p.get 18) v) ∧
    (atoi (p.get 19) = none ∨ ∃ v, NumW (p.get 19) v) ∧
    (atoi (p.get 20) = none ∨ ∃ v, NumW (p.get 20) v) := by
  have hx : ∀ s, s = "X" → (atoi s = none ∨ ∃ v, NumW s v) :=
    fun s e => Or.inl (by rw [e]; rfl)
  have hs : ∀ s, s = "/" → (atoi s = none ∨ ∃ v, NumW s v) :=
    fun s e => Or.inl (by rw [e]; rfl)
  have hy : ∀ s, s = "yet" → (atoi s = none ∨ ∃ v, NumW s v) :=
    fun s e => Or.inl (by rw [e]; rfl)
  rcases h with ⟨h1, h2, h3⟩ | ⟨h1, h2, h3 | h3⟩ | ⟨h1, h2, h3 | h3⟩ | ⟨h1, h2, h3 | h3⟩
  · exact ⟨h1.fl_atoi_cases, h2.sl_atoi_cases, hy _ h3⟩
  · exact ⟨hx _ h1, hx _ h2, hx _ h3⟩
  · exact ⟨hx _ h1, hx _ h2, h3.fl_atoi_cases⟩
  · exact ⟨hx _ h1, h2.fl_atoi_cases, hs _ h3⟩
  · exact ⟨hx _ h1, h2.fl_atoi_cases, h3.sl_atoi_cases⟩
  · exact ⟨h1.fl_atoi_cases, hs _ h2, hx _ h3⟩
  · exact ⟨h1.fl_atoi_cases, hs _ h2, h3.fl_atoi_cases⟩

/-- On complete pins every numeric slot holds -9 to 18. -/
theorem CompleteL.numeric_l {p : PinArr} (hc : CompleteL p) (k : Nat) (v : Int)
    (h : atoi (p.get k) = some v) : -9 ≤ v ∧ v ≤ 18 := by
  have key : atoi (p.get k) = none ∨ ∃ w, NumW (p.get k) w := by
    by_cases hk : k < 18
    · have hd := (hc.1 (k / 2) (by omega)).fdl_atoi_cases
      rcases Nat.mod_two_eq_zero_or_one k with h0 | h1
      · have e : 2 * (k / 2) = k := by omega
        rw [e] at hd
        exact hd.1
      · have e : 2 * (k / 2) + 1 = k := by omega
        rw [e] at hd
        exact hd.2
    · by_cases h21 : 21 ≤ k
      · left
        rw [get_out_of_range p k h21]
        rfl
      · have ht := hc.2.tdl_atoi_cases
        have : k = 18 ∨ k = 19 ∨ k = 20 := by omega
        rcases this with e | e | e <;> subst e
        · exact ht.1
        · exact ht.2.1
        · exact ht.2.2
  rcases key with hn | ⟨w, hw, h1, h2⟩
  · rw [hn] at h
    exact absurd h (by simp)
  · rw [hw] at h
    simp only [Option.some.injEq] at h
    subst h
    exact ⟨h1, h2⟩

theorem CompleteL.valOK_l {p : PinArr} (hc : CompleteL p) : ValOK p := by
  intro k v h
  have := hc.numeric_l k v h
  omega

theorem TenthL.tdl_first_ne_yet {p : PinArr} (h : TenthL p) : p.get 18 ≠ "yet" := by
  rcases h with ⟨h1, _⟩ | ⟨h1, _⟩ | ⟨h1, _⟩ | ⟨h1, _⟩
  · exact h1.fl_ne_yet
  · rw [h1]; decide
  · rw [h1]; decide
  · exact h1.fl_ne_yet

theorem TenthL.second_ne_yet_l {p : PinArr} (h : TenthL p) : p.get 19 ≠ "yet" := by
  rcases h with ⟨_, h1, _⟩ | ⟨_, h1, _⟩ | ⟨_, h1, _⟩ | ⟨_, h1, _⟩
  · exact h1.sl_ne_yet
  · rw [h1]; decide
  · exact h1.fl_ne_yet
  · rw [h1]; decide

theorem FrameL.fdl_first_ne_yet {p : PinArr} {i : Nat} (h : FrameL p i) :
    p.get i ≠ "yet" := by
  rcases h with ⟨h1, _⟩ | ⟨h1, _⟩
  · rw [h1]; decide
  · exact h1.fl_ne_yet

/-- The first slot of the frame after slot `i` (frame ten at slot 18) is thrown. -/
theorem CompleteL.next_first_l {p : PinArr} (hc : CompleteL p) (j : Nat) (hj : j ≤ 9) :
    p.get (2 * j) ≠ "yet" := by
  by_cases h9 : j < 9
  · exact (hc.1 j h9).fdl_first_ne_yet
  · have e : j = 9 := by omega
    subst e
    exact hc.2.tdl_first_ne_yet

/-- On complete pins every frame has its bonus balls. -/
theorem CompleteL.lookOK_l {p : PinArr} (hc : CompleteL p) (j : Nat) (hj : j < 9) :
    LookOK p (2 * j) := by
  constructor
  · intro _
    by_cases h8 : j < 8
    · rcases hc.1 (j + 1) (by omega) with ⟨_, _⟩ | ⟨_, h2 | h2⟩
      · right
        have := hc.next_first_l (j + 2) (by omega)
        have e : 2 * (j + 2) = 2 * j + 4 := by omega
        rw [e] at this
        exact this
      · left
        have e : 2 * (j + 1) + 1 = 2 * j + 3 := by omega
        rw [e] at h2
        rw [h2]
        decide
      · left
        have e : 2 * (j + 1) + 1 = 2 * j + 3 := by omega
        rw [e] at h2
        exact h2.sl_ne_yet
    · left
      have e : j = 8 := by omega
      subst e
      exact hc.2.second_ne_yet_l
  · intro _
    have := hc.next_first_l (j + 1) (by omega)
    have e : 2 * (j + 1) = 2 * j + 2 := by omega
    rw [e] at this
    exact this

/-- The two iterations of the scorer's loop over a complete frame write the
frame's cumulative score. -/
theorem frame_step_l (pins : PinArr) (times : Int) (j : Nat) (st : Nat × ScoreArr)
    (rest : List Nat) (hj : j < 9) (hf : st.1 = j) (hd : FrameL pins (2 * j))
    (hla : LookOK pins (2 * j)) (hv : ValOK pins)
    (hb : -1000000 ≤ st.2.get j ∧ st.2.get j ≤ 1000000) :
    scoreLoop pins times (2 * j :: (2 * j + 1) :: rest) st =
      scoreLoop pins times rest
        (j + 1, st.2.set (j + 1) (st.2.get j + frameDelta pins (2 * j))) := by
  obtain ⟨f, s⟩ := st
  simp only at hf hb
  subst hf
  have e2 : 2 * f / 2 + 1 = f + 1 := by omega
  rcases hd with ⟨h1, h2⟩ | ⟨h1, h2 | h2⟩
  · have hb1 := scoreBody_strike pins times (2 * f) (f, s) (by omega) (by omega) h1 (hla.1 h1)
    rw [scoreLoop_cons pins times _ _ _ _ hb1]
    have hb2 := scoreBody_yet pins times (2 * f + 1)
      (f + 1, s.set (f + 1) (strikeValue pins (2 * f) (f + 1) (s.get f)))
      (by omega) (by omega) h2
    rw [scoreLoop_cons pins times _ _ _ _ hb2]
    simp only [strikeValue_eq pins (2 * f) (f + 1) (s.get f) hv hb, frameDelta, h1, if_true, e2]
  · have hb1 := scoreBody_first_l pins times (2 * f) (f, s) (by omega) (by omega) h1
    rw [scoreLoop_cons pins times _ _ _ _ hb1]
    have hb2 := scoreBody_slash pins times (2 * f + 1) (f + 1, s) (by omega) (by omega) h2
      (hla.2 h2)
    rw [scoreLoop_cons pins times _ _ _ _ hb2]
    simp only [Nat.add_sub_cancel, spareValue_eq pins (2 * f + 1) (s.get f) hv hb, frameDelta,
      if_neg h1.fl_ne_X, h2, if_true]
  · have hb1 := scoreBody_first_l pins times (2 * f) (f, s) (by omega) (by omega) h1
    rw [scoreLoop_cons pins times _ _ _ _ hb1]
    have hb2 := scoreBody_open_l pins times (2 * f + 1) (f + 1, s) (by omega) (by omega) hv
      (by simpa using hb) (by simpa using h2)
    rw [scoreLoop_cons pins times _ _ _ _ hb2]
    simp only [Nat.add_sub_cancel, frameDelta, if_neg h1.fl_ne_X, if_neg h2.sl_ne_slash]

/-- The loop of the scorer from frame `j + 1` on, over complete pins with the
cursor at 21: every later entry of the scores is the sum of the frames before it. -/
theorem crux_aux_l (pins : PinArr) (hc : CompleteL pins) :
    ∀ (m j : Nat) (st : Nat × ScoreArr), j + m = 9 → st.1 = j →
      st.2.get j = frameSum pins j →
      ∃ st1, scoreLoop pins 21 (List.range' (2 * j) (21 - 2 * j)) st = some st1 ∧
        (∀ k, j ≤ k → k ≤ 9 → st1.2.get k = frameSum pins k) ∧
        st1.2.get 10 = totalScore pins := by
  have hv := hc.valOK_l
  intro m
  induction m with
  | zero =>
    intro j st hj hf hs
    have e : j = 9 := by omega
    subst e
    have hb := frameSum_crude pins hv 9
    obtain ⟨st1, h1, _, h3, h4⟩ := tenth_loop pins st hf
    refine ⟨st1, h1, ?_, ?_⟩
    · intro k hk1 hk2
      have e : k = 9 := by omega
      subst e
      rw [h4 9 (le_refl _), hs]
    · rw [h3, hs, tenthValue_eq pins _ hv (by omega)]
      rfl
  | succ m ih =>
    intro j st hj hf hs
    have hb := frameSum_crude pins hv j
    have hlist : List.range' (2 * j) (21 - 2 * j) =
        2 * j :: (2 * j + 1) :: List.range' (2 * (j + 1)) (21 - 2 * (j + 1)) := by
      have e : 21 - 2 * j = (21 - 2 * (j + 1)) + 1 + 1 := by omega
      have e2 : 2 * j + 1 + 1 = 2 * (j + 1) := by omega
      rw [e, List.range'_succ, List.range'_succ, e2]
    rw [hlist, frame_step_l pins 21 j st _ (by omega) hf (hc.1 j (by omega))
      (hc.lookOK_l j (by omega)) hv (by rw [hs]; omega)]
    have hnew : (st.2.set (j + 1) (st.2.get j + frameDelta pins (2 * j))).get (j + 1) =
        frameSum pins (j + 1) := by
      rw [ScoreArr.sget_set_eq _ _ _ (by omega), hs]
      rfl
    obtain ⟨st1, h1, h2, h3⟩ := ih (j + 1) (j + 1, _) (by omega) rfl hnew
    refine ⟨st1, h1, ?_, h3⟩
    intro k hk1 hk2
    by_cases e : k = j
    · subst e
      have htr := scoreLoop_track pins 21 (21 - 2 * (k + 1)) (2 * (k + 1)) _ st1 (by omega)
        (by simp only [frameBefore]; omega) h1
      have hk : k < frameBefore (2 * (k + 1)) := by
        simp only [frameBefore]
        omega
      have hne : (st.2.set (k + 1) (st.2.get k + frameDelta pins (2 * k))).get k = st.2.get k :=
        ScoreArr.sget_set_ne _ _ _ _ (by omega)
      exact ((htr.2 k (Or.inr hk)).trans hne).trans hs
    · exact h2 k (by omega) hk2

/-- On complete pins with the cursor at 21 and `Scores[0] = 0` the scorer returns
the cumulative sums of the frames, whatever the other stored scores are. -/
theorem score_complete_l (b : Bowl) (hc : CompleteL b.Pins) (ht : b.Times = 21)
    (h0 : b.Scores.get 0 = 0) :
    ∃ sc, score b = some sc ∧ (∀ k, k ≤ 9 → sc.get k = frameSum b.Pins k) ∧
      sc.get 10 = totalScore b.Pins := by
  obtain ⟨st1, h1, h2, h3⟩ := crux_aux_l b.Pins hc 9 0 (0, b.Scores) (by omega) rfl h0
  refine ⟨st1.2, ?_, fun k hk => h2 k (by omega) hk, h3⟩
  rw [score_eq_loop, ht]
  have e : List.range' (2 * 0) (21 - 2 * 0) = List.range' 0 21 := rfl
  rw [e] at h1
  rw [h1]
  rfl

/-! ## Values of frames complete with balls of input play -/

theorem tenthBall_first_l {s : String} (h : FirstL s) (next : String) :
    tenthBall s next = if next = "/" then 0 else numVal s := by
  rcases h with h | h | ⟨v, h, _⟩
  · rw [h]
    simp [tenthBall, atoi_G, numVal_G]
  · rw [h]
    simp [tenthBall, atoi_F, numVal_F]
  · simp only [tenthBall, h, Option.isSome_some, if_true]
    by_cases hn : next = "/" <;> simp [hn]

theorem tenthBall_open_l {a s : String} (h : SecondL a s) (next : String) :
    tenthBall s next = if next = "/" then 0 else numVal s := by
  rcases h with h | h | ⟨v, ⟨h, _⟩, _⟩
  · rw [h]
    simp [tenthBall, atoi_dash, numVal_dash]
  · rw [h]
    simp [tenthBall, atoi_F, numVal_F]
  · simp only [tenthBall, h, Option.isSome_some, if_true]
    by_cases hn : next = "/" <;> simp [hn]

/-- On a complete tenth frame the pins the scorer adds are the face values of
its balls. -/
theorem tenthDelta_faces_l (p : PinArr) (h : TenthL p) :
    tenthDelta p = face p 18 + face p 19 + face p 20 := by
  have ne1 : ("yet" : String) ≠ "/" := by decide
  have ne2 : ("X" : String) ≠ "/" := by decide
  have ne3 : ("" : String) ≠ "/" := by decide
  unfold tenthDelta
  rcases h with ⟨h1, h2, h3⟩ | ⟨h1, h2, h3 | h3⟩ | ⟨h1, h2, h3 | h3⟩ | ⟨h1, h2, h3 | h3⟩
  · rw [if_neg h1.fl_ne_slash, tenthBall_first_l h1, tenthBall_open_l h2, if_neg h2.sl_ne_slash,
      face_other h1.fl_ne_X h1.fl_ne_slash, face_other h2.sl_ne_X h2.sl_ne_slash,
      face_other (by rw [h3]; decide) (by rw [h3]; decide), h3, if_neg ne1, tenthBall_yet,
      numVal_yet]
  · rw [face_X h1, face_X h2, face_X h3, h1, h2, h3, if_neg ne2, tenthBall_X, tenthBall_X]
  · rw [face_X h1, face_X h2, face_other h3.fl_ne_X h3.fl_ne_slash, tenthBall_first_l h3, h1, h2,
      if_neg ne2, tenthBall_X, tenthBall_X, if_neg ne3]
  · have e : p.get (20 - 1) = p.get 19 := rfl
    rw [face_X h1, face_other h2.fl_ne_X h2.fl_ne_slash, face_slash h3, tenthBall_first_l h2, h1, h3,
      if_neg ne2, tenthBall_X, tenthBall_slash, if_pos rfl, e]
    omega
  · rw [face_X h1, face_other h2.fl_ne_X h2.fl_ne_slash, face_other h3.sl_ne_X h3.sl_ne_slash,
      tenthBall_first_l h2, tenthBall_open_l h3, h1, if_neg ne2, tenthBall_X, if_neg h3.sl_ne_slash,
      if_neg ne3]
  · have e : p.get (19 - 1) = p.get 18 := rfl
    rw [face_other h1.fl_ne_X h1.fl_ne_slash, face_slash h2, face_X h3, if_neg h1.fl_ne_slash,
      tenthBall_first_l h1, h2, h3, tenthBall_slash, tenthBall_X, if_pos rfl, e]
    omega
  · have e : p.get (19 - 1) = p.get 18 := rfl
    rw [face_other h1.fl_ne_X h1.fl_ne_slash, face_slash h2, face_other h3.fl_ne_X h3.fl_ne_slash,
      if_neg h1.fl_ne_slash, tenthBall_first_l h1, tenthBall_first_l h3, h2, tenthBall_slash,
      if_neg ne3, if_pos rfl, e]
    omega

theorem FirstL.fl_vals {s : String} (h : FirstL s) :
    pinVal s = numVal s ∧ -9 ≤ numVal s ∧ numVal s ≤ 9 := by
  rcases h with h | h | ⟨v, h, h1, h2⟩
  · rw [h]; decide
  · rw [h]; decide
  · rw [pinVal_some h, numVal_some h]
    exact ⟨rfl, by omega, h2⟩

theorem SecondL.sl_vals {a s : String} (h : SecondL a s) :
    -9 ≤ numVal s ∧ (-9 ≤ numVal a → numVal a ≤ 9 → numVal a + numVal s ≤ 9) := by
  rcases h with h | h | ⟨v, ⟨h, h1, h2⟩, h3⟩
  · rw [h]
    exact ⟨by decide, fun _ h9 => by rw [numVal_dash]; omega⟩
  · rw [h]
    exact ⟨by decide, fun _ h9 => by rw [numVal_F]; omega⟩
  · rw [numVal_some h]
    exact ⟨by omega, fun _ _ => h3⟩

theorem frameDelta_XN_l (p : PinArr) (i : Nat) (h1 : p.get i = "X")
    (h2 : FirstL (p.get (i + 2))) :
    frameDelta p i =
      if p.get (i + 3) = "/" then 20 else 10 + numVal (p.get (i + 2)) + numVal (p.get (i + 3)) := by
  simp only [frameDelta, h1, if_true, strikeDelta]
  rcases h2 with h | h | ⟨v, h, _⟩
  · simp only [h, atoi_G, Option.isSome_none, Bool.false_eq_true, if_false, numVal_G]
    rw [if_neg (by decide)]
    split <;> omega
  · simp only [h, atoi_F, Option.isSome_none, Bool.false_eq_true, if_false, numVal_F]
    rw [if_neg (by decide)]
    split <;> omega
  · simp only [h, Option.isSome_some, if_true]

/-- The frame after frame `j + 1` on complete pins starts with a strike, or holds
a first ball and a second ball. -/
theorem CompleteL.after_l {p : PinArr} (hc : CompleteL p) (j : Nat) (hj : j < 9) :
    p.get (2 * j + 2) = "X" ∨
      (FirstL (p.get (2 * j + 2)) ∧
        (p.get (2 * j + 3) = "/" ∨ SecondL (p.get (2 * j + 2)) (p.get (2 * j + 3)))) := by
  by_cases h8 : j < 8
  · have e : 2 * (j + 1) = 2 * j + 2 := by omega
    have e1 : 2 * j + 2 + 1 = 2 * j + 3 := by omega
    have := hc.1 (j + 1) (by omega)
    rw [e] at this
    rcases this with ⟨h1, _⟩ | ⟨h1, h2⟩
    · exact Or.inl h1
    · rw [e1] at h2
      exact Or.inr ⟨h1, h2⟩
  · have e : j = 8 := by omega
    subst e
    rcases hc.2 with ⟨h1, h2, _⟩ | ⟨h1, _⟩ | ⟨h1, _⟩ | ⟨h1, h2, _⟩
    · exact Or.inr ⟨h1, Or.inr h2⟩
    · exact Or.inl h1
    · exact Or.inl h1
    · exact Or.inr ⟨h1, Or.inl h2⟩

/-- After two strikes in a row the next ball on complete pins is a first ball. -/
theorem CompleteL.third_l {p : PinArr} (hc : CompleteL p) (j : Nat) (hj : j < 9)
    (hX : p.get (2 * j + 2) = "X") :
    p.get (if 2 * j / 2 + 1 = 9 then 2 * j + 3 else 2 * j + 4) = "X" ∨
      FirstL (p.get (if 2 * j / 2 + 1 = 9 then 2 * j + 3 else 2 * j + 4)) := by
  by_cases h8 : j = 8
  · subst h8
    simp only [show 2 * 8 / 2 + 1 = 9 from rfl, if_true]
    rcases hc.2 with ⟨h1, _⟩ | ⟨_, h2, _⟩ | ⟨_, h2, _⟩ | ⟨h1, _⟩
    · exact absurd hX h1.fl_ne_X
    · exact Or.inl h2
    · exact Or.inr h2
    · exact absurd hX h1.fl_ne_X
  · have hne : ¬ 2 * j / 2 + 1 = 9 := by omega
    rw [if_neg hne]
    by_cases h7 : j = 7
    · subst h7
      rcases hc.2 with ⟨h1, _⟩ | ⟨h1, _⟩ | ⟨h1, _⟩ | ⟨h1, _⟩
      · exact Or.inr h1
      · exact Or.inl h1
      · exact Or.inl h1
      · exact Or.inr h1
    · have e : 2 * (j + 2) = 2 * j + 4 := by omega
      have := hc.1 (j + 2) (by omega)
      rw [e] at this
      rcases this with ⟨h1, _⟩ | ⟨h1, _⟩
      · exact Or.inl h1
      · exact Or.inr h1

theorem pinVal_first_le_l {s : String} (h : s = "X" ∨ FirstL s) :
    -9 ≤ pinVal s ∧ pinVal s ≤ 10 := by
  rcases h with h | h
  · rw [h]; decide
  · have := h.fl_vals
    omega

/-- On complete pins a frame scores -18 to 30, at most 20 unless it is a strike
followed by a strike. -/
theorem CompleteL.frame_bounds_l {p : PinArr} (hc : CompleteL p) (j : Nat) (hj : j < 9) :
    -18 ≤ frameDelta p (2 * j) ∧ frameDelta p (2 * j) ≤ 30 ∧
      (p.get (2 * j) ≠ "X" ∨ p.get (2 * j + 2) ≠ "X" → frameDelta p (2 * j) ≤ 20) := by
  have hafter := hc.after_l j hj
  rcases hc.1 j hj with ⟨h1, _⟩ | ⟨h1, h2 | h2⟩
  · rcases hafter with h3 | ⟨h3, h4⟩
    · rw [frameDelta_XX p _ h1 h3]
      have := pinVal_first_le_l (hc.third_l j hj h3)
      refine ⟨by omega, by omega, ?_⟩
      rintro (h | h)
      · exact absurd h1 h
      · exact absurd h3 h
    · rw [frameDelta_XN_l p _ h1 h3]
      have v1 := h3.fl_vals
      rcases h4 with h4 | h4
      · rw [if_pos h4]
        exact ⟨by omega, by omega, fun _ => by omega⟩
      · rw [if_neg h4.sl_ne_slash]
        have v2 := h4.sl_vals
        have := v2.2 v1.2.1 v1.2.2
        exact ⟨by omega, by omega, fun _ => by omega⟩
  · rw [frameDelta_spare p _ h1.fl_ne_X h2]
    have : -9 ≤ pinVal (p.get (2 * j + 2)) ∧ pinVal (p.get (2 * j + 2)) ≤ 10 := by
      rcases hafter with h3 | ⟨h3, _⟩
      · exact pinVal_first_le_l (Or.inl h3)
      · exact pinVal_first_le_l (Or.inr h3)
    exact ⟨by omega, by omega, fun _ => by omega⟩
  · rw [frameDelta_open p _ h1.fl_ne_X h2.sl_ne_slash]
    have v1 := h1.fl_vals
    have v2 := h2.sl_vals
    have := v2.2 v1.2.1 v1.2.2
    exact ⟨by omega, by omega, fun _ => by omega⟩

theorem face_first_l {p : PinArr} {i : Nat} (h : p.get i = "X" ∨ FirstL (p.get i)) :
    -9 ≤ face p i ∧ face p i ≤ 10 := by
  rcases h with h | h
  · rw [face_X h]; omega
  · rw [face_other h.fl_ne_X h.fl_ne_slash]
    have := h.fl_vals
    omega

/-- A complete tenth frame scores -18 to 30, at most 20 unless it starts with two
strikes. -/
theorem TenthL.tdl_bounds {p : PinArr} (h : TenthL p) :
    -18 ≤ tenthDelta p ∧ tenthDelta p ≤ 30 ∧
      (p.get 18 ≠ "X" ∨ p.get 19 ≠ "X" → tenthDelta p ≤ 20) := by
  rw [tenthDelta_faces_l p h]
  have e19 : p.get (19 - 1) = p.get 18 := rfl
  have e20 : p.get (20 - 1) = p.get 19 := rfl
  rcases h with ⟨h1, h2, h3⟩ | ⟨h1, h2, h3⟩ | ⟨h1, h2, h3 | h3⟩ | ⟨h1, h2, h3⟩
  · have v1 := h1.fl_vals
    have v2 := h2.sl_vals
    have := v2.2 v1.2.1 v1.2.2
    rw [face_other h1.fl_ne_X h1.fl_ne_slash, face_other h2.sl_ne_X h2.sl_ne_slash,
      face_other (by rw [h3]; decide) (by rw [h3]; decide), h3, numVal_yet]
    exact ⟨by omega, by omega, fun _ => by omega⟩
  · have := face_first_l h3
    rw [face_X h1, face_X h2]
    refine ⟨by omega, by omega, ?_⟩
    rintro (h | h)
    · exact absurd h1 h
    · exact absurd h2 h
  · have v2 := h2.fl_vals
    rw [face_X h1, face_other h2.fl_ne_X h2.fl_ne_slash, face_slash h3, e20]
    exact ⟨by omega, by omega, fun _ => by omega⟩
  · have v2 := h2.fl_vals
    have v3 := h3.sl_vals
    have := v3.2 v2.2.1 v2.2.2
    rw [face_X h1, face_other h2.fl_ne_X h2.fl_ne_slash,
      face_other h3.sl_ne_X h3.sl_ne_slash]
    exact ⟨by omega, by omega, fun _ => by omega⟩
  · have v1 := h1.fl_vals
    have := face_first_l h3
    rw [face_other h1.fl_ne_X h1.fl_ne_slash, face_slash h2, e19]
    exact ⟨by omega, by omega, fun _ => by omega⟩

theorem ShapeL.complete_l (b : Bowl) (hs : ShapeL b) (h21 : b.Times = 21) : CompleteL b.Pins :=
  ⟨fun j hj => hs.done j hj (by omega), hs.t21 h21⟩

/-! ## No continuation of input play beats the projection -/

/-- A run of input play leaves the slots before the cursor as they are and does
not move the cursor back. -/
theorem InputRun.keeps_l (ts : List String) :
    ∀ b b1 : Bowl, ShapeL b → InputRun b ts b1 →
      b.Times ≤ b1.Times ∧ ∀ i : Nat, (i : Int) < b.Times → b1.Pins.get i = b.Pins.get i := by
  induction ts with
  | nil =>
    intro b b1 _ h
    cases h
    exact ⟨le_refl _, fun _ _ => rfl⟩
  | cons t ts ih =>
    intro b b2 hs h
    cases h with
    | @cons _ b1 _ _ _ ht ha hr =>
      obtain ⟨hs1, n, hn, h21, v, hp, ho⟩ := ShapeL.step_l b b1 t hs ht ha
      obtain ⟨hle, hkeep⟩ := ih b1 b2 hs1 hr
      have hlt : b.Times < b1.Times := by
        unfold OutcomeL at ho
        omega
      refine ⟨by omega, fun i hi => ?_⟩
      rw [hkeep i (by omega), hp]
      exact PinArr.get_set_ne _ _ _ _ (by omega)

/-- With the cursor at slot 18 or before, no complete game that extends the
record scores more in a frame than the pins filled with strikes (and a spare
for a frame in progress). -/
theorem ShapeL.low_frame_l {r : Bowl} (hs : ShapeL r) (t : Nat) (ht : r.Times = (t : Int))
    (h18 : t ≤ 18) (q p : PinArr) (hc : CompleteL p)
    (Q1 : ∀ s, t ≤ s → s ≤ 18 → s % 2 = 0 → q.get s = "X")
    (Q2 : q.get 19 = "X")
    (Q3 : t % 2 = 1 → q.get t = "/")
    (Q4 : ∀ s, s < t → q.get s = r.Pins.get s)
    (hag : ∀ s, s < t → p.get s = r.Pins.get s)
    (j : Nat) (hj : j < 9) : frameDelta p (2 * j) ≤ frameDelta q (2 * j) := by
  obtain ⟨_, hb30, hb20⟩ := hc.frame_bounds_l j hj
  have third : t ≤ 2 * j + 2 →
      q.get (if 2 * j / 2 + 1 = 9 then 2 * j + 3 else 2 * j + 4) = "X" := by
    intro hle
    by_cases e : j = 8
    · subst e
      exact Q2
    · rw [if_neg (by omega)]
      exact Q1 _ (by omega) (by omega) (by omega)
  by_cases c1 : t ≤ 2 * j
  · rw [frameDelta_strikes q j (Q1 _ c1 (by omega) (by omega))
      (Q1 _ (by omega) (by omega) (by omega)) (third (by omega))]
    exact hb30
  by_cases c2 : t = 2 * j + 1
  · have hf := hs.half j hj (by omega)
    have e0 : q.get (2 * j) = r.Pins.get (2 * j) := Q4 _ (by omega)
    have e1 : q.get (2 * j + 1) = "/" := by
      rw [← c2]
      exact Q3 (by omega)
    rw [frameDelta_spare q _ (by rw [e0]; exact hf.fl_ne_X) e1,
      Q1 (2 * j + 2) (by omega) (by omega) (by omega)]
    exact hb20 (Or.inl (by rw [hag _ (by omega)]; exact hf.fl_ne_X))
  have hd := hs.done j hj (by omega)
  have q0 : q.get (2 * j) = r.Pins.get (2 * j) := Q4 _ (by omega)
  have q1 : q.get (2 * j + 1) = r.Pins.get (2 * j + 1) := Q4 _ (by omega)
  have p0 : p.get (2 * j) = r.Pins.get (2 * j) := hag _ (by omega)
  have p1 : p.get (2 * j + 1) = r.Pins.get (2 * j + 1) := hag _ (by omega)
  rcases hd with ⟨hX, _⟩ | ⟨hF, hsl | hso⟩
  · by_cases d1 : t = 2 * j + 2
    · rw [frameDelta_strikes q j (by rw [q0]; exact hX)
        (Q1 _ (by omega) (by omega) (by omega)) (third (by omega))]
      exact hb30
    by_cases d2 : t = 2 * j + 3
    · have hf := hs.half (j + 1) (by omega) (by push_cast; omega)
      have e : 2 * (j + 1) = 2 * j + 2 := by omega
      rw [e] at hf
      have e2 : q.get (2 * j + 2) = r.Pins.get (2 * j + 2) := Q4 _ (by omega)
      have e3 : q.get (2 * j + 3) = "/" := by
        rw [← d2]
        exact Q3 (by omega)
      rw [frameDelta_XN_l q _ (by rw [q0]; exact hX) (by rw [e2]; exact hf), if_pos e3]
      exact hb20 (Or.inr (by rw [hag _ (by omega)]; exact hf.fl_ne_X))
    have hd2 := hs.done (j + 1) (by omega) (by push_cast; omega)
    have e : 2 * (j + 1) = 2 * j + 2 := by omega
    rw [e] at hd2
    have q2 : q.get (2 * j + 2) = r.Pins.get (2 * j + 2) := Q4 _ (by omega)
    have q3 : q.get (2 * j + 3) = r.Pins.get (2 * j + 3) := Q4 _ (by omega)
    have p2 : p.get (2 * j + 2) = r.Pins.get (2 * j + 2) := hag _ (by omega)
    have p3 : p.get (2 * j + 3) = r.Pins.get (2 * j + 3) := hag _ (by omega)
    rcases hd2 with ⟨hX2, _⟩ | ⟨hF2, _⟩
    · by_cases d3 : t = 2 * j + 4
      · rw [frameDelta_strikes q j (by rw [q0]; exact hX) (by rw [q2]; exact hX2)
          (by rw [if_neg (by omega)]; exact Q1 _ (by omega) (by omega) (by omega))]
        exact hb30
      · rw [frameDelta_XX q _ (by rw [q0]; exact hX) (by rw [q2]; exact hX2),
          frameDelta_XX p _ (by rw [p0]; exact hX) (by rw [p2]; exact hX2),
          if_neg (by omega), Q4 _ (by omega), hag _ (by omega)]
    · rw [frameDelta_XN_l q _ (by rw [q0]; exact hX) (by rw [q2]; exact hF2),
        frameDelta_XN_l p _ (by rw [p0]; exact hX) (by rw [p2]; exact hF2), q2, q3, p2, p3]
  · by_cases d1 : t = 2 * j + 2
    · rw [frameDelta_spare q _ (by rw [q0]; exact hF.fl_ne_X) (by rw [q1]; exact hsl),
        Q1 (2 * j + 2) (by omega) (by omega) (by omega)]
      exact hb20 (Or.inl (by rw [p0]; exact hF.fl_ne_X))
    · rw [frameDelta_spare q _ (by rw [q0]; exact hF.fl_ne_X) (by rw [q1]; exact hsl),
        frameDelta_spare p _ (by rw [p0]; exact hF.fl_ne_X) (by rw [p1]; exact hsl),
        Q4 _ (by omega), hag _ (by omega)]
  · rw [frameDelta_open q _ (by rw [q0]; exact hF.fl_ne_X) (by rw [q1]; exact hso.sl_ne_slash),
      frameDelta_open p _ (by rw [p0]; exact hF.fl_ne_X) (by rw [p1]; exact hso.sl_ne_slash),
      q0, q1, p0, p1]

/-- With the cursor in the tenth frame, no complete game that extends the record
scores more in a frame than pins that agree with it up to slot 18 and hold the
best second ball of the tenth frame. -/
theorem ShapeL.high_frame_l {r : Bowl} (hs : ShapeL r) (h19 : 19 ≤ r.Times) (q p : PinArr)
    (hc : CompleteL p)
    (Q4 : ∀ s, s ≤ 18 → q.get s = r.Pins.get s)
    (hag : ∀ s, s ≤ 18 → p.get s = r.Pins.get s)
    (QX : r.Pins.get 18 = "X" → q.get 19 = "X" ∨ q.get 19 = p.get 19)
    (QS : r.Pins.get 18 ≠ "X" → q.get 19 = "/" ∨ q.get 19 = p.get 19)
    (j : Nat) (hj : j < 9) : frameDelta p (2 * j) ≤ frameDelta q (2 * j) := by
  obtain ⟨_, hb30, hb20⟩ := hc.frame_bounds_l j hj
  have hd := hs.done j hj (by omega)
  have q0 : q.get (2 * j) = r.Pins.get (2 * j) := Q4 _ (by omega)
  have q1 : q.get (2 * j + 1) = r.Pins.get (2 * j + 1) := Q4 _ (by omega)
  have q2 : q.get (2 * j + 2) = r.Pins.get (2 * j + 2) := Q4 _ (by omega)
  have p0 : p.get (2 * j) = r.Pins.get (2 * j) := hag _ (by omega)
  have p1 : p.get (2 * j + 1) = r.Pins.get (2 * j + 1) := hag _ (by omega)
  have p2 : p.get (2 * j + 2) = r.Pins.get (2 * j + 2) := hag _ (by omega)
  rcases hd with ⟨hX, _⟩ | ⟨hF, hsl | hso⟩
  · rcases hc.after_l j hj with hX2 | ⟨hF2, _⟩
    · rw [p2] at hX2
      by_cases e : j = 8
      · subst e
        rcases QX hX2 with h | h
        · rw [frameDelta_strikes q 8 (by rw [q0]; exact hX) (by rw [q2]; exact hX2) h]
          exact hb30
        · rw [frameDelta_XX q _ (by rw [q0]; exact hX) (by rw [q2]; exact hX2),
            frameDelta_XX p _ (by rw [p0]; exact hX) (by rw [p2]; exact hX2)]
          have e1 : q.get (if 2 * 8 / 2 + 1 = 9 then 2 * 8 + 3 else 2 * 8 + 4) = q.get 19 := rfl
          have e2 : p.get (if 2 * 8 / 2 + 1 = 9 then 2 * 8 + 3 else 2 * 8 + 4) = p.get 19 := rfl
          rw [e1, e2, h]
      · rw [frameDelta_XX q _ (by rw [q0]; exact hX) (by rw [q2]; exact hX2),
          frameDelta_XX p _ (by rw [p0]; exact hX) (by rw [p2]; exact hX2),
          if_neg (by omega), Q4 _ (by omega), hag _ (by omega)]
    · rw [p2] at hF2
      by_cases e : j = 8
      · subst e
        rcases QS hF2.fl_ne_X with h | h
        · rw [frameDelta_XN_l q _ (by rw [q0]; exact hX) (by rw [q2]; exact hF2), if_pos h]
          exact hb20 (Or.inr (by rw [p2]; exact hF2.fl_ne_X))
        · have e1 : q.get (2 * 8 + 3) = q.get 19 := rfl
          have e2 : p.get (2 * 8 + 3) = p.get 19 := rfl
          rw [frameDelta_XN_l q _ (by rw [q0]; exact hX) (by rw [q2]; exact hF2),
            frameDelta_XN_l p _ (by rw [p0]; exact hX) (by rw [p2]; exact hF2), q2, p2, e1, e2, h]
      · rw [frameDelta_XN_l q _ (by rw [q0]; exact hX) (by rw [q2]; exact hF2),
          frameDelta_XN_l p _ (by rw [p0]; exact hX) (by rw [p2]; exact hF2), q2, p2,
          Q4 _ (by omega), hag _ (by omega)]
  · rw [frameDelta_spare q _ (by rw [q0]; exact hF.fl_ne_X) (by rw [q1]; exact hsl),
      frameDelta_spare p _ (by rw [p0]; exact hF.fl_ne_X) (by rw [p1]; exact hsl), q2, p2]
  · rw [frameDelta_open q _ (by rw [q0]; exact hF.fl_ne_X) (by rw [q1]; exact hso.sl_ne_slash),
      frameDelta_open p _ (by rw [p0]; exact hF.fl_ne_X) (by rw [p1]; exact hso.sl_ne_slash),
      q0, q1, p0, p1]

theorem tenthDelta_spare_X_l (q : PinArr) (h18 : FirstL (q.get 18)) (h19 : q.get 19 = "/")
    (h20 : q.get 20 = "X") : tenthDelta q = 20 := by
  have e : q.get (19 - 1) = q.get 18 := rfl
  rw [tenthDelta_faces_l q (Or.inr (Or.inr (Or.inr ⟨h18, h19, Or.inl h20⟩))),
    face_other h18.fl_ne_X h18.fl_ne_slash, face_slash h19, face_X h20, e]
  omega

theorem tenthDelta_X_spare_l (q : PinArr) (h18 : q.get 18 = "X") (h19 : FirstL (q.get 19))
    (h20 : q.get 20 = "/") : tenthDelta q = 20 := by
  have e : q.get (20 - 1) = q.get 19 := rfl
  rw [tenthDelta_faces_l q (Or.inr (Or.inr (Or.inl ⟨h18, h19, Or.inl h20⟩))),
    face_X h18, face_other h19.fl_ne_X h19.fl_ne_slash, face_slash h20, e]
  omega

/-- No complete game that extends an unfinished record of input play totals more
than the scratch pins of `maxScore`. -/
theorem ShapeL.fill_dominates_l {r : Bowl} (hs : ShapeL r) (ht : r.Times < 21) (q : PinArr)
    (hq : maxFill r = some q) (p : PinArr) (hc : CompleteL p)
    (hag : ∀ s : Nat, (s : Int) < r.Times → p.get s = r.Pins.get s) :
    totalScore p ≤ totalScore q := by
  obtain ⟨n, hn⟩ := Int.eq_ofNat_of_zero_le hs.lo
  obtain ⟨_, ht30, ht20⟩ := hc.2.tdl_bounds
  have hag1 : ∀ s, s < n → p.get s = r.Pins.get s := fun s h => hag s (by omega)
  unfold totalScore
  by_cases h18 : n ≤ 18
  · have key : (∀ s, n ≤ s → s ≤ 18 → s % 2 = 0 → q.get s = "X") ∧ q.get 19 = "X" ∧
        q.get 20 = "X" ∧ (n % 2 = 1 → q.get n = "/") ∧
        (∀ s, s < n → q.get s = r.Pins.get s) := by
      rcases Nat.mod_two_eq_zero_or_one n with hev | hodd
      · obtain ⟨q1, hq1, hg⟩ := maxFill_even r n hn (by omega) hev
        rw [hq] at hq1
        simp only [Option.some.injEq] at hq1
        subst hq1
        refine ⟨fun s h1 h2 h3 => ?_, ?_, ?_, fun h => by omega, fun s h => ?_⟩
        · rw [hg s, if_pos ⟨h1, by omega, Or.inr h3⟩]
        · rw [hg 19, if_pos ⟨by omega, by decide, Or.inl (by decide)⟩]
        · rw [hg 20, if_pos ⟨by omega, by decide, Or.inl (by decide)⟩]
        · rw [hg s, if_neg (by omega)]
      · obtain ⟨q1, hq1, hg⟩ := maxFill_odd r n hn (by omega) hodd
        rw [hq] at hq1
        simp only [Option.some.injEq] at hq1
        subst hq1
        refine ⟨fun s h1 h2 h3 => ?_, ?_, ?_, fun _ => ?_, fun s h => ?_⟩
        · rw [hg s, if_pos ⟨by omega, by omega, Or.inr h3⟩]
        · rw [hg 19, if_pos ⟨by omega, by decide, Or.inl (by decide)⟩]
        · rw [hg 20, if_pos ⟨by omega, by decide, Or.inl (by decide)⟩]
        · rw [hg n, if_neg (by omega), if_pos rfl]
        · rw [hg s, if_neg (by omega), if_neg (by omega)]
    obtain ⟨Q1, Q2, Q20, Q3, Q4⟩ := key
    have hf := frameSum_mono p q 9 (hs.low_frame_l n hn h18 q p hc Q1 Q2 Q3 Q4 hag1)
    rw [tenthDelta_XXX q (Q1 18 h18 (by omega) (by decide)) Q2 Q20]
    omega
  · by_cases h19 : n = 19
    · subst h19
      have hq1 := maxFill_19 r hn
      rw [hq] at hq1
      simp only [Option.some.injEq] at hq1
      have Q4 : ∀ s, s ≤ 18 → q.get s = r.Pins.get s := by
        intro s h
        rw [hq1, fillHigh_get_ne _ 20 s (by omega), fillHigh_get_ne _ 19 s (by omega)]
      have hag2 : ∀ s, s ≤ 18 → p.get s = r.Pins.get s := fun s h => hag1 s (by omega)
      by_cases hx : r.Pins.get 18 = "X"
      · have e19 : q.get 19 = "X" := by
          rw [hq1, fillHigh_get_ne _ 20 19 (by decide), fillHigh_X r.Pins 19 hx]
          exact PinArr.get_set_eq _ 19 "X" (by decide)
        have e20 : q.get 20 = "X" := by
          have : (fillHigh r.Pins 19).get (20 - 1) = "X" := by
            rw [fillHigh_X r.Pins 19 hx]
            exact PinArr.get_set_eq _ 19 "X" (by decide)
          rw [hq1, fillHigh_X _ 20 this]
          exact PinArr.get_set_eq _ 20 "X" (by decide)
        have hf := frameSum_mono p q 9 (hs.high_frame_l (by omega) q p hc Q4 hag2
          (fun _ => Or.inl e19) (fun h => absurd hx h))
        rw [tenthDelta_XXX q (by rw [Q4 18 (le_refl _)]; exact hx) e19 e20]
        omega
      · have hF : FirstL (r.Pins.get 18) := by
          rcases hs.t19 hn with h | h
          · exact absurd h hx
          · exact h
        have e19 : q.get 19 = "/" := by
          rw [hq1, fillHigh_get_ne _ 20 19 (by decide),
            fillHigh_other r.Pins 19 hx hF.fl_ne_slash]
          exact PinArr.get_set_eq _ 19 "/" (by decide)
        have e20 : q.get 20 = "X" := by
          have : (fillHigh r.Pins 19).get (20 - 1) = "/" := by
            rw [fillHigh_other r.Pins 19 hx hF.fl_ne_slash]
            exact PinArr.get_set_eq _ 19 "/" (by decide)
          rw [hq1, fillHigh_slash _ 20 this]
          exact PinArr.get_set_eq _ 20 "X" (by decide)
        have hf := frameSum_mono p q 9 (hs.high_frame_l (by omega) q p hc Q4 hag2
          (fun h => absurd h hx) (fun _ => Or.inl e19))
        rw [tenthDelta_spare_X_l q (by rw [Q4 18 (le_refl _)]; exact hF) e19 e20]
        have := ht20 (Or.inl (by rw [hag2 18 (le_refl _)]; exact hx))
        omega
    · have h20 : n = 20 := by omega
      subst h20
      have hq1 := maxFill_20 r hn
      rw [hq] at hq1
      simp only [Option.some.injEq] at hq1
      have Q5 : ∀ s, s ≤ 19 → q.get s = r.Pins.get s := by
        intro s h
        rw [hq1, fillHigh_get_ne _ 20 s (by omega)]
      have hag2 : ∀ s, s ≤ 19 → p.get s = r.Pins.get s := fun s h => hag1 s (by omega)
      have e19 : q.get 19 = p.get 19 := by rw [Q5 19 (le_refl _), hag2 19 (le_refl _)]
      have hf := frameSum_mono p q 9 (hs.high_frame_l (by omega) q p hc
        (fun s h => Q5 s (by omega)) (fun s h => hag2 s (by omega))
        (fun _ => Or.inr e19) (fun _ => Or.inr e19))
      rcases hs.t20 hn with ⟨hX, hX2 | hF2⟩ | ⟨hF, hsl⟩
      · have e20 : q.get 20 = "X" := by
          rw [hq1, fillHigh_X r.Pins 20 hX2]
          exact PinArr.get_set_eq _ 20 "X" (by decide)
        rw [tenthDelta_XXX q (by rw [Q5 18 (by decide)]; exact hX)
          (by rw [Q5 19 (le_refl _)]; exact hX2) e20]
        omega
      · have e20 : q.get 20 = "/" := by
          rw [hq1, fillHigh_other r.Pins 20 hF2.fl_ne_X hF2.fl_ne_slash]
          exact PinArr.get_set_eq _ 20 "/" (by decide)
        rw [tenthDelta_X_spare_l q (by rw [Q5 18 (by decide)]; exact hX)
          (by rw [Q5 19 (le_refl _)]; exact hF2) e20]
        have := ht20 (Or.inr (by rw [hag2 19 (le_refl _)]; exact hF2.fl_ne_X))
        omega
      · have e20 : q.get 20 = "X" := by
          rw [hq1, fillHigh_slash r.Pins 20 hsl]
          exact PinArr.get_set_eq _ 20 "X" (by decide)
        rw [tenthDelta_spare_X_l q (by rw [Q5 18 (by decide)]; exact hF)
          (by rw [Q5 19 (le_refl _)]; exact hsl) e20]
        have := ht20 (Or.inl (by rw [hag2 18 (by decide)]; exact hF.fl_ne_X))
        omega

/-! ## The projection is the best final score of input play -/

theorem LegalRun.run_input (ts : List String) :
    ∀ b b1 : Bowl, LegalRun b ts b1 → InputRun b ts b1 := by
  induction ts with
  | nil =>
    intro b b1 h
    cases h
    exact InputRun.nil b
  | cons t ts ih =>
    intro b b1 h
    cases h with
    | cons _ _ ht ha hr => exact InputRun.cons t ts ht.input ha (ih _ b1 hr)

/-- A run of input play from a record in the shape of input play that ends with
the cursor at 21 ends on complete pins, with the total of the pins in
`Scores[10]`. -/
theorem InputRun.final (ts : List String) :
    ∀ b b1 : Bowl, ShapeL b → b.Times < 21 → InputRun b ts b1 → b1.Times = 21 →
      CompleteL b1.Pins ∧ b1.Scores.get 10 = totalScore b1.Pins := by
  induction ts with
  | nil =>
    intro b b1 _ hlt h h21
    cases h
    omega
  | cons t ts ih =>
    intro b b2 hs hlt h h21
    cases h with
    | @cons _ b1 _ _ _ ht ha hr =>
      obtain ⟨hs1, _⟩ := ShapeL.step_l b b1 t hs ht ha
      by_cases c : b1.Times < 21
      · exact ih b1 b2 hs1 c hr h21
      · have e21 : b1.Times = 21 := by have := hs1.hi; omega
        have heq : b1 = b2 := by
          cases hr with
          | nil => rfl
          | cons u us hu hau _ =>
            obtain ⟨_, n, hn, hn21, _⟩ := ShapeL.step_l b1 _ u hs1 hu hau
            omega
        subst heq
        obtain ⟨_, _, _, hscore, _⟩ := addScore_some b b1 t ha.1
        have hc := ShapeL.complete_l b1 hs1 e21
        obtain ⟨sc, h1, _, h3⟩ :=
          score_complete_l { b with Pins := b1.Pins, Times := b1.Times } hc e21 hs.s0
        rw [hscore] at h1
        simp only [Option.some.injEq] at h1
        subst h1
        exact ⟨hc, h3⟩

/-- C5: for every record reached from a fresh record by legal play with cursor
below 21, `MaxScore` is the maximum achievable final score. Every run of
accepted throws from the record that ends with cursor 21 ends with
`Scores[10] ≤ MaxScore`, the tokens being those the program can receive (at most
two characters, the limit of the score input, signed numerals included) or
tokens of legal play; and one run of accepted throws, which is a run of legal
play, ends with cursor 21 and `Scores[10] = MaxScore`. -/
theorem maxScore_is_best_completion (now : String) (r : Bowl) (h : LegalPlay now r)
    (ht : r.Times < 21) :
    (∀ (ts : List String) (r1 : Bowl), InputRun r ts r1 → r1.Times = 21 →
        r1.Scores.get 10 ≤ r.MaxScore) ∧
      ∃ (ts : List String) (r1 : Bowl), InputRun r ts r1 ∧ LegalRun r ts r1 ∧
        r1.Times = 21 ∧ r1.Scores.get 10 = r.MaxScore := by
  have hs := LegalPlay.shape now r h
  obtain ⟨q, hq, _, hm⟩ := LegalPlay.maxScore_eq now r h
  constructor
  · intro ts r1 hr h21
    obtain ⟨hc, hfin⟩ := InputRun.final ts r r1 hs.sh_loose ht hr h21
    rw [hfin, hm]
    exact hs.sh_loose.fill_dominates_l ht q hq r1.Pins hc
      (InputRun.keeps_l ts r r1 hs.sh_loose hr).2
  · obtain ⟨k, hk⟩ :=
      Int.eq_ofNat_of_zero_le (show (0 : Int) ≤ 21 - r.Times by omega)
    obtain ⟨ts, r1, hr, h21, hq1⟩ := LegalPlay.best_run now k r h (by omega)
    have hl1 := LegalPlay.run now ts r r1 h hr
    rw [hq] at hq1
    simp only [Option.some.injEq] at hq1
    refine ⟨ts, r1, LegalRun.run_input ts r r1 hr, hr, h21, ?_⟩
    rw [(LegalPlay.final_scores now r1 hl1 h21).2, hm, hq1]

theorem InputRun.of_playInput (ts : List String) :
    ∀ b b1 : Bowl, playInput b ts = some b1 → InputRun b ts b1 := by
  induction ts with
  | nil =>
    intro b b1 h
    simp only [playInput, Option.some.injEq] at h
    subst h
    exact InputRun.nil b
  | cons t ts ih =>
    intro b b1 h
    simp only [playInput] at h
    cases ha : addScore b t with
    | none => rw [ha] at h; simp at h
    | some b2 =>
      rw [ha] at h
      simp only [] at h
      split at h
      · rename_i hc
        exact InputRun.cons t ts hc.1 ⟨ha, hc.2⟩ (ih b2 b1 h)
      · simp at h

set_option maxRecDepth 100000 in
theorem demoSignedTokens_final :
    ∃ r1 : Bowl, playInput demoMidGame demoSignedTokens = some r1 ∧ r1.Times = 21 ∧
      r1.Scores.get 10 = 86 := by
  refine ⟨_, rfl, ?_, ?_⟩ <;> rfl

set_option maxRecDepth 100000 in
/-- Witness for C5 at the record after a strike and a first ball of 5 (cursor 3,
`MaxScore` 280); the run of the signed tokens "-3", then "-9", "18" eight
times, is a run of accepted throws that ends with cursor 21 and `Scores[10]`
86, below `MaxScore`. -/
theorem maxScore_is_best_completion_witness :
    demoMidGame.Times = 3 ∧ demoMidGame.MaxScore = 280 ∧
      ((∀ (ts : List String) (r1 : Bowl), InputRun demoMidGame ts r1 → r1.Times = 21 →
        r1.Scores.get 10 ≤ demoMidGame.MaxScore) ∧
      ∃ (ts : List String) (r1 : Bowl), InputRun demoMidGame ts r1 ∧
        LegalRun demoMidGame ts r1 ∧ r1.Times = 21 ∧
        r1.Scores.get 10 = demoMidGame.MaxScore) ∧
      ∃ r1 : Bowl, InputRun demoMidGame demoSignedTokens r1 ∧ r1.Times = 21 ∧
        r1.Scores.get 10 = 86 ∧ r1.Scores.get 10 ≤ demoMidGame.MaxScore :=
  ⟨by decide, by decide,
    maxScore_is_best_completion "ann" demoMidGame
      (LegalPlay.of_play_fresh "ann" ["X", "5"] demoMidGame demoMidGame_play) (by decide),
    demoSignedTokens_final.elim fun r1 h =>
      ⟨r1, InputRun.of_playInput _ _ _ h.1, h.2.1, h.2.2,
        (maxScore_is_best_completion "ann" demoMidGame
          (LegalPlay.of_play_fresh "ann" ["X", "5"] demoMidGame demoMidGame_play)
          (by decide)).1 demoSignedTokens r1 (InputRun.of_playInput _ _ _ h.1) h.2.1⟩⟩

end BowlingScorer
